import Mathlib

/-!
# AutoPas: cell-pair traversals, Lennard-Jones functor, Verlet cluster lists

A shallow embedding of parts of the AutoPas particle-simulation library and
theorems about them.  Floating-point numbers (`double`, `float`) are modelled by
exact rationals; machine integers by naturals (with explicit wrap-around where
the source relies on a fixed width).  Functor invocations are recorded as
call traces (lists), in program order.
-/

namespace AutoPas

/-! ## ThreeDimensionalMapping and SlicedTraversal
(`src/containers/cellPairTraversals/SlicedTraversal.h`) -/

/-- Number of cells of the cell block in x, y and z direction
(`_cellsPerDimension`, halo cells included). -/
structure Dims where
  x : Nat
  y : Nat
  z : Nat
deriving DecidableEq, Repr

/-- Modelled from the spec: `ThreeDimensionalMapping::threeToOneD` is declared in
`utils/ThreeDimensionalMapping.h`, which is not part of the sources at hand.  It is
the row-major cell index with x running fastest,
`(z * dims[1] + y) * dims[0] + x`, the layout of the regular cell grid. -/
def threeToOneD (x y z : Nat) (dims : Dims) : Nat :=
  (z * dims.y + y) * dims.x + x

/-- One invocation of the cell functor, with the one-dimensional indices of the
cells it is applied to. -/
inductive CellCall where
  | processCell (cell : Nat)
  | processCellPair (cell1 cell2 : Nat)
deriving DecidableEq, Repr

/-- The array `_cellPairOffsets` as filled by `SlicedTraversal::computeOffsets`. -/
def computeOffsets (dims : Dims) : List (Nat × Nat) :=
  let o := threeToOneD 0 0 0 dims
  let x := threeToOneD 1 0 0 dims
  let y := threeToOneD 0 1 0 dims
  let z := threeToOneD 0 0 1 dims
  let xy := threeToOneD 1 1 0 dims
  let yz := threeToOneD 0 1 1 dims
  let xz := threeToOneD 1 0 1 dims
  let xyz := threeToOneD 1 1 1 dims
  [(o, o), (o, y), (y, z), (o, z), (o, yz),
   (x, yz), (x, y), (x, z), (o, x), (o, xy), (xy, z), (y, xz), (o, xz), (o, xyz)]

/-- The loop of `SlicedTraversal::processBaseCell` over the remaining offset pairs.
`numCells` is `_cells->size()`; `_cells->at(i)` throws for `i >= numCells`, which
is the result `none`.  Otherwise the functor calls made are returned in order. -/
def processOffsets (numCells baseIndex : Nat) : List (Nat × Nat) → Option (List CellCall)
  | [] => some []
  | current_pair :: rest =>
    let cellIndex1 := baseIndex + current_pair.1
    let cellIndex2 := baseIndex + current_pair.2
    if cellIndex1 < numCells ∧ cellIndex2 < numCells then
      let call := if cellIndex1 = cellIndex2 then CellCall.processCell cellIndex1
                  else CellCall.processCellPair cellIndex1 cellIndex2
      (processOffsets numCells baseIndex rest).map (fun calls => call :: calls)
    else none

/-- Source function `SlicedTraversal::processBaseCell`. -/
def processBaseCell (numCells : Nat) (dims : Dims) (baseIndex : Nat) : Option (List CellCall) :=
  processOffsets numCells baseIndex (computeOffsets dims)

/-- Calls `processBaseCell` on each index of the list in turn; an exception ends
the run. -/
def processBaseCells (numCells : Nat) (dims : Dims) : List Nat → Option (List CellCall)
  | [] => some []
  | baseIndex :: rest =>
    match processBaseCell numCells dims baseIndex with
    | none => none
    | some calls => (processBaseCells numCells dims rest).map (fun more => calls ++ more)

/-- The base-cell indices visited by the fallback scan of
`SlicedTraversal::traverseCellPairs` (the three nested loops, z outermost), in
order. -/
def fullScanBaseIndices (dims : Dims) : List Nat :=
  (List.range (dims.z - 1)).flatMap fun z =>
    (List.range (dims.y - 1)).flatMap fun y =>
      (List.range (dims.x - 1)).map fun x => threeToOneD x y z dims

/-- The single-threaded full scan (fallback branch of `traverseCellPairs`). -/
def fullScan (numCells : Nat) (dims : Dims) : Option (List CellCall) :=
  processBaseCells numCells dims (fullScanBaseIndices dims)

/-- Inserts a length into a list sorted in descending order. -/
def insertDescending (a : Nat) : List Nat → List Nat
  | [] => [a]
  | b :: bs => if a ≥ b then a :: b :: bs else b :: insertDescending a bs

/-- The lengths `mapDimLength[k].second` after `std::sort` with the comparator
`a.second > b.second` (longest dimension first).  Only the lengths are used by the
traversal, so the order of equal entries is immaterial. -/
def mapDimLength (dims : Dims) : List Nat :=
  insertDescending dims.x (insertDescending dims.y (insertDescending dims.z []))

/-- Adds `delta` (an unsigned long, wrapping) to entry `i` of a vector. -/
def bump (v : List Nat) (i : Nat) (delta : Nat) : List Nat :=
  v.set i ((v.getD i 0 + delta) % 2 ^ 64)

/-- The vector `sliceThickness` of the sliced path: `numSlices` entries
`n / numSlices`, the first `rest` of them incremented, the last decremented. -/
def sliceThickness (n numSlices : Nat) : List Nat :=
  let init := List.replicate numSlices (n / numSlices)
  let rest := n - init.getD 0 0 * numSlices
  let spread := (List.range rest).foldl (fun v i => bump v i 1) init
  bump spread (numSlices - 1) (2 ^ 64 - 1)

/-- The base-cell indices `id` on which the sliced path of `traverseCellPairs`
calls `processBaseCell`, slice after slice (the schedule of one thread; the
parallel loop runs the slices concurrently). -/
def slicedBaseIndices (dims : Dims) (numSlices : Nat) : List Nat :=
  let m := mapDimLength dims
  let thickness := sliceThickness (m.getD 0 0) numSlices
  (List.range numSlices).flatMap fun slice =>
    let myOffset := (thickness.take slice).sum
    (List.range (thickness.getD slice 0)).flatMap fun dimSlice =>
      (List.range (m.getD 1 0 - 1)).flatMap fun dimMedium =>
        (List.range (m.getD 2 0 - 1)).map fun dimShort =>
          (myOffset + dimSlice) * m.getD 1 0 * m.getD 2 0 + dimMedium * m.getD 2 0 + dimShort

/-- The test of `traverseCellPairs` that selects the fallback scan. -/
def usesFallback (dims : Dims) (numSlices : Nat) : Bool :=
  dims.x / numSlices < 2 || dims.y / numSlices < 2 || dims.z / numSlices < 2

/-- Source function `SlicedTraversal::traverseCellPairs`, with
`numSlices = autopas_get_max_threads()`. -/
def traverseCellPairs (numCells : Nat) (dims : Dims) (numSlices : Nat) : Option (List CellCall) :=
  if usesFallback dims numSlices then fullScan numCells dims
  else processBaseCells numCells dims (slicedBaseIndices dims numSlices)

/-! ### Three-dimensional view of the full scan (used to state and prove coverage) -/

/-- Cell coordinates `(x, y, z)`. -/
abbrev Coord := Nat × Nat × Nat

/-- The one-dimensional index of a cell given by its coordinates. -/
def cellIndex (dims : Dims) (a : Coord) : Nat := threeToOneD a.1 a.2.1 a.2.2 dims

/-- The cell lies in the block: every coordinate is below `cellsPerDimension`. -/
def inGrid (dims : Dims) (a : Coord) : Prop :=
  a.1 < dims.x ∧ a.2.1 < dims.y ∧ a.2.2 < dims.z

/-- A non-halo cell: every coordinate lies in `[1, cellsPerDimension - 2]`. -/
def nonHalo (dims : Dims) (a : Coord) : Prop :=
  (1 ≤ a.1 ∧ a.1 + 2 ≤ dims.x) ∧ (1 ≤ a.2.1 ∧ a.2.1 + 2 ≤ dims.y) ∧
    (1 ≤ a.2.2 ∧ a.2.2 + 2 ≤ dims.z)

/-- Two cells differ by at most one in each coordinate. -/
def adjacent (a b : Coord) : Prop :=
  (a.1 ≤ b.1 + 1 ∧ b.1 ≤ a.1 + 1) ∧ (a.2.1 ≤ b.2.1 + 1 ∧ b.2.1 ≤ a.2.1 + 1) ∧
    (a.2.2 ≤ b.2.2 + 1 ∧ b.2.2 ≤ a.2.2 + 1)

/-- A functor call with the cells given by coordinates. -/
inductive Call3 where
  | cell (a : Coord)
  | pair (a b : Coord)
deriving DecidableEq

/-- The functor calls of one base step, in coordinates: the fourteen pairs of
corners of the 2x2x2 block at the base cell, in the order of `computeOffsets`. -/
def callsAt (b : Coord) : List Call3 :=
  match b with
  | (x, y, z) =>
    [Call3.cell (x, y, z),
     Call3.pair (x, y, z) (x, y + 1, z),
     Call3.pair (x, y + 1, z) (x, y, z + 1),
     Call3.pair (x, y, z) (x, y, z + 1),
     Call3.pair (x, y, z) (x, y + 1, z + 1),
     Call3.pair (x + 1, y, z) (x, y + 1, z + 1),
     Call3.pair (x + 1, y, z) (x, y + 1, z),
     Call3.pair (x + 1, y, z) (x, y, z + 1),
     Call3.pair (x, y, z) (x + 1, y, z),
     Call3.pair (x, y, z) (x + 1, y + 1, z),
     Call3.pair (x + 1, y + 1, z) (x, y, z + 1),
     Call3.pair (x, y + 1, z) (x + 1, y, z + 1),
     Call3.pair (x, y, z) (x + 1, y, z + 1),
     Call3.pair (x, y, z) (x + 1, y + 1, z + 1)]

/-- The base cell whose step issues a call: the componentwise minimum. -/
def baseOf : Call3 → Coord
  | Call3.cell a => a
  | Call3.pair a b => (min a.1 b.1, min a.2.1 b.2.1, min a.2.2 b.2.2)

/-- Coordinates of the base cells of the full scan, in scan order. -/
def baseCoords (dims : Dims) : List Coord :=
  (List.range (dims.z - 1)).flatMap fun z =>
    (List.range (dims.y - 1)).flatMap fun y =>
      (List.range (dims.x - 1)).map fun x => (x, y, z)

/-- The functor calls of the whole full scan, in coordinates. -/
def scanCalls3 (dims : Dims) : List Call3 :=
  (baseCoords dims).flatMap callsAt

/-- Translation of a call in coordinates into a call on one-dimensional indices. -/
def encCall (dims : Dims) : Call3 → CellCall
  | Call3.cell a => CellCall.processCell (cellIndex dims a)
  | Call3.pair a b => CellCall.processCellPair (cellIndex dims a) (cellIndex dims b)

/-- Every cell named by a call lies in the block. -/
def callInGrid (dims : Dims) : Call3 → Prop
  | Call3.cell a => inGrid dims a
  | Call3.pair a b => inGrid dims a ∧ inGrid dims b

/-- The calls of `processBaseCell` when no index is out of range. -/
def baseCellCalls (dims : Dims) (baseIndex : Nat) : List CellCall :=
  (computeOffsets dims).map fun p =>
    if baseIndex + p.1 = baseIndex + p.2 then CellCall.processCell (baseIndex + p.1)
    else CellCall.processCellPair (baseIndex + p.1) (baseIndex + p.2)

/-! ## Particles, ArrayMath and the Lennard-Jones functor
(`src/autopas/molecularDynamics/LJFunctor.h`) -/

/-- A `std::array<double, 3>`, with exact rational components. -/
abbrev Vec3 := ℚ × ℚ × ℚ

namespace ArrayMath

/-- Source function `utils::ArrayMath::add`. -/
def add (a b : Vec3) : Vec3 := (a.1 + b.1, a.2.1 + b.2.1, a.2.2 + b.2.2)

/-- Source function `utils::ArrayMath::sub`. -/
def sub (a b : Vec3) : Vec3 := (a.1 - b.1, a.2.1 - b.2.1, a.2.2 - b.2.2)

/-- Source function `utils::ArrayMath::mul`, the element-wise product. -/
def mul (a b : Vec3) : Vec3 := (a.1 * b.1, a.2.1 * b.2.1, a.2.2 * b.2.2)

/-- Source function `utils::ArrayMath::mulScalar`. -/
def mulScalar (a : Vec3) (s : ℚ) : Vec3 := (a.1 * s, a.2.1 * s, a.2.2 * s)

/-- Source function `utils::ArrayMath::dot`. -/
def dot (a b : Vec3) : ℚ := a.1 * b.1 + a.2.1 * b.2.1 + a.2.2 * b.2.2

end ArrayMath

/-- Ownership state of a particle (`autopas/particles/OwnershipState.h`):
owned, halo or dummy. -/
inductive OwnershipState where
  | dummy
  | owned
  | halo
deriving DecidableEq, Repr

/-- The particle attributes used by the functor and the containers. -/
structure Particle where
  id : Nat
  r : Vec3
  f : Vec3
  typeId : Nat
  ownershipState : OwnershipState
deriving DecidableEq

namespace Particle

/-- Source function `Particle::isDummy`. -/
def isDummy (p : Particle) : Bool := p.ownershipState = OwnershipState.dummy

/-- Source function `Particle::isOwned`. -/
def isOwned (p : Particle) : Bool := p.ownershipState = OwnershipState.owned

/-- Source function `Particle::addF`. -/
def addF (p : Particle) (f : Vec3) : Particle := { p with f := ArrayMath.add p.f f }

/-- Source function `Particle::subF`. -/
def subF (p : Particle) (f : Vec3) : Particle := { p with f := ArrayMath.sub p.f f }

end Particle

/-- The precomputed mixing tables of `ParticlePropertiesLibrary`
(`ParticlePropertiesLibrary.cpp`).  The maps are total here: every type id that is
looked up is taken to be registered.  The table of shifts follows the two tables
present in the source. -/
structure ParticlePropertiesLibrary where
  computedMixing24Epsilon : Nat × Nat → ℚ
  computedMixingSigmaSquare : Nat × Nat → ℚ
  computedMixingShift6 : Nat × Nat → ℚ

namespace ParticlePropertiesLibrary

/-- The key `(i < j ? i : j, j > i ? j : i)` built by the mixing lookups. -/
def key (i j : Nat) : Nat × Nat := (if i < j then i else j, if j > i then j else i)

/-- Source function `ParticlePropertiesLibrary::mixing24Epsilon`. -/
def mixing24Epsilon (lib : ParticlePropertiesLibrary) (i j : Nat) : ℚ :=
  lib.computedMixing24Epsilon (key i j)

/-- Source function `ParticlePropertiesLibrary::mixingSigmaSquare`. -/
def mixingSigmaSquare (lib : ParticlePropertiesLibrary) (i j : Nat) : ℚ :=
  lib.computedMixingSigmaSquare (key i j)

/-- Source function `ParticlePropertiesLibrary::mixingShift6`, looked up like the
other two. -/
def mixingShift6 (lib : ParticlePropertiesLibrary) (i j : Nat) : ℚ :=
  lib.computedMixingShift6 (key i j)

end ParticlePropertiesLibrary

/-- Per-thread accumulators `AoSThreadData` of the functor. -/
structure AoSThreadData where
  virialSum : Vec3
  upotSum : ℚ
deriving DecidableEq

/-- Source function `AoSThreadData::setZero`. -/
def AoSThreadData.setZero (_d : AoSThreadData) : AoSThreadData :=
  { virialSum := (0, 0, 0), upotSum := 0 }

/-- The functor `LJFunctor`: its template switches, constants and mutable members. -/
structure LJFunctor where
  applyShift : Bool
  useMixing : Bool
  calculateGlobals : Bool
  cutoffsquare : ℚ
  epsilon24 : ℚ
  sigmasquare : ℚ
  shift6 : ℚ
  PPLibrary : ParticlePropertiesLibrary
  upotSum : ℚ
  virialSum : Vec3
  aosThreadData : List AoSThreadData
  postProcessed : Bool

namespace LJFunctor

/-- The statements `_aosThreadData[threadnum].upotSum += upot` and
`_aosThreadData[threadnum].virialSum = add(_aosThreadData[threadnum].virialSum, virial)`. -/
def addToThread (fn : LJFunctor) (threadnum : Nat) (upot : ℚ) (virial : Vec3) : LJFunctor :=
  let data := List.modify
    (fun d => AoSThreadData.mk (ArrayMath.add d.virialSum virial) (d.upotSum + upot))
    threadnum fn.aosThreadData
  { fn with aosThreadData := data }

/-- Source function `LJFunctor::AoSFunctor(i, j, newton3)`, run by thread `threadnum`.  Returns the
functor and the two particles after the call. -/
def AoSFunctor (fn : LJFunctor) (threadnum : Nat) (i j : Particle) (newton3 : Bool) :
    LJFunctor × Particle × Particle :=
  if i.isDummy || j.isDummy then (fn, i, j)
  else
    let sigmasquare :=
      if fn.useMixing then fn.PPLibrary.mixingSigmaSquare i.typeId j.typeId else fn.sigmasquare
    let epsilon24 :=
      if fn.useMixing then fn.PPLibrary.mixing24Epsilon i.typeId j.typeId else fn.epsilon24
    let shift6 :=
      if fn.useMixing && fn.applyShift then fn.PPLibrary.mixingShift6 i.typeId j.typeId
      else fn.shift6
    let dr := ArrayMath.sub i.r j.r
    let dr2 := ArrayMath.dot dr dr
    if dr2 > fn.cutoffsquare then (fn, i, j)
    else
      let invdr2 := 1 / dr2
      let lj6 := sigmasquare * invdr2
      let lj6 := lj6 * lj6 * lj6
      let lj12 := lj6 * lj6
      let lj12m6 := lj12 - lj6
      let fac := epsilon24 * (lj12 + lj12m6) * invdr2
      let f := ArrayMath.mulScalar dr fac
      let i := i.addF f
      let j := if newton3 then j.subF f else j
      if fn.calculateGlobals then
        let virial := ArrayMath.mul dr f
        let upot := epsilon24 * lj12m6 + shift6
        let upot := if newton3 then upot * (1 / 2) else upot
        let virial := if newton3 then ArrayMath.mulScalar virial (1 / 2) else virial
        let fn := if i.isOwned then fn.addToThread threadnum upot virial else fn
        let fn := if newton3 && j.isOwned then fn.addToThread threadnum upot virial else fn
        (fn, i, j)
      else (fn, i, j)

/-- Source function `LJFunctor::initTraversal`. -/
def initTraversal (fn : LJFunctor) : LJFunctor :=
  { fn with upotSum := 0, virialSum := (0, 0, 0), postProcessed := false,
            aosThreadData := fn.aosThreadData.map AoSThreadData.setZero }

/-- Source function `LJFunctor::endTraversal(newton3)`; `none` is the exception thrown when the
functor is already post-processed. -/
def endTraversal (fn : LJFunctor) (newton3 : Bool) : Option LJFunctor :=
  if fn.postProcessed then none
  else if fn.calculateGlobals then
    let summed := fn.aosThreadData.foldl
      (fun (acc : ℚ × Vec3) d => (acc.1 + d.upotSum, ArrayMath.add acc.2 d.virialSum))
      (fn.upotSum, fn.virialSum)
    let upotSum := if !newton3 then summed.1 * (1 / 2) else summed.1
    let virialSum := if !newton3 then ArrayMath.mulScalar summed.2 (1 / 2) else summed.2
    some { fn with upotSum := upotSum / 6, virialSum := virialSum, postProcessed := true }
  else some fn

/-- Source function `LJFunctor::getUpot`; `none` is an exception. -/
def getUpot (fn : LJFunctor) : Option ℚ :=
  if !fn.calculateGlobals then none
  else if !fn.postProcessed then none
  else some fn.upotSum

/-- Source function `LJFunctor::getVirial`; `none` is an exception. -/
def getVirial (fn : LJFunctor) : Option ℚ :=
  if !fn.calculateGlobals then none
  else if !fn.postProcessed then none
  else some (fn.virialSum.1 + fn.virialSum.2.1 + fn.virialSum.2.2)

/-! ### The pair kernel of `AoSFunctor`, named piece by piece -/

/-- Squared distance `dr2` of two particles. -/
def dr2 (i j : Particle) : ℚ :=
  ArrayMath.dot (ArrayMath.sub i.r j.r) (ArrayMath.sub i.r j.r)

/-- The pair passes both early returns of `AoSFunctor`. -/
def interacts (fn : LJFunctor) (i j : Particle) : Bool :=
  !(i.isDummy || j.isDummy) && !(decide (dr2 i j > fn.cutoffsquare))

/-- The value of `sigmasquare` used for a pair. -/
def pairSigmaSquare (fn : LJFunctor) (i j : Particle) : ℚ :=
  if fn.useMixing then fn.PPLibrary.mixingSigmaSquare i.typeId j.typeId else fn.sigmasquare

/-- The value of `epsilon24` used for a pair. -/
def pairEpsilon24 (fn : LJFunctor) (i j : Particle) : ℚ :=
  if fn.useMixing then fn.PPLibrary.mixing24Epsilon i.typeId j.typeId else fn.epsilon24

/-- The value of `shift6` used for a pair. -/
def pairShift6 (fn : LJFunctor) (i j : Particle) : ℚ :=
  if fn.useMixing && fn.applyShift then fn.PPLibrary.mixingShift6 i.typeId j.typeId
  else fn.shift6

/-- The value of `lj12m6` for a pair. -/
def pairLj12m6 (fn : LJFunctor) (i j : Particle) : ℚ :=
  let lj6 := pairSigmaSquare fn i j * (1 / dr2 i j)
  let lj6 := lj6 * lj6 * lj6
  lj6 * lj6 - lj6

/-- The scalar `fac` for a pair. -/
def pairFac (fn : LJFunctor) (i j : Particle) : ℚ :=
  let lj6 := pairSigmaSquare fn i j * (1 / dr2 i j)
  let lj6 := lj6 * lj6 * lj6
  pairEpsilon24 fn i j * (lj6 * lj6 + (lj6 * lj6 - lj6)) * (1 / dr2 i j)

/-- The force `f` that `AoSFunctor(i, j, _)` adds to `i` when the pair interacts. -/
def pairForce (fn : LJFunctor) (i j : Particle) : Vec3 :=
  ArrayMath.mulScalar (ArrayMath.sub i.r j.r) (pairFac fn i j)

/-- The potential `upot` of a pair before the newton3 factor. -/
def pairUpot (fn : LJFunctor) (i j : Particle) : ℚ :=
  pairEpsilon24 fn i j * pairLj12m6 fn i j + pairShift6 fn i j

/-- The virial of a pair before the newton3 factor. -/
def pairVirial (fn : LJFunctor) (i j : Particle) : Vec3 :=
  ArrayMath.mul (ArrayMath.sub i.r j.r) (pairForce fn i j)

/-- The accumulator updates of `AoSFunctor` for an interacting pair. -/
def addGlobals (fn : LJFunctor) (threadnum : Nat) (i j : Particle) (newton3 : Bool) :
    LJFunctor :=
  if fn.calculateGlobals then
    let upot := if newton3 then pairUpot fn i j * (1 / 2) else pairUpot fn i j
    let virial :=
      if newton3 then ArrayMath.mulScalar (pairVirial fn i j) (1 / 2) else pairVirial fn i j
    let fn1 := if i.isOwned then fn.addToThread threadnum upot virial else fn
    if newton3 && j.isOwned then fn1.addToThread threadnum upot virial else fn1
  else fn

end LJFunctor

/-- A view on structure-of-arrays storage (`SoAView`): the attribute arrays, as
maps from index to value like the raw pointers of the source, and the number of
particles. -/
structure SoAView where
  numParticles : Nat
  posX : Nat → ℚ
  posY : Nat → ℚ
  posZ : Nat → ℚ
  forceX : Nat → ℚ
  forceY : Nat → ℚ
  forceZ : Nat → ℚ
  typeId : Nat → Nat
  ownershipState : Nat → OwnershipState

/-- The values carried through the loops of `SoAFunctorSingle`: the force
accumulators of particle `i`, the three force arrays, and the sums for the globals. -/
structure SoAState where
  fxacc : ℚ
  fyacc : ℚ
  fzacc : ℚ
  forceX : Nat → ℚ
  forceY : Nat → ℚ
  forceZ : Nat → ℚ
  upotSum : ℚ
  virialSumX : ℚ
  virialSumY : ℚ
  virialSumZ : ℚ

namespace LJFunctor

/-- One iteration of the inner loop (over `j`) of `SoAFunctorSingle`. -/
def soaInnerStep (fn : LJFunctor) (soa : SoAView) (i : Nat) (s : SoAState) (j : Nat) : SoAState :=
  let typeI := soa.typeId i
  let typeJ := soa.typeId j
  let shift6 :=
    if fn.useMixing && fn.applyShift then fn.PPLibrary.mixingShift6 typeI typeJ else fn.shift6
  let sigmasquare :=
    if fn.useMixing then fn.PPLibrary.mixingSigmaSquare typeI typeJ else fn.sigmasquare
  let epsilon24 :=
    if fn.useMixing then fn.PPLibrary.mixing24Epsilon typeI typeJ else fn.epsilon24
  let ownedStateI := soa.ownershipState i
  let ownedStateJ := soa.ownershipState j
  let drx := soa.posX i - soa.posX j
  let dry := soa.posY i - soa.posY j
  let drz := soa.posZ i - soa.posZ j
  let drx2 := drx * drx
  let dry2 := dry * dry
  let drz2 := drz * drz
  let dr2 := drx2 + dry2 + drz2
  let mask : Bool := decide (dr2 ≤ fn.cutoffsquare) && decide (ownedStateJ ≠ OwnershipState.dummy)
  let invdr2 := 1 / dr2
  let lj2 := sigmasquare * invdr2
  let lj6 := lj2 * lj2 * lj2
  let lj12 := lj6 * lj6
  let lj12m6 := lj12 - lj6
  let fac := if mask then epsilon24 * (lj12 + lj12m6) * invdr2 else 0
  let fx := drx * fac
  let fy := dry * fac
  let fz := drz * fac
  let s1 : SoAState :=
    { s with
      fxacc := s.fxacc + fx, fyacc := s.fyacc + fy, fzacc := s.fzacc + fz,
      forceX := Function.update s.forceX j (s.forceX j - fx),
      forceY := Function.update s.forceY j (s.forceY j - fy),
      forceZ := Function.update s.forceZ j (s.forceZ j - fz) }
  if fn.calculateGlobals then
    let virialx := drx * fx
    let virialy := dry * fy
    let virialz := drz * fz
    let upot := if mask then epsilon24 * lj12m6 + shift6 else 0
    let energyFactor : ℚ :=
      (if ownedStateI = OwnershipState.owned then 1 else 0) +
        (if ownedStateJ = OwnershipState.owned then 1 else 0)
    { s1 with
      upotSum := s1.upotSum + upot * energyFactor,
      virialSumX := s1.virialSumX + virialx * energyFactor,
      virialSumY := s1.virialSumY + virialy * energyFactor,
      virialSumZ := s1.virialSumZ + virialz * energyFactor }
  else s1

/-- One iteration of the outer loop (over `i`) of `SoAFunctorSingle`. -/
def soaOuterStep (fn : LJFunctor) (soa : SoAView) (s : SoAState) (i : Nat) : SoAState :=
  if soa.ownershipState i = OwnershipState.dummy then s
  else
    let s0 : SoAState := { s with fxacc := 0, fyacc := 0, fzacc := 0 }
    let s1 := (List.range' (i + 1) (soa.numParticles - (i + 1))).foldl (soaInnerStep fn soa i) s0
    { s1 with
      forceX := Function.update s1.forceX i (s1.forceX i + s1.fxacc),
      forceY := Function.update s1.forceY i (s1.forceY i + s1.fyacc),
      forceZ := Function.update s1.forceZ i (s1.forceZ i + s1.fzacc) }

/-- Source function `LJFunctor::SoAFunctorSingle(soa, newton3)`, run by thread `threadnum`.  Returns
the functor and the view after the call. -/
def SoAFunctorSingle (fn : LJFunctor) (threadnum : Nat) (soa : SoAView) (newton3 : Bool) :
    LJFunctor × SoAView :=
  if soa.numParticles = 0 then (fn, soa)
  else
    let s0 : SoAState :=
      { fxacc := 0, fyacc := 0, fzacc := 0,
        forceX := soa.forceX, forceY := soa.forceY, forceZ := soa.forceZ,
        upotSum := 0, virialSumX := 0, virialSumY := 0, virialSumZ := 0 }
    let s := (List.range soa.numParticles).foldl (soaOuterStep fn soa) s0
    let soa1 : SoAView := { soa with forceX := s.forceX, forceY := s.forceY, forceZ := s.forceZ }
    if fn.calculateGlobals then
      let factor : ℚ := if newton3 then 1 / 2 else 1
      (fn.addToThread threadnum (s.upotSum * factor)
        (s.virialSumX * factor, s.virialSumY * factor, s.virialSumZ * factor), soa1)
    else (fn, soa1)

/-- The reference double loop `for all i < j: AoSFunctor(p_i, p_j, newton3 = true)`
over particles `0 .. n-1`; returns the functor and the particles after the loop. -/
def naiveAoS (fn : LJFunctor) (threadnum : Nat) (ps : Nat → Particle) (n : Nat) :
    LJFunctor × (Nat → Particle) :=
  (List.range n).foldl
    (fun st i =>
      (List.range' (i + 1) (n - (i + 1))).foldl
        (fun st j =>
          let r := st.1.AoSFunctor threadnum (st.2 i) (st.2 j) true
          (r.1, Function.update (Function.update st.2 i r.2.1) j r.2.2))
        st)
    (fn, ps)

end LJFunctor

/-- The view on `n` particles stored as a structure of arrays (the SoA loader). -/
def loadSoA (ps : Nat → Particle) (n : Nat) : SoAView :=
  { numParticles := n,
    posX := fun k => (ps k).r.1, posY := fun k => (ps k).r.2.1, posZ := fun k => (ps k).r.2.2,
    forceX := fun k => (ps k).f.1, forceY := fun k => (ps k).f.2.1,
    forceZ := fun k => (ps k).f.2.2,
    typeId := fun k => (ps k).typeId, ownershipState := fun k => (ps k).ownershipState }

namespace LJFunctor

/-! ### Force arrays seen as one array of vectors (used to compare the two loops) -/

/-- The force a pair contributes: `pairForce` if the pair interacts, zero otherwise. -/
def maskedForce (fn : LJFunctor) (ps : Nat → Particle) (i j : Nat) : Vec3 :=
  if interacts fn (ps i) (ps j) then pairForce fn (ps i) (ps j) else 0

/-- The effect of one newton3 pair interaction on an array of forces. -/
def aosPairStep (G : Nat → Nat → Vec3) (i : Nat) (F : Nat → Vec3) (j : Nat) : Nat → Vec3 :=
  Function.update (Function.update F i (F i + G i j)) j (F j - G i j)

/-- The double loop over `i < j` applying `aosPairStep`. -/
def aosLoop (G : Nat → Nat → Vec3) (n : Nat) (F : Nat → Vec3) : Nat → Vec3 :=
  (List.range n).foldl
    (fun F i => (List.range' (i + 1) (n - (i + 1))).foldl (aosPairStep G i) F) F

/-- One inner iteration of the accumulator scheme: add to the accumulator of `i`,
subtract from the force of `j`. -/
def soaPairStep (G : Nat → Nat → Vec3) (i : Nat) (s : Vec3 × (Nat → Vec3)) (j : Nat) :
    Vec3 × (Nat → Vec3) :=
  (s.1 + G i j, Function.update s.2 j (s.2 j - G i j))

/-- Writes the accumulator of `i` back into the force array. -/
def soaFinish (i : Nat) (s : Vec3 × (Nat → Vec3)) : Nat → Vec3 :=
  Function.update s.2 i (s.2 i + s.1)

/-- The double loop of the accumulator scheme, rows with `skip i` left out. -/
def soaLoop (G : Nat → Nat → Vec3) (skip : Nat → Bool) (n : Nat) (F : Nat → Vec3) :
    Nat → Vec3 :=
  (List.range n).foldl
    (fun F i =>
      if skip i then F
      else soaFinish i ((List.range' (i + 1) (n - (i + 1))).foldl (soaPairStep G i) (0, F)))
    F

/-- The three force arrays of a loop state as one array of vectors. -/
def SoAForces (s : SoAState) : Nat → Vec3 := fun k => (s.forceX k, s.forceY k, s.forceZ k)

/-- The force `(fx, fy, fz)` computed by one inner iteration of `SoAFunctorSingle`. -/
def soaForce (fn : LJFunctor) (soa : SoAView) (i j : Nat) : Vec3 :=
  let sigmasquare :=
    if fn.useMixing then fn.PPLibrary.mixingSigmaSquare (soa.typeId i) (soa.typeId j)
    else fn.sigmasquare
  let epsilon24 :=
    if fn.useMixing then fn.PPLibrary.mixing24Epsilon (soa.typeId i) (soa.typeId j)
    else fn.epsilon24
  let drx := soa.posX i - soa.posX j
  let dry := soa.posY i - soa.posY j
  let drz := soa.posZ i - soa.posZ j
  let dr2 := drx * drx + dry * dry + drz * drz
  let mask : Bool := decide (dr2 ≤ fn.cutoffsquare) &&
    decide (soa.ownershipState j ≠ OwnershipState.dummy)
  let invdr2 := 1 / dr2
  let lj2 := sigmasquare * invdr2
  let lj6 := lj2 * lj2 * lj2
  let lj12 := lj6 * lj6
  let lj12m6 := lj12 - lj6
  let fac := if mask then epsilon24 * (lj12 + lj12m6) * invdr2 else 0
  (drx * fac, dry * fac, drz * fac)

/-- The relation kept by the reference loop: the functor computes the same kernel,
the particles keep position, type and ownership, and their forces are `F`. -/
def aosRel (fn : LJFunctor) (ps : Nat → Particle) (st : LJFunctor × (Nat → Particle))
    (F : Nat → Vec3) : Prop :=
  (∀ a b, interacts st.1 a b = interacts fn a b ∧ pairForce st.1 a b = pairForce fn a b) ∧
  (∀ k, (st.2 k).r = (ps k).r ∧ (st.2 k).typeId = (ps k).typeId ∧
    (st.2 k).ownershipState = (ps k).ownershipState) ∧
  (∀ k, (st.2 k).f = F k)

end LJFunctor

/-! ## VerletClusterLists (`src/autopas/containers/VerletClusterLists.h`) -/

/-- Modelled from the spec: `Particle()`, the default-constructed particle, whose
class is not part of the sources at hand: id 0, position and force zero, owned. -/
def Particle.default : Particle :=
  { id := 0, r := (0, 0, 0), f := (0, 0, 0), typeId := 0, ownershipState := OwnershipState.owned }

/-- Source function `Particle::setR`. -/
def Particle.setR (p : Particle) (r : Vec3) : Particle := { p with r := r }

/-- Modelled from the spec: `autopas::inBox` (`utils/inBox.h`, not part of the
sources at hand): lower-closed, upper-open in every dimension. -/
def inBox (r low high : Vec3) : Bool :=
  decide (low.1 ≤ r.1 ∧ r.1 < high.1) && decide (low.2.1 ≤ r.2.1 ∧ r.2.1 < high.2.1) &&
    decide (low.2.2 ≤ r.2.2 ∧ r.2.2 < high.2.2)

/-- Inserts a particle into a list sorted by z. -/
def insertByZ (p : Particle) : List Particle → List Particle
  | [] => [p]
  | q :: qs => if p.r.2.2 < q.r.2.2 then p :: q :: qs else q :: insertByZ p qs

/-- Modelled from the spec: `FullParticleCell::sortByZ` (not part of the sources at
hand): sorts the particles of a cell by their z coordinate, ascending. -/
def sortByZ (cell : List Particle) : List Particle :=
  cell.foldl (fun sorted p => insertByZ p sorted) []

/-- A pointer to a particle of the container: the index of the grid column and the
position inside the column's particle vector. -/
abbrev ParticlePtr := Nat × Nat

/-- The container `VerletClusterLists`.  `rebuildCount` is a probe that counts the
calls of `rebuild`; it is not a member of the class. -/
structure VerletClusterLists where
  neighborLists : List (List (List ParticlePtr))
  clusters : List (List Particle)
  clusterSize : Nat
  boxMin : Vec3
  boxMax : Vec3
  gridSideLength : ℚ
  gridSideLengthReciprocal : ℚ
  cellsPerDim : Dims
  skin : ℚ
  cutoff : ℚ
  cutoffSqr : ℚ
  traversalsSinceLastRebuild : Nat
  rebuildFrequency : Nat
  neighborListIsValid : Bool
  rebuildCount : Nat

/-- One invocation `functor->AoSFunctor(*iParticle, *jParticle, useNewton3)`. -/
structure FunctorCall where
  iParticle : ParticlePtr
  jParticle : ParticlePtr
  newton3 : Bool
deriving DecidableEq

/-- The integers `lo, lo + 1, ..., hi` (empty if `hi < lo`). -/
def rangeIncl (lo hi : Int) : List Int :=
  (List.range (hi - lo + 1).toNat).map fun k => lo + (k : Int)

namespace VerletClusterLists

/-- Source function `VerletClusterLists::bboxDistance`. -/
def bboxDistance (min1 max1 min2 max2 : ℚ) : ℚ :=
  if max1 < min2 then min2 - max1
  else if min1 > max2 then min1 - max2
  else 0

/-- Source function `VerletClusterLists::index1D`. -/
def index1D (s : VerletClusterLists) (x y : Nat) : Nat := x + y * s.cellsPerDim.x

/-- One coordinate of `getIndexOfPosition`. -/
def cellIndexInDim (s : VerletClusterLists) (pos boxMin boxMax : ℚ) (cellsPerDim : Nat) : Nat :=
  let value : Int := ⌊(pos - boxMin) * s.gridSideLengthReciprocal⌋ + 1
  let nonnegativeValue : Nat := (max value 0).toNat
  let nonLargerValue : Nat := min nonnegativeValue (cellsPerDim - 1)
  if pos ≥ boxMax then cellsPerDim - 1
  else if pos < boxMin then 0
  else nonLargerValue

/-- Source function `VerletClusterLists::getIndexOfPosition`. -/
def getIndexOfPosition (s : VerletClusterLists) (pos : Vec3) : Nat :=
  let cellIndex0 := cellIndexInDim s pos.1 s.boxMin.1 s.boxMax.1 s.cellsPerDim.x
  let cellIndex1 := cellIndexInDim s pos.2.1 s.boxMin.2.1 s.boxMax.2.1 s.cellsPerDim.y
  cellIndex0 + cellIndex1 * s.cellsPerDim.x

/-- Source function `VerletClusterLists::needsRebuild`. -/
def needsRebuild (s : VerletClusterLists) : Bool :=
  (!s.neighborListIsValid) || decide (s.traversalsSinceLastRebuild ≥ s.rebuildFrequency)

/-- The z coordinate `grid[k].getR()[2]`. -/
def zOf (grid : List Particle) (k : Nat) : ℚ := (grid.getD k Particle.default).r.2.2

/-- The neighbours found in grid column `(xj, yj)` for a cluster of column
`(xi, yi)` with z-extent `[iBBoxBot, iBBoxTop]`: first the full clusters of the
column, then its last, partial cluster.  The source keeps the z-extents in `float`
variables; here they are the exact coordinates. -/
def neighborsInColumn (s : VerletClusterLists) (distXYsqr : ℚ) (iBBoxBot iBBoxTop : ℚ)
    (jIndex : Nat) : List ParticlePtr :=
  let jGrid := s.clusters.getD jIndex []
  let jRest := jGrid.length % s.clusterSize
  let jSize := jGrid.length / s.clusterSize
  let full := (List.range jSize).flatMap fun zj =>
    let jBBoxBot := zOf jGrid (zj * s.clusterSize)
    let jBBoxTop := zOf jGrid (zj * s.clusterSize + (s.clusterSize - 1))
    let distZ := bboxDistance iBBoxBot iBBoxTop jBBoxBot jBBoxTop
    if distXYsqr + distZ * distZ ≤ s.cutoffSqr then [(jIndex, zj * s.clusterSize)] else []
  let last :=
    if jRest > 0 then
      let jBBoxBot := zOf jGrid (jSize * s.clusterSize)
      let jBBoxTop := zOf jGrid (jSize * s.clusterSize + (jRest - 1))
      let distZ := bboxDistance iBBoxBot iBBoxTop jBBoxBot jBBoxTop
      if distXYsqr + distZ * distZ ≤ s.cutoffSqr then [(jIndex, jSize * s.clusterSize)] else []
    else []
  full ++ last

/-- The neighbour list that `updateVerletLists` builds for one cluster of column
`(xi, yi)`: the loops over `yj` and `xj`, and inside them over the clusters of the
other column. -/
def neighborsOfCluster (s : VerletClusterLists) (boxRange : Int) (xi yi : Nat)
    (iBBoxBot iBBoxTop : ℚ) : List ParticlePtr :=
  let gridMaxX : Int := (s.cellsPerDim.x : Int) - 1
  let gridMaxY : Int := (s.cellsPerDim.y : Int) - 1
  let minX := max ((xi : Int) - boxRange) 0
  let minY := max ((yi : Int) - boxRange) 0
  let maxX := min ((xi : Int) + boxRange) gridMaxX
  let maxY := min ((yi : Int) + boxRange) gridMaxY
  (rangeIncl minY maxY).flatMap fun yj =>
    let distY : ℚ := ((max 0 (|(yi : Int) - yj| - 1) : Int) : ℚ) * s.gridSideLength
    (rangeIncl minX maxX).flatMap fun xj =>
      let distX : ℚ := ((max 0 (|(xi : Int) - xj| - 1) : Int) : ℚ) * s.gridSideLength
      let distXYsqr := distX * distX + distY * distY
      if distXYsqr ≤ s.cutoffSqr then
        neighborsInColumn s distXYsqr iBBoxBot iBBoxTop (index1D s xj.toNat yj.toNat)
      else []

/-- The vector `_neighborLists[index1D(xi, yi)]` built by `updateVerletLists`: one
list per full cluster, and one more for a last, partial cluster. -/
def neighborsOfColumn (s : VerletClusterLists) (boxRange : Int) (xi yi : Nat) :
    List (List ParticlePtr) :=
  let iGrid := s.clusters.getD (index1D s xi yi) []
  let iRest := iGrid.length % s.clusterSize
  let iSize := iGrid.length / s.clusterSize
  let full := (List.range iSize).map fun zi =>
    neighborsOfCluster s boxRange xi yi (zOf iGrid (zi * s.clusterSize))
      (zOf iGrid ((zi + 1) * s.clusterSize - 1))
  let last :=
    if iRest > 0 then
      [neighborsOfCluster s boxRange xi yi (zOf iGrid (iSize * s.clusterSize))
        (zOf iGrid (iSize * s.clusterSize + iRest - 1))]
    else []
  full ++ last

/-- Source function `VerletClusterLists::updateVerletLists`.  The neighbour lists are filled
column by column (`yi` outer, `xi` inner, so in the order of `index1D`); within
each list the entries appear in the order in which the source pushes them. -/
def updateVerletLists (s : VerletClusterLists) : VerletClusterLists :=
  let s1 := { s with neighborListIsValid := true, traversalsSinceLastRebuild := 0 }
  let boxRange : Int := ⌈(s1.cutoff + s1.skin) * s1.gridSideLengthReciprocal⌉
  let lists := (List.range s1.cellsPerDim.y).flatMap fun yi =>
    (List.range s1.cellsPerDim.x).map fun xi => neighborsOfColumn s1 boxRange xi yi
  { s1 with neighborLists := lists }

/-- The padding of one grid column in `padClusters`. -/
def padColumn (s : VerletClusterLists) (x y : Nat) (grid : List Particle) : List Particle :=
  let rest := grid.length % s.clusterSize
  if rest > 0 then
    grid ++ (List.range' rest (s.clusterSize - rest)).map fun i =>
      Particle.default.setR
        (2 * (x : ℚ) * s.cutoff, 2 * (y : ℚ) * s.cutoff, 2 * s.boxMax.2.2 + 2 * (i : ℚ) * s.cutoff)
  else grid

/-- Source function `VerletClusterLists::padClusters`. -/
def padClusters (s : VerletClusterLists) : VerletClusterLists :=
  let padded := (List.range s.cellsPerDim.x).foldl
    (fun clusters x => (List.range s.cellsPerDim.y).foldl
      (fun clusters y => List.modify (padColumn s x y) (index1D s x y) clusters) clusters)
    s.clusters
  { s with clusters := padded }

/-- Source function `VerletClusterLists::rebuild`, with the library function `std::cbrt` as a
parameter. -/
def rebuild (cbrt : ℚ → ℚ) (s : VerletClusterLists) : VerletClusterLists :=
  let invalidParticles := s.clusters.flatMap id
  let boxSize : Vec3 := ArrayMath.sub s.boxMax s.boxMin
  let volume : ℚ := 1 * boxSize.1 * boxSize.2.1 * boxSize.2.2
  let gridSideLength : ℚ :=
    if invalidParticles.length > 0 then
      let density := (invalidParticles.length : ℚ) / volume
      cbrt ((s.clusterSize : ℚ) / density)
    else max boxSize.1 boxSize.2.1
  let gridSideLengthReciprocal := 1 / gridSideLength
  let cells0 := max (⌊boxSize.1 * gridSideLengthReciprocal⌋).toNat 1
  let cells1 := max (⌊boxSize.2.1 * gridSideLengthReciprocal⌋).toNat 1
  let numCells := 1 * cells0 * cells1
  let s1 : VerletClusterLists :=
    { s with
      gridSideLength := gridSideLength, gridSideLengthReciprocal := gridSideLengthReciprocal,
      cellsPerDim := { x := cells0, y := cells1, z := 1 },
      clusters := List.replicate numCells [],
      neighborLists := List.replicate numCells [],
      rebuildCount := s.rebuildCount + 1 }
  let filled := invalidParticles.foldl
    (fun clusters particle =>
      if inBox particle.r s1.boxMin s1.boxMax then
        List.modify (fun cell => cell ++ [particle]) (getIndexOfPosition s1 particle.r) clusters
      else clusters)
    s1.clusters
  let s2 := { s1 with clusters := filled.map sortByZ }
  padClusters (updateVerletLists s2)

/-- The calls made for one cluster and one of its neighbours in
`traverseVerletLists`. -/
def clusterPairCalls (s : VerletClusterLists) (iClusterStart neighbor : ParticlePtr)
    (useNewton3 : Bool) : List FunctorCall :=
  if iClusterStart = neighbor then
    (List.range s.clusterSize).flatMap fun i =>
      (List.range' (i + 1) (s.clusterSize - (i + 1))).flatMap fun j =>
        let iParticle : ParticlePtr := (iClusterStart.1, iClusterStart.2 + i)
        let jParticle : ParticlePtr := (neighbor.1, neighbor.2 + j)
        FunctorCall.mk iParticle jParticle useNewton3 ::
          (if !useNewton3 then [FunctorCall.mk jParticle iParticle useNewton3] else [])
  else
    (List.range s.clusterSize).flatMap fun i =>
      (List.range s.clusterSize).map fun j =>
        FunctorCall.mk (iClusterStart.1, iClusterStart.2 + i) (neighbor.1, neighbor.2 + j)
          useNewton3

/-- Source function `VerletClusterLists::traverseVerletLists`: the container after the call and the
functor calls made, in order.  The changes that the functor makes to the particles
are not modelled. -/
def traverseVerletLists (cbrt : ℚ → ℚ) (s : VerletClusterLists) (useNewton3 : Bool) :
    VerletClusterLists × List FunctorCall :=
  let s1 := if needsRebuild s then rebuild cbrt s else s
  let calls := (List.range s1.cellsPerDim.x).flatMap fun x =>
    (List.range s1.cellsPerDim.y).flatMap fun y =>
      let index := index1D s1 x y
      let grid := s1.clusters.getD index []
      let gridVerlet := s1.neighborLists.getD index []
      let gridSize := grid.length / 4
      (List.range gridSize).flatMap fun z =>
        let iClusterStart : ParticlePtr := (index, z * 4)
        (gridVerlet.getD z []).flatMap fun neighbor =>
          clusterPairCalls s1 iClusterStart neighbor useNewton3
  (s1, calls)

/-- Source function `VerletClusterLists::iteratePairwiseAoS`. -/
def iteratePairwiseAoS (cbrt : ℚ → ℚ) (s : VerletClusterLists) (useNewton3 : Bool) :
    VerletClusterLists × List FunctorCall :=
  let s1 := if needsRebuild s then rebuild cbrt s else s
  let r := traverseVerletLists cbrt s1 useNewton3
  ({ r.1 with traversalsSinceLastRebuild := (r.1.traversalsSinceLastRebuild + 1) % 2 ^ 32 }, r.2)

/-- Source function `VerletClusterLists::addParticle`. -/
def addParticle (s : VerletClusterLists) (p : Particle) : VerletClusterLists :=
  { s with neighborListIsValid := false,
           clusters := List.modify (fun cell => cell ++ [p]) 0 s.clusters }

/-- Source function `VerletClusterLists::updateContainer`. -/
def updateContainer (s : VerletClusterLists) : VerletClusterLists :=
  { s with neighborListIsValid := false }

/-- The constructor of `VerletClusterLists`. -/
def new (cbrt : ℚ → ℚ) (boxMin boxMax : Vec3) (cutoff skin : ℚ) (rebuildFrequency : Nat)
    (clusterSize : Nat) : VerletClusterLists :=
  rebuild cbrt
    { neighborLists := [], clusters := [], clusterSize := clusterSize,
      boxMin := boxMin, boxMax := boxMax,
      gridSideLength := 0, gridSideLengthReciprocal := 0,
      cellsPerDim := { x := 0, y := 0, z := 0 },
      skin := skin, cutoff := cutoff, cutoffSqr := cutoff * cutoff,
      traversalsSinceLastRebuild := 2 ^ 32 - 1, rebuildFrequency := rebuildFrequency,
      neighborListIsValid := false, rebuildCount := 0 }

end VerletClusterLists

/-- A rational stand-in for `std::cbrt` on non-negative arguments: the least natural
`k` with `k ^ 3 ≥ n`, applied to numerator and denominator.  It is the exact cube
root whenever the argument is the cube of a rational. -/
def cbrtNat (n : Nat) : Nat :=
  ((List.range (n + 1)).find? fun k => decide (k ^ 3 ≥ n)).getD 0

/-- The stand-in on rationals. -/
def cbrtRat (q : ℚ) : ℚ := (cbrtNat q.num.toNat : ℚ) / (cbrtNat q.den : ℚ)

namespace VerletClusterLists

/-- The container after `k` successive calls of `iteratePairwiseAoS`, the `m`-th
call (counted from 0) made with `useNewton3 = n3 m`. -/
def afterCalls (cbrt : ℚ → ℚ) (n3 : Nat → Bool) (s : VerletClusterLists) : Nat → VerletClusterLists
  | 0 => s
  | k + 1 => (iteratePairwiseAoS cbrt (afterCalls cbrt n3 s k) (n3 k)).1

end VerletClusterLists

/-! ### Sample inputs -/

instance (dims : Dims) (a : Coord) : Decidable (inGrid dims a) := by
  unfold inGrid; infer_instance

instance (dims : Dims) (a : Coord) : Decidable (nonHalo dims a) := by
  unfold nonHalo; infer_instance

instance (a b : Coord) : Decidable (adjacent a b) := by
  unfold adjacent; infer_instance

/-- A functor with `cutoffsquare = 4`, `epsilon24 = 24`, `sigmasquare = 1`, without
mixing and shift, computing the globals on one thread. -/
def sampleFunctor : LJFunctor :=
  { applyShift := false, useMixing := false, calculateGlobals := true,
    cutoffsquare := 4, epsilon24 := 24, sigmasquare := 1, shift6 := 0,
    PPLibrary := { computedMixing24Epsilon := fun _ => 24,
                   computedMixingSigmaSquare := fun _ => 1,
                   computedMixingShift6 := fun _ => 0 },
    upotSum := 0, virialSum := (0, 0, 0),
    aosThreadData := [{ virialSum := (0, 0, 0), upotSum := 0 }],
    postProcessed := false }

/-- An owned particle at the origin. -/
def sampleI : Particle :=
  { id := 1, r := (0, 0, 0), f := (0, 0, 0), typeId := 0,
    ownershipState := OwnershipState.owned }

/-- An owned particle at distance 1 from the origin. -/
def sampleJ : Particle :=
  { id := 2, r := (1, 0, 0), f := (0, 0, 0), typeId := 0,
    ownershipState := OwnershipState.owned }

/-- An owned particle at distance 3 from the origin. -/
def sampleFar : Particle :=
  { id := 3, r := (3, 0, 0), f := (0, 0, 0), typeId := 0,
    ownershipState := OwnershipState.owned }

/-- Five particles on a line, one unit apart in z. -/
def lineParticles : List Particle :=
  [{ id := 1, r := (1 / 2, 1 / 2, 1), f := (0, 0, 0), typeId := 0,
     ownershipState := OwnershipState.owned },
   { id := 2, r := (1 / 2, 1 / 2, 2), f := (0, 0, 0), typeId := 0,
     ownershipState := OwnershipState.owned },
   { id := 3, r := (1 / 2, 1 / 2, 3), f := (0, 0, 0), typeId := 0,
     ownershipState := OwnershipState.owned },
   { id := 4, r := (1 / 2, 1 / 2, 4), f := (0, 0, 0), typeId := 0,
     ownershipState := OwnershipState.owned },
   { id := 5, r := (1 / 2, 1 / 2, 5), f := (0, 0, 0), typeId := 0,
     ownershipState := OwnershipState.owned }]

/-- The container over the box `[0,1) x [0,1) x [0,10)` with cutoff 1, skin 0 and
clusters of four particles, after the five particles of `lineParticles` have been
added and the neighbour lists rebuilt. -/
def lineContainer : VerletClusterLists :=
  VerletClusterLists.rebuild cbrtRat
    (lineParticles.foldl VerletClusterLists.addParticle
      (VerletClusterLists.new cbrtRat (0, 0, 0) (1, 1, 10) 1 0 1 4))

/-- A container with clusters of eight particles over the box
`[0,2) x [0,2) x [0,1/4)` (volume 1) with cutoff 1, into which one particle has been
added. -/
def singleParticleContainer : VerletClusterLists :=
  VerletClusterLists.addParticle
    (VerletClusterLists.new cbrtRat (0, 0, 0) (2, 2, 1 / 4) 1 0 1 8)
    { id := 1, r := (1 / 2, 1 / 2, 1 / 8), f := (0, 0, 0), typeId := 0,
      ownershipState := OwnershipState.owned }

/-! ## Configurations and feature vectors (`src/autopas/selectors/FeatureVector.h`) -/

/-- Modelled from the spec: the container options (`autopas/options/ContainerOption.h`
is not part of the sources at hand); these are the values handled by
`allApplicableTraversals`. -/
inductive ContainerOption where
  | directSum
  | linkedCells
  | verletLists
  | verletListsCells
  | verletClusterLists
deriving DecidableEq, Repr

/-- Modelled from the spec: the traversal options (`autopas/options/TraversalOption.h`
is not part of the sources at hand); these are the values named in
`ApplicableTraversals.h`. -/
inductive TraversalOption where
  | c08
  | sliced
  | c18
  | c01
  | directSumTraversal
  | slicedVerlet
  | c18Verlet
  | c01Verlet
  | c01Cuda
  | verletTraversal
deriving DecidableEq, Repr

/-- Modelled from the spec: the data layout options
(`autopas/options/DataLayoutOption.h` is not part of the sources at hand). -/
inductive DataLayoutOption where
  | aos
  | soa
  | cuda
deriving DecidableEq, Repr

/-- Modelled from the spec: the newton3 options (`autopas/options/Newton3Option.h` is
not part of the sources at hand). -/
inductive Newton3Option where
  | disabled
  | enabled
deriving DecidableEq, Repr

/-- A `FeatureVector`, that is a `Configuration`: container, cell size factor,
traversal, data layout and newton3 option. -/
structure FeatureVector where
  container : ContainerOption
  cellSizeFactor : ℚ
  traversal : TraversalOption
  dataLayout : DataLayoutOption
  newton3 : Newton3Option
deriving DecidableEq

namespace FeatureVector

/-- The constant `featureSpaceDims`. -/
def featureSpaceDims : Nat := 4

/-- Source function `FeatureVector::operator-`; the `Eigen::VectorXd` result is the
list of its components. -/
def sub (self other : FeatureVector) : List ℚ :=
  [self.cellSizeFactor - other.cellSizeFactor,
   if self.traversal = other.traversal then 0 else 1,
   if self.dataLayout = other.dataLayout then 0 else 1,
   if self.newton3 = other.newton3 then 0 else 1]

end FeatureVector

/-! ## The adaptive octree of the fast multipole example
(`examples/fmm/AdaptiveOctreeNode.cpp`) -/

namespace Fmm

/-- A `std::complex<double>`: real and imaginary part, exact. -/
abbrev Complex := ℚ × ℚ

/-- A `ComplexMatrix`, a vector of rows. -/
abbrev ComplexMatrix := List (List Complex)

/-- The settings of the tree that the node constructor reads through the getters of
`AdaptiveOctree` (whose source is not at hand), and its particle count per region. -/
structure AdaptiveOctree where
  minDepth : Int
  maxDepth : Int
  maxParticlesPerNode : Int
  orderOfExpansion : Int
  numberOfParticlesInRegion : Vec3 → Vec3 → Int

/-- The members of an `AdaptiveOctreeNode` other than its children and lists. -/
structure NodeData where
  nodeMinCorner : Vec3
  nodeCenter : Vec3
  nodeMaxCorner : Vec3
  nodeSize : Vec3
  depth : Int
  fmmM : ComplexMatrix
  fmmL : ComplexMatrix
  isZeroM : Bool
  isZeroL : Bool

/-- An `AdaptiveOctreeNode`: a leaf, or a node with its eight children `child[i]`. -/
inductive AdaptiveOctreeNode where
  | leaf (data : NodeData)
  | inner (data : NodeData) (child : Fin 8 → AdaptiveOctreeNode)

/-- A pointer to a node of the tree: the child indices on the way from the root. -/
abbrev NodePtr := List (Fin 8)

namespace AdaptiveOctreeNode

/-- The members of a node. -/
def data : AdaptiveOctreeNode → NodeData
  | leaf d => d
  | inner d _ => d

/-- Source function `AdaptiveOctreeNode::isLeaf`. -/
def isLeaf : AdaptiveOctreeNode → Bool
  | leaf _ => true
  | inner _ _ => false

/-- The children of a node, in the order of their index. -/
def children : AdaptiveOctreeNode → List AdaptiveOctreeNode
  | leaf _ => []
  | inner _ child => List.ofFn child

/-- The test of the constructor that decides whether the node is divided, for a node
at depth `depth` whose region holds `particles` particles. -/
def divides (tree : AdaptiveOctree) (depth particles : Int) : Bool :=
  decide (depth < tree.minDepth) ||
    (decide (particles > tree.maxParticlesPerNode) &&
      (decide (depth < tree.maxDepth) || decide (tree.maxDepth = -1)))

/-- The vector `offset` of child `i` in the constructor: half the node size in every
dimension whose bit is set in `i`. -/
def childOffset (nodeSize : Vec3) (i : Fin 8) : Vec3 :=
  (if i.val &&& 1 ≠ 0 then nodeSize.1 / 2 else 0,
   if i.val &&& 2 ≠ 0 then nodeSize.2.1 / 2 else 0,
   if i.val &&& 4 ≠ 0 then nodeSize.2.2 / 2 else 0)

/-- The matrix `ComplexMatrix(rows, std::vector<Complex>(columns, 0))`. -/
def zeroMatrix (rows columns : Int) : ComplexMatrix :=
  List.replicate rows.toNat (List.replicate columns.toNat (0, 0))

/-- The members set by the constructor for a node at depth `depth` with the given
corners.  The flags `_isZeroM` and `_isZeroL` are initialised in the header, which is
not at hand; they start as `true` here. -/
def initialData (tree : AdaptiveOctree) (depth : Int) (minCorner maxCorner : Vec3) : NodeData :=
  { nodeMinCorner := minCorner,
    nodeCenter := ArrayMath.mulScalar (ArrayMath.add minCorner maxCorner) (1 / 2),
    nodeMaxCorner := maxCorner,
    nodeSize := ArrayMath.sub maxCorner minCorner,
    depth := depth,
    fmmM := zeroMatrix (tree.orderOfExpansion * 2 + 1) (tree.orderOfExpansion + 1),
    fmmL := zeroMatrix (tree.orderOfExpansion * 2 + 1) (tree.orderOfExpansion + 1),
    isZeroM := true,
    isZeroL := true }

/-- The constructor of `AdaptiveOctreeNode`, for a node at depth `depth` (0 for the
root, the parent's depth plus one otherwise).  The recursion of the source need not
end; here it runs for at most `fuel` levels and the result is `none` if they do not
suffice.  The counters that the constructor updates in the tree are not modelled. -/
def construct (tree : AdaptiveOctree) :
    Nat → Int → Vec3 → Vec3 → Option AdaptiveOctreeNode
  | 0, _, _, _ => none
  | fuel + 1, depth, minCorner, maxCorner =>
    let d := initialData tree depth minCorner maxCorner
    let particles := tree.numberOfParticlesInRegion d.nodeMinCorner d.nodeMaxCorner
    if divides tree depth particles then
      let made : Fin 8 → Option AdaptiveOctreeNode := fun i =>
        construct tree fuel (depth + 1)
          (ArrayMath.add d.nodeMinCorner (childOffset d.nodeSize i))
          (ArrayMath.add d.nodeCenter (childOffset d.nodeSize i))
      if h : ∀ i, (made i).isSome = true then
        some (inner d fun i => (made i).get (h i))
      else none
    else some (leaf d)

/-- The node that a pointer refers to, if there is one. -/
def nodeAt : AdaptiveOctreeNode → NodePtr → Option AdaptiveOctreeNode
  | n, [] => some n
  | leaf _, _ :: _ => none
  | inner _ child, c :: cs => nodeAt (child c) cs

/-- The variable `childIndex` computed by `findNode`. -/
def childIndexOf (nodeCenter position : Vec3) : Fin 8 :=
  ⟨(if position.1 ≥ nodeCenter.1 then 1 else 0) +
      (if position.2.1 ≥ nodeCenter.2.1 then 2 else 0) +
      (if position.2.2 ≥ nodeCenter.2.2 then 4 else 0),
    by split_ifs <;> omega⟩

/-- Source function `AdaptiveOctreeNode::findNode`; the result is the pointer to the
node found, relative to the node on which it is called. -/
def findNode : AdaptiveOctreeNode → Vec3 → Int → NodePtr
  | leaf _, _, _ => []
  | inner d child, position, maxDepth =>
    if d.depth = maxDepth then []
    else
      childIndexOf d.nodeCenter position ::
        findNode (child (childIndexOf d.nodeCenter position)) position maxDepth

/-- Source function `AdaptiveOctreeNode::findNeighbour`, for the node with members
`self` in the tree with root `root`. -/
def findNeighbour (root : AdaptiveOctreeNode) (self : NodeData) (x y z : Int) : NodePtr :=
  let offset : Vec3 :=
    ((x : ℚ) * self.nodeSize.1, (y : ℚ) * self.nodeSize.2.1, (z : ℚ) * self.nodeSize.2.2)
  findNode root (ArrayMath.add self.nodeCenter offset) self.depth

/-- Insertion into a `std::set` of node pointers, kept as a list without
repetitions. -/
def setInsert (s : List NodePtr) (p : NodePtr) : List NodePtr :=
  if p ∈ s then s else s ++ [p]

/-- The triples `(x, y, z)` of the three nested loops from -1 to 1, in loop order. -/
def neighbourOffsets : List (Int × Int × Int) :=
  [-1, 0, 1].flatMap fun x => [-1, 0, 1].flatMap fun y => [-1, 0, 1].map fun z => (x, y, z)

/-- The set `neighbourList` that `initNeighbourList` builds for the node `self` at
pointer `selfPtr`. -/
def initNeighbourList (root : AdaptiveOctreeNode) (selfPtr : NodePtr) (self : NodeData) :
    List NodePtr :=
  neighbourOffsets.foldl
    (fun list o => setInsert list (findNeighbour root self o.1 o.2.1 o.2.2)) [selfPtr]

/-- The `neighbourList` of the node at `ptr` after `initNeighbourList` has run on the
root (it recurses into every child); empty if there is no such node. -/
def neighbourList (root : AdaptiveOctreeNode) (ptr : NodePtr) : List NodePtr :=
  match nodeAt root ptr with
  | none => []
  | some node => initNeighbourList root ptr node.data

/-- The pointer `parent` of a node; `none` for the root. -/
def parentPtr (ptr : NodePtr) : Option NodePtr :=
  if ptr = [] then none else some ptr.dropLast

/-- The body of the loop of `initInteractionList` for one `parentNeighbour`: the
pair of `interactionList` and `nearFieldList` after the step. -/
def interactionStep (root : AdaptiveOctreeNode) (selfPtr : NodePtr) (parentDepth : Int)
    (lists : List NodePtr × List NodePtr) (parentNeighbour : NodePtr) :
    List NodePtr × List NodePtr :=
  match nodeAt root parentNeighbour with
  | none => lists
  | some pn =>
    if !pn.isLeaf && decide (pn.data.depth = parentDepth) then
      ((List.finRange 8).foldl
        (fun interactionList c =>
          let insert := parentNeighbour ++ [c]
          if insert ∉ neighbourList root selfPtr then setInsert interactionList insert
          else interactionList)
        lists.1, lists.2)
    else if parentNeighbour ∉ neighbourList root selfPtr then
      if parentNeighbour ∉ lists.2 then (lists.1, setInsert lists.2 parentNeighbour) else lists
    else lists

/-- The sets `interactionList` and `nearFieldList` of the node at `ptr` after
`initNearFieldList` (which copies the neighbour list) and `initInteractionList` have
run on the root. -/
def initInteractionList (root : AdaptiveOctreeNode) (ptr : NodePtr) :
    List NodePtr × List NodePtr :=
  let nearFieldList := neighbourList root ptr
  match parentPtr ptr with
  | none => ([], nearFieldList)
  | some parent =>
    match nodeAt root parent with
    | none => ([], nearFieldList)
    | some parentNode =>
      (neighbourList root parent).foldl (interactionStep root ptr parentNode.data.depth)
        ([], nearFieldList)

/-- The `interactionList` of the node at `ptr` after the three passes. -/
def interactionList (root : AdaptiveOctreeNode) (ptr : NodePtr) : List NodePtr :=
  (initInteractionList root ptr).1

/-- The `nearFieldList` of the node at `ptr` after the three passes. -/
def nearFieldList (root : AdaptiveOctreeNode) (ptr : NodePtr) : List NodePtr :=
  (initInteractionList root ptr).2

/-- The depths stored below `node` are those the constructor assigns when `node` is
built at depth `k`: every child is one level deeper than its parent. -/
def depthsFrom : AdaptiveOctreeNode → Int → Prop
  | leaf d, k => d.depth = k
  | inner d child, k => d.depth = k ∧ ∀ i, depthsFrom (child i) (k + 1)

/-- The pointers to a node and to all its ancestors, the root first. -/
def ancestorsOrSelf (ptr : NodePtr) : List NodePtr := ptr.inits

/-- Invariant of the loop of `initInteractionList` for a node at pointer length
`len` with neighbour list `nl`. -/
def listsSeparated (nl : List NodePtr) (len : Nat) (lists : List NodePtr × List NodePtr) : Prop :=
  (∀ q ∈ lists.1, q ∉ nl ∧ q.length = len) ∧ (∀ q ∈ lists.2, q ∈ nl ∨ q.length < len)

/-- The row index `2 * |m| + offset` used by `getM`, `setM`, `getL` and `setL`, with
exact integers.  The source computes it in `int`; that computation is `Int32.indexM`,
which agrees with this one for `|m| < 2^30`. -/
def indexM (m : Int) : Int :=
  let offset : Int := if m ≤ 0 then 0 else -1
  2 * |m| + offset

/-- A matrix has `rows` rows of `columns` entries each. -/
def hasShape (matrix : ComplexMatrix) (rows columns : Nat) : Prop :=
  matrix.length = rows ∧ ∀ row ∈ matrix, row.length = columns

/-- The reads `matrix.at(indexM).at(n)` behind `getM` and `getL`, with their two
range checks, in exact integers; `none` is the exception of `at`.  The reads in the
arithmetic of `int` are `Int32.getCoefficient`. -/
def getCoefficient (matrix : ComplexMatrix) (m n : Int) : Option Complex :=
  if indexM m < 0 ∨ indexM m ≥ (matrix.length : Int) then some (0, 0)
  else if n < 0 ∨ n ≥ ((matrix.getD 0 []).length : Int) then some (0, 0)
  else
    match matrix.get? (indexM m).toNat with
    | none => none
    | some row => row.get? n.toNat

/-- The write `matrix.at(2 * |m| + offset).at(n) = value` of `setM` and `setL`;
`none` is the exception of `at`. -/
def setCoefficient (matrix : ComplexMatrix) (m n : Int) (value : Complex) :
    Option ComplexMatrix :=
  if indexM m < 0 ∨ n < 0 then none
  else
    match matrix.get? (indexM m).toNat with
    | none => none
    | some row =>
      if n.toNat < row.length then some (matrix.set (indexM m).toNat (row.set n.toNat value))
      else none

end AdaptiveOctreeNode

namespace NodeData

/-- Source function `AdaptiveOctreeNode::getM`. -/
def getM (self : NodeData) (m n : Int) : Option Complex :=
  AdaptiveOctreeNode.getCoefficient self.fmmM m n

/-- Source function `AdaptiveOctreeNode::getL`. -/
def getL (self : NodeData) (m n : Int) : Option Complex :=
  AdaptiveOctreeNode.getCoefficient self.fmmL m n

/-- Source function `AdaptiveOctreeNode::setM`. -/
def setM (self : NodeData) (m n : Int) (value : Complex) : Option NodeData :=
  match AdaptiveOctreeNode.setCoefficient self.fmmM m n value with
  | none => none
  | some matrix =>
    some { self with fmmM := matrix, isZeroM := if value ≠ (0, 0) then false else self.isZeroM }

/-- Source function `AdaptiveOctreeNode::setL`. -/
def setL (self : NodeData) (m n : Int) (value : Complex) : Option NodeData :=
  match AdaptiveOctreeNode.setCoefficient self.fmmL m n value with
  | none => none
  | some matrix =>
    some { self with fmmL := matrix, isZeroL := if value ≠ (0, 0) then false else self.isZeroL }

/-- The coefficient matrices have the shape given by the constructor for expansion
order `p`: `2 * p + 1` rows of `p + 1` entries. -/
def hasOrder (self : NodeData) (p : Nat) : Prop :=
  AdaptiveOctreeNode.hasShape self.fmmM (2 * p + 1) (p + 1) ∧
  AdaptiveOctreeNode.hasShape self.fmmL (2 * p + 1) (p + 1)

end NodeData

/-- A tree of expansion order 2 for closed examples: at most one particle per leaf,
no minimal and no maximal depth, and the particles at the given positions. -/
def sampleOctree (positions : List Vec3) : AdaptiveOctree :=
  { minDepth := 0, maxDepth := -1, maxParticlesPerNode := 1, orderOfExpansion := 2,
    numberOfParticlesInRegion := fun minCorner maxCorner =>
      ((positions.filter fun r => inBox r minCorner maxCorner).length : Int) }

/-- The members of a node of order 2 over the cube from 0 to 8. -/
def sampleNodeData : NodeData :=
  AdaptiveOctreeNode.initialData (sampleOctree []) 0 (0, 0, 0) (8, 8, 8)

/-- A tree like `sampleOctree` with two particles in the first octant of the cube
from 0 to 8 and the depth limit 1. -/
def boundedOctree : AdaptiveOctree :=
  { sampleOctree [(1 / 2, 1 / 2, 1 / 2), (3 / 2, 3 / 2, 3 / 2)] with maxDepth := 1 }

/-- A tree without depth limit over three particles, two of them in one octant at
depth 2. -/
def irregularOctree : AdaptiveOctree :=
  sampleOctree [(1 / 2, 1 / 2, 1 / 2), (3 / 2, 3 / 2, 3 / 2), (6, 2, 2)]

/-- The root node built for `irregularOctree` over the cube from 0 to 8. -/
def irregularRoot : AdaptiveOctreeNode :=
  (AdaptiveOctreeNode.construct irregularOctree 4 0 (0, 0, 0) (8, 8, 8)).getD
    (AdaptiveOctreeNode.leaf sampleNodeData)

/-- Whether the node at `ptr` below `root` is a leaf, and the number of its children;
`none` if there is no such node. -/
def shapeAt (root : Option AdaptiveOctreeNode) (ptr : NodePtr) : Option (Bool × Nat) :=
  (root.bind fun r => AdaptiveOctreeNode.nodeAt r ptr).map fun node =>
    (node.isLeaf, node.children.length)

end Fmm

/-- Five particles on a vertical line in a box that lies below the plane z = 0. -/
def sunkenParticles : List Particle :=
  [{ id := 1, r := (0, 0, -39 / 2), f := (0, 0, 0), typeId := 0,
     ownershipState := OwnershipState.owned },
   { id := 2, r := (0, 0, -37 / 2), f := (0, 0, 0), typeId := 0,
     ownershipState := OwnershipState.owned },
   { id := 3, r := (0, 0, -35 / 2), f := (0, 0, 0), typeId := 0,
     ownershipState := OwnershipState.owned },
   { id := 4, r := (0, 0, -33 / 2), f := (0, 0, 0), typeId := 0,
     ownershipState := OwnershipState.owned },
   { id := 5, r := (0, 0, -31 / 2), f := (0, 0, 0), typeId := 0,
     ownershipState := OwnershipState.owned }]

/-- A container with cutoff 1 and cluster size 4 over the box from (-1/2, -1/2, -20)
to (1/2, 1/2, -10), holding `sunkenParticles`, after its rebuild. -/
def sunkenContainer : VerletClusterLists :=
  VerletClusterLists.rebuild cbrtRat
    (sunkenParticles.foldl VerletClusterLists.addParticle
      (VerletClusterLists.new cbrtRat (-1 / 2, -1 / 2, -20) (1 / 2, 1 / 2, -10) 1 0 1 4))

namespace Fmm

/-- Component `i` of a vector. -/
def axis (i : Fin 3) (v : Vec3) : ℚ :=
  match i with
  | 0 => v.1
  | 1 => v.2.1
  | 2 => v.2.2

namespace AdaptiveOctreeNode

/-- Bit `i` of a child index: whether the child is in the second half of
dimension `i`. -/
def axisBit (i : Fin 3) (c : Fin 8) : Nat := c.val / 2 ^ i.val % 2

/-- The position of the node at `ptr` along dimension `i`, counted in nodes of its
depth from the lower end of the root. -/
def axisIndex (i : Fin 3) : NodePtr → Nat
  | [] => 0
  | c :: cs => axisBit i c * 2 ^ cs.length + axisIndex i cs

/-- The corners that the constructor gives to child `c` of a node with the corners
`lo` and `hi`. -/
def childBox (lo hi : Vec3) (c : Fin 8) : Vec3 × Vec3 :=
  (ArrayMath.add lo (childOffset (ArrayMath.sub hi lo) c),
    ArrayMath.add (ArrayMath.mulScalar (ArrayMath.add lo hi) (1 / 2))
      (childOffset (ArrayMath.sub hi lo) c))

/-- The corners of the node at `ptr` below a node with the corners `lo` and `hi`. -/
def boxAt (lo hi : Vec3) : NodePtr → Vec3 × Vec3
  | [] => (lo, hi)
  | c :: cs => boxAt (childBox lo hi c).1 (childBox lo hi c).2 cs

/-- The corners, centre and size stored below `node` are those the constructor
assigns when `node` is built with the corners `lo` and `hi`. -/
def boxesFrom : AdaptiveOctreeNode → Vec3 → Vec3 → Prop
  | leaf d, lo, hi =>
    d.nodeMinCorner = lo ∧ d.nodeMaxCorner = hi ∧
      d.nodeCenter = ArrayMath.mulScalar (ArrayMath.add lo hi) (1 / 2) ∧
      d.nodeSize = ArrayMath.sub hi lo
  | inner d child, lo, hi =>
    (d.nodeMinCorner = lo ∧ d.nodeMaxCorner = hi ∧
      d.nodeCenter = ArrayMath.mulScalar (ArrayMath.add lo hi) (1 / 2) ∧
      d.nodeSize = ArrayMath.sub hi lo) ∧
    ∀ c, boxesFrom (child c) (childBox lo hi c).1 (childBox lo hi c).2

/-- The position `x` is covered by the node at `ptr` along dimension `i`, below a
root from `lo` to `hi`: it lies in the node's extent, or below the root with the node
at the lower end, or at or above the root's upper end with the node at the upper end. -/
def covers (i : Fin 3) (lo hi : Vec3) (ptr : NodePtr) (x : ℚ) : Prop :=
  (axis i (boxAt lo hi ptr).1 ≤ x ∧ x < axis i (boxAt lo hi ptr).2) ∨
  (x < axis i lo ∧ axisIndex i ptr = 0) ∨
  (axis i hi ≤ x ∧ axisIndex i ptr + 1 = 2 ^ ptr.length)

end AdaptiveOctreeNode

end Fmm

namespace Fmm

/-- Component `i` of an offset `(x, y, z)` passed to `findNeighbour`. -/
def offsetAxis (i : Fin 3) (o : Int × Int × Int) : Int :=
  match i with
  | 0 => o.1
  | 1 => o.2.1
  | 2 => o.2.2

end Fmm

namespace Fmm

/-- The root node of a tree with one level of children over the box from (0, 0, 0) to
(0, 8, 8), which has no extent in the first dimension. -/
def flatRoot : AdaptiveOctreeNode :=
  (AdaptiveOctreeNode.construct { sampleOctree [] with minDepth := 1 } 2 0 (0, 0, 0) (0, 8, 8)).getD
    (AdaptiveOctreeNode.leaf sampleNodeData)

end Fmm

namespace VerletClusterLists

/-- The loop of `rebuild` that puts the particles into the grid columns. -/
def fill (s1 : VerletClusterLists) (particles : List Particle) (clusters : List (List Particle)) :
    List (List Particle) :=
  particles.foldl
    (fun clusters particle =>
      if inBox particle.r s1.boxMin s1.boxMax then
        List.modify (fun cell => cell ++ [particle]) (getIndexOfPosition s1 particle.r) clusters
      else clusters)
    clusters

/-- The state of `rebuild` before its last two calls: the particles are in their grid
columns and every column is sorted by z; `updateVerletLists` and `padClusters` have
not run yet. -/
def binned (cbrt : ℚ → ℚ) (s : VerletClusterLists) : VerletClusterLists :=
  let invalidParticles := s.clusters.flatMap id
  let boxSize : Vec3 := ArrayMath.sub s.boxMax s.boxMin
  let volume : ℚ := 1 * boxSize.1 * boxSize.2.1 * boxSize.2.2
  let gridSideLength : ℚ :=
    if invalidParticles.length > 0 then
      let density := (invalidParticles.length : ℚ) / volume
      cbrt ((s.clusterSize : ℚ) / density)
    else max boxSize.1 boxSize.2.1
  let gridSideLengthReciprocal := 1 / gridSideLength
  let cells0 := max (⌊boxSize.1 * gridSideLengthReciprocal⌋).toNat 1
  let cells1 := max (⌊boxSize.2.1 * gridSideLengthReciprocal⌋).toNat 1
  let numCells := 1 * cells0 * cells1
  let s1 : VerletClusterLists :=
    { s with
      gridSideLength := gridSideLength, gridSideLengthReciprocal := gridSideLengthReciprocal,
      cellsPerDim := { x := cells0, y := cells1, z := 1 },
      clusters := List.replicate numCells [],
      neighborLists := List.replicate numCells [],
      rebuildCount := s.rebuildCount + 1 }
  let filled := invalidParticles.foldl
    (fun clusters particle =>
      if inBox particle.r s1.boxMin s1.boxMax then
        List.modify (fun cell => cell ++ [particle]) (getIndexOfPosition s1 particle.r) clusters
      else clusters)
    s1.clusters
  { s1 with clusters := filled.map sortByZ }

/-- The value `std::max(0, std::abs(i - j) - 1) * _gridSideLength` that
`updateVerletLists` uses as the distance of the grid columns `i` and `j` in one
dimension. -/
def gridDistance (s : VerletClusterLists) (i j : Int) : ℚ :=
  ((max 0 (|i - j| - 1) : Int) : ℚ) * s.gridSideLength

/-- The value `boxRange` of `updateVerletLists`. -/
def boxRange (s : VerletClusterLists) : Int := ⌈(s.cutoff + s.skin) * s.gridSideLengthReciprocal⌉

/-- The z-extent that `updateVerletLists` reads for cluster number `z` of a grid
column: first and last particle of a full cluster, or of the last, partial one. -/
def clusterBBox (s : VerletClusterLists) (grid : List Particle) (z : Nat) : ℚ × ℚ :=
  if z < grid.length / s.clusterSize then
    (zOf grid (z * s.clusterSize), zOf grid (z * s.clusterSize + (s.clusterSize - 1)))
  else
    (zOf grid (grid.length / s.clusterSize * s.clusterSize),
      zOf grid (grid.length / s.clusterSize * s.clusterSize + (grid.length % s.clusterSize - 1)))

/-- The lower bound `distXYsqr + distZ * distZ` that `updateVerletLists` tests for
cluster `zi` of column `(xi, yi)` against cluster `zj` of column `(xj, yj)`. -/
def clusterDistanceSqr (s : VerletClusterLists) (xi yi zi xj yj zj : Nat) : ℚ :=
  let distX := gridDistance s xi xj
  let distY := gridDistance s yi yj
  let iBBox := clusterBBox s (s.clusters.getD (index1D s xi yi) []) zi
  let jBBox := clusterBBox s (s.clusters.getD (index1D s xj yj) []) zj
  let distZ := bboxDistance iBBox.1 iBBox.2 jBBox.1 jBBox.2
  distX * distX + distY * distY + distZ * distZ

end VerletClusterLists

/-- A grid column is sorted by z, ascending. -/
def sortedByZ (grid : List Particle) : Prop :=
  grid.Pairwise fun a b => a.r.2.2 ≤ b.r.2.2

namespace VerletClusterLists

/-- The particle `_clusters[index1D(x, y)][k]`. -/
def particleAt (s : VerletClusterLists) (x y k : Nat) : Particle :=
  (s.clusters.getD (index1D s x y) []).getD k Particle.default

/-- Every grid column of `after` starts with the particles of the same column of
`before`. -/
def extendsColumns (before after : List (List Particle)) : Prop :=
  ∀ c : Nat, ∃ pads : List Particle, after.getD c [] = before.getD c [] ++ pads

end VerletClusterLists

/-- The container of `lineContainer` before its rebuild. -/
def lineInput : VerletClusterLists :=
  lineParticles.foldl VerletClusterLists.addParticle
    (VerletClusterLists.new cbrtRat (0, 0, 0) (1, 1, 10) 1 0 1 4)

/-! ## Distances, encodings and applicable traversals of configurations
(`src/autopas/selectors/FeatureVector.h`, `src/autopas/containers/ApplicableTraversals.h`) -/

/-- Modelled from the spec: the keys of `TraversalOption::getOptionNames()`
(`autopas/options/TraversalOption.h` is not part of the sources at hand): every
traversal option once, in the order of the enumeration. -/
def TraversalOption.getOptionNames : List TraversalOption :=
  [TraversalOption.c08, TraversalOption.sliced, TraversalOption.c18, TraversalOption.c01,
   TraversalOption.directSumTraversal, TraversalOption.slicedVerlet, TraversalOption.c18Verlet,
   TraversalOption.c01Verlet, TraversalOption.c01Cuda, TraversalOption.verletTraversal]

/-- Modelled from the spec: the keys of `DataLayoutOption::getOptionNames()`
(`autopas/options/DataLayoutOption.h` is not part of the sources at hand): every data
layout option once, in the order of the enumeration. -/
def DataLayoutOption.getOptionNames : List DataLayoutOption :=
  [DataLayoutOption.aos, DataLayoutOption.soa, DataLayoutOption.cuda]

/-- Modelled from the spec: the keys of `Newton3Option::getOptionNames()`
(`autopas/options/Newton3Option.h` is not part of the sources at hand): every newton3
option once, in the order of the enumeration. -/
def Newton3Option.getOptionNames : List Newton3Option :=
  [Newton3Option.disabled, Newton3Option.enabled]

namespace FeatureVector

/-- The expression `diff.array().square().sum()` of `BayesianSearchTest.testFindBest`:
the sum of the squares of the components. -/
def squaredNorm (v : List ℚ) : ℚ := (v.map fun x => x * x).sum

/-- The conversion `static_cast<long>(x)` of a `double`: the fraction is dropped. -/
def toLong (x : ℚ) : Int := if 0 ≤ x then ⌊x⌋ else ⌈x⌉

/-- The value `dummyTime` that `BayesianSearchTest.testFindBest` reports for the
configuration `current` when it looks for `best`. -/
def dummyTime (best current : FeatureVector) : Int :=
  toLong (654321 * squaredNorm (best.sub current))

/-- The configuration `best` that `BayesianSearchTest.testFindBest` looks for, with
the members that this `FeatureVector` has. -/
def testBest : FeatureVector :=
  { container := ContainerOption.linkedCells, cellSizeFactor := 1,
    traversal := TraversalOption.c08, dataLayout := DataLayoutOption.soa,
    newton3 := Newton3Option.enabled }

/-- The search space of `BayesianSearchTest.testFindBest`: linked cells, the cell size
factors 1 and 2, the traversals `c08` and `c01`, both data layouts `soa` and `aos`
and both newton3 options. -/
def testSearchSpace : List FeatureVector :=
  [(1 : ℚ), 2].flatMap fun cellSizeFactor =>
    [TraversalOption.c08, TraversalOption.c01].flatMap fun traversal =>
      [DataLayoutOption.soa, DataLayoutOption.aos].flatMap fun dataLayout =>
        [Newton3Option.disabled, Newton3Option.enabled].map fun newton3 =>
          { container := ContainerOption.linkedCells, cellSizeFactor := cellSizeFactor,
            traversal := traversal, dataLayout := dataLayout, newton3 := newton3 }

/-- The static member `oneHotDims`. -/
def oneHotDims : Nat :=
  1 + TraversalOption.getOptionNames.length + DataLayoutOption.getOptionNames.length +
    Newton3Option.getOptionNames.length

/-- One loop of `oneHotEncode`: a 1 for the option that is set, a 0 for every other. -/
def encodeOptions {α : Type} [DecidableEq α] (options : List α) (value : α) : List ℚ :=
  options.map fun option => if option = value then 1 else 0

/-- Source function `FeatureVector::oneHotEncode`; the `Eigen::VectorXd` result is the
list of its components. -/
def oneHotEncode (self : FeatureVector) : List ℚ :=
  [self.cellSizeFactor] ++ encodeOptions TraversalOption.getOptionNames self.traversal ++
    encodeOptions DataLayoutOption.getOptionNames self.dataLayout ++
    encodeOptions Newton3Option.getOptionNames self.newton3

/-- One loop of `oneHotDecode` over the remaining options, reading `vec[pos++]`:
the option found so far and the position after the loop; `none` is the exception for
a second entry equal to 1. -/
def decodeOptions {α : Type} (vec : List ℚ) : List α → Nat → Option α → Option (Option α × Nat)
  | [], pos, found => some (found, pos)
  | option :: rest, pos, found =>
    if vec.getD pos 0 = 1 then
      if found.isSome then none else decodeOptions vec rest (pos + 1) (some option)
    else decodeOptions vec rest (pos + 1) found

/-- Source function `FeatureVector::oneHotDecode`; `none` is an exception.  The value
of the default-constructed `ContainerOption()` is the parameter `invalid`. -/
def oneHotDecode (invalid : ContainerOption) (vec : List ℚ) : Option FeatureVector :=
  if vec.length ≠ oneHotDims then none
  else
    let cellSizeFactor := vec.getD 0 0
    match decodeOptions vec TraversalOption.getOptionNames 1 none with
    | none => none
    | some (none, _) => none
    | some (some traversal, pos1) =>
      match decodeOptions vec DataLayoutOption.getOptionNames pos1 none with
      | none => none
      | some (none, _) => none
      | some (some dataLayout, pos2) =>
        match decodeOptions vec Newton3Option.getOptionNames pos2 none with
        | none => none
        | some (none, _) => none
        | some (some newton3, _) =>
          some { container := invalid, cellSizeFactor := cellSizeFactor, traversal := traversal,
                 dataLayout := dataLayout, newton3 := newton3 }

/-- The block of a one-hot-encoded vector that starts at `start` and has `length`
entries. -/
def block (vec : List ℚ) (start length : Nat) : List ℚ := (vec.drop start).take length

end FeatureVector

namespace applicableTraversals

/-- Source function `allDSApplicableTraversals`; the `std::set` is the list of its
elements. -/
def allDSApplicableTraversals : List TraversalOption := [TraversalOption.directSumTraversal]

/-- Source function `allLCApplicableTraversals`; `cuda` says whether `AUTOPAS_CUDA` is
defined. -/
def allLCApplicableTraversals (cuda : Bool) : List TraversalOption :=
  [TraversalOption.c01, TraversalOption.c08, TraversalOption.c18, TraversalOption.sliced] ++
    (if cuda then [TraversalOption.c01Cuda] else [])

/-- Source function `allVCLApplicableTraversals`. -/
def allVCLApplicableTraversals : List TraversalOption := [TraversalOption.c01]

/-- Source function `allVLApplicableTraversals`. -/
def allVLApplicableTraversals : List TraversalOption := [TraversalOption.verletTraversal]

/-- Source function `allVLCApplicableTraversals`. -/
def allVLCApplicableTraversals : List TraversalOption :=
  [TraversalOption.slicedVerlet, TraversalOption.c18Verlet, TraversalOption.c01Verlet]

/-- Source function `allApplicableTraversals`.  Every container option has its case,
so the exception after the `switch` is not reached. -/
def allApplicableTraversals (cuda : Bool) (container : ContainerOption) : List TraversalOption :=
  match container with
  | ContainerOption.linkedCells => allLCApplicableTraversals cuda
  | ContainerOption.directSum => allDSApplicableTraversals
  | ContainerOption.verletClusterLists => allVCLApplicableTraversals
  | ContainerOption.verletLists => allVLApplicableTraversals
  | ContainerOption.verletListsCells => allVLCApplicableTraversals

end applicableTraversals

/-! ## Overflow-safe integer arithmetic (`src/autopas/utils/Math.h`) -/

namespace Math

/-- A fixed-width integer type `Int_t`: signed (two's complement) or unsigned, with
`bits` value bits in total. -/
structure IntType where
  isSigned : Bool
  bits : Nat
deriving DecidableEq

namespace IntType

/-- The value `std::numeric_limits<Int_t>::min()`. -/
def min (T : IntType) : Int := if T.isSigned then -(2 ^ (T.bits - 1)) else 0

/-- The value `std::numeric_limits<Int_t>::max()`. -/
def max (T : IntType) : Int := if T.isSigned then 2 ^ (T.bits - 1) - 1 else 2 ^ T.bits - 1

/-- A value of the type: an integer of its range. -/
def holds (T : IntType) (x : Int) : Prop := T.min ≤ x ∧ x ≤ T.max

instance (T : IntType) (x : Int) : Decidable (T.holds x) := by
  unfold holds
  infer_instance

/-- The value of the type that is congruent to `x` modulo `2 ^ bits`. -/
def wrap (T : IntType) (x : Int) : Int := (x - T.min) % 2 ^ T.bits + T.min

end IntType

/-- The compiler builtins `__builtin_add_overflow`, `__builtin_sub_overflow` and
`__builtin_mul_overflow`, applied to the exact result `exact` of the operation: the
value stored in `result` is the exact result wrapped to the type, and the return
value says whether the exact result is outside the range of the type. -/
def builtinOverflow (T : IntType) (exact : Int) : Int × Bool :=
  (T.wrap exact, decide (exact < T.min ∨ T.max < exact))

/-- Source function `safeAdd` for integer types. -/
def safeAdd (T : IntType) (a b valUnderflow valOverflow : Int) : Int :=
  let result := (builtinOverflow T (a + b)).1
  let overflow := (builtinOverflow T (a + b)).2
  if overflow then
    if a < 0 ∧ b < 0 then valUnderflow else valOverflow
  else result

/-- Source function `safeSub` for integer types. -/
def safeSub (T : IntType) (a b valUnderflow valOverflow : Int) : Int :=
  let result := (builtinOverflow T (a - b)).1
  let overflow := (builtinOverflow T (a - b)).2
  if overflow then
    if b > 0 then valUnderflow else valOverflow
  else result

/-- Source function `safeMul` for integer types. -/
def safeMul (T : IntType) (a b valUnderflow valOverflow : Int) : Int :=
  let result := (builtinOverflow T (a * b)).1
  let overflow := (builtinOverflow T (a * b)).2
  if overflow then
    if xor (decide (a < 0)) (decide (b < 0)) then valUnderflow else valOverflow
  else result

/-- The 32-bit type `int`. -/
def int32 : IntType := { isSigned := true, bits := 32 }

/-- The 64-bit type `size_t`. -/
def uint64 : IntType := { isSigned := false, bits := 64 }

end Math

/-! ## The life cycle of the global values of `LJFunctor`
(`src/autopas/molecularDynamics/LJFunctor.h`) -/

namespace LJFunctor

/-- The internal constructor `LJFunctor(cutoff, dummy)` for the template switches
`applyShift`, `useMixing` and `calculateGlobals`.  `maxThreads` is the value of
`autopas_get_max_threads()`; the constants `_epsilon24`, `_sigmasquare`, `_shift6` and
the library are set after construction and are parameters here. -/
def new (applyShift useMixing calculateGlobals : Bool) (cutoff : ℚ) (maxThreads : Nat)
    (epsilon24 sigmasquare shift6 : ℚ) (PPLibrary : ParticlePropertiesLibrary) : LJFunctor :=
  { applyShift := applyShift, useMixing := useMixing, calculateGlobals := calculateGlobals,
    cutoffsquare := cutoff * cutoff, epsilon24 := epsilon24, sigmasquare := sigmasquare,
    shift6 := shift6, PPLibrary := PPLibrary, upotSum := 0, virialSum := (0, 0, 0),
    aosThreadData :=
      if calculateGlobals then List.replicate maxThreads { virialSum := (0, 0, 0), upotSum := 0 }
      else [],
    postProcessed := false }

/-- A call of `endTraversal(newton3)` as a statement: the functor after the call and
whether the call threw.  The exception is thrown before any member is written, so
the functor is then the one before the call. -/
def endTraversalCall (fn : LJFunctor) (newton3 : Bool) : LJFunctor × Bool :=
  match fn.endTraversal newton3 with
  | some fn1 => (fn1, false)
  | none => (fn, true)

/-- A call of one of the member functions that change the functor. -/
inductive Call where
  | initTraversal
  | endTraversal (newton3 : Bool)
  | AoSFunctor (threadnum : Nat) (i j : Particle) (newton3 : Bool)

/-- The functor after one call. -/
def applyCall (fn : LJFunctor) : Call → LJFunctor
  | Call.initTraversal => fn.initTraversal
  | Call.endTraversal newton3 => (fn.endTraversalCall newton3).1
  | Call.AoSFunctor threadnum i j newton3 => (fn.AoSFunctor threadnum i j newton3).1

/-- The functor after a sequence of calls. -/
def runCalls (fn : LJFunctor) (calls : List Call) : LJFunctor := calls.foldl applyCall fn

/-- Whether `endTraversal` has been called since the last call of `initTraversal`,
or since the construction if there is none. -/
def endedSinceInit (calls : List Call) : Bool :=
  calls.foldl
    (fun ended call =>
      match call with
      | Call.initTraversal => false
      | Call.endTraversal _ => true
      | Call.AoSFunctor _ _ _ _ => ended)
    false

/-- The sum of `_upotSum` and the potential energies of all thread buffers, as summed
by `endTraversal`. -/
def summedUpot (fn : LJFunctor) : ℚ := fn.upotSum + (fn.aosThreadData.map fun d => d.upotSum).sum

/-- The sum of `_virialSum` and the virials of all thread buffers, as summed by
`endTraversal`. -/
def summedVirial (fn : LJFunctor) : Vec3 :=
  (fn.virialSum.1 + (fn.aosThreadData.map fun d => d.virialSum.1).sum,
   fn.virialSum.2.1 + (fn.aosThreadData.map fun d => d.virialSum.2.1).sum,
   fn.virialSum.2.2 + (fn.aosThreadData.map fun d => d.virialSum.2.2).sum)

end LJFunctor

/-- The functor `sampleFunctor` for `calculateGlobals = false`. -/
def sampleFunctorNoGlobals : LJFunctor :=
  { sampleFunctor with calculateGlobals := false, aosThreadData := [] }

/-! ## Serialization of particles
(`examples/md-flexible/src/ParticleSerializationTools.cpp`) -/

namespace ParticleSerializationTools

/-- A `char` of a buffer. -/
abbrev Byte := Fin 256

/-- The members of `ParticleType::AttributeNames` that are communicated. -/
inductive AttributeNames where
  | id
  | posX
  | posY
  | posZ
  | velocityX
  | velocityY
  | velocityZ
  | forceX
  | forceY
  | forceZ
  | oldForceX
  | oldForceY
  | oldForceZ
  | typeId
  | ownershipState
deriving DecidableEq, Repr

/-- The constant array `Attributes`. -/
def Attributes : List AttributeNames :=
  [AttributeNames.id, AttributeNames.posX, AttributeNames.posY, AttributeNames.posZ,
   AttributeNames.velocityX, AttributeNames.velocityY, AttributeNames.velocityZ,
   AttributeNames.forceX, AttributeNames.forceY, AttributeNames.forceZ,
   AttributeNames.oldForceX, AttributeNames.oldForceY, AttributeNames.oldForceZ,
   AttributeNames.typeId, AttributeNames.ownershipState]

/-- The constant `AttributesSize`. -/
def AttributesSize : Nat := 120

/-- A `ParticleType`, whose class is not part of the sources at hand: every
communicated attribute with its value, given as the bytes of its object
representation, which is what `memcpy` reads and writes. -/
structure ParticleType where
  get : AttributeNames → List Byte

/-- The member `set<attribute>(value)`. -/
def ParticleType.set (particle : ParticleType) (attr : AttributeNames) (value : List Byte) :
    ParticleType :=
  { get := fun a => if a = attr then value else particle.get a }

/-- Every attribute value of the particle has the size `sizeOf` of its type. -/
def ParticleType.wellTyped (sizeOf : AttributeNames → Nat) (particle : ParticleType) : Prop :=
  ∀ a, (particle.get a).length = sizeOf a

/-- The call `std::memcpy(&dest[startIndex], &value, n)` into a buffer; `none` if it
would write behind the end of the buffer or read behind the end of the value. -/
def memcpyInto (dest : List Byte) (startIndex : Nat) (value : List Byte) (n : Nat) :
    Option (List Byte) :=
  if startIndex + n ≤ dest.length ∧ n ≤ value.length then
    some (dest.take startIndex ++ value.take n ++ dest.drop (startIndex + n))
  else none

/-- The call `std::memcpy(&value, &source[startIndex], n)` from a buffer: the `n`
bytes read; `none` if it would read behind the end of the buffer. -/
def memcpyFrom (source : List Byte) (startIndex n : Nat) : Option (List Byte) :=
  if startIndex + n ≤ source.length then some ((source.drop startIndex).take n) else none

/-- Source function `serializeAttribute<I>` for the attribute `Attributes[I]`, whose
type has the size `sizeOf`; the result is the buffer and `startIndex` after the
call. -/
def serializeAttribute (sizeOf : AttributeNames → Nat) (attr : AttributeNames)
    (particle : ParticleType) (state : List Byte × Nat) : Option (List Byte × Nat) :=
  let sizeOfValue := sizeOf attr
  match memcpyInto state.1 state.2 (particle.get attr) sizeOfValue with
  | none => none
  | some attributeVector => some (attributeVector, state.2 + sizeOfValue)

/-- The fold expression `(serializeAttribute<I>(...), ...)` over the given
attributes. -/
def serializeAttributes (sizeOf : AttributeNames → Nat) (particle : ParticleType) :
    List AttributeNames → List Byte × Nat → Option (List Byte × Nat)
  | [], state => some state
  | attr :: rest, state =>
    match serializeAttribute sizeOf attr particle state with
    | none => none
    | some state1 => serializeAttributes sizeOf particle rest state1

/-- Source function `serializeParticleImpl`, called by `serializeParticle` with all
indices of `Attributes`. -/
def serializeParticleImpl (sizeOf : AttributeNames → Nat) (particle : ParticleType)
    (serializedParticle : List Byte) : Option (List Byte) :=
  match serializeAttributes sizeOf particle Attributes (List.replicate AttributesSize 0, 0) with
  | none => none
  | some (attributesVector, _) => some (serializedParticle ++ attributesVector)

/-- Source function `ParticleSerializationTools::serializeParticle`. -/
def serializeParticle (sizeOf : AttributeNames → Nat) (particle : ParticleType)
    (serializedParticles : List Byte) : Option (List Byte) :=
  serializeParticleImpl sizeOf particle serializedParticles

/-- Source function `deserializeAttribute<I>` for the attribute `Attributes[I]`; the
result is the particle and `startIndex` after the call. -/
def deserializeAttribute (sizeOf : AttributeNames → Nat) (attr : AttributeNames)
    (attributeVector : List Byte) (state : ParticleType × Nat) : Option (ParticleType × Nat) :=
  let sizeOfValue := sizeOf attr
  match memcpyFrom attributeVector state.2 sizeOfValue with
  | none => none
  | some value => some (state.1.set attr value, state.2 + sizeOfValue)

/-- The fold expression `(deserializeAttribute<I>(...), ...)` over the given
attributes. -/
def deserializeAttributes (sizeOf : AttributeNames → Nat) (attributeVector : List Byte) :
    List AttributeNames → ParticleType × Nat → Option (ParticleType × Nat)
  | [], state => some state
  | attr :: rest, state =>
    match deserializeAttribute sizeOf attr attributeVector state with
    | none => none
    | some state1 => deserializeAttributes sizeOf attributeVector rest state1

/-- Source function `ParticleSerializationTools::deserializeParticle`, with
`deserializeParticleImpl` for all indices of `Attributes`; `particleData` is the
buffer from the position the pointer refers to. -/
def deserializeParticle (sizeOf : AttributeNames → Nat) (particleData : List Byte)
    (particle : ParticleType) : Option ParticleType :=
  match deserializeAttributes sizeOf particleData Attributes (particle, 0) with
  | none => none
  | some (particle1, _) => some particle1

/-- The loop of `deserializeParticles` from index `i` on, for at most `fuel` rounds;
`none` if a round reads behind the end of the buffer or the rounds do not suffice. -/
def deserializeLoop (sizeOf : AttributeNames → Nat) (particlesData : List Byte) :
    Nat → Nat → ParticleType → List ParticleType → Option (List ParticleType)
  | 0, i, _, particles => if i < particlesData.length then none else some particles
  | fuel + 1, i, particle, particles =>
    if i < particlesData.length then
      match deserializeParticle sizeOf (particlesData.drop i) particle with
      | none => none
      | some particle1 =>
        deserializeLoop sizeOf particlesData fuel (i + AttributesSize) particle1
          (particles ++ [particle1])
    else some particles

/-- Source function `ParticleSerializationTools::deserializeParticles`; `particle` is
the default-constructed `ParticleType` of its first line.  The loop advances by
`AttributesSize` bytes per round, so `particlesData.size()` rounds suffice. -/
def deserializeParticles (sizeOf : AttributeNames → Nat) (particle : ParticleType)
    (particlesData : List Byte) (particles : List ParticleType) : Option (List ParticleType) :=
  deserializeLoop sizeOf particlesData particlesData.length 0 particle particles

/-- The calls `serializeParticle(p, buffer)` for the given particles, in order. -/
def serializeAll (sizeOf : AttributeNames → Nat) :
    List ParticleType → List Byte → Option (List Byte)
  | [], buffer => some buffer
  | particle :: rest, buffer =>
    match serializeParticle sizeOf particle buffer with
    | none => none
    | some buffer1 => serializeAll sizeOf rest buffer1

/-- The record of one particle: the values of the given attributes one after the
other. -/
def attributeBytes (particle : ParticleType) (attributes : List AttributeNames) : List Byte :=
  attributes.flatMap particle.get

/-- The sum of the sizes of the given attributes. -/
def totalSize (sizeOf : AttributeNames → Nat) (attributes : List AttributeNames) : Nat :=
  (attributes.map sizeOf).sum

/-- The 120 bytes that `serializeParticle` appends for a particle: its attribute
values, then the unused rest of the buffer. -/
def record (sizeOf : AttributeNames → Nat) (particle : ParticleType) : List Byte :=
  attributeBytes particle Attributes ++
    List.replicate (AttributesSize - totalSize sizeOf Attributes) 0

/-- The sizes of the attribute types of a molecule: 8 bytes each. -/
def sampleSizeOf : AttributeNames → Nat := fun _ => 8

/-- A particle whose attributes all have the bytes 1 to 8. -/
def sampleParticle : ParticleType := { get := fun _ => [1, 2, 3, 4, 5, 6, 7, 8] }

/-- A particle whose attributes all have the bytes 8 down to 1. -/
def sampleParticle2 : ParticleType := { get := fun _ => [8, 7, 6, 5, 4, 3, 2, 1] }

end ParticleSerializationTools


/-! ## The container type and the static dispatch on it
(`src/autopas/containers/VerletClusterLists.h`, `src/autopas/utils/StaticSelectorMacros.h`) -/

/-- Source function `VerletClusterLists::getContainerType`. -/
def VerletClusterLists.getContainerType (_self : VerletClusterLists) : ContainerOption :=
  ContainerOption.verletListsCells

/-- The container classes between which `withStaticContainerType2` chooses. -/
inductive ContainerClass where
  | DirectSum
  | LinkedCells
  | VerletLists
  | VerletListsCells
  | VerletClusterLists
deriving DecidableEq, Repr

/-- The expression `dynamic_cast<target *>(container_ptr)` for a container whose
class is `actual`: the pointer with the static type `target`, or `none` for the null
pointer.  None of the five classes derives from another. -/
def dynamicCast (target actual : ContainerClass) : Option ContainerClass :=
  if target = actual then some target else none

/-- Source function `withStaticContainerType2`, for a container of class `actual` that
reports `containerType`: the argument with which `function` is called. -/
def withStaticContainerType2 (actual : ContainerClass) (containerType : ContainerOption) :
    Option ContainerClass :=
  match containerType with
  | ContainerOption.directSum => dynamicCast ContainerClass.DirectSum actual
  | ContainerOption.linkedCells => dynamicCast ContainerClass.LinkedCells actual
  | ContainerOption.verletLists => dynamicCast ContainerClass.VerletLists actual
  | ContainerOption.verletListsCells => dynamicCast ContainerClass.VerletListsCells actual
  | ContainerOption.verletClusterLists => dynamicCast ContainerClass.VerletClusterLists actual

/-! ## MulticenteredMoleculeLJ
(`src/autopas/molecularDynamics/MulticenteredMoleculeLJ.h`) -/

/-- A `std::array<double, 4>`, with exact rational components. -/
abbrev Vec4 := ℚ × ℚ × ℚ × ℚ

/-- Modelled from the spec: the base class `MoleculeLJ` is declared in
`autopas/molecularDynamics/MoleculeLJ.h`, which is not part of the sources at hand.
It holds the position, the velocity, the id and the type id of a molecule. -/
structure MoleculeLJ where
  r : Vec3
  v : Vec3
  id : Nat
  typeId : Nat
deriving DecidableEq

namespace MoleculeLJ

/-- Modelled from the spec: the constructor `MoleculeLJ(r, v, moleculeId, typeId)`
stores its four arguments. -/
def new (r v : Vec3) (moleculeId typeId : Nat) : MoleculeLJ :=
  { r := r, v := v, id := moleculeId, typeId := typeId }

/-- Modelled from the spec: `getID` returns the stored id. -/
def getID (self : MoleculeLJ) : Nat := self.id

/-- Modelled from the spec: `getR` returns the stored position. -/
def getR (self : MoleculeLJ) : Vec3 := self.r

/-- Modelled from the spec: `getV` returns the stored velocity. -/
def getV (self : MoleculeLJ) : Vec3 := self.v

/-- Modelled from the spec: `getTypeId` returns the stored type id. -/
def getTypeId (self : MoleculeLJ) : Nat := self.typeId

end MoleculeLJ

namespace MulticenteredMoleculeLJ

/-- The unscoped enumeration `MulticenteredMoleculeLJ::AttributeNames`; its
enumerators are names of the class scope. -/
inductive AttributeNames where
  | ptr
  | id
  | posX
  | posY
  | posZ
  | velocityX
  | velocityY
  | velocityZ
  | forceX
  | forceY
  | forceZ
  | oldForceX
  | oldForceY
  | oldForceZ
  | quaternion0
  | quaternion1
  | quaternion2
  | quaternion3
  | angularVelX
  | angularVelY
  | angularVelZ
  | torqueX
  | torqueY
  | torqueZ
  | typeId
  | ownershipState
deriving DecidableEq, Repr

/-- The value of an enumerator (`enum AttributeNames : int`, counted from 0), as it
converts to `unsigned long`. -/
def AttributeNames.value : AttributeNames → Nat
  | ptr => 0
  | id => 1
  | posX => 2
  | posY => 3
  | posZ => 4
  | velocityX => 5
  | velocityY => 6
  | velocityZ => 7
  | forceX => 8
  | forceY => 9
  | forceZ => 10
  | oldForceX => 11
  | oldForceY => 12
  | oldForceZ => 13
  | quaternion0 => 14
  | quaternion1 => 15
  | quaternion2 => 16
  | quaternion3 => 17
  | angularVelX => 18
  | angularVelY => 19
  | angularVelZ => 20
  | torqueX => 21
  | torqueY => 22
  | torqueZ => 23
  | typeId => 24
  | ownershipState => 25

end MulticenteredMoleculeLJ

/-- The class `MulticenteredMoleculeLJ`: a `MoleculeLJ` with a quaternion, an angular
velocity and a torque. -/
structure MulticenteredMoleculeLJ extends MoleculeLJ where
  q : Vec4
  angularVel : Vec3
  torque : Vec3
deriving DecidableEq

namespace MulticenteredMoleculeLJ

/-- The constructor
`MulticenteredMoleculeLJ(r, v, q, angularVel, moleculeId, typeId)`.  Its initialiser
list reads `MoleculeLJ(r, v, id, typeId), _q(q), _angularVel(angularVel)`: no
parameter is called `id`, so the name is the enumerator `AttributeNames::id` of the
class scope, while `typeId` is the parameter, which hides the enumerator of that
name.  `_torque` is not initialised; its value is the first argument here. -/
def new (torque : Vec3) (r v : Vec3) (q : Vec4) (angularVel : Vec3) (_moleculeId typeId : Nat) :
    MulticenteredMoleculeLJ :=
  { toMoleculeLJ := MoleculeLJ.new r v AttributeNames.id.value typeId,
    q := q,
    angularVel := angularVel,
    torque := torque }

/-- Source function `MulticenteredMoleculeLJ::getQ`. -/
def getQ (self : MulticenteredMoleculeLJ) : Vec4 := self.q

/-- Source function `MulticenteredMoleculeLJ::getAngularVel`. -/
def getAngularVel (self : MulticenteredMoleculeLJ) : Vec3 := self.angularVel

/-- Source function `MulticenteredMoleculeLJ::getTorque`. -/
def getTorque (self : MulticenteredMoleculeLJ) : Vec3 := self.torque

/-- The getter `get<AttributeNames::id>()`, which returns `getID()`. -/
def getId (self : MulticenteredMoleculeLJ) : Nat := self.toMoleculeLJ.getID

end MulticenteredMoleculeLJ

/-! ## The offset pairs and the slice thickness of SlicedTraversal
(`src/containers/cellPairTraversals/SlicedTraversal.h`) -/

/-- The fourteen entries of `_cellPairOffsets`, with the corners of the 2x2x2 block
from which `computeOffsets` builds the two offsets of each entry (`o`, `x`, `y`, `z`,
`xy`, `yz`, `xz`, `xyz` in the source). -/
def cellPairCorners : List (Coord × Coord) :=
  let o : Coord := (0, 0, 0)
  let x : Coord := (1, 0, 0)
  let y : Coord := (0, 1, 0)
  let z : Coord := (0, 0, 1)
  let xy : Coord := (1, 1, 0)
  let yz : Coord := (0, 1, 1)
  let xz : Coord := (1, 0, 1)
  let xyz : Coord := (1, 1, 1)
  [(o, o), (o, y), (y, z), (o, z), (o, yz),
   (x, yz), (x, y), (x, z), (o, x), (o, xy), (xy, z), (y, xz), (o, xz), (o, xyz)]

/-- The displacement `b - a` between the two corners of an entry `(a, b)`. -/
def displacement (p : Coord × Coord) : Int × Int × Int :=
  ((p.2.1 : Int) - (p.1.1 : Int), (p.2.2.1 : Int) - (p.1.2.1 : Int),
    (p.2.2.2 : Int) - (p.1.2.2 : Int))

/-- The displacements of the fourteen entries, in the order of the array. -/
def cellPairDisplacements : List (Int × Int × Int) := cellPairCorners.map displacement

/-- The displacements other than zero. -/
def nonZeroDisplacements : List (Int × Int × Int) :=
  cellPairDisplacements.filter fun d => decide (d ≠ (0, 0, 0))

/-- The opposite displacement. -/
def opposite (d : Int × Int × Int) : Int × Int × Int := (-d.1, -d.2.1, -d.2.2)

/-- The slice thicknesses as the specification describes them: every slice but the
last has `n / numSlices` layers, the last takes the remainder as well, less the one
top layer. -/
def specifiedSliceThickness (n numSlices : Nat) : List Nat :=
  List.replicate (numSlices - 1) (n / numSlices) ++ [n / numSlices + n % numSlices - 1]

/-- The slice thicknesses in closed form: the first `n % numSlices` slices have one
layer more than `n / numSlices`, the last slice one layer less. -/
def balancedSliceThickness (n numSlices : Nat) : List Nat :=
  (List.range numSlices).map fun i =>
    n / numSlices + (if i < n % numSlices then 1 else 0) - (if i + 1 = numSlices then 1 else 0)

namespace VerletClusterLists

/-- The column coordinate as the specification describes it:
`floor((pos - boxMin) / gridSideLength)` clamped to `[0, cellsPerDim - 1]`. -/
def specifiedColumn (s : VerletClusterLists) (pos boxMin : ℚ) (cellsPerDim : Nat) : Nat :=
  min (max ⌊(pos - boxMin) / s.gridSideLength⌋ 0).toNat (cellsPerDim - 1)

/-- The index built from the two column coordinates of the specification. -/
def specifiedIndexOfPosition (s : VerletClusterLists) (pos : Vec3) : Nat :=
  specifiedColumn s pos.1 s.boxMin.1 s.cellsPerDim.x +
    specifiedColumn s pos.2.1 s.boxMin.2.1 s.cellsPerDim.y * s.cellsPerDim.x

end VerletClusterLists

/-- The container `singleParticleContainer` after two rebuilds: a grid of 2 x 2
columns of side length 1 over the box `[0,2) x [0,2) x [0,1/4)`. -/
def twoByTwoContainer : VerletClusterLists :=
  VerletClusterLists.rebuild cbrtRat (VerletClusterLists.rebuild cbrtRat singleParticleContainer)

/-! ## C08Traversal
(`src/autopas/containers/linkedCells/traversals/C08Traversal.h`) -/

namespace C08Traversal

/-- Modelled from the spec: `ThreeDimensionalMapping::oneToThreeD` is declared in
`utils/ThreeDimensionalMapping.h`, which is not part of the sources at hand.  It is
the inverse of `threeToOneD`: `x = ind % dims[0]`, `y = (ind / dims[0]) % dims[1]`,
`z = ind / (dims[0] * dims[1])`. -/
def oneToThreeD (ind : Nat) (dims : Dims) : Coord :=
  (ind % dims.x, (ind / dims.x) % dims.y, ind / (dims.x * dims.y))

/-- The array `stride` of `traverseCellPairs`. -/
def stride : Dims := { x := 2, y := 2, z := 2 }

/-- The entry `end[d] = _cellsPerDimension[d] - 1`, an `unsigned long`: it wraps to
`2^64 - 1` for an empty dimension. -/
def endOf (cellsPerDimension : Nat) : Nat := (cellsPerDimension + (2 ^ 64 - 1)) % 2 ^ 64

/-- A loop `for (unsigned long x = start; x < end; x += stride) body(x)`: the
results of the bodies in order, each of which may fail.  The loop variable wraps at
`2^64`; the loop either ends after at most `end` rounds or never ends, and it is run
for `fuel` rounds, with the result `none` if they do not suffice. -/
def forLoop {α : Type} (end_ stride : Nat) (body : Nat → Option (List α)) :
    Nat → Nat → Option (List α)
  | 0, _ => none
  | fuel + 1, x =>
    if x < end_ then
      match body x, forLoop end_ stride body fuel ((x + stride) % 2 ^ 64) with
      | some calls, some more => some (calls ++ more)
      | _, _ => none
    else some []

/-- The three nested loops of one colour `col` in `traverseCellPairs`: the
coordinates of the cells on which `processBaseCell` is called, in order. -/
def colourPass (dims : Dims) (col : Nat) : Option (List Coord) :=
  let start := oneToThreeD col stride
  let end_x := endOf dims.x
  let end_y := endOf dims.y
  let end_z := endOf dims.z
  forLoop end_z stride.z
    (fun z => forLoop end_y stride.y
      (fun y => forLoop end_x stride.x (fun x => some [(x, y, z)]) (end_x + 1) start.1)
      (end_y + 1) start.2.1)
    (end_z + 1) start.2.2

/-- The base cells of all eight colours, colour after colour (the loop over `col`). -/
def baseCells (dims : Dims) : Option (List Coord) :=
  forLoop 8 1 (colourPass dims) 9 0

/-- Source function `C08Traversal::traverseCellPairs`: the arguments `baseIndex` of
the calls of `processBaseCell`, in the order of a single thread. -/
def traverseCellPairs (dims : Dims) : Option (List Nat) :=
  (baseCells dims).map fun cells => cells.map fun c => threeToOneD c.1 c.2.1 c.2.2 dims

/-- The values of the loop variable of `for (x = start; x < end; x += stride)` while
it does not wrap, for at most `fuel` rounds. -/
def loopValues (end_ stride : Nat) : Nat → Nat → List Nat
  | 0, _ => []
  | fuel + 1, x => if x < end_ then x :: loopValues end_ stride fuel (x + stride) else []

/-- The cells of colour `col` in closed form: the coordinates with the parities of
the colour below `cellsPerDimension - 1`, z running slowest. -/
def colourCells (dims : Dims) (col : Nat) : List Coord :=
  (loopValues (dims.z - 1) 2 dims.z (col / 4)).flatMap fun z =>
    (loopValues (dims.y - 1) 2 dims.y (col / 2 % 2)).flatMap fun y =>
      (loopValues (dims.x - 1) 2 dims.x (col % 2)).flatMap fun x => [(x, y, z)]

/-- The eight corners `{0, 1}^3` of a 2x2x2 block, relative to its base cell. -/
def blockOffsets : List Coord :=
  [(0, 0, 0), (1, 0, 0), (0, 1, 0), (1, 1, 0), (0, 0, 1), (1, 0, 1), (0, 1, 1), (1, 1, 1)]

/-- The cell at offset `o` from the base cell `b`. -/
def blockCell (b o : Coord) : Coord := (b.1 + o.1, b.2.1 + o.2.1, b.2.2 + o.2.2)

/-- The colour of a base cell: the parities of its coordinates, as the index
`col` with `oneToThreeD col stride` equal to the parities. -/
def colourOf (b : Coord) : Nat := b.1 % 2 + 2 * (b.2.1 % 2) + 4 * (b.2.2 % 2)

end C08Traversal

namespace Fmm

namespace AdaptiveOctreeNode

/-- The number of nodes of the tree below and including `node`: the amount by which
the constructor call that builds `node` raises the counter `tree.numberOfNodes`. -/
def numberOfNodes : AdaptiveOctreeNode → Nat
  | leaf _ => 1
  | inner _ child => 1 + ((List.finRange 8).map fun i => numberOfNodes (child i)).sum

/-- The depth limit `max(minDepth, maxDepth)` of a tree with `maxDepth != -1`. -/
def depthLimit (tree : AdaptiveOctree) : Int := max tree.minDepth tree.maxDepth

/-- The number of nodes of a full octree with the levels `0, ..., levels`: the sum
of `8^k` over `k ≤ levels`. -/
def fullTreeSize (levels : Nat) : Nat := ((List.range (levels + 1)).map fun k => 8 ^ k).sum

/-- The position lies in the box stored in the node, borders included, in every
dimension. -/
def inNodeBox (d : NodeData) (position : Vec3) : Prop :=
  ∀ i : Fin 3, axis i d.nodeMinCorner ≤ axis i position ∧
    axis i position ≤ axis i d.nodeMaxCorner

/-- The position lies in the box stored in the node without its upper borders. -/
def inHalfOpenNodeBox (d : NodeData) (position : Vec3) : Prop :=
  ∀ i : Fin 3, axis i d.nodeMinCorner ≤ axis i position ∧
    axis i position < axis i d.nodeMaxCorner

end AdaptiveOctreeNode

end Fmm

/-! ## The mixing tables of ParticlePropertiesLibrary and the on-the-fly mixing of
ParticleClassLibrary
(`src/autopas/molecularDynamics/ParticlePropertiesLibrary.cpp`,
`examples/md-flexible/ParticleClassLibrary.cpp`) -/

namespace MolecularDynamics

/-- A `std::map<unsigned long, double>`: its entries in the order of their keys, in
which a range-based `for` visits them. -/
abbrev PropertyMap := List (Nat × ℚ)

/-- A `std::map<std::pair<unsigned long, unsigned long>, double>`.  The source only
calls `emplace` and `at` on these maps, so a map is given by the value, if any, that
it holds for each key. -/
abbrev PairMap := Nat × Nat → Option ℚ

namespace PropertyMap

/-- The call `map.emplace(key, value)`: the entry is inserted at the position of its
key unless the map holds an entry with that key. -/
def emplace : PropertyMap → Nat → ℚ → PropertyMap
  | [], key, value => [(key, value)]
  | (k, v) :: rest, key, value =>
    if key < k then (key, value) :: (k, v) :: rest
    else if key = k then (k, v) :: rest
    else (k, v) :: emplace rest key value

/-- The call `map.at(key)`, which throws `std::out_of_range` (`none`) if the map
holds no entry with that key. -/
def lookup : PropertyMap → Nat → Option ℚ
  | [], _ => none
  | (k, v) :: rest, key => if key = k then some v else lookup rest key

/-- The keys of a map, in ascending order. -/
def keys (map : PropertyMap) : List Nat := map.map Prod.fst

end PropertyMap

namespace PairMap

/-- The empty map. -/
def empty : PairMap := fun _ => none

/-- The call `map.emplace(key, value)`. -/
def emplace (map : PairMap) (key : Nat × Nat) (value : ℚ) : PairMap :=
  fun k => if k = key ∧ map key = none then some value else map k

end PairMap

/-- The members of a `ParticlePropertiesLibrary`. -/
structure ParticlePropertiesLibrary where
  Epsilon : PropertyMap
  Sigma : PropertyMap
  Mass : PropertyMap
  computedMixing24Epsilon : PairMap
  computedMixingSigmaSquare : PairMap

namespace ParticlePropertiesLibrary

/-- The constructor `ParticlePropertiesLibrary(epsilon, sigma, mass)` for a single
particle type, which gets the id 0. -/
def new (epsilon sigma mass : ℚ) : ParticlePropertiesLibrary :=
  { Epsilon := PropertyMap.emplace [] 0 epsilon,
    Sigma := PropertyMap.emplace [] 0 sigma,
    Mass := PropertyMap.emplace [] 0 mass,
    computedMixing24Epsilon := PairMap.emplace PairMap.empty (0, 0) (24 * epsilon),
    computedMixingSigmaSquare := PairMap.emplace PairMap.empty (0, 0) (sigma * sigma) }

/-- Source function `ParticlePropertiesLibrary::addType`; `sqrt` stands for
`std::sqrt`.  Both loops run over the types registered before the call: the entry of
the new type is put into `Epsilon` and `Sigma` after the loop. -/
def addType (sqrt : ℚ → ℚ) (self : ParticlePropertiesLibrary) (typeID : Nat)
    (epsilon sigma mass : ℚ) : ParticlePropertiesLibrary :=
  let mixing24Epsilon := self.Epsilon.foldl
    (fun table e =>
      let indexOfExistingEpsilon := e.1
      let secondEpsilon := e.2
      let epsilon24 := 24 * sqrt (epsilon * secondEpsilon)
      PairMap.emplace table (indexOfExistingEpsilon, typeID) epsilon24)
    self.computedMixing24Epsilon
  let mixingSigmaSquare := self.Sigma.foldl
    (fun table e =>
      let indexOfExistingSigma := e.1
      let existingSigma := e.2
      let newSigma := (sigma + existingSigma) / 2
      PairMap.emplace table (indexOfExistingSigma, typeID) (newSigma * newSigma))
    self.computedMixingSigmaSquare
  { Epsilon := PropertyMap.emplace self.Epsilon typeID epsilon,
    Sigma := PropertyMap.emplace self.Sigma typeID sigma,
    Mass := PropertyMap.emplace self.Mass typeID mass,
    computedMixing24Epsilon := mixing24Epsilon,
    computedMixingSigmaSquare := mixingSigmaSquare }

/-- Source function `ParticlePropertiesLibrary::getMass`. -/
def getMass (self : ParticlePropertiesLibrary) (i : Nat) : Option ℚ := PropertyMap.lookup self.Mass i

/-- Source function `ParticlePropertiesLibrary::get24Epsilon`. -/
def get24Epsilon (self : ParticlePropertiesLibrary) (i : Nat) : Option ℚ :=
  (PropertyMap.lookup self.Epsilon i).map fun epsilon => 24 * epsilon

/-- Source function `ParticlePropertiesLibrary::getSigmaSquare`. -/
def getSigmaSquare (self : ParticlePropertiesLibrary) (i : Nat) : Option ℚ :=
  (PropertyMap.lookup self.Sigma i).map fun sigma => sigma * sigma

/-- The key `(i < j ? i : j, j > i ? j : i)` built by the two mixing lookups. -/
def key (i j : Nat) : Nat × Nat := (if i < j then i else j, if j > i then j else i)

/-- Source function `ParticlePropertiesLibrary::mixing24Epsilon`; `none` if
`computedMixing24Epsilon.at(key)` throws. -/
def mixing24Epsilon (self : ParticlePropertiesLibrary) (i j : Nat) : Option ℚ :=
  self.computedMixing24Epsilon (key i j)

/-- Source function `ParticlePropertiesLibrary::mixingSigmaSquare`; `none` if
`computedMixingSigmaSquare.at(key)` throws. -/
def mixingSigmaSquare (self : ParticlePropertiesLibrary) (i j : Nat) : Option ℚ :=
  self.computedMixingSigmaSquare (key i j)

/-- A library after the constructor and one call of `addType` for each entry
`(typeID, epsilon, sigma, mass)` of `types`, in order. -/
def register (sqrt : ℚ → ℚ) (self : ParticlePropertiesLibrary) (types : List (Nat × ℚ × ℚ × ℚ)) :
    ParticlePropertiesLibrary :=
  types.foldl (fun lib t => addType sqrt lib t.1 t.2.1 t.2.2.1 t.2.2.2) self

end ParticlePropertiesLibrary

/-- The members of a `ParticleClassLibrary`. -/
structure ParticleClassLibrary where
  Epsilon : PropertyMap
  Sigma : PropertyMap
  Mass : PropertyMap

namespace ParticleClassLibrary

/-- The constructor `ParticleClassLibrary(sigma, epsilon, mass)`. -/
def new (sigma epsilon mass : PropertyMap) : ParticleClassLibrary :=
  { Epsilon := epsilon, Sigma := sigma, Mass := mass }

/-- Source function `ParticleClassLibrary::get24Epsilon`. -/
def get24Epsilon (self : ParticleClassLibrary) (i : Nat) : Option ℚ :=
  (PropertyMap.lookup self.Epsilon i).map fun epsilon => 24 * epsilon

/-- Source function `ParticleClassLibrary::getSSigma`. -/
def getSSigma (self : ParticleClassLibrary) (i : Nat) : Option ℚ :=
  (PropertyMap.lookup self.Sigma i).map fun sigma => sigma * sigma

/-- Source function `ParticleClassLibrary::mixing24E`; `sqrt` stands for
`std::sqrt`. -/
def mixing24E (sqrt : ℚ → ℚ) (self : ParticleClassLibrary) (i j : Nat) : Option ℚ :=
  match PropertyMap.lookup self.Epsilon i, PropertyMap.lookup self.Epsilon j with
  | some epsilonI, some epsilonJ => some (24 * sqrt (epsilonI * epsilonJ))
  | _, _ => none

/-- Source function `ParticleClassLibrary::mixingSS`. -/
def mixingSS (self : ParticleClassLibrary) (i j : Nat) : Option ℚ :=
  match PropertyMap.lookup self.Sigma i, PropertyMap.lookup self.Sigma j with
  | some sigmaI, some sigmaJ =>
    let mixingS := (sigmaI + sigmaJ) / 2
    some (mixingS * mixingS)
  | _, _ => none

end ParticleClassLibrary

/-- The on-the-fly library over the property maps of a `ParticlePropertiesLibrary`. -/
def onTheFly (lib : ParticlePropertiesLibrary) : ParticleClassLibrary :=
  ParticleClassLibrary.new lib.Sigma lib.Epsilon lib.Mass

/-- The ids of `types` ascend strictly and are above 0, the id that the constructor
has given to the first type. -/
def ascendingFrom (last : Nat) : List (Nat × ℚ × ℚ × ℚ) → Prop
  | [] => True
  | t :: rest => last < t.1 ∧ ascendingFrom t.1 rest

/-- The mixing tables of a library in terms of its property maps: the entry `(0, 0)`
of the constructor, and for `i < j` the entry that `addType` writes when it registers
`j` and finds `i`; no other key holds a value. -/
def tablesOf (sqrt : ℚ → ℚ) (lib : ParticlePropertiesLibrary) : Prop :=
  (∀ i j : Nat, lib.computedMixing24Epsilon (i, j) =
    if i = 0 ∧ j = 0 then (PropertyMap.lookup lib.Epsilon 0).map fun epsilon => 24 * epsilon
    else if i < j then
      match PropertyMap.lookup lib.Epsilon i, PropertyMap.lookup lib.Epsilon j with
      | some epsilonI, some epsilonJ => some (24 * sqrt (epsilonJ * epsilonI))
      | _, _ => none
    else none) ∧
  (∀ i j : Nat, lib.computedMixingSigmaSquare (i, j) =
    if i = 0 ∧ j = 0 then (PropertyMap.lookup lib.Sigma 0).map fun sigma => sigma * sigma
    else if i < j then
      match PropertyMap.lookup lib.Sigma i, PropertyMap.lookup lib.Sigma j with
      | some sigmaI, some sigmaJ => some ((sigmaJ + sigmaI) / 2 * ((sigmaJ + sigmaI) / 2))
      | _, _ => none
    else none)

/-- The keys of the two property maps agree, ascend strictly and begin with 0. -/
def wellFormed (lib : ParticlePropertiesLibrary) : Prop :=
  PropertyMap.keys lib.Sigma = PropertyMap.keys lib.Epsilon ∧
  (PropertyMap.keys lib.Epsilon).Pairwise (fun a b => a < b) ∧
  (PropertyMap.keys lib.Epsilon).head? = some 0

/-- A rational stand-in for `std::sqrt` on non-negative arguments: the least natural
`k` with `k ^ 2 ≥ n`, applied to numerator and denominator.  It is the exact square
root whenever the argument is the square of a rational. -/
def sqrtNat (n : Nat) : Nat :=
  ((List.range (n + 1)).find? fun k => decide (k ^ 2 ≥ n)).getD 0

/-- The stand-in on rationals. -/
def sqrtRat (q : ℚ) : ℚ := (sqrtNat q.num.toNat : ℚ) / (sqrtNat q.den : ℚ)

/-- A library with the types 0, 1 and 2: the constructor with `epsilon = 1`,
`sigma = 1`, `mass = 1`, then `addType(1, 4, 3, 1)` and `addType(2, 9, 5, 1)`. -/
def threeTypes : ParticlePropertiesLibrary :=
  (ParticlePropertiesLibrary.new 1 1 1).register sqrtRat [(1, 4, 3, 1), (2, 9, 5, 1)]

end MolecularDynamics

/-! ## The coefficient reads in the arithmetic of `int`
(`examples/fmm/AdaptiveOctreeNode.cpp`) -/

namespace Fmm

namespace Int32

/-- The value that an expression of type `int` takes when its exact value is `x`:
the representative of `x` modulo `2^32` in `[-2^31, 2^31)`.  Overflow of signed
arithmetic is undefined in the language; this is the two's-complement result of the
usual targets. -/
def wrap (x : Int) : Int := (x + 2 ^ 31) % 2 ^ 32 - 2 ^ 31

/-- The values of the type `int`. -/
def inRange (x : Int) : Prop := -2 ^ 31 ≤ x ∧ x < 2 ^ 31

instance (x : Int) : Decidable (inRange x) := by
  unfold inRange
  exact inferInstance

/-- The least value of the type `int`. -/
def INT_MIN : Int := -2 ^ 31

/-- The call `std::abs(m)` on an `int`. -/
def stdAbs (m : Int) : Int := wrap |m|

/-- The variable `int indexM = 2 * std::abs(m) + offset` of `getM` and `getL`. -/
def indexM (m : Int) : Int :=
  let offset : Int := if m ≤ 0 then 0 else -1
  wrap (wrap (2 * stdAbs m) + offset)

/-- The body shared by `getM` and `getL` for the arguments `int m, int n`: the two
range checks against `static_cast<int>(matrix.size())` and
`static_cast<int>(matrix[0].size())`, then `matrix.at(indexM).at(n)`; `none` is the
exception of `at`. -/
def getCoefficient (matrix : ComplexMatrix) (m n : Int) : Option Complex :=
  if indexM m < 0 ∨ indexM m ≥ wrap (matrix.length : Int) then some (0, 0)
  else if n < 0 ∨ n ≥ wrap ((matrix.getD 0 []).length : Int) then some (0, 0)
  else
    match matrix.get? (indexM m).toNat with
    | none => none
    | some row => row.get? n.toNat

/-- Source function `AdaptiveOctreeNode::getM`, with the arithmetic of `int`.
`NodeData.getM` is the same function with exact integers. -/
def getM (self : NodeData) (m n : Int) : Option Complex := getCoefficient self.fmmM m n

/-- Source function `AdaptiveOctreeNode::getL`, with the arithmetic of `int`.
`NodeData.getL` is the same function with exact integers. -/
def getL (self : NodeData) (m n : Int) : Option Complex := getCoefficient self.fmmL m n

end Int32

/-- A node of order 2 all of whose coefficients are different from zero: row `i`,
column `n` holds `(i + 1, n + 1)` in `fmmM` and `(-(i + 1), n + 1)` in `fmmL`. -/
def filledNodeData : NodeData :=
  { sampleNodeData with
    fmmM := (List.range 5).map fun i => (List.range 3).map fun n => ((i : ℚ) + 1, (n : ℚ) + 1),
    fmmL := (List.range 5).map fun i => (List.range 3).map fun n => (-((i : ℚ) + 1), (n : ℚ) + 1),
    isZeroM := false,
    isZeroL := false }

end Fmm

namespace Fmm

/-- A tree like `sampleOctree` without particles and with the minimal depth 2: the
constructor divides the root and its children, so all 64 leaves have depth 2. -/
def uniformOctree : AdaptiveOctree := { sampleOctree [] with minDepth := 2 }

/-- The root node built for `uniformOctree` over the cube from 0 to 8. -/
def uniformRoot : AdaptiveOctreeNode :=
  (AdaptiveOctreeNode.construct uniformOctree 3 0 (0, 0, 0) (8, 8, 8)).getD
    (AdaptiveOctreeNode.leaf sampleNodeData)

end Fmm

theorem quot_rem_unique {D q r q2 r2 : Nat} (hr : r < D) (hr2 : r2 < D)
    (h : q * D + r = q2 * D + r2) : q = q2 ∧ r = r2 := by
  have hq : q = q2 := by
    rcases Nat.lt_trichotomy q q2 with hlt | heq | hgt
    · have := Nat.mul_le_mul_right D (show q + 1 ≤ q2 from hlt)
      rw [Nat.add_mul, Nat.one_mul] at this
      omega
    · exact heq
    · have := Nat.mul_le_mul_right D (show q2 + 1 ≤ q from hgt)
      rw [Nat.add_mul, Nat.one_mul] at this
      omega
  subst hq
  exact ⟨rfl, by omega⟩

theorem cellIndex_injective {dims : Dims} {a b : Coord} (ha : inGrid dims a) (hb : inGrid dims b)
    (h : cellIndex dims a = cellIndex dims b) : a = b := by
  obtain ⟨ax, ay, az⟩ := a
  obtain ⟨bx, b_y, bz⟩ := b
  simp only [inGrid, cellIndex, threeToOneD] at ha hb h
  obtain ⟨h1, hx⟩ := quot_rem_unique ha.1 hb.1 h
  obtain ⟨hz, hy⟩ := quot_rem_unique ha.2.1 hb.2.1 h1
  simp [hx, hy, hz]

theorem cellIndex_lt {dims : Dims} {a : Coord} (ha : inGrid dims a) :
    cellIndex dims a < dims.x * dims.y * dims.z := by
  obtain ⟨ax, ay, az⟩ := a
  simp only [inGrid, cellIndex, threeToOneD] at ha ⊢
  obtain ⟨hx, hy, hz⟩ := ha
  have h1 : az * dims.y + ay + 1 ≤ dims.z * dims.y := by
    have := Nat.mul_le_mul_right dims.y (show az + 1 ≤ dims.z from hz)
    rw [Nat.add_mul, Nat.one_mul] at this
    omega
  have h2 := Nat.mul_le_mul_right dims.x h1
  rw [Nat.add_mul, Nat.one_mul] at h2
  have h3 : dims.z * dims.y * dims.x = dims.x * dims.y * dims.z := by ring
  omega

theorem processOffsets_ok (numCells baseIndex : Nat) (offs : List (Nat × Nat))
    (h : ∀ p ∈ offs, baseIndex + p.1 < numCells ∧ baseIndex + p.2 < numCells) :
    processOffsets numCells baseIndex offs = some (offs.map fun p =>
      if baseIndex + p.1 = baseIndex + p.2 then CellCall.processCell (baseIndex + p.1)
      else CellCall.processCellPair (baseIndex + p.1) (baseIndex + p.2)) := by
  induction offs with
  | nil => rfl
  | cons p ps ih =>
    have hp := h p (List.mem_cons_self _ _)
    have ih2 := ih (fun q hq => h q (List.mem_cons_of_mem _ hq))
    simp only [processOffsets, hp, and_self, if_true, ih2, Option.map_some', List.map_cons]

theorem processBaseCells_ok (numCells : Nat) (dims : Dims) (l : List Nat)
    (h : ∀ b ∈ l, processBaseCell numCells dims b = some (baseCellCalls dims b)) :
    processBaseCells numCells dims l = some (l.flatMap (baseCellCalls dims)) := by
  induction l with
  | nil => rfl
  | cons b bs ih =>
    have hb := h b (List.mem_cons_self _ _)
    have ih2 := ih (fun q hq => h q (List.mem_cons_of_mem _ hq))
    simp only [processBaseCells, hb, ih2, Option.map_some', List.flatMap_cons]

theorem cellIndex_expand (dims : Dims) (x y z : Nat) :
    cellIndex dims (x, y, z) = x + y * dims.x + z * (dims.y * dims.x) := by
  simp only [cellIndex, threeToOneD]; ring

theorem baseCellCalls_cellIndex (dims : Dims) (hx : 2 ≤ dims.x) (hy : 2 ≤ dims.y) (b : Coord) :
    baseCellCalls dims (cellIndex dims b) = (callsAt b).map (encCall dims) := by
  obtain ⟨x, y, z⟩ := b
  have hP : 2 * dims.x ≤ dims.y * dims.x := Nat.mul_le_mul_right _ hy
  simp only [baseCellCalls, computeOffsets, callsAt, encCall, List.map_cons, List.map_nil]
  have e : ∀ a b c : Nat, threeToOneD a b c dims = a + b * dims.x + c * (dims.y * dims.x) := 
    fun a b c => cellIndex_expand dims a b c
  simp only [cellIndex_expand, e, Nat.add_mul, Nat.one_mul, Nat.zero_mul, Nat.zero_add, Nat.add_zero]
  generalize dims.y * dims.x = P at hP
  generalize y * dims.x = Y
  generalize z * P = Z
  have h1 : ¬ (x + Y + Z + dims.x = x + Y + Z + P) := by omega
  have h2 : ¬ (x + Y + Z + 0 = x + Y + Z + dims.x) := by omega
  simp [h1, h2]
  repeat' apply And.intro
  all_goals first
    | omega
    | (split_ifs <;> first
        | omega
        | (simp only [CellCall.processCellPair.injEq, true_and]; omega))

theorem nodup_flatMap_of_key {α β : Type} (g : β → α) (l : List α) (f : α → List β)
    (hl : l.Nodup) (hf : ∀ a ∈ l, (f a).Nodup) (hg : ∀ a ∈ l, ∀ b ∈ f a, g b = a) :
    (l.flatMap f).Nodup := by
  rw [List.nodup_flatMap]
  refine ⟨hf, hl.pairwise_of_forall_ne ?_⟩
  intro a ha b hb hab
  intro c hca hcb
  exact hab ((hg a ha c hca).symm.trans (hg b hb c hcb))

theorem mem_baseCoords (dims : Dims) (b : Coord) :
    b ∈ baseCoords dims ↔ b.1 + 1 < dims.x ∧ b.2.1 + 1 < dims.y ∧ b.2.2 + 1 < dims.z := by
  obtain ⟨x, y, z⟩ := b
  simp only [baseCoords, List.mem_flatMap, List.mem_map, List.mem_range, Prod.mk.injEq]
  constructor
  · rintro ⟨z2, hz, y2, hy, x2, hx, rfl, rfl, rfl⟩
    omega
  · rintro ⟨hx, hy, hz⟩
    exact ⟨z, by omega, y, by omega, x, by omega, rfl, rfl, rfl⟩

theorem baseCoords_nodup (dims : Dims) : (baseCoords dims).Nodup := by
  unfold baseCoords
  refine nodup_flatMap_of_key (fun b => b.2.2) _ _ (List.nodup_range _) ?_ ?_
  · intro z _
    refine nodup_flatMap_of_key (fun b => b.2.1) _ _ (List.nodup_range _) ?_ ?_
    · intro y _
      refine (List.nodup_range _).map ?_
      intro a b h
      simpa using h
    · intro y _ b hb
      simp only [List.mem_map] at hb
      obtain ⟨x, _, rfl⟩ := hb
      rfl
  · intro z _ b hb
    simp only [List.mem_flatMap, List.mem_map] at hb
    obtain ⟨y, _, x, _, rfl⟩ := hb
    rfl

theorem fullScanBaseIndices_eq (dims : Dims) :
    fullScanBaseIndices dims = (baseCoords dims).map (cellIndex dims) := by
  simp only [fullScanBaseIndices, baseCoords, List.map_flatMap, List.map_map]
  rfl

theorem mem_callsAt_pair (x y z : Nat) (a b : Coord) :
    Call3.pair a b ∈ callsAt (x, y, z) ↔
      (a = (x, y, z) ∧ b = (x, y + 1, z)) ∨ (a = (x, y + 1, z) ∧ b = (x, y, z + 1)) ∨
      (a = (x, y, z) ∧ b = (x, y, z + 1)) ∨ (a = (x, y, z) ∧ b = (x, y + 1, z + 1)) ∨
      (a = (x + 1, y, z) ∧ b = (x, y + 1, z + 1)) ∨ (a = (x + 1, y, z) ∧ b = (x, y + 1, z)) ∨
      (a = (x + 1, y, z) ∧ b = (x, y, z + 1)) ∨ (a = (x, y, z) ∧ b = (x + 1, y, z)) ∨
      (a = (x, y, z) ∧ b = (x + 1, y + 1, z)) ∨ (a = (x + 1, y + 1, z) ∧ b = (x, y, z + 1)) ∨
      (a = (x, y + 1, z) ∧ b = (x + 1, y, z + 1)) ∨ (a = (x, y, z) ∧ b = (x + 1, y, z + 1)) ∨
      (a = (x, y, z) ∧ b = (x + 1, y + 1, z + 1)) := by
  simp [callsAt]

theorem mem_callsAt_cell (x y z : Nat) (a : Coord) :
    Call3.cell a ∈ callsAt (x, y, z) ↔ a = (x, y, z) := by
  simp [callsAt]

theorem baseOf_of_mem (b : Coord) (c : Call3) (h : c ∈ callsAt b) : baseOf c = b := by
  obtain ⟨x, y, z⟩ := b
  cases c with
  | cell a =>
    rw [mem_callsAt_cell] at h
    simpa [baseOf] using h
  | pair a d =>
    rw [mem_callsAt_pair] at h
    obtain ⟨ax, ay, az⟩ := a
    obtain ⟨d1, d2, d3⟩ := d
    simp only [Prod.mk.injEq] at h
    simp only [baseOf, Prod.mk.injEq]
    omega

theorem callsAt_nodup (b : Coord) : (callsAt b).Nodup := by
  obtain ⟨x, y, z⟩ := b
  simp [callsAt]

theorem computeOffsets_le (dims : Dims) (p : Nat × Nat) (hp : p ∈ computeOffsets dims) :
    p.1 ≤ threeToOneD 1 1 1 dims ∧ p.2 ≤ threeToOneD 1 1 1 dims := by
  simp only [computeOffsets, threeToOneD, List.mem_cons, List.mem_singleton, List.not_mem_nil,
    or_false, Nat.zero_mul, Nat.one_mul, Nat.zero_add, Nat.add_zero, Nat.add_mul] at hp ⊢
  rcases hp with h | h | h | h | h | h | h | h | h | h | h | h | h | h <;> subst h <;>
    simp only <;> omega

theorem processBaseCell_ok (numCells : Nat) (dims : Dims) (b : Coord)
    (hN : numCells = dims.x * dims.y * dims.z) (hb : b ∈ baseCoords dims) :
    processBaseCell numCells dims (cellIndex dims b) = some (baseCellCalls dims (cellIndex dims b)) := by
  unfold processBaseCell baseCellCalls
  apply processOffsets_ok
  intro p hp
  have hle := computeOffsets_le dims p hp
  rw [mem_baseCoords] at hb
  obtain ⟨x, y, z⟩ := b
  have hlt : cellIndex dims (x + 1, y + 1, z + 1) < dims.x * dims.y * dims.z :=
    @cellIndex_lt dims (x + 1, y + 1, z + 1) ⟨hb.1, hb.2.1, hb.2.2⟩
  have hadd : cellIndex dims (x + 1, y + 1, z + 1) =
      cellIndex dims (x, y, z) + threeToOneD 1 1 1 dims := by
    simp only [cellIndex, threeToOneD]; ring
  omega

theorem fullScan_eq (numCells : Nat) (dims : Dims) (hx : 2 ≤ dims.x) (hy : 2 ≤ dims.y)
    (hN : numCells = dims.x * dims.y * dims.z) :
    fullScan numCells dims = some ((scanCalls3 dims).map (encCall dims)) := by
  unfold fullScan
  rw [processBaseCells_ok]
  · congr 1
    rw [fullScanBaseIndices_eq, scanCalls3, List.map_flatMap, List.flatMap_map]
    congr 1
    funext b
    exact baseCellCalls_cellIndex dims hx hy b
  · intro i hi
    rw [fullScanBaseIndices_eq, List.mem_map] at hi
    obtain ⟨b, hb, rfl⟩ := hi
    exact processBaseCell_ok numCells dims b hN hb

theorem mem_scanCalls3 (dims : Dims) (c : Call3) :
    c ∈ scanCalls3 dims ↔ baseOf c ∈ baseCoords dims ∧ c ∈ callsAt (baseOf c) := by
  simp only [scanCalls3, List.mem_flatMap]
  constructor
  · rintro ⟨b, hb, hc⟩
    rw [baseOf_of_mem b c hc]
    exact ⟨hb, hc⟩
  · rintro ⟨hb, hc⟩
    exact ⟨_, hb, hc⟩

theorem scanCalls3_nodup (dims : Dims) : (scanCalls3 dims).Nodup :=
  nodup_flatMap_of_key baseOf _ _ (baseCoords_nodup dims) (fun b _ => callsAt_nodup b)
    (fun b _ c hc => baseOf_of_mem b c hc)

theorem callInGrid_of_mem (dims : Dims) (c : Call3) (h : c ∈ scanCalls3 dims) :
    callInGrid dims c := by
  simp only [scanCalls3, List.mem_flatMap] at h
  obtain ⟨⟨x, y, z⟩, hb, hc⟩ := h
  rw [mem_baseCoords] at hb
  cases c with
  | cell a =>
    rw [mem_callsAt_cell] at hc
    subst hc
    simp only [callInGrid, inGrid] at hb ⊢
    omega
  | pair a d =>
    rw [mem_callsAt_pair] at hc
    obtain ⟨ax, ay, az⟩ := a
    obtain ⟨d1, d2, d3⟩ := d
    simp only [Prod.mk.injEq] at hc
    simp only [callInGrid, inGrid] at hb ⊢
    omega

theorem encCall_injOn (dims : Dims) (c d : Call3) (hc : callInGrid dims c)
    (hd : callInGrid dims d) (h : encCall dims c = encCall dims d) : c = d := by
  cases c with
  | cell a =>
    cases d with
    | cell b =>
      simp only [encCall, CellCall.processCell.injEq] at h
      rw [cellIndex_injective hc hd h]
    | pair b1 b2 => simp [encCall] at h
  | pair a1 a2 =>
    cases d with
    | cell b => simp [encCall] at h
    | pair b1 b2 =>
      simp only [encCall, CellCall.processCellPair.injEq] at h
      rw [cellIndex_injective hc.1 hd.1 h.1, cellIndex_injective hc.2 hd.2 h.2]

theorem count_encCall (dims : Dims) (c : Call3) (hc : callInGrid dims c) :
    ((scanCalls3 dims).map (encCall dims)).count (encCall dims c) =
      if c ∈ scanCalls3 dims then 1 else 0 := by
  have hnd : ((scanCalls3 dims).map (encCall dims)).Nodup :=
    List.Nodup.map_on (fun a ha b hb hab =>
      encCall_injOn dims a b (callInGrid_of_mem dims a ha) (callInGrid_of_mem dims b hb) hab)
      (scanCalls3_nodup dims)
  split_ifs with hmem
  · exact List.count_eq_one_of_mem hnd (List.mem_map_of_mem _ hmem)
  · apply List.count_eq_zero_of_not_mem
    intro hin
    rw [List.mem_map] at hin
    obtain ⟨d, hd, hdc⟩ := hin
    have := encCall_injOn dims d c (callInGrid_of_mem dims d hd) hc hdc
    exact hmem (this ▸ hd)

theorem near_cases (a b : Nat) (h : a ≤ b + 1 ∧ b ≤ a + 1) : b = a ∨ b = a + 1 ∨ a = b + 1 := by
  omega

theorem pair_mem_xor (dims : Dims) (a b : Coord) (ha : inGrid dims a) (hb : inGrid dims b)
    (hne : a ≠ b) (hadj : adjacent a b) (hnh : nonHalo dims a ∨ nonHalo dims b) :
    (Call3.pair a b ∈ scanCalls3 dims ∧ Call3.pair b a ∉ scanCalls3 dims) ∨
      (Call3.pair a b ∉ scanCalls3 dims ∧ Call3.pair b a ∈ scanCalls3 dims) := by
  obtain ⟨ax, ay, az⟩ := a
  obtain ⟨bx, b_y, bz⟩ := b
  simp only [inGrid, nonHalo, adjacent, ne_eq, Prod.mk.injEq] at ha hb hne hadj hnh
  obtain ⟨h1, h2, h3⟩ := hadj
  simp only [mem_scanCalls3, mem_baseCoords, baseOf, mem_callsAt_pair, Prod.mk.injEq]
  rcases near_cases ax bx h1 with e1 | e1 | e1 <;>
  rcases near_cases ay b_y h2 with e2 | e2 | e2 <;>
  rcases near_cases az bz h3 with e3 | e3 | e3 <;>
  subst e1 <;> subst e2 <;> subst e3 <;>
  simp [Nat.min_def] <;> omega

theorem cell_mem (dims : Dims) (a : Coord) (hnh : nonHalo dims a) :
    Call3.cell a ∈ scanCalls3 dims := by
  obtain ⟨ax, ay, az⟩ := a
  simp only [nonHalo] at hnh
  simp only [mem_scanCalls3, mem_baseCoords, baseOf, mem_callsAt_cell, and_true]
  omega

namespace LJFunctor

theorem AoSFunctor_eq (fn : LJFunctor) (threadnum : Nat) (i j : Particle) (newton3 : Bool) :
    fn.AoSFunctor threadnum i j newton3 =
      if interacts fn i j then
        (addGlobals fn threadnum i j newton3, i.addF (pairForce fn i j),
          if newton3 then j.subF (pairForce fn i j) else j)
      else (fn, i, j) := by
  unfold AoSFunctor interacts
  by_cases hd : (i.isDummy || j.isDummy) = true
  · simp [hd]
  · by_cases hc : dr2 i j > fn.cutoffsquare
    · have hc2 : ArrayMath.dot (ArrayMath.sub i.r j.r) (ArrayMath.sub i.r j.r) > fn.cutoffsquare := hc
      simp [hd, hc, hc2]
    · have hc2 : ¬ ArrayMath.dot (ArrayMath.sub i.r j.r) (ArrayMath.sub i.r j.r) > fn.cutoffsquare := hc
      simp only [hd, hc, hc2, if_false, Bool.false_eq_true, Bool.not_false, decide_False,
        Bool.and_self, if_true]
      unfold addGlobals
      cases newton3 <;> by_cases hg : fn.calculateGlobals = true <;>
        simp only [hg, if_true, if_false, Bool.false_eq_true, Bool.false_and, Bool.true_and] <;>
        rfl

theorem key_comm (i j : Nat) :
    ParticlePropertiesLibrary.key i j = ParticlePropertiesLibrary.key j i := by
  unfold ParticlePropertiesLibrary.key
  rcases Nat.lt_trichotomy i j with h | h | h
  · simp [h, Nat.lt_asymm h]
  · simp [h]
  · simp [h, Nat.lt_asymm h]

theorem dr2_comm (i j : Particle) : dr2 i j = dr2 j i := by
  simp only [dr2, ArrayMath.dot, ArrayMath.sub]; ring

theorem interacts_comm (fn : LJFunctor) (i j : Particle) : interacts fn i j = interacts fn j i := by
  simp only [interacts, dr2_comm i j, Bool.or_comm]

theorem pairSigmaSquare_comm (fn : LJFunctor) (i j : Particle) :
    pairSigmaSquare fn i j = pairSigmaSquare fn j i := by
  simp only [pairSigmaSquare, ParticlePropertiesLibrary.mixingSigmaSquare, key_comm i.typeId]

theorem pairEpsilon24_comm (fn : LJFunctor) (i j : Particle) :
    pairEpsilon24 fn i j = pairEpsilon24 fn j i := by
  simp only [pairEpsilon24, ParticlePropertiesLibrary.mixing24Epsilon, key_comm i.typeId]

theorem pairShift6_comm (fn : LJFunctor) (i j : Particle) :
    pairShift6 fn i j = pairShift6 fn j i := by
  simp only [pairShift6, ParticlePropertiesLibrary.mixingShift6, key_comm i.typeId]

theorem pairFac_comm (fn : LJFunctor) (i j : Particle) : pairFac fn i j = pairFac fn j i := by
  simp only [pairFac, dr2_comm i j, pairSigmaSquare_comm fn i j, pairEpsilon24_comm fn i j]

theorem pairUpot_comm (fn : LJFunctor) (i j : Particle) : pairUpot fn i j = pairUpot fn j i := by
  simp only [pairUpot, pairLj12m6, dr2_comm i j, pairSigmaSquare_comm fn i j,
    pairEpsilon24_comm fn i j, pairShift6_comm fn i j]

theorem pairForce_swap (fn : LJFunctor) (i j : Particle) :
    pairForce fn j i = ArrayMath.mulScalar (pairForce fn i j) (-1) := by
  simp only [pairForce, pairFac_comm fn j i, ArrayMath.mulScalar, ArrayMath.sub, Prod.mk.injEq]
  refine ⟨?_, ?_, ?_⟩ <;> ring

theorem pairVirial_comm (fn : LJFunctor) (i j : Particle) :
    pairVirial fn i j = pairVirial fn j i := by
  simp only [pairVirial, ArrayMath.mul, ArrayMath.mulScalar,
    ArrayMath.sub, pairForce, pairFac_comm fn j i, Prod.mk.injEq]
  refine ⟨?_, ?_, ?_⟩ <;> ring

theorem addF_swap (p : Particle) (f : Vec3) :
    p.addF (ArrayMath.mulScalar f (-1)) = p.subF f := by
  simp only [Particle.addF, Particle.subF, ArrayMath.add, ArrayMath.sub, ArrayMath.mulScalar]
  congr 1
  simp only [Prod.mk.injEq]
  refine ⟨?_, ?_, ?_⟩ <;> ring

theorem interacts_false_of (fn : LJFunctor) (i j : Particle)
    (h : i.isDummy = true ∨ j.isDummy = true ∨ dr2 i j > fn.cutoffsquare) :
    interacts fn i j = false := by
  unfold interacts
  rcases h with h | h | h
  · simp [h]
  · simp [h]
  · simp [h]

theorem addGlobals_interacts (fn : LJFunctor) (t : Nat) (a b : Particle) (n : Bool)
    (i j : Particle) : interacts (addGlobals fn t a b n) i j = interacts fn i j := by
  unfold addGlobals
  split_ifs <;> rfl

theorem addGlobals_pairForce (fn : LJFunctor) (t : Nat) (a b : Particle) (n : Bool)
    (i j : Particle) : pairForce (addGlobals fn t a b n) i j = pairForce fn i j := by
  unfold addGlobals
  split_ifs <;> rfl

theorem addGlobals_pairUpot (fn : LJFunctor) (t : Nat) (a b : Particle) (n : Bool)
    (i j : Particle) : pairUpot (addGlobals fn t a b n) i j = pairUpot fn i j := by
  unfold addGlobals
  split_ifs <;> rfl

theorem addGlobals_pairVirial (fn : LJFunctor) (t : Nat) (a b : Particle) (n : Bool)
    (i j : Particle) : pairVirial (addGlobals fn t a b n) i j = pairVirial fn i j := by
  unfold addGlobals
  split_ifs <;> rfl

/-- C6: `AoSFunctor(i, j, newton3)` changes nothing (neither the two particles, so
not their forces, nor the functor with its per-thread accumulators) whenever `i`
is a dummy, `j` is a dummy, or the squared distance exceeds `cutoffsquare`, for
either value of `newton3`. -/
theorem AoSFunctor_noop (fn : LJFunctor) (threadnum : Nat) (i j : Particle) (newton3 : Bool)
    (h : i.isDummy = true ∨ j.isDummy = true ∨
      ArrayMath.dot (ArrayMath.sub i.r j.r) (ArrayMath.sub i.r j.r) > fn.cutoffsquare) :
    fn.AoSFunctor threadnum i j newton3 = (fn, i, j) := by
  rw [AoSFunctor_eq, interacts_false_of fn i j h]
  rfl

/-- C4: the forces after the single call `AoSFunctor(i, j, true)` are those after
the two calls `AoSFunctor(i, j, false)`, `AoSFunctor(j, i, false)`; there is a force
`f` that `i` gains and `j` loses, and the sum of the two forces is unchanged. -/
theorem AoSFunctor_newton3_eq_two_calls (fn : LJFunctor) (threadnum : Nat) (i j : Particle) :
    let once := fn.AoSFunctor threadnum i j true
    let first := fn.AoSFunctor threadnum i j false
    let second := first.1.AoSFunctor threadnum first.2.2 first.2.1 false
    once.2.1 = second.2.2 ∧ once.2.2 = second.2.1 ∧
      (∃ f : Vec3, once.2.1.f = ArrayMath.add i.f f ∧ once.2.2.f = ArrayMath.sub j.f f) ∧
      ArrayMath.add once.2.1.f once.2.2.f = ArrayMath.add i.f j.f := by
  intro once first second
  by_cases hI : interacts fn i j = true
  · have hfirst : first = (addGlobals fn threadnum i j false, i.addF (pairForce fn i j), j) := by
      simp only [first, AoSFunctor_eq, hI, if_true, Bool.false_eq_true, if_false]
    have honce : once = (addGlobals fn threadnum i j true, i.addF (pairForce fn i j),
        j.subF (pairForce fn i j)) := by
      simp only [once, AoSFunctor_eq, hI, if_true]
    have hI2 : interacts (addGlobals fn threadnum i j false) j (i.addF (pairForce fn i j)) =
        true := by
      rw [addGlobals_interacts]
      exact (interacts_comm fn j i).trans hI
    have hF : pairForce (addGlobals fn threadnum i j false) j (i.addF (pairForce fn i j)) =
        ArrayMath.mulScalar (pairForce fn i j) (-1) := by
      rw [addGlobals_pairForce]
      exact pairForce_swap fn i j
    have hsecond : second.2 = (j.subF (pairForce fn i j), i.addF (pairForce fn i j)) := by
      simp only [second, hfirst, AoSFunctor_eq, hI2, if_true, Bool.false_eq_true, if_false, hF,
        addF_swap]
    rw [honce, hsecond]
    refine ⟨rfl, rfl, ⟨pairForce fn i j, rfl, rfl⟩, ?_⟩
    simp only [Particle.addF, Particle.subF, ArrayMath.add, ArrayMath.sub, Prod.mk.injEq]
    refine ⟨?_, ?_, ?_⟩ <;> ring
  · have hI1 : interacts fn i j = false := by simpa using hI
    have hfirst : first = (fn, i, j) := by
      simp only [first, AoSFunctor_eq, hI1, Bool.false_eq_true, if_false]
    have honce : once = (fn, i, j) := by
      simp only [once, AoSFunctor_eq, hI1, Bool.false_eq_true, if_false]
    have hsecond : second = (fn, j, i) := by
      simp only [second, hfirst, AoSFunctor_eq, interacts_comm fn j i, hI1, Bool.false_eq_true,
        if_false]
    rw [honce, hsecond]
    refine ⟨rfl, rfl, ⟨(0, 0, 0), ?_, ?_⟩, rfl⟩
    · simp [ArrayMath.add]
    · simp [ArrayMath.sub]

theorem addGlobals_true (fn : LJFunctor) (t : Nat) (i j : Particle) (n : Bool)
    (hg : fn.calculateGlobals = true) :
    addGlobals fn t i j n =
      (if n && j.isOwned then
        (if i.isOwned then fn.addToThread t (if n then pairUpot fn i j * (1 / 2) else pairUpot fn i j)
            (if n then ArrayMath.mulScalar (pairVirial fn i j) (1 / 2) else pairVirial fn i j)
          else fn).addToThread t (if n then pairUpot fn i j * (1 / 2) else pairUpot fn i j)
            (if n then ArrayMath.mulScalar (pairVirial fn i j) (1 / 2) else pairVirial fn i j)
      else
        (if i.isOwned then fn.addToThread t (if n then pairUpot fn i j * (1 / 2) else pairUpot fn i j)
            (if n then ArrayMath.mulScalar (pairVirial fn i j) (1 / 2) else pairVirial fn i j)
          else fn)) := by
  simp only [addGlobals, hg, if_true]

/-- C5: with `calculateGlobals` and a single thread, the potential energy and the
virial read after `initTraversal; AoSFunctor(i, j, true); endTraversal(true)` equal
those read after `initTraversal; AoSFunctor(i, j, false); AoSFunctor(j, i, false);
endTraversal(false)`; both sequences run without an exception. -/
theorem globals_newton3_equivalence (fn : LJFunctor) (i j : Particle)
    (hg : fn.calculateGlobals = true) (hlen : fn.aosThreadData.length = 1) :
    let run1 := (fn.initTraversal.AoSFunctor 0 i j true).1.endTraversal true
    let first := fn.initTraversal.AoSFunctor 0 i j false
    let run2 := (first.1.AoSFunctor 0 first.2.2 first.2.1 false).1.endTraversal false
    ∃ (f1 f2 : LJFunctor) (u v : ℚ), run1 = some f1 ∧ run2 = some f2 ∧
      f1.getUpot = some u ∧ f2.getUpot = some u ∧
      f1.getVirial = some v ∧ f2.getVirial = some v := by
  intro run1 first run2
  obtain ⟨d, hd⟩ : ∃ d, fn.aosThreadData = [d] := List.length_eq_one.mp hlen
  by_cases hI : interacts fn.initTraversal i j = true
  · have hfirst : first = (addGlobals fn.initTraversal 0 i j false,
        i.addF (pairForce fn.initTraversal i j), j) := by
      simp only [first, AoSFunctor_eq, hI, if_true, Bool.false_eq_true, if_false]
    have hI2 : interacts (addGlobals fn.initTraversal 0 i j false) j
        (i.addF (pairForce fn.initTraversal i j)) = true := by
      rw [addGlobals_interacts]
      exact (interacts_comm fn.initTraversal j i).trans hI
    have hU : pairUpot (addGlobals fn.initTraversal 0 i j false) j
        (i.addF (pairForce fn.initTraversal i j)) = pairUpot fn.initTraversal i j := by
      rw [addGlobals_pairUpot]
      exact pairUpot_comm fn.initTraversal j i
    have hV : pairVirial (addGlobals fn.initTraversal 0 i j false) j
        (i.addF (pairForce fn.initTraversal i j)) = pairVirial fn.initTraversal i j := by
      rw [addGlobals_pairVirial]
      exact pairVirial_comm fn.initTraversal j i
    have hrun1 : run1 = (addGlobals fn.initTraversal 0 i j true).endTraversal true := by
      simp only [run1, AoSFunctor_eq, hI, if_true]
    have hrun2 : run2 = (addGlobals (addGlobals fn.initTraversal 0 i j false) 0 j
        (i.addF (pairForce fn.initTraversal i j)) false).endTraversal false := by
      simp only [run2, hfirst, AoSFunctor_eq, hI2, if_true]
    rw [hrun1, hrun2]
    have hg0 : fn.initTraversal.calculateGlobals = true := hg
    have hg1 : (addGlobals fn.initTraversal 0 i j false).calculateGlobals = true := by
      unfold addGlobals; split_ifs <;> exact hg
    rw [addGlobals_true _ _ _ _ _ hg1, hU, hV, addGlobals_true _ _ _ _ _ hg0,
      addGlobals_true _ _ _ _ _ hg0]
    generalize pairUpot fn.initTraversal i j = U
    generalize pairVirial fn.initTraversal i j = V
    obtain ⟨V1, V2, V3⟩ := V
    have ho : (i.addF (pairForce fn.initTraversal i j)).isOwned = i.isOwned := rfl
    cases hi : i.isOwned <;> cases hj : j.isOwned <;>
      simp [endTraversal, getUpot, getVirial, addToThread, initTraversal, hg, hd, hi, hj, ho,
        AoSThreadData.setZero, ArrayMath.add, ArrayMath.mulScalar, List.modify]
    constructor <;> ring
  · have hI1 : interacts fn.initTraversal i j = false := by simpa using hI
    have hfirst : first = (fn.initTraversal, i, j) := by
      simp only [first, AoSFunctor_eq, hI1, Bool.false_eq_true, if_false]
    have hrun1 : run1 = fn.initTraversal.endTraversal true := by
      simp only [run1, AoSFunctor_eq, hI1, Bool.false_eq_true, if_false]
    have hrun2 : run2 = fn.initTraversal.endTraversal false := by
      simp only [run2, hfirst, AoSFunctor_eq, interacts_comm fn.initTraversal j i, hI1,
        Bool.false_eq_true, if_false]
    rw [hrun1, hrun2]
    simp [endTraversal, getUpot, getVirial, initTraversal, hg, hd,
        AoSThreadData.setZero, ArrayMath.add, ArrayMath.mulScalar]

theorem aos_row_eq_soa_row (G : Nat → Nat → Vec3) (i : Nat) (js : List Nat) (hi : i ∉ js) :
    ∀ (F : Nat → Vec3) (a : Vec3),
      js.foldl (aosPairStep G i) (Function.update F i (F i + a)) =
        soaFinish i (js.foldl (soaPairStep G i) (a, F)) := by
  induction js with
  | nil => intro F a; rfl
  | cons j js ih =>
    intro F a
    have hij : i ≠ j := fun h => hi (h ▸ List.mem_cons_self _ _)
    have hjs : i ∉ js := fun h => hi (List.mem_cons_of_mem _ h)
    simp only [List.foldl_cons]
    have key : aosPairStep G i (Function.update F i (F i + a)) j =
        Function.update (Function.update F j (F j - G i j)) i
          (Function.update F j (F j - G i j) i + (a + G i j)) := by
      unfold aosPairStep
      rw [Function.update_same, Function.update_idem,
        Function.update_noteq (Ne.symm hij), Function.update_noteq hij,
        Function.update_comm hij, add_assoc]
    rw [key, ih hjs]
    rfl

theorem aos_row_zero (G : Nat → Nat → Vec3) (i : Nat) (js : List Nat)
    (hG : ∀ j, G i j = 0) (F : Nat → Vec3) : js.foldl (aosPairStep G i) F = F := by
  induction js with
  | nil => rfl
  | cons j js ih =>
    simp only [List.foldl_cons]
    have : aosPairStep G i F j = F := by
      unfold aosPairStep
      rw [hG j, add_zero, sub_zero, Function.update_eq_self, Function.update_eq_self]
    rw [this, ih]

theorem aosLoop_eq_soaLoop (G : Nat → Nat → Vec3) (skip : Nat → Bool)
    (hG : ∀ i, skip i = true → ∀ j, G i j = 0) (n : Nat) (F : Nat → Vec3) :
    aosLoop G n F = soaLoop G skip n F := by
  unfold aosLoop soaLoop
  congr 1
  funext F i
  have hi : i ∉ List.range' (i + 1) (n - (i + 1)) := by
    intro h
    rw [List.mem_range'_1] at h
    omega
  by_cases hs : skip i = true
  · rw [if_pos hs]
    exact aos_row_zero G i _ (hG i hs) F
  · rw [if_neg hs]
    have := aos_row_eq_soa_row G i _ hi F 0
    rw [add_zero, Function.update_eq_self] at this
    exact this

theorem interacts_congr (fn : LJFunctor) {p p2 q q2 : Particle} (hp : p.r = p2.r)
    (hpo : p.ownershipState = p2.ownershipState) (hq : q.r = q2.r)
    (hqo : q.ownershipState = q2.ownershipState) : interacts fn p q = interacts fn p2 q2 := by
  simp only [interacts, dr2, Particle.isDummy, hp, hpo, hq, hqo]

theorem pairForce_congr (fn : LJFunctor) {p p2 q q2 : Particle} (hp : p.r = p2.r)
    (hpt : p.typeId = p2.typeId) (hq : q.r = q2.r) (hqt : q.typeId = q2.typeId) :
    pairForce fn p q = pairForce fn p2 q2 := by
  simp only [pairForce, pairFac, pairSigmaSquare, pairEpsilon24, dr2, hp, hpt, hq, hqt]

theorem aos_step_rel (fn : LJFunctor) (ps : Nat → Particle) (t i j : Nat) (hij : i ≠ j)
    (st : LJFunctor × (Nat → Particle)) (F : Nat → Vec3) (h : aosRel fn ps st F) :
    aosRel fn ps
      ((st.1.AoSFunctor t (st.2 i) (st.2 j) true).1,
        Function.update (Function.update st.2 i (st.1.AoSFunctor t (st.2 i) (st.2 j) true).2.1) j
          (st.1.AoSFunctor t (st.2 i) (st.2 j) true).2.2)
      (aosPairStep (maskedForce fn ps) i F j) := by
  obtain ⟨hK, hA, hF⟩ := h
  have hint : interacts st.1 (st.2 i) (st.2 j) = interacts fn (ps i) (ps j) :=
    (hK _ _).1.trans (interacts_congr fn (hA i).1 (hA i).2.2 (hA j).1 (hA j).2.2)
  have hpf : pairForce st.1 (st.2 i) (st.2 j) = pairForce fn (ps i) (ps j) :=
    (hK _ _).2.trans (pairForce_congr fn (hA i).1 (hA i).2.1 (hA j).1 (hA j).2.1)
  rw [AoSFunctor_eq, hint, hpf]
  by_cases hI : interacts fn (ps i) (ps j) = true
  · simp only [hI, if_true]
    have hG : maskedForce fn ps i j = pairForce fn (ps i) (ps j) := by
      simp only [maskedForce, hI, if_true]
    refine ⟨?_, ?_, ?_⟩
    · intro a b
      exact ⟨(addGlobals_interacts _ _ _ _ _ a b).trans (hK a b).1,
        (addGlobals_pairForce _ _ _ _ _ a b).trans (hK a b).2⟩
    · intro k
      simp only [Function.update_apply]
      split_ifs with h1 h2
      · subst h1; exact hA k
      · subst h2; exact hA k
      · exact hA k
    · intro k
      simp only [Function.update_apply, aosPairStep, hG]
      split_ifs with h1 h2
      · subst h1
        show ArrayMath.sub _ _ = _
        rw [← hF k]; rfl
      · subst h2
        show ArrayMath.add _ _ = _
        rw [← hF k]; rfl
      · exact hF k
  · have hI1 : interacts fn (ps i) (ps j) = false := by simpa using hI
    simp only [hI1, Bool.false_eq_true, if_false]
    have hG : maskedForce fn ps i j = 0 := by
      simp only [maskedForce, hI1, Bool.false_eq_true, if_false]
    have e1 : Function.update (Function.update st.2 i (st.2 i)) j (st.2 j) = st.2 := by
      rw [Function.update_eq_self, Function.update_eq_self]
    have e2 : aosPairStep (maskedForce fn ps) i F j = F := by
      unfold aosPairStep
      rw [hG, add_zero, sub_zero, Function.update_eq_self, Function.update_eq_self]
    rw [e1, e2]
    exact ⟨hK, hA, hF⟩

theorem aos_row_rel (fn : LJFunctor) (ps : Nat → Particle) (t i : Nat) (js : List Nat)
    (hi : i ∉ js) : ∀ (st : LJFunctor × (Nat → Particle)) (F : Nat → Vec3), aosRel fn ps st F →
    aosRel fn ps
      (js.foldl (fun st j =>
          let r := st.1.AoSFunctor t (st.2 i) (st.2 j) true
          (r.1, Function.update (Function.update st.2 i r.2.1) j r.2.2)) st)
      (js.foldl (aosPairStep (maskedForce fn ps) i) F) := by
  induction js with
  | nil => intro st F h; exact h
  | cons j js ih =>
    intro st F h
    have hij : i ≠ j := fun h => hi (h ▸ List.mem_cons_self _ _)
    have hjs : i ∉ js := fun h => hi (List.mem_cons_of_mem _ h)
    simp only [List.foldl_cons]
    exact ih hjs _ _ (aos_step_rel fn ps t i j hij st F h)

theorem naiveAoS_rel (fn : LJFunctor) (ps : Nat → Particle) (t n : Nat) :
    aosRel fn ps (naiveAoS fn t ps n) (aosLoop (maskedForce fn ps) n (fun k => (ps k).f)) := by
  unfold naiveAoS aosLoop
  have hgen : ∀ (is : List Nat) (st : LJFunctor × (Nat → Particle)) (F : Nat → Vec3),
      aosRel fn ps st F →
      aosRel fn ps
        (is.foldl (fun st i =>
          (List.range' (i + 1) (n - (i + 1))).foldl
            (fun st j =>
              let r := st.1.AoSFunctor t (st.2 i) (st.2 j) true
              (r.1, Function.update (Function.update st.2 i r.2.1) j r.2.2))
            st) st)
        (is.foldl (fun F i =>
          (List.range' (i + 1) (n - (i + 1))).foldl (aosPairStep (maskedForce fn ps) i) F) F) := by
    intro is
    induction is with
    | nil => intro st F h; exact h
    | cons i is ih =>
      intro st F h
      simp only [List.foldl_cons]
      apply ih
      apply aos_row_rel fn ps t i _ _ st F h
      intro hmem
      rw [List.mem_range'_1] at hmem
      omega
  exact hgen _ _ _ ⟨fun _ _ => ⟨rfl, rfl⟩, fun _ => ⟨rfl, rfl, rfl⟩, fun _ => rfl⟩

theorem soaInnerStep_effect (fn : LJFunctor) (soa : SoAView) (i : Nat) (s : SoAState) (j : Nat) :
    ((soaInnerStep fn soa i s j).fxacc, (soaInnerStep fn soa i s j).fyacc,
        (soaInnerStep fn soa i s j).fzacc) = (s.fxacc, s.fyacc, s.fzacc) + soaForce fn soa i j ∧
      SoAForces (soaInnerStep fn soa i s j) =
        Function.update (SoAForces s) j (SoAForces s j - soaForce fn soa i j) := by
  simp only [soaInnerStep, soaForce]
  by_cases hg : fn.calculateGlobals = true
  · rw [if_pos hg]
    refine ⟨rfl, ?_⟩
    funext k
    by_cases hk : k = j
    · subst hk
      simp only [SoAForces, Function.update_same]
      rfl
    · simp only [SoAForces, Function.update_noteq hk]
  · rw [if_neg hg]
    refine ⟨rfl, ?_⟩
    funext k
    by_cases hk : k = j
    · subst hk
      simp only [SoAForces, Function.update_same]
      rfl
    · simp only [SoAForces, Function.update_noteq hk]

theorem soaForce_load (fn : LJFunctor) (ps : Nat → Particle) (n i j : Nat)
    (hi : (ps i).ownershipState ≠ OwnershipState.dummy) :
    soaForce fn (loadSoA ps n) i j = maskedForce fn ps i j := by
  unfold soaForce maskedForce interacts pairForce pairFac pairSigmaSquare pairEpsilon24 dr2
  simp only [loadSoA, Particle.isDummy, ArrayMath.dot, ArrayMath.sub, ArrayMath.mulScalar]
  by_cases hj : (ps j).ownershipState = OwnershipState.dummy
  · simp [hi, hj]
  · by_cases hc : ((ps i).r.1 - (ps j).r.1) * ((ps i).r.1 - (ps j).r.1) +
        ((ps i).r.2.1 - (ps j).r.2.1) * ((ps i).r.2.1 - (ps j).r.2.1) +
        ((ps i).r.2.2 - (ps j).r.2.2) * ((ps i).r.2.2 - (ps j).r.2.2) ≤ fn.cutoffsquare
    · simp [hi, hj, hc, not_lt.mpr hc]
    · simp [hi, hj, hc, not_le.mp hc]

theorem soa_row_rel (fn : LJFunctor) (ps : Nat → Particle) (n i : Nat)
    (hi : (ps i).ownershipState ≠ OwnershipState.dummy) (js : List Nat) :
    ∀ s : SoAState,
      (((js.foldl (soaInnerStep fn (loadSoA ps n) i) s).fxacc,
        (js.foldl (soaInnerStep fn (loadSoA ps n) i) s).fyacc,
        (js.foldl (soaInnerStep fn (loadSoA ps n) i) s).fzacc),
        SoAForces (js.foldl (soaInnerStep fn (loadSoA ps n) i) s)) =
      js.foldl (soaPairStep (maskedForce fn ps) i) ((s.fxacc, s.fyacc, s.fzacc), SoAForces s) := by
  induction js with
  | nil => intro s; rfl
  | cons j js ih =>
    intro s
    simp only [List.foldl_cons]
    rw [ih]
    congr 1
    obtain ⟨h1, h2⟩ := soaInnerStep_effect fn (loadSoA ps n) i s j
    rw [h1, h2, soaForce_load fn ps n i j hi]
    rfl

theorem soaOuterStep_forces (fn : LJFunctor) (ps : Nat → Particle) (n i : Nat) (s : SoAState) :
    SoAForces (soaOuterStep fn (loadSoA ps n) s i) =
      if decide ((ps i).ownershipState = OwnershipState.dummy) = true then SoAForces s
      else soaFinish i ((List.range' (i + 1) (n - (i + 1))).foldl
        (soaPairStep (maskedForce fn ps) i) (0, SoAForces s)) := by
  unfold soaOuterStep
  by_cases hd : (ps i).ownershipState = OwnershipState.dummy
  · have : (loadSoA ps n).ownershipState i = OwnershipState.dummy := hd
    simp only [this, hd, if_true, decide_True]
  · have hd2 : ¬ (loadSoA ps n).ownershipState i = OwnershipState.dummy := hd
    simp only [hd2, hd, if_false, decide_False, Bool.false_eq_true]
    have hrow := soa_row_rel fn ps n i hd (List.range' (i + 1) (n - (i + 1)))
      { s with fxacc := 0, fyacc := 0, fzacc := 0 }
    have hn : (loadSoA ps n).numParticles = n := rfl
    rw [hn]
    have e0 : ((0 : ℚ), (0 : ℚ), (0 : ℚ)) = (0 : Vec3) := rfl
    have e1 : SoAForces { s with fxacc := 0, fyacc := 0, fzacc := 0 } = SoAForces s := rfl
    simp only [e0, e1] at hrow
    rw [← hrow]
    funext k
    simp only [SoAForces, soaFinish, Function.update_apply]
    split_ifs <;> rfl

theorem soa_outer_rel (fn : LJFunctor) (ps : Nat → Particle) (n : Nat) (is : List Nat) :
    ∀ s : SoAState,
      SoAForces (is.foldl (soaOuterStep fn (loadSoA ps n)) s) =
        is.foldl (fun F i =>
          if decide ((ps i).ownershipState = OwnershipState.dummy) = true then F
          else soaFinish i ((List.range' (i + 1) (n - (i + 1))).foldl
            (soaPairStep (maskedForce fn ps) i) (0, F))) (SoAForces s) := by
  induction is with
  | nil => intro s; rfl
  | cons i is ih =>
    intro s
    simp only [List.foldl_cons]
    rw [ih, soaOuterStep_forces]

theorem maskedForce_dummy (fn : LJFunctor) (ps : Nat → Particle) (i : Nat)
    (h : decide ((ps i).ownershipState = OwnershipState.dummy) = true) (j : Nat) :
    maskedForce fn ps i j = 0 := by
  have hd : (ps i).isDummy = true := h
  simp only [maskedForce, interacts, hd, Bool.true_or, Bool.not_true, Bool.false_and,
    Bool.false_eq_true, if_false]

theorem SoAFunctorSingle_forces (fn : LJFunctor) (t : Nat) (ps : Nat → Particle) (n : Nat)
    (newton3 : Bool) (k : Nat) :
    ((fn.SoAFunctorSingle t (loadSoA ps n) newton3).2.forceX k,
      (fn.SoAFunctorSingle t (loadSoA ps n) newton3).2.forceY k,
      (fn.SoAFunctorSingle t (loadSoA ps n) newton3).2.forceZ k) =
      soaLoop (maskedForce fn ps)
        (fun i => decide ((ps i).ownershipState = OwnershipState.dummy)) n
        (fun k => (ps k).f) k := by
  unfold SoAFunctorSingle
  have hn : (loadSoA ps n).numParticles = n := rfl
  rw [hn]
  by_cases h0 : n = 0
  · subst h0
    simp only [if_true]
    rfl
  · simp only [h0, if_false]
    have hout := soa_outer_rel fn ps n (List.range n)
      { fxacc := 0, fyacc := 0, fzacc := 0,
        forceX := (loadSoA ps n).forceX, forceY := (loadSoA ps n).forceY,
        forceZ := (loadSoA ps n).forceZ,
        upotSum := 0, virialSumX := 0, virialSumY := 0, virialSumZ := 0 }
    have hk := congrFun hout k
    unfold soaLoop
    split_ifs <;> exact hk

end LJFunctor

namespace VerletClusterLists

theorem rebuild_flags (cbrt : ℚ → ℚ) (s : VerletClusterLists) :
    (rebuild cbrt s).neighborListIsValid = true ∧
      (rebuild cbrt s).traversalsSinceLastRebuild = 0 ∧
      (rebuild cbrt s).rebuildFrequency = s.rebuildFrequency ∧
      (rebuild cbrt s).rebuildCount = s.rebuildCount + 1 :=
  ⟨rfl, rfl, rfl, rfl⟩

theorem iterate_rebuilds (cbrt : ℚ → ℚ) (s : VerletClusterLists) (n3 : Bool)
    (hf : 1 ≤ s.rebuildFrequency) (h : needsRebuild s = true) :
    (iteratePairwiseAoS cbrt s n3).1.neighborListIsValid = true ∧
      (iteratePairwiseAoS cbrt s n3).1.traversalsSinceLastRebuild = 1 ∧
      (iteratePairwiseAoS cbrt s n3).1.rebuildFrequency = s.rebuildFrequency ∧
      (iteratePairwiseAoS cbrt s n3).1.rebuildCount = s.rebuildCount + 1 := by
  obtain ⟨h1, h2, h3, h4⟩ := rebuild_flags cbrt s
  have hn : needsRebuild (rebuild cbrt s) = false := by
    simp only [needsRebuild, h1, h2, h3, Bool.not_true, Bool.false_or, decide_eq_false_iff_not]
    omega
  simp only [iteratePairwiseAoS, traverseVerletLists, h, hn, if_true, Bool.false_eq_true,
    if_false, h1, h2, h3, h4]
  exact ⟨trivial, by norm_num, trivial, trivial⟩

theorem iterate_keeps (cbrt : ℚ → ℚ) (s : VerletClusterLists) (n3 : Bool)
    (h : needsRebuild s = false) :
    (iteratePairwiseAoS cbrt s n3).1.neighborListIsValid = s.neighborListIsValid ∧
      (iteratePairwiseAoS cbrt s n3).1.traversalsSinceLastRebuild =
        (s.traversalsSinceLastRebuild + 1) % 2 ^ 32 ∧
      (iteratePairwiseAoS cbrt s n3).1.rebuildFrequency = s.rebuildFrequency ∧
      (iteratePairwiseAoS cbrt s n3).1.rebuildCount = s.rebuildCount := by
  simp only [iteratePairwiseAoS, traverseVerletLists, h, Bool.false_eq_true, if_false]
  exact ⟨trivial, trivial, trivial, trivial⟩

theorem succ_mod_cases (a f : Nat) (hf : 1 ≤ f) :
    (a % f + 1 = f ∧ (a + 1) % f = 0) ∨ (a % f + 1 < f ∧ (a + 1) % f = a % f + 1) := by
  have hlt : a % f < f := Nat.mod_lt _ hf
  rcases Nat.lt_or_ge (a % f + 1) f with h | h
  · right
    refine ⟨h, ?_⟩
    rw [Nat.add_mod, Nat.mod_eq_of_lt (show a % f + 1 % f < f from ?_)]
    · rcases Nat.lt_or_ge 1 f with h1 | h1
      · rw [Nat.mod_eq_of_lt h1]
      · omega
    · rcases Nat.lt_or_ge 1 f with h1 | h1
      · rw [Nat.mod_eq_of_lt h1]; exact h
      · omega
  · left
    have he : a % f + 1 = f := by omega
    refine ⟨he, ?_⟩
    have hdiv := Nat.div_add_mod a f
    have : a + 1 = f * (a / f + 1) := by
      rw [Nat.mul_add, Nat.mul_one]
      omega
    rw [this, Nat.mul_mod_right]

theorem afterCalls_invariant (cbrt : ℚ → ℚ) (n3 : Nat → Bool) (s : VerletClusterLists)
    (hf : 1 ≤ s.rebuildFrequency) (hf32 : s.rebuildFrequency < 2 ^ 32)
    (hv : s.neighborListIsValid = true) (hc : s.traversalsSinceLastRebuild = 0) (k : Nat) :
    (afterCalls cbrt n3 s k).neighborListIsValid = true ∧
      (afterCalls cbrt n3 s k).rebuildFrequency = s.rebuildFrequency ∧
      (afterCalls cbrt n3 s k).traversalsSinceLastRebuild =
        (if k = 0 then 0 else (k - 1) % s.rebuildFrequency + 1) ∧
      (afterCalls cbrt n3 s (k + 1)).rebuildCount = (afterCalls cbrt n3 s k).rebuildCount +
        (if 2 ≤ k + 1 ∧ s.rebuildFrequency ∣ k then 1 else 0) := by
  induction k with
  | zero =>
    refine ⟨hv, rfl, by simpa using hc, ?_⟩
    have hn : needsRebuild s = false := by
      simp only [needsRebuild, hv, hc, Bool.not_true, Bool.false_or, decide_eq_false_iff_not]
      omega
    simpa [afterCalls] using (iterate_keeps cbrt s (n3 0) hn).2.2.2
  | succ k ih =>
    obtain ⟨ihv, ihf, ihc, -⟩ := ih
    have hlt : (k % s.rebuildFrequency) < s.rebuildFrequency := Nat.mod_lt _ hf
    -- the state reached by call k + 1
    have hstep : (afterCalls cbrt n3 s (k + 1)).neighborListIsValid = true ∧
        (afterCalls cbrt n3 s (k + 1)).rebuildFrequency = s.rebuildFrequency ∧
        (afterCalls cbrt n3 s (k + 1)).traversalsSinceLastRebuild =
          k % s.rebuildFrequency + 1 := by
      by_cases hn : needsRebuild (afterCalls cbrt n3 s k) = true
      · obtain ⟨a, b, c, -⟩ := iterate_rebuilds cbrt _ (n3 k) (by rw [ihf]; exact hf) hn
        refine ⟨a, c.trans ihf, ?_⟩
        show (iteratePairwiseAoS cbrt (afterCalls cbrt n3 s k) (n3 k)).1.traversalsSinceLastRebuild = _
        rw [b]
        simp only [needsRebuild, ihv, ihc, ihf, Bool.not_true, Bool.false_or,
          decide_eq_true_eq] at hn
        rcases Nat.eq_zero_or_pos k with hk | hk
        · subst hk; simp at hn; omega
        · have hk0 : k ≠ 0 := by omega
          simp only [hk0, if_false] at hn
          rcases succ_mod_cases (k - 1) s.rebuildFrequency hf with ⟨h1, h2⟩ | ⟨h1, h2⟩
          · have : k - 1 + 1 = k := by omega
            rw [this] at h2
            omega
          · omega
      · have hn1 : needsRebuild (afterCalls cbrt n3 s k) = false := by simpa using hn
        obtain ⟨a, b, c, -⟩ := iterate_keeps cbrt _ (n3 k) hn1
        refine ⟨a.trans ihv, c.trans ihf, ?_⟩
        show (iteratePairwiseAoS cbrt (afterCalls cbrt n3 s k) (n3 k)).1.traversalsSinceLastRebuild = _
        rw [b, ihc]
        simp only [needsRebuild, ihv, ihc, ihf, Bool.not_true, Bool.false_or,
          decide_eq_false_iff_not, not_le] at hn1
        rcases Nat.eq_zero_or_pos k with hk | hk
        · subst hk
          simp only [if_true, Nat.zero_mod]
          norm_num
        · have hk0 : k ≠ 0 := by omega
          simp only [hk0, if_false] at hn1 ⊢
          rcases succ_mod_cases (k - 1) s.rebuildFrequency hf with ⟨h1, h2⟩ | ⟨h1, h2⟩
          · omega
          · have : k - 1 + 1 = k := by omega
            rw [this] at h2
            rw [h2, Nat.mod_eq_of_lt]
            omega
    obtain ⟨sv, sf, sc⟩ := hstep
    refine ⟨sv, sf, by simpa using sc, ?_⟩
    -- whether call k + 2 rebuilds
    have hdvd : s.rebuildFrequency ∣ (k + 1) ↔ k % s.rebuildFrequency + 1 = s.rebuildFrequency := by
      rw [Nat.dvd_iff_mod_eq_zero]
      rcases succ_mod_cases k s.rebuildFrequency hf with ⟨h1, h2⟩ | ⟨h1, h2⟩
      · simp [h1, h2]
      · constructor
        · intro h; omega
        · intro h; omega
    by_cases hn : needsRebuild (afterCalls cbrt n3 s (k + 1)) = true
    · obtain ⟨-, -, -, d⟩ := iterate_rebuilds cbrt _ (n3 (k + 1)) (by rw [sf]; exact hf) hn
      show (iteratePairwiseAoS cbrt (afterCalls cbrt n3 s (k + 1)) (n3 (k + 1))).1.rebuildCount = _
      rw [d]
      simp only [needsRebuild, sv, sc, sf, Bool.not_true, Bool.false_or, decide_eq_true_eq] at hn
      have : s.rebuildFrequency ∣ (k + 1) := hdvd.mpr (by omega)
      simp [this]
    · have hn1 : needsRebuild (afterCalls cbrt n3 s (k + 1)) = false := by simpa using hn
      obtain ⟨-, -, -, d⟩ := iterate_keeps cbrt _ (n3 (k + 1)) hn1
      show (iteratePairwiseAoS cbrt (afterCalls cbrt n3 s (k + 1)) (n3 (k + 1))).1.rebuildCount = _
      rw [d]
      simp only [needsRebuild, sv, sc, sf, Bool.not_true, Bool.false_or,
        decide_eq_false_iff_not, not_le] at hn1
      have : ¬ s.rebuildFrequency ∣ (k + 1) := fun h => by
        have := hdvd.mp h
        omega
      simp [this]

theorem iterate_after_invalidate (cbrt : ℚ → ℚ) (s : VerletClusterLists) (n3 : Bool)
    (h : s.neighborListIsValid = false) :
    s.rebuildCount < (iteratePairwiseAoS cbrt s n3).1.rebuildCount := by
  have hn : needsRebuild s = true := by simp [needsRebuild, h]
  obtain ⟨-, -, -, h4⟩ := rebuild_flags cbrt s
  by_cases hn2 : needsRebuild (rebuild cbrt s) = true
  · obtain ⟨-, -, -, h5⟩ := rebuild_flags cbrt (rebuild cbrt s)
    simp only [iteratePairwiseAoS, traverseVerletLists, hn, hn2, if_true, h4, h5]
    omega
  · have hn3 : needsRebuild (rebuild cbrt s) = false := by simpa using hn2
    simp only [iteratePairwiseAoS, traverseVerletLists, hn, hn3, if_true, Bool.false_eq_true,
      if_false, h4]
    omega

/-- C9: `needsRebuild` is true exactly when the list is invalid or the counter has
reached `rebuildFrequency`; after `addParticle` and after `updateContainer` the next
`iteratePairwiseAoS` rebuilds whatever the counter is; after `rebuild` the list is
valid and the counter is 0. -/
theorem needsRebuild_and_invalidation (cbrt : ℚ → ℚ) (s : VerletClusterLists) (p : Particle)
    (n3 : Bool) :
    (needsRebuild s = true ↔
      (s.neighborListIsValid = false ∨ s.traversalsSinceLastRebuild ≥ s.rebuildFrequency)) ∧
    s.rebuildCount < (iteratePairwiseAoS cbrt (addParticle s p) n3).1.rebuildCount ∧
    s.rebuildCount < (iteratePairwiseAoS cbrt (updateContainer s) n3).1.rebuildCount ∧
    (rebuild cbrt s).neighborListIsValid = true ∧
    (rebuild cbrt s).traversalsSinceLastRebuild = 0 := by
  refine ⟨?_, ?_, ?_, rfl, rfl⟩
  · simp [needsRebuild]
  · exact iterate_after_invalidate cbrt (addParticle s p) n3 rfl
  · exact iterate_after_invalidate cbrt (updateContainer s) n3 rfl

/-- C8: for a freshly constructed container with `1 ≤ rebuildFrequency = f` (an
unsigned int), the `k`-th call of `iteratePairwiseAoS` raises the rebuild count by
one if `k ≥ 2` and `f` divides `k - 1`, and leaves it unchanged otherwise. -/
theorem rebuild_on_kth_call (cbrt : ℚ → ℚ) (boxMin boxMax : Vec3) (cutoff skin : ℚ)
    (f clusterSize : Nat) (n3 : Nat → Bool) (hf : 1 ≤ f) (hf32 : f < 2 ^ 32)
    (k : Nat) (hk : 1 ≤ k) :
    (afterCalls cbrt n3 (new cbrt boxMin boxMax cutoff skin f clusterSize) k).rebuildCount =
      (afterCalls cbrt n3 (new cbrt boxMin boxMax cutoff skin f clusterSize) (k - 1)).rebuildCount
        + (if 2 ≤ k ∧ f ∣ (k - 1) then 1 else 0) := by
  have h := (afterCalls_invariant cbrt n3 (new cbrt boxMin boxMax cutoff skin f clusterSize)
    hf hf32 rfl rfl (k - 1)).2.2.2
  have hk1 : k - 1 + 1 = k := by omega
  rw [hk1] at h
  exact h

end VerletClusterLists

/-- C1: in the single-threaded full scan over a block whose dimensions are all at
least 2 the traversal runs without an out-of-range access, every unordered pair of
distinct cells that differ by at most one in each coordinate, at least one of them
a non-halo cell, is passed to `processCellPair` exactly once (in one of the two
orders), and every non-halo cell is passed to `processCell` exactly once. -/
theorem fullScan_visits_each_pair_once (numCells : Nat) (dims : Dims)
    (hx : 2 ≤ dims.x) (hy : 2 ≤ dims.y) (hz : 2 ≤ dims.z)
    (hN : numCells = dims.x * dims.y * dims.z) :
    ∃ calls, fullScan numCells dims = some calls ∧
      (∀ a b : Coord, inGrid dims a → inGrid dims b → a ≠ b → adjacent a b →
        (nonHalo dims a ∨ nonHalo dims b) →
        calls.count (CellCall.processCellPair (cellIndex dims a) (cellIndex dims b)) +
          calls.count (CellCall.processCellPair (cellIndex dims b) (cellIndex dims a)) = 1) ∧
      (∀ a : Coord, nonHalo dims a →
        calls.count (CellCall.processCell (cellIndex dims a)) = 1) := by
  have _ := hz
  refine ⟨_, fullScan_eq numCells dims hx hy hN, ?_, ?_⟩
  · intro a b ha hb hne hadj hnh
    have h1 := count_encCall dims (Call3.pair a b) ⟨ha, hb⟩
    have h2 := count_encCall dims (Call3.pair b a) ⟨hb, ha⟩
    simp only [encCall] at h1 h2
    rw [h1, h2]
    rcases pair_mem_xor dims a b ha hb hne hadj hnh with ⟨p, q⟩ | ⟨p, q⟩
    · rw [if_pos p, if_neg q]
    · rw [if_neg p, if_pos q]
  · intro a hnh
    have ha : inGrid dims a := by
      obtain ⟨ax, ay, az⟩ := a
      simp only [nonHalo, inGrid] at hnh ⊢
      omega
    have h1 := count_encCall dims (Call3.cell a) ha
    simp only [encCall] at h1
    rw [h1, if_pos (cell_mem dims a hnh)]

/-- Witness for C1 on the 3 x 3 x 3 block: the inner cell 13 is processed once, and
the pair of cells 13 and 14 is processed once. -/
theorem fullScan_visits_each_pair_once_witness :
    ∃ calls, fullScan 27 ⟨3, 3, 3⟩ = some calls ∧
      calls.count (CellCall.processCellPair 13 14) +
        calls.count (CellCall.processCellPair 14 13) = 1 ∧
      calls.count (CellCall.processCell 13) = 1 := by
  obtain ⟨calls, h, hp, hc⟩ :=
    fullScan_visits_each_pair_once 27 ⟨3, 3, 3⟩ (by decide) (by decide) (by decide) (by decide)
  refine ⟨calls, h, ?_, ?_⟩
  · exact hp (1, 1, 1) (2, 1, 1) (by decide) (by decide) (by decide) (by decide)
      (Or.inl (by decide))
  · exact hc (1, 1, 1) (by decide)

/-- C7 fails on the code: on the 3 x 2 x 2 block with one thread the sliced path is
taken and calls `processBaseCell` on the indices 0 and 4, while the full scan
processes 0 and 1; index 4 is no base cell and the traversal ends with an
out-of-range access, whereas the full scan succeeds. -/
theorem sliced_path_differs_from_fullScan :
    usesFallback ⟨3, 2, 2⟩ 1 = false ∧
    slicedBaseIndices ⟨3, 2, 2⟩ 1 = [0, 4] ∧
    fullScanBaseIndices ⟨3, 2, 2⟩ = [0, 1] ∧
    traverseCellPairs 12 ⟨3, 2, 2⟩ 1 = none ∧
    (fullScan 12 ⟨3, 2, 2⟩).isSome = true := by
  decide

namespace LJFunctor

/-- C3: for every set of `n` particles loaded into a structure of arrays, the force
arrays after `SoAFunctorSingle` hold, at every index, the force of the particle
after the reference loop `for all i < j: AoSFunctor(p_i, p_j, newton3 = true)`,
whatever the value of the `newton3` argument of `SoAFunctorSingle`. -/
theorem SoAFunctorSingle_eq_naive (fn : LJFunctor) (t : Nat) (ps : Nat → Particle) (n : Nat)
    (newton3 : Bool) (k : Nat) :
    (fn.SoAFunctorSingle t (loadSoA ps n) newton3).2.forceX k = ((naiveAoS fn t ps n).2 k).f.1 ∧
    (fn.SoAFunctorSingle t (loadSoA ps n) newton3).2.forceY k = ((naiveAoS fn t ps n).2 k).f.2.1 ∧
    (fn.SoAFunctorSingle t (loadSoA ps n) newton3).2.forceZ k = ((naiveAoS fn t ps n).2 k).f.2.2 := by
  have h1 := SoAFunctorSingle_forces fn t ps n newton3 k
  have h2 := (naiveAoS_rel fn ps t n).2.2 k
  have h3 := aosLoop_eq_soaLoop (maskedForce fn ps)
    (fun i => decide ((ps i).ownershipState = OwnershipState.dummy))
    (fun i hi j => maskedForce_dummy fn ps i hi j) n (fun k => (ps k).f)
  rw [← h3, ← h2] at h1
  have e1 := congrArg (fun v : Vec3 => v.1) h1
  have e2 := congrArg (fun v : Vec3 => v.2.1) h1
  have e3 := congrArg (fun v : Vec3 => v.2.2) h1
  exact ⟨e1, e2, e3⟩

/-- Witness for C5 with the sample functor and two owned particles at distance 1. -/
theorem globals_newton3_equivalence_witness :
    sampleFunctor.calculateGlobals = true ∧ sampleFunctor.aosThreadData.length = 1 ∧
    ∃ (f1 f2 : LJFunctor) (u v : ℚ),
      (sampleFunctor.initTraversal.AoSFunctor 0 sampleI sampleJ true).1.endTraversal true =
        some f1 ∧
      ((sampleFunctor.initTraversal.AoSFunctor 0 sampleI sampleJ false).1.AoSFunctor 0
        (sampleFunctor.initTraversal.AoSFunctor 0 sampleI sampleJ false).2.2
        (sampleFunctor.initTraversal.AoSFunctor 0 sampleI sampleJ false).2.1
        false).1.endTraversal false = some f2 ∧
      f1.getUpot = some u ∧ f2.getUpot = some u ∧
      f1.getVirial = some v ∧ f2.getVirial = some v :=
  ⟨rfl, rfl, globals_newton3_equivalence sampleFunctor sampleI sampleJ rfl rfl⟩

/-- Witness for C6 with two particles at squared distance 9 and `cutoffsquare = 4`. -/
theorem AoSFunctor_noop_witness :
    ArrayMath.dot (ArrayMath.sub sampleI.r sampleFar.r) (ArrayMath.sub sampleI.r sampleFar.r) >
      sampleFunctor.cutoffsquare ∧
    sampleFunctor.AoSFunctor 0 sampleI sampleFar true = (sampleFunctor, sampleI, sampleFar) :=
  ⟨by norm_num [ArrayMath.dot, ArrayMath.sub, sampleI, sampleFar, sampleFunctor],
    AoSFunctor_noop sampleFunctor 0 sampleI sampleFar true
      (Or.inr (Or.inr
        (by norm_num [ArrayMath.dot, ArrayMath.sub, sampleI, sampleFar, sampleFunctor])))⟩

end LJFunctor

namespace VerletClusterLists

/-- Witness for C8 with `rebuildFrequency = 3`: the first three calls leave the
rebuild count unchanged and the fourth raises it by one. -/
theorem rebuild_on_kth_call_witness :
    (afterCalls cbrtRat (fun _ => true) (new cbrtRat (0, 0, 0) (1, 1, 1) 1 0 3 4) 1).rebuildCount =
      (afterCalls cbrtRat (fun _ => true) (new cbrtRat (0, 0, 0) (1, 1, 1) 1 0 3 4) 0).rebuildCount ∧
    (afterCalls cbrtRat (fun _ => true) (new cbrtRat (0, 0, 0) (1, 1, 1) 1 0 3 4) 2).rebuildCount =
      (afterCalls cbrtRat (fun _ => true) (new cbrtRat (0, 0, 0) (1, 1, 1) 1 0 3 4) 1).rebuildCount ∧
    (afterCalls cbrtRat (fun _ => true) (new cbrtRat (0, 0, 0) (1, 1, 1) 1 0 3 4) 3).rebuildCount =
      (afterCalls cbrtRat (fun _ => true) (new cbrtRat (0, 0, 0) (1, 1, 1) 1 0 3 4) 2).rebuildCount ∧
    (afterCalls cbrtRat (fun _ => true) (new cbrtRat (0, 0, 0) (1, 1, 1) 1 0 3 4) 4).rebuildCount =
      (afterCalls cbrtRat (fun _ => true) (new cbrtRat (0, 0, 0) (1, 1, 1) 1 0 3 4) 3).rebuildCount
        + 1 := by
  have h1 := rebuild_on_kth_call cbrtRat (0, 0, 0) (1, 1, 1) 1 0 3 4 (fun _ => true)
    (by decide) (by decide) 1 (by decide)
  have h2 := rebuild_on_kth_call cbrtRat (0, 0, 0) (1, 1, 1) 1 0 3 4 (fun _ => true)
    (by decide) (by decide) 2 (by decide)
  have h3 := rebuild_on_kth_call cbrtRat (0, 0, 0) (1, 1, 1) 1 0 3 4 (fun _ => true)
    (by decide) (by decide) 3 (by decide)
  have h4 := rebuild_on_kth_call cbrtRat (0, 0, 0) (1, 1, 1) 1 0 3 4 (fun _ => true)
    (by decide) (by decide) 4 (by decide)
  refine ⟨?_, ?_, ?_, ?_⟩
  · simpa using h1
  · rw [h2]; decide
  · rw [h3]; decide
  · rw [h4]; decide

end VerletClusterLists

/-- C2 fails on the code: in `lineContainer` (whose grid side length is the exact
cube root of 8) the particles with ids 4 and 5 are real
particles at distance 1, within the cutoff 1, stored at positions 3 and 4 of column
0 and so in two different clusters; one `traverseVerletLists` with
`useNewton3 = true` invokes the functor on them once in each order, twice in all. -/
theorem traverse_newton3_invokes_split_pair_twice :
    cbrtRat 8 = 2 ∧
    lineContainer.neighborListIsValid = true ∧
    lineContainer.cutoffSqr = 1 ∧
    ((lineContainer.clusters.getD 0 []).getD 3 Particle.default).id = 4 ∧
    ((lineContainer.clusters.getD 0 []).getD 4 Particle.default).id = 5 ∧
    LJFunctor.dr2 ((lineContainer.clusters.getD 0 []).getD 3 Particle.default)
      ((lineContainer.clusters.getD 0 []).getD 4 Particle.default) = 1 ∧
    (VerletClusterLists.traverseVerletLists cbrtRat lineContainer true).2.count
      ⟨(0, 3), (0, 4), true⟩ = 1 ∧
    (VerletClusterLists.traverseVerletLists cbrtRat lineContainer true).2.count
      ⟨(0, 4), (0, 3), true⟩ = 1 := by
  decide!

/-- C10 fails on the code (the cube roots taken are exact, of 8 and of 1): for
`singleParticleContainer` the first `rebuild` yields
grid side length 2 and a 1 x 1 grid whose only column holds the particle and seven
padding particles; the second `rebuild` counts the padding in its density estimate
and yields grid side length 1 and a 2 x 2 grid with the particle in column 3. -/
theorem rebuild_twice_changes_grid :
    cbrtRat 8 = 2 ∧ cbrtRat 1 = 1 ∧
    (VerletClusterLists.rebuild cbrtRat singleParticleContainer).gridSideLength = 2 ∧
    (VerletClusterLists.rebuild cbrtRat
      (VerletClusterLists.rebuild cbrtRat singleParticleContainer)).gridSideLength = 1 ∧
    (VerletClusterLists.rebuild cbrtRat singleParticleContainer).cellsPerDim = ⟨1, 1, 1⟩ ∧
    (VerletClusterLists.rebuild cbrtRat
      (VerletClusterLists.rebuild cbrtRat singleParticleContainer)).cellsPerDim = ⟨2, 2, 1⟩ ∧
    (VerletClusterLists.rebuild cbrtRat singleParticleContainer).clusters.map
      (fun column => column.map fun p => p.id) = [[1, 0, 0, 0, 0, 0, 0, 0]] ∧
    (VerletClusterLists.rebuild cbrtRat
      (VerletClusterLists.rebuild cbrtRat singleParticleContainer)).clusters.map
      (fun column => column.map fun p => p.id) = [[], [], [], [1, 0, 0, 0, 0, 0, 0, 0]] := by
  decide!

namespace FeatureVector

/-- C20: `a - b` has `featureSpaceDims = 4` components; the first is the difference
of the cell size factors, the other three are 0 where the traversal, data layout
and newton3 options of `a` and `b` are equal and 1 where they differ; the container
options of `a` and `b` have no influence on the result. -/
theorem sub_components (a b : FeatureVector) :
    (a.sub b).length = featureSpaceDims ∧
    (a.sub b).getD 0 0 = a.cellSizeFactor - b.cellSizeFactor ∧
    ((a.sub b).getD 1 0 = if a.traversal = b.traversal then 0 else 1) ∧
    ((a.sub b).getD 2 0 = if a.dataLayout = b.dataLayout then 0 else 1) ∧
    ((a.sub b).getD 3 0 = if a.newton3 = b.newton3 then 0 else 1) ∧
    (∀ c1 c2 : ContainerOption,
      FeatureVector.sub { a with container := c1 } { b with container := c2 } = a.sub b) :=
  ⟨rfl, rfl, rfl, rfl, rfl, fun _ _ => rfl⟩

end FeatureVector
namespace Fmm

namespace AdaptiveOctreeNode

theorem indexM_nonpos (m : Int) (h : m ≤ 0) : indexM m = -2 * m := by
  unfold indexM
  simp only [if_pos h, abs_of_nonpos h]
  omega

theorem indexM_pos (m : Int) (h : 0 < m) : indexM m = 2 * m - 1 := by
  unfold indexM
  have h1 : ¬ m ≤ 0 := by omega
  simp only [if_neg h1, abs_of_pos h]
  omega

theorem indexM_nonneg (m : Int) : 0 ≤ indexM m := by
  rcases le_or_lt m 0 with h | h
  · rw [indexM_nonpos m h]; omega
  · rw [indexM_pos m h]; omega

theorem indexM_le (m : Int) (p : Nat) (h : |m| ≤ (p : Int)) : indexM m ≤ 2 * (p : Int) := by
  rcases le_or_lt m 0 with h1 | h1
  · rw [indexM_nonpos m h1]; rw [abs_of_nonpos h1] at h; omega
  · rw [indexM_pos m h1]; rw [abs_of_pos h1] at h; omega

theorem indexM_gt (m : Int) (p : Nat) (h : |m| > (p : Int)) : indexM m ≥ 2 * (p : Int) + 1 := by
  rcases le_or_lt m 0 with h1 | h1
  · rw [indexM_nonpos m h1]; rw [abs_of_nonpos h1] at h; omega
  · rw [indexM_pos m h1]; rw [abs_of_pos h1] at h; omega

theorem indexM_injective (m1 m2 : Int) (h : indexM m1 = indexM m2) : m1 = m2 := by
  rcases le_or_lt m1 0 with h1 | h1 <;> rcases le_or_lt m2 0 with h2 | h2
  · rw [indexM_nonpos m1 h1, indexM_nonpos m2 h2] at h; omega
  · rw [indexM_nonpos m1 h1, indexM_pos m2 h2] at h; omega
  · rw [indexM_pos m1 h1, indexM_nonpos m2 h2] at h; omega
  · rw [indexM_pos m1 h1, indexM_pos m2 h2] at h; omega

theorem indexM_surjective (p : Nat) (k : Int) (h0 : 0 ≤ k) (h1 : k ≤ 2 * (p : Int)) :
    ∃ m : Int, |m| ≤ (p : Int) ∧ indexM m = k := by
  rcases Int.emod_two_eq_zero_or_one k with h | h
  · refine ⟨-(k / 2), ?_, ?_⟩
    · rw [abs_neg, abs_of_nonneg (by omega)]; omega
    · rw [indexM_nonpos _ (by omega)]; omega
  · refine ⟨(k + 1) / 2, ?_, ?_⟩
    · rw [abs_of_nonneg (by omega)]; omega
    · rw [indexM_pos _ (by omega)]; omega

theorem zeroMatrix_hasShape (rows columns : Nat) :
    hasShape (zeroMatrix rows columns) rows columns := by
  unfold zeroMatrix hasShape
  refine ⟨by simp, ?_⟩
  intro row hrow
  rw [List.mem_replicate] at hrow
  rw [hrow.2]
  simp

theorem getCoefficient_out_of_range (matrix : ComplexMatrix) (p : Nat)
    (h : hasShape matrix (2 * p + 1) (p + 1)) (m n : Int)
    (hout : |m| > (p : Int) ∨ n < 0 ∨ n > (p : Int)) :
    getCoefficient matrix m n = some (0, 0) := by
  unfold getCoefficient
  by_cases h1 : indexM m < 0 ∨ indexM m ≥ (matrix.length : Int)
  · rw [if_pos h1]
  · rw [if_neg h1]
    have hm : ¬ |m| > (p : Int) := by
      intro hm
      have := indexM_gt m p hm
      rw [h.1] at h1
      push_cast at h1
      omega
    have hrow : (matrix.getD 0 []).length = p + 1 := by
      apply h.2
      have hlen : 0 < matrix.length := by rw [h.1]; omega
      rw [List.getD_eq_getElem _ _ hlen]
      exact List.getElem_mem hlen
    rw [hrow, if_pos]
    push_cast
    omega

theorem getCoefficient_in_range (matrix : ComplexMatrix) (p : Nat)
    (h : hasShape matrix (2 * p + 1) (p + 1)) (m n : Int)
    (hm : |m| ≤ (p : Int)) (hn0 : 0 ≤ n) (hn : n ≤ (p : Int)) :
    getCoefficient matrix m n =
      some ((matrix.getD (indexM m).toNat []).getD n.toNat (0, 0)) ∧
      (indexM m).toNat < matrix.length ∧
      n.toNat < (matrix.getD (indexM m).toNat []).length := by
  have hi0 := indexM_nonneg m
  have hi1 := indexM_le m p hm
  have hlt : (indexM m).toNat < matrix.length := by rw [h.1]; omega
  have hrowlen : (matrix.getD (indexM m).toNat []).length = p + 1 := by
    apply h.2
    rw [List.getD_eq_getElem _ _ hlt]
    exact List.getElem_mem hlt
  have hrow0 : (matrix.getD 0 []).length = p + 1 := by
    apply h.2
    have hlen : 0 < matrix.length := by rw [h.1]; omega
    rw [List.getD_eq_getElem _ _ hlen]
    exact List.getElem_mem hlen
  have hnlt : n.toNat < (matrix.getD (indexM m).toNat []).length := by rw [hrowlen]; omega
  refine ⟨?_, hlt, hnlt⟩
  unfold getCoefficient
  rw [if_neg, if_neg]
  · rw [List.get?_eq_getElem?, List.getElem?_eq_getElem hlt]
    simp only
    rw [List.getD_eq_getElem _ _ hlt] at hnlt ⊢
    rw [List.get?_eq_getElem?, List.getElem?_eq_getElem hnlt, List.getD_eq_getElem _ _ hnlt]
  · rw [hrow0]; push_cast; omega
  · rw [h.1]; push_cast; omega

theorem setCoefficient_in_range (matrix : ComplexMatrix) (p : Nat)
    (h : hasShape matrix (2 * p + 1) (p + 1)) (m n : Int) (value : Complex)
    (hm : |m| ≤ (p : Int)) (hn0 : 0 ≤ n) (hn : n ≤ (p : Int)) :
    setCoefficient matrix m n value =
      some (matrix.set (indexM m).toNat
        ((matrix.getD (indexM m).toNat []).set n.toNat value)) := by
  obtain ⟨_, hlt, hnlt⟩ := getCoefficient_in_range matrix p h m n hm hn0 hn
  have hi0 := indexM_nonneg m
  unfold setCoefficient
  rw [if_neg (by omega)]
  rw [List.get?_eq_getElem?, List.getElem?_eq_getElem hlt]
  simp only
  rw [List.getD_eq_getElem _ _ hlt] at hnlt ⊢
  rw [if_pos hnlt]

theorem set_hasShape (matrix : ComplexMatrix) (rows columns : Nat)
    (h : hasShape matrix rows columns) (i : Nat) (row : List Complex)
    (hrow : row.length = columns) : hasShape (matrix.set i row) rows columns := by
  refine ⟨by rw [List.length_set]; exact h.1, ?_⟩
  intro r hr
  rcases List.mem_or_eq_of_mem_set hr with h1 | h1
  · exact h.2 r h1
  · rw [h1]; exact hrow

theorem getD_set_self {α : Type} (l : List α) (i : Nat) (a d : α) (h : i < l.length) :
    (l.set i a).getD i d = a := by
  rw [List.getD_eq_getElem?_getD, List.getElem?_set_self h]
  rfl

theorem getD_set_ne {α : Type} (l : List α) (i j : Nat) (a d : α) (h : i ≠ j) :
    (l.set i a).getD j d = l.getD j d := by
  rw [List.getD_eq_getElem?_getD, List.getElem?_set_ne h, ← List.getD_eq_getElem?_getD]

theorem set_then_get (matrix matrix2 : ComplexMatrix) (p : Nat)
    (h : hasShape matrix (2 * p + 1) (p + 1)) (m n : Int) (value : Complex)
    (hm : |m| ≤ (p : Int)) (hn0 : 0 ≤ n) (hn : n ≤ (p : Int))
    (hset : setCoefficient matrix m n value = some matrix2) :
    hasShape matrix2 (2 * p + 1) (p + 1) ∧
    getCoefficient matrix2 m n = some value ∧
    ∀ m2 n2 : Int, |m2| ≤ (p : Int) → 0 ≤ n2 → n2 ≤ (p : Int) → (m2, n2) ≠ (m, n) →
      getCoefficient matrix2 m2 n2 = getCoefficient matrix m2 n2 := by
  rw [setCoefficient_in_range matrix p h m n value hm hn0 hn] at hset
  obtain ⟨_, hlt, hnlt⟩ := getCoefficient_in_range matrix p h m n hm hn0 hn
  have hrowlen : (matrix.getD (indexM m).toNat []).length = p + 1 := by
    apply h.2
    rw [List.getD_eq_getElem _ _ hlt]
    exact List.getElem_mem hlt
  have hshape : hasShape matrix2 (2 * p + 1) (p + 1) := by
    rw [← Option.some.inj hset]
    exact set_hasShape matrix _ _ h _ _ (by rw [List.length_set]; exact hrowlen)
  refine ⟨hshape, ?_, ?_⟩
  · rw [(getCoefficient_in_range matrix2 p hshape m n hm hn0 hn).1, ← Option.some.inj hset]
    congr 1
    rw [getD_set_self _ _ _ _ hlt, getD_set_self _ _ _ _ hnlt]
  · intro m2 n2 hm2 hn20 hn2 hne
    rw [(getCoefficient_in_range matrix2 p hshape m2 n2 hm2 hn20 hn2).1,
      (getCoefficient_in_range matrix p h m2 n2 hm2 hn20 hn2).1, ← Option.some.inj hset]
    congr 1
    by_cases hmm : m2 = m
    · subst hmm
      have hnn : n2.toNat ≠ n.toNat := by
        intro hc
        apply hne
        have : n2 = n := by omega
        rw [this]
      rw [getD_set_self _ _ _ _ hlt, getD_set_ne _ _ _ _ _ (Ne.symm hnn)]
    · have hii : (indexM m2).toNat ≠ (indexM m).toNat := by
        intro hc
        apply hmm
        apply indexM_injective
        have := indexM_nonneg m
        have := indexM_nonneg m2
        omega
      rw [getD_set_ne _ _ _ _ _ (Ne.symm hii)]

end AdaptiveOctreeNode

end Fmm
namespace Fmm

namespace NodeData

theorem initialData_hasOrder (tree : AdaptiveOctree) (depth : Int) (minCorner maxCorner : Vec3)
    (p : Nat) (hp : tree.orderOfExpansion = (p : Int)) :
    (AdaptiveOctreeNode.initialData tree depth minCorner maxCorner).hasOrder p := by
  have h1 : (tree.orderOfExpansion * 2 + 1).toNat = 2 * p + 1 := by rw [hp]; omega
  have h2 : (tree.orderOfExpansion + 1).toNat = p + 1 := by rw [hp]; omega
  unfold hasOrder AdaptiveOctreeNode.initialData AdaptiveOctreeNode.zeroMatrix
  simp only [h1, h2]
  exact ⟨AdaptiveOctreeNode.zeroMatrix_hasShape _ _, AdaptiveOctreeNode.zeroMatrix_hasShape _ _⟩

/-- With exact integers, for a node whose coefficient matrices have the shape of
expansion order `p`, `getM m n` and `getL m n` return 0, without the exception of
`at`, whenever `|m| > p` or `n < 0` or `n > p`. -/
theorem getM_getL_out_of_range (self : NodeData) (p : Nat) (h : self.hasOrder p) (m n : Int)
    (hout : |m| > (p : Int) ∨ n < 0 ∨ n > (p : Int)) :
    self.getM m n = some (0, 0) ∧ self.getL m n = some (0, 0) :=
  ⟨AdaptiveOctreeNode.getCoefficient_out_of_range self.fmmM p h.1 m n hout,
    AdaptiveOctreeNode.getCoefficient_out_of_range self.fmmL p h.2 m n hout⟩

theorem getM_getL_out_of_range_witness :
    sampleNodeData.hasOrder 2 ∧ (|(-3 : Int)| > ((2 : Nat) : Int) ∨ (1 : Int) < 0 ∨ (1 : Int) > ((2 : Nat) : Int)) ∧
      sampleNodeData.getM (-3) 1 = some (0, 0) ∧ sampleNodeData.getL (-3) 1 = some (0, 0) :=
  ⟨initialData_hasOrder _ _ _ _ 2 rfl, Or.inl (by decide),
    getM_getL_out_of_range sampleNodeData 2 (initialData_hasOrder _ _ _ _ 2 rfl) (-3) 1
      (Or.inl (by decide))⟩

/-- C19: the row index `indexM m` is the fold `2|m| - (1 if m > 0, else 0)`; it maps
the orders `-p, ..., p` one-to-one onto the rows `0, ..., 2p`; and for a node of
expansion order `p` and in-range `(m, n)`, `setM m n v` succeeds, after it `getM m n`
returns `v` and `getM` at every other in-range index returns what it did before;
likewise for `setL` and `getL`. -/
theorem setM_getM_roundtrip (self : NodeData) (p : Nat) (h : self.hasOrder p) :
    (∀ m : Int, AdaptiveOctreeNode.indexM m = 2 * |m| - (if m > 0 then 1 else 0)) ∧
    (∀ m : Int, |m| ≤ (p : Int) →
      0 ≤ AdaptiveOctreeNode.indexM m ∧ AdaptiveOctreeNode.indexM m ≤ 2 * (p : Int)) ∧
    (∀ m1 m2 : Int, |m1| ≤ (p : Int) → |m2| ≤ (p : Int) →
      AdaptiveOctreeNode.indexM m1 = AdaptiveOctreeNode.indexM m2 → m1 = m2) ∧
    (∀ k : Int, 0 ≤ k → k ≤ 2 * (p : Int) →
      ∃ m : Int, |m| ≤ (p : Int) ∧ AdaptiveOctreeNode.indexM m = k) ∧
    ∀ (m n : Int) (v : Complex), |m| ≤ (p : Int) → 0 ≤ n → n ≤ (p : Int) →
      (∃ self2 : NodeData, self.setM m n v = some self2 ∧ self2.hasOrder p ∧
        self2.getM m n = some v ∧
        (∀ m2 n2 : Int, |m2| ≤ (p : Int) → 0 ≤ n2 → n2 ≤ (p : Int) → (m2, n2) ≠ (m, n) →
          self2.getM m2 n2 = self.getM m2 n2) ∧
        ∀ m2 n2 : Int, self2.getL m2 n2 = self.getL m2 n2) ∧
      (∃ self2 : NodeData, self.setL m n v = some self2 ∧ self2.hasOrder p ∧
        self2.getL m n = some v ∧
        (∀ m2 n2 : Int, |m2| ≤ (p : Int) → 0 ≤ n2 → n2 ≤ (p : Int) → (m2, n2) ≠ (m, n) →
          self2.getL m2 n2 = self.getL m2 n2) ∧
        ∀ m2 n2 : Int, self2.getM m2 n2 = self.getM m2 n2) := by
  refine ⟨?_, ?_, ?_, ?_, ?_⟩
  · intro m
    unfold AdaptiveOctreeNode.indexM
    by_cases hm : m ≤ 0
    · have : ¬ m > 0 := by omega
      simp only [if_pos hm, if_neg this]; omega
    · have : m > 0 := by omega
      simp only [if_neg hm, if_pos this]; omega
  · intro m hm
    exact ⟨AdaptiveOctreeNode.indexM_nonneg m, AdaptiveOctreeNode.indexM_le m p hm⟩
  · intro m1 m2 _ _ he
    exact AdaptiveOctreeNode.indexM_injective m1 m2 he
  · intro k h0 h1
    exact AdaptiveOctreeNode.indexM_surjective p k h0 h1
  · intro m n v hm hn0 hn
    constructor
    · have hs := AdaptiveOctreeNode.setCoefficient_in_range self.fmmM p h.1 m n v hm hn0 hn
      obtain ⟨h1, h2, h3⟩ :=
        AdaptiveOctreeNode.set_then_get self.fmmM _ p h.1 m n v hm hn0 hn hs
      have hset : self.setM m n v = some { self with
          fmmM := self.fmmM.set (AdaptiveOctreeNode.indexM m).toNat
            ((self.fmmM.getD (AdaptiveOctreeNode.indexM m).toNat []).set n.toNat v),
          isZeroM := if v ≠ (0, 0) then false else self.isZeroM } := by
        unfold setM; rw [hs]
      exact ⟨_, hset, ⟨h1, h.2⟩, h2, h3, fun _ _ => rfl⟩
    · have hs := AdaptiveOctreeNode.setCoefficient_in_range self.fmmL p h.2 m n v hm hn0 hn
      obtain ⟨h1, h2, h3⟩ :=
        AdaptiveOctreeNode.set_then_get self.fmmL _ p h.2 m n v hm hn0 hn hs
      have hset : self.setL m n v = some { self with
          fmmL := self.fmmL.set (AdaptiveOctreeNode.indexM m).toNat
            ((self.fmmL.getD (AdaptiveOctreeNode.indexM m).toNat []).set n.toNat v),
          isZeroL := if v ≠ (0, 0) then false else self.isZeroL } := by
        unfold setL; rw [hs]
      exact ⟨_, hset, ⟨h.1, h1⟩, h2, h3, fun _ _ => rfl⟩

theorem setM_getM_roundtrip_witness :
    sampleNodeData.hasOrder 2 ∧
      ∃ self2 : NodeData, sampleNodeData.setM (-1) 2 (3, 4) = some self2 ∧
        self2.getM (-1) 2 = some (3, 4) ∧ self2.getM 1 2 = sampleNodeData.getM 1 2 := by
  refine ⟨initialData_hasOrder _ _ _ _ 2 rfl, ?_⟩
  obtain ⟨self2, h1, _, h2, h3, _⟩ :=
    ((setM_getM_roundtrip sampleNodeData 2 (initialData_hasOrder _ _ _ _ 2 rfl)).2.2.2.2
      (-1) 2 (3, 4) (by decide) (by decide) (by decide)).1
  exact ⟨self2, h1, h2, h3 1 2 (by decide) (by decide) (by decide) (by decide)⟩

end NodeData

end Fmm
namespace Fmm

namespace AdaptiveOctreeNode

theorem divides_eq_false_iff (tree : AdaptiveOctree) (depth particles : Int) :
    divides tree depth particles = false ↔
      depth ≥ tree.minDepth ∧
        (particles ≤ tree.maxParticlesPerNode ∨ (tree.maxDepth ≠ -1 ∧ depth ≥ tree.maxDepth)) := by
  unfold divides
  simp only [Bool.or_eq_false_iff, Bool.and_eq_false_iff, decide_eq_false_iff_not, not_lt, gt_iff_lt,
    ge_iff_le, ne_eq]
  constructor
  · rintro ⟨h1, h2 | ⟨h3, h4⟩⟩
    · exact ⟨h1, Or.inl h2⟩
    · exact ⟨h1, Or.inr ⟨h4, h3⟩⟩
  · rintro ⟨h1, h2 | ⟨h3, h4⟩⟩
    · exact ⟨h1, Or.inl h2⟩
    · exact ⟨h1, Or.inr ⟨h4, h3⟩⟩

theorem construct_leaf (tree : AdaptiveOctree) (fuel : Nat) (depth : Int) (minCorner maxCorner : Vec3)
    (h : divides tree depth (tree.numberOfParticlesInRegion minCorner maxCorner) = false) :
    construct tree (fuel + 1) depth minCorner maxCorner =
      some (leaf (initialData tree depth minCorner maxCorner)) := by
  unfold construct
  simp only [initialData, h, Bool.false_eq_true, if_false]

theorem construct_inner (tree : AdaptiveOctree) (fuel : Nat) (depth : Int) (minCorner maxCorner : Vec3)
    (h : divides tree depth (tree.numberOfParticlesInRegion minCorner maxCorner) = true)
    (node : AdaptiveOctreeNode)
    (hc : construct tree (fuel + 1) depth minCorner maxCorner = some node) :
    ∃ child : Fin 8 → AdaptiveOctreeNode,
      node = inner (initialData tree depth minCorner maxCorner) child ∧
      ∀ i, construct tree fuel (depth + 1)
          (ArrayMath.add minCorner (childOffset (ArrayMath.sub maxCorner minCorner) i))
          (ArrayMath.add (ArrayMath.mulScalar (ArrayMath.add minCorner maxCorner) (1 / 2))
            (childOffset (ArrayMath.sub maxCorner minCorner) i)) = some (child i) := by
  unfold construct at hc
  simp only [initialData, h, if_true] at hc
  split at hc
  · rename_i hall
    refine ⟨_, (Option.some.inj hc).symm, ?_⟩
    intro i
    simp only [Option.some_get]
  · exact absurd hc (by simp)

theorem construct_data (tree : AdaptiveOctree) (fuel : Nat) (depth : Int) (minCorner maxCorner : Vec3)
    (node : AdaptiveOctreeNode) (hc : construct tree fuel depth minCorner maxCorner = some node) :
    node.data = initialData tree depth minCorner maxCorner ∧
    (node.isLeaf = !divides tree depth (tree.numberOfParticlesInRegion minCorner maxCorner)) := by
  cases fuel with
  | zero => unfold construct at hc; exact absurd hc (by simp)
  | succ fuel =>
    cases hd : divides tree depth (tree.numberOfParticlesInRegion minCorner maxCorner) with
    | false =>
      rw [construct_leaf tree fuel depth minCorner maxCorner hd] at hc
      rw [← Option.some.inj hc]
      exact ⟨rfl, rfl⟩
    | true =>
      obtain ⟨child, hn, _⟩ := construct_inner tree fuel depth minCorner maxCorner hd node hc
      rw [hn]
      exact ⟨rfl, rfl⟩

theorem construct_depthsFrom (tree : AdaptiveOctree) (fuel : Nat) :
    ∀ (depth : Int) (minCorner maxCorner : Vec3) (node : AdaptiveOctreeNode),
      construct tree fuel depth minCorner maxCorner = some node → depthsFrom node depth := by
  induction fuel with
  | zero => intro depth minCorner maxCorner node hc; unfold construct at hc; exact absurd hc (by simp)
  | succ fuel ih =>
    intro depth minCorner maxCorner node hc
    cases hd : divides tree depth (tree.numberOfParticlesInRegion minCorner maxCorner) with
    | false =>
      rw [construct_leaf tree fuel depth minCorner maxCorner hd] at hc
      rw [← Option.some.inj hc]
      exact rfl
    | true =>
      obtain ⟨child, hn, hch⟩ := construct_inner tree fuel depth minCorner maxCorner hd node hc
      rw [hn]
      exact ⟨rfl, fun i => ih _ _ _ _ (hch i)⟩

theorem construct_total (tree : AdaptiveOctree) (hmax : tree.maxDepth ≠ -1) (fuel : Nat) :
    ∀ (depth : Int) (minCorner maxCorner : Vec3),
      (max tree.minDepth tree.maxDepth - depth).toNat < fuel →
      (construct tree fuel depth minCorner maxCorner).isSome = true := by
  induction fuel with
  | zero => intro depth minCorner maxCorner h; omega
  | succ fuel ih =>
    intro depth minCorner maxCorner h
    cases hd : divides tree depth (tree.numberOfParticlesInRegion minCorner maxCorner) with
    | false => rw [construct_leaf tree fuel depth minCorner maxCorner hd]; rfl
    | true =>
      have hlt : depth < max tree.minDepth tree.maxDepth := by
        unfold divides at hd
        simp only [Bool.or_eq_true, Bool.and_eq_true, decide_eq_true_eq] at hd
        rcases hd with h1 | ⟨_, h2 | h2⟩
        · exact lt_max_of_lt_left h1
        · exact lt_max_of_lt_right h2
        · exact absurd h2 hmax
      have hall : ∀ i : Fin 8, (construct tree fuel (depth + 1)
          (ArrayMath.add minCorner (childOffset (ArrayMath.sub maxCorner minCorner) i))
          (ArrayMath.add (ArrayMath.mulScalar (ArrayMath.add minCorner maxCorner) (1 / 2))
            (childOffset (ArrayMath.sub maxCorner minCorner) i))).isSome = true := by
        intro i
        apply ih
        omega
      unfold construct
      simp only [initialData, hd, if_true]
      rw [dif_pos hall]
      rfl

theorem nodeAt_depth (root : AdaptiveOctreeNode) (ptr : NodePtr) :
    ∀ (k : Int) (node : AdaptiveOctreeNode), depthsFrom root k → nodeAt root ptr = some node →
      depthsFrom node (k + (ptr.length : Int)) ∧ node.data.depth = k + (ptr.length : Int) := by
  induction ptr generalizing root with
  | nil =>
    intro k node hd hn
    simp only [nodeAt] at hn
    rw [← Option.some.inj hn]
    simp only [List.length_nil, Int.Nat.cast_ofNat_Int, add_zero]
    refine ⟨hd, ?_⟩
    cases root with
    | leaf d => exact hd
    | inner d child => exact hd.1
  | cons c cs ih =>
    intro k node hd hn
    cases root with
    | leaf d => simp only [nodeAt] at hn; exact absurd hn (by simp)
    | inner d child =>
      simp only [nodeAt] at hn
      have := ih (child c) (k + 1) node (hd.2 c) hn
      simp only [List.length_cons, Nat.cast_add, Nat.cast_one]
      rw [show k + ((cs.length : Int) + 1) = k + 1 + (cs.length : Int) by ring]
      exact this

theorem findNode_spec (node : AdaptiveOctreeNode) (position : Vec3) (maxDepth : Int) :
    ∀ k : Int, depthsFrom node k → k ≤ maxDepth →
      ∃ found : AdaptiveOctreeNode, nodeAt node (findNode node position maxDepth) = some found ∧
        found.data.depth ≤ maxDepth ∧ (found.isLeaf = true ∨ found.data.depth = maxDepth) := by
  induction node with
  | leaf d =>
    intro k hd hk
    refine ⟨leaf d, rfl, ?_, Or.inl rfl⟩
    have : d.depth = k := hd
    simp only [data]; omega
  | inner d child ih =>
    intro k hd hk
    unfold findNode
    by_cases h : d.depth = maxDepth
    · rw [if_pos h]
      exact ⟨inner d child, rfl, le_of_eq h, Or.inr h⟩
    · rw [if_neg h]
      simp only [nodeAt]
      apply ih _ (k + 1) (hd.2 _)
      have : d.depth = k := hd.1
      omega

theorem mem_setInsert (s : List NodePtr) (p q : NodePtr) :
    q ∈ setInsert s p ↔ q ∈ s ∨ q = p := by
  unfold setInsert
  split_ifs with h
  · constructor
    · exact Or.inl
    · rintro (h1 | h1)
      · exact h1
      · rw [h1]; exact h
  · simp

theorem mem_foldl_setInsert {α : Type} (f : α → NodePtr) (l : List α) :
    ∀ (s : List NodePtr) (q : NodePtr),
      q ∈ l.foldl (fun list o => setInsert list (f o)) s ↔ q ∈ s ∨ ∃ o ∈ l, q = f o := by
  induction l with
  | nil => intro s q; simp
  | cons a l ih =>
    intro s q
    simp only [List.foldl_cons, ih, mem_setInsert, List.mem_cons, exists_eq_or_imp]
    tauto

theorem mem_initNeighbourList (root : AdaptiveOctreeNode) (selfPtr : NodePtr) (self : NodeData)
    (q : NodePtr) :
    q ∈ initNeighbourList root selfPtr self ↔
      q = selfPtr ∨ ∃ o ∈ neighbourOffsets, q = findNeighbour root self o.1 o.2.1 o.2.2 := by
  unfold initNeighbourList
  rw [mem_foldl_setInsert (fun o : Int × Int × Int => findNeighbour root self o.1 o.2.1 o.2.2)]
  simp

theorem neighbourList_spec (root : AdaptiveOctreeNode) (hroot : depthsFrom root 0) (ptr : NodePtr)
    (node : AdaptiveOctreeNode) (hn : nodeAt root ptr = some node) :
    ptr ∈ neighbourList root ptr ∧
    ∀ q ∈ neighbourList root ptr, ∃ found : AdaptiveOctreeNode,
      nodeAt root q = some found ∧ found.data.depth ≤ node.data.depth ∧
        q.length ≤ ptr.length := by
  unfold neighbourList
  rw [hn]
  simp only
  refine ⟨(mem_initNeighbourList _ _ _ _).2 (Or.inl rfl), ?_⟩
  intro q hq
  have hdepth := (nodeAt_depth root ptr 0 node hroot hn).2
  rcases (mem_initNeighbourList _ _ _ _).1 hq with h | ⟨o, _, h⟩
  · rw [h]; exact ⟨node, hn, le_refl _, le_refl _⟩
  · rw [h]
    unfold findNeighbour
    simp only
    obtain ⟨found, hf1, hf2, _⟩ := findNode_spec root
      (ArrayMath.add node.data.nodeCenter
        ((o.1 : ℚ) * node.data.nodeSize.1, (o.2.1 : ℚ) * node.data.nodeSize.2.1,
          (o.2.2 : ℚ) * node.data.nodeSize.2.2)) node.data.depth 0 hroot (by omega)
    refine ⟨found, hf1, hf2, ?_⟩
    have := (nodeAt_depth root _ 0 found hroot hf1).2
    omega

end AdaptiveOctreeNode

end Fmm
namespace Fmm

namespace AdaptiveOctreeNode

theorem eq_some_getD {α : Type} (o : Option α) (d : α) (h : o.isSome = true) :
    o = some (o.getD d) := by
  cases o with
  | none => exact absurd h (by simp)
  | some a => rfl

theorem children_of_isLeaf (node : AdaptiveOctreeNode) :
    (node.isLeaf = true → node.children = []) ∧ (node.isLeaf = false → node.children.length = 8) := by
  cases node with
  | leaf d => exact ⟨fun _ => rfl, fun h => absurd h (by simp [isLeaf])⟩
  | inner d child =>
    exact ⟨fun h => absurd h (by simp [isLeaf]), fun _ => by simp [children]⟩

theorem nodeAt_append (root : AdaptiveOctreeNode) (p q : NodePtr) :
    nodeAt root (p ++ q) = (nodeAt root p).bind fun n => nodeAt n q := by
  induction p generalizing root with
  | nil => simp [nodeAt]
  | cons c cs ih =>
    cases root with
    | leaf d => simp [nodeAt]
    | inner d child => simp only [List.cons_append, nodeAt]; exact ih (child c)

theorem nodeAt_dropLast (root : AdaptiveOctreeNode) (ptr : NodePtr) (node : AdaptiveOctreeNode)
    (hn : nodeAt root ptr = some node) :
    ∃ parentNode, nodeAt root ptr.dropLast = some parentNode := by
  rcases List.eq_nil_or_concat ptr with h | ⟨p, c, h⟩
  · rw [h]; exact ⟨root, by simp [nodeAt]⟩
  · rw [h, List.concat_eq_append] at hn ⊢
    rw [List.dropLast_concat]
    rw [nodeAt_append] at hn
    cases hp : nodeAt root p with
    | none => rw [hp] at hn; exact absurd hn (by simp)
    | some parentNode => exact ⟨parentNode, rfl⟩

theorem mem_foldl_children (pn : NodePtr) (excluded : List NodePtr) (l : List (Fin 8)) :
    ∀ (s : List NodePtr) (q : NodePtr),
      q ∈ l.foldl (fun interactionList c =>
          if pn ++ [c] ∉ excluded then setInsert interactionList (pn ++ [c])
          else interactionList) s →
        q ∈ s ∨ ∃ c : Fin 8, q = pn ++ [c] ∧ q ∉ excluded := by
  induction l with
  | nil => intro s q h; exact Or.inl h
  | cons a l ih =>
    intro s q h
    simp only [List.foldl_cons] at h
    rcases ih _ q h with h1 | h1
    · split_ifs at h1 with hex
      · exact Or.inl h1
      · rcases (mem_setInsert _ _ _).1 h1 with h2 | h2
        · exact Or.inl h2
        · exact Or.inr ⟨a, h2, by rw [h2]; exact hex⟩
    · exact Or.inr h1

theorem interactionStep_separated (root : AdaptiveOctreeNode) (hroot : depthsFrom root 0)
    (selfPtr : NodePtr) (parentDepth : Int) (hpd : parentDepth + 1 = (selfPtr.length : Int))
    (lists : List NodePtr × List NodePtr) (pn : NodePtr) (hpn : (pn.length : Int) ≤ parentDepth)
    (h : listsSeparated (neighbourList root selfPtr) selfPtr.length lists) :
    listsSeparated (neighbourList root selfPtr) selfPtr.length
      (interactionStep root selfPtr parentDepth lists pn) := by
  unfold interactionStep
  cases hp : nodeAt root pn with
  | none => exact h
  | some pnn =>
    simp only
    have hdep := (nodeAt_depth root pn 0 pnn hroot hp).2
    split_ifs with h1 h2 h3
    · refine ⟨?_, h.2⟩
      intro q hq
      rcases mem_foldl_children pn _ _ _ q hq with h4 | ⟨c, h4, h5⟩
      · exact h.1 q h4
      · refine ⟨h5, ?_⟩
        simp only [Bool.and_eq_true, Bool.not_eq_true', decide_eq_true_eq] at h1
        rw [h4, List.length_append, List.length_singleton]
        omega
    · exact h
    · exact h
    · refine ⟨h.1, ?_⟩
      intro q hq
      rcases (mem_setInsert _ _ _).1 hq with h4 | h4
      · exact h.2 q h4
      · right; rw [h4]; omega

theorem foldl_interactionStep_separated (root : AdaptiveOctreeNode) (hroot : depthsFrom root 0)
    (selfPtr : NodePtr) (parentDepth : Int) (hpd : parentDepth + 1 = (selfPtr.length : Int))
    (l : List NodePtr) (hl : ∀ pn ∈ l, (pn.length : Int) ≤ parentDepth) :
    ∀ lists, listsSeparated (neighbourList root selfPtr) selfPtr.length lists →
      listsSeparated (neighbourList root selfPtr) selfPtr.length
        (l.foldl (interactionStep root selfPtr parentDepth) lists) := by
  induction l with
  | nil => intro lists h; exact h
  | cons a l ih =>
    intro lists h
    simp only [List.foldl_cons]
    apply ih (fun pn hpn => hl pn (List.mem_cons_of_mem _ hpn))
    exact interactionStep_separated root hroot selfPtr parentDepth hpd lists a
      (hl a (List.mem_cons_self _ _)) h

theorem initInteractionList_separated (root : AdaptiveOctreeNode) (hroot : depthsFrom root 0)
    (ptr : NodePtr) :
    listsSeparated (neighbourList root ptr) ptr.length (initInteractionList root ptr) := by
  have hstart : listsSeparated (neighbourList root ptr) ptr.length ([], neighbourList root ptr) :=
    ⟨fun q hq => absurd hq (List.not_mem_nil q), fun q hq => Or.inl hq⟩
  unfold initInteractionList parentPtr
  simp only
  by_cases hnil : ptr = []
  · rw [if_pos hnil]; exact hstart
  · rw [if_neg hnil]
    simp only
    cases hp : nodeAt root ptr.dropLast with
    | none => exact hstart
    | some parentNode =>
      simp only
      have hpdepth := (nodeAt_depth root _ 0 parentNode hroot hp).2
      have hlen : ptr.dropLast.length + 1 = ptr.length := by
        rw [List.length_dropLast]
        have := List.length_pos.2 hnil
        omega
      apply foldl_interactionStep_separated root hroot ptr parentNode.data.depth
        (by rw [hpdepth]; omega) _ _ _ hstart
      intro pn hpn
      obtain ⟨_, _, _, h3⟩ := (neighbourList_spec root hroot _ parentNode hp).2 pn hpn
      rw [hpdepth]
      omega

/-- C13, as amended: a node constructed at depth `d` over a region holding `c`
particles is a leaf, without children, if and only if `d >= minDepth` and
(`c <= maxParticlesPerNode`, or `maxDepth != -1` and `d >= maxDepth`); otherwise it
has exactly 8 children.  A leaf is returned with any positive fuel, and with a depth
limit the constructor returns for every input.  In particular, with
`maxParticlesPerNode = 1` and `minDepth = 0`, a node at a depth `d >= 0` that the
depth limit has not reached (`maxDepth = -1` or `d < maxDepth`) subdivides if it
holds 2 particles and is a leaf if it holds at most 1. -/
theorem construct_leaf_iff (tree : AdaptiveOctree) (fuel : Nat) (depth : Int)
    (minCorner maxCorner : Vec3) :
    (∀ node, construct tree fuel depth minCorner maxCorner = some node →
      (node.isLeaf = true ↔
        depth ≥ tree.minDepth ∧
          (tree.numberOfParticlesInRegion minCorner maxCorner ≤ tree.maxParticlesPerNode ∨
            (tree.maxDepth ≠ -1 ∧ depth ≥ tree.maxDepth))) ∧
      (node.isLeaf = true → node.children = []) ∧
      (node.isLeaf = false → node.children.length = 8)) ∧
    (depth ≥ tree.minDepth ∧
        (tree.numberOfParticlesInRegion minCorner maxCorner ≤ tree.maxParticlesPerNode ∨
          (tree.maxDepth ≠ -1 ∧ depth ≥ tree.maxDepth)) →
      construct tree (fuel + 1) depth minCorner maxCorner =
        some (leaf (initialData tree depth minCorner maxCorner))) ∧
    (tree.maxDepth ≠ -1 → (max tree.minDepth tree.maxDepth - depth).toNat < fuel →
      (construct tree fuel depth minCorner maxCorner).isSome = true) ∧
    (tree.maxParticlesPerNode = 1 → tree.minDepth = 0 → 0 ≤ depth →
      (tree.maxDepth = -1 ∨ depth < tree.maxDepth) →
      ∀ node, construct tree fuel depth minCorner maxCorner = some node →
        (tree.numberOfParticlesInRegion minCorner maxCorner = 2 →
          node.isLeaf = false ∧ node.children.length = 8) ∧
        (tree.numberOfParticlesInRegion minCorner maxCorner ≤ 1 →
          node.isLeaf = true ∧ node.children = [])) := by
  have hiff : ∀ node, construct tree fuel depth minCorner maxCorner = some node →
      (node.isLeaf = true ↔
        depth ≥ tree.minDepth ∧
          (tree.numberOfParticlesInRegion minCorner maxCorner ≤ tree.maxParticlesPerNode ∨
            (tree.maxDepth ≠ -1 ∧ depth ≥ tree.maxDepth))) := by
    intro node hc
    rw [(construct_data tree fuel depth minCorner maxCorner node hc).2,
      ← divides_eq_false_iff]
    simp
  refine ⟨fun node hc => ⟨hiff node hc, children_of_isLeaf node⟩, ?_, ?_, ?_⟩
  · intro h
    exact construct_leaf tree fuel depth minCorner maxCorner ((divides_eq_false_iff _ _ _).2 h)
  · intro hmax hfuel
    exact construct_total tree hmax fuel depth minCorner maxCorner hfuel
  · intro h1 h0 hd hlim node hc
    constructor
    · intro h2
      have hnl : node.isLeaf = false := by
        cases hl : node.isLeaf with
        | false => rfl
        | true =>
          have := (hiff node hc).1 hl
          omega
      exact ⟨hnl, (children_of_isLeaf node).2 hnl⟩
    · intro h2
      have hl : node.isLeaf = true := (hiff node hc).2 ⟨by omega, Or.inl (by omega)⟩
      exact ⟨hl, (children_of_isLeaf node).1 hl⟩

theorem construct_leaf_iff_witness :
    ∃ node, construct irregularOctree 2 2 (0, 0, 0) (2, 2, 2) = some node ∧
      node.isLeaf = false ∧ node.children.length = 8 := by
  have hsome : (construct irregularOctree 2 2 (0, 0, 0) (2, 2, 2)).isSome = true := by decide!
  obtain ⟨node, hnode⟩ := Option.isSome_iff_exists.1 hsome
  exact ⟨node, hnode,
    ((construct_leaf_iff irregularOctree 2 2 (0, 0, 0) (2, 2, 2)).2.2.2 rfl rfl (by decide)
      (Or.inl rfl) node hnode).1 (by decide!)⟩

/-- As C13 is stated, it fails: with `maxParticlesPerNode = 1`, `minDepth = 0` and
the depth limit `maxDepth = 1`, the first octant of the root holds 2 particles and
is a leaf without children. -/
theorem octant_with_two_particles_stays_leaf :
    boundedOctree.maxParticlesPerNode = 1 ∧ boundedOctree.minDepth = 0 ∧
      boundedOctree.numberOfParticlesInRegion (0, 0, 0) (4, 4, 4) = 2 ∧
      shapeAt (construct boundedOctree 3 0 (0, 0, 0) (8, 8, 8)) [] = some (false, 8) ∧
      shapeAt (construct boundedOctree 3 0 (0, 0, 0) (8, 8, 8)) [0] = some (true, 0) ∧
      ((construct boundedOctree 3 0 (0, 0, 0) (8, 8, 8)).bind fun r => nodeAt r [0]).map
        (fun node => (node.data.nodeMinCorner, node.data.nodeMaxCorner)) =
          some ((0, 0, 0), (4, 4, 4)) := by
  decide!

/-- C17: in a tree built by the constructor, the neighbour list of every node `N`
contains `N` itself, every entry of it is a node of the tree of depth at most the
depth of `N`, and `findNeighbour` returns such a node for every offset. -/
theorem neighbourList_self_and_depth (tree : AdaptiveOctree) (fuel : Nat)
    (minCorner maxCorner : Vec3) (root : AdaptiveOctreeNode)
    (hroot : construct tree fuel 0 minCorner maxCorner = some root)
    (ptr : NodePtr) (node : AdaptiveOctreeNode) (hn : nodeAt root ptr = some node) :
    ptr ∈ neighbourList root ptr ∧
    (∀ q ∈ neighbourList root ptr, ∃ found : AdaptiveOctreeNode,
      nodeAt root q = some found ∧ found.data.depth ≤ node.data.depth) ∧
    ∀ x y z : Int, ∃ found : AdaptiveOctreeNode,
      nodeAt root (findNeighbour root node.data x y z) = some found ∧
        found.data.depth ≤ node.data.depth := by
  have hd := construct_depthsFrom tree fuel 0 minCorner maxCorner root hroot
  obtain ⟨h1, h2⟩ := neighbourList_spec root hd ptr node hn
  refine ⟨h1, ?_, ?_⟩
  · intro q hq
    obtain ⟨found, hf1, hf2, _⟩ := h2 q hq
    exact ⟨found, hf1, hf2⟩
  · intro x y z
    have hdepth := (nodeAt_depth root ptr 0 node hd hn).2
    obtain ⟨found, hf1, hf2, _⟩ := findNode_spec root
      (ArrayMath.add node.data.nodeCenter
        ((x : ℚ) * node.data.nodeSize.1, (y : ℚ) * node.data.nodeSize.2.1,
          (z : ℚ) * node.data.nodeSize.2.2)) node.data.depth 0 hd (by omega)
    exact ⟨found, hf1, hf2⟩

theorem neighbourList_self_and_depth_witness :
    ∃ node, nodeAt irregularRoot [0, 0, 0] = some node ∧
      [0, 0, 0] ∈ neighbourList irregularRoot [0, 0, 0] ∧
      ∀ q ∈ neighbourList irregularRoot [0, 0, 0], ∃ found : AdaptiveOctreeNode,
        nodeAt irregularRoot q = some found ∧ found.data.depth ≤ node.data.depth := by
  have hroot : construct irregularOctree 4 0 (0, 0, 0) (8, 8, 8) = some irregularRoot :=
    eq_some_getD _ _ (by decide!)
  have hsome : (nodeAt irregularRoot [0, 0, 0]).isSome = true := by decide!
  obtain ⟨node, hnode⟩ := Option.isSome_iff_exists.1 hsome
  have h := neighbourList_self_and_depth irregularOctree 4 (0, 0, 0) (8, 8, 8) irregularRoot
    hroot [0, 0, 0] node hnode
  exact ⟨node, hnode, h.1, h.2.1⟩

/-- C14: in a tree built by the constructor, after the three passes the near-field
list and the interaction list kept for any node pointer, so of every node, have no
entry in common. -/
theorem nearField_interaction_disjoint (tree : AdaptiveOctree) (fuel : Nat)
    (minCorner maxCorner : Vec3) (root : AdaptiveOctreeNode)
    (hroot : construct tree fuel 0 minCorner maxCorner = some root)
    (ptr : NodePtr) :
    ∀ q, q ∈ nearFieldList root ptr → q ∉ interactionList root ptr := by
  have hd := construct_depthsFrom tree fuel 0 minCorner maxCorner root hroot
  obtain ⟨h1, h2⟩ := initInteractionList_separated root hd ptr
  intro q hnf hil
  have h3 := h1 q hil
  rcases h2 q hnf with h4 | h4
  · exact h3.1 h4
  · omega

theorem nearField_interaction_disjoint_witness :
    (nearFieldList irregularRoot [0, 0]).Disjoint (interactionList irregularRoot [0, 0]) := by
  have hroot : construct irregularOctree 4 0 (0, 0, 0) (8, 8, 8) = some irregularRoot :=
    eq_some_getD _ _ (by decide!)
  intro q h1 h2
  exact nearField_interaction_disjoint irregularOctree 4 (0, 0, 0) (8, 8, 8) irregularRoot
    hroot [0, 0] q h1 h2

end AdaptiveOctreeNode

end Fmm
namespace Fmm

namespace AdaptiveOctreeNode

/-- C16 fails on the tree of `irregularOctree`: the nodes `root->0->0->0` and
`root->1` are leaves, the second holds a particle, yet neither `root->1` nor the
root is in the near-field list of `root->0->0->0`, and neither is in the interaction
list of `root->0->0->0` or of any of its ancestors.  The leaf `root->1` is listed
only in the near-field list of the inner node `root->0->0`. -/
theorem shallow_leaf_covered_by_no_list :
    (construct irregularOctree 4 0 (0, 0, 0) (8, 8, 8)).isSome = true ∧
    shapeAt (some irregularRoot) [0, 0, 0] = some (true, 0) ∧
    shapeAt (some irregularRoot) [1] = some (true, 0) ∧
    shapeAt (some irregularRoot) [0, 0] = some (false, 8) ∧
    irregularOctree.numberOfParticlesInRegion (4, 0, 0) (8, 4, 4) = 1 ∧
    (∀ b ∈ ancestorsOrSelf [1], b ∉ nearFieldList irregularRoot [0, 0, 0]) ∧
    (∀ a ∈ ancestorsOrSelf [0, 0, 0], ∀ b ∈ ancestorsOrSelf [1],
      b ∉ interactionList irregularRoot a) ∧
    [1] ∈ nearFieldList irregularRoot [0, 0] := by
  decide!

end AdaptiveOctreeNode

end Fmm

namespace VerletClusterLists

/-- C12 fails for a box below the plane z = 0: the only grid column of
`sunkenContainer` holds its five particles followed by three padding particles at
z = -18, -16 and -14, all inside the box, and the first of them is within the cutoff
of the particle at z = -37/2. -/
theorem padding_inside_box :
    sunkenContainer.boxMin = (-1 / 2, -1 / 2, -20) ∧
    sunkenContainer.boxMax = (1 / 2, 1 / 2, -10) ∧
    sunkenContainer.cutoff = 1 ∧ sunkenContainer.clusterSize = 4 ∧
    sunkenContainer.clusters.length = 1 ∧
    (sunkenContainer.clusters.getD 0 []).take 5 = sunkenParticles ∧
    ((sunkenContainer.clusters.getD 0 []).drop 5).map (fun p => p.r) =
      [(0, 0, -18), (0, 0, -16), (0, 0, -14)] ∧
    (∀ p ∈ (sunkenContainer.clusters.getD 0 []).drop 5,
      inBox p.r sunkenContainer.boxMin sunkenContainer.boxMax = true) ∧
    LJFunctor.dr2 ((sunkenContainer.clusters.getD 0 []).getD 5 Particle.default)
      ((sunkenContainer.clusters.getD 0 []).getD 1 Particle.default) = 1 / 4 ∧
    (1 / 4 : ℚ) ≤ sunkenContainer.cutoffSqr := by
  decide!

end VerletClusterLists
namespace Fmm

namespace AdaptiveOctreeNode

theorem axisBit_le (i : Fin 3) (c : Fin 8) : axisBit i c ≤ 1 := by
  unfold axisBit
  omega

theorem axis_childOffset (i : Fin 3) (size : Vec3) (c : Fin 8) :
    axis i (childOffset size c) = (axisBit i c : ℚ) * (axis i size / 2) := by
  fin_cases i <;> fin_cases c <;> simp [axis, childOffset, axisBit] <;>
    (intro h; exact absurd (by decide) h)

theorem axisBit_childIndexOf (i : Fin 3) (center position : Vec3) :
    axisBit i (childIndexOf center position) =
      if axis i position ≥ axis i center then 1 else 0 := by
  unfold childIndexOf
  fin_cases i <;>
    by_cases h1 : position.1 ≥ center.1 <;> by_cases h2 : position.2.1 ≥ center.2.1 <;>
    by_cases h3 : position.2.2 ≥ center.2.2 <;> simp [axis, axisBit, h1, h2, h3]

theorem eq_of_axisBit : ∀ c1 c2 : Fin 8, (∀ i : Fin 3, axisBit i c1 = axisBit i c2) → c1 = c2 := by
  decide

theorem axis_add (i : Fin 3) (a b : Vec3) : axis i (ArrayMath.add a b) = axis i a + axis i b := by
  fin_cases i <;> rfl

theorem axis_sub (i : Fin 3) (a b : Vec3) : axis i (ArrayMath.sub a b) = axis i a - axis i b := by
  fin_cases i <;> rfl

theorem axis_mulScalar (i : Fin 3) (a : Vec3) (s : ℚ) :
    axis i (ArrayMath.mulScalar a s) = axis i a * s := by
  fin_cases i <;> rfl

theorem axis_childBox (i : Fin 3) (lo hi : Vec3) (c : Fin 8) :
    axis i (childBox lo hi c).1 = axis i lo + (axisBit i c : ℚ) * ((axis i hi - axis i lo) / 2) ∧
    axis i (childBox lo hi c).2 =
      axis i lo + ((axisBit i c : ℚ) + 1) * ((axis i hi - axis i lo) / 2) := by
  unfold childBox
  simp only [axis_add, axis_childOffset, axis_sub, axis_mulScalar]
  constructor
  · trivial
  · ring

theorem axisIndex_lt (i : Fin 3) (p : NodePtr) : axisIndex i p < 2 ^ p.length := by
  induction p with
  | nil => simp [axisIndex]
  | cons c cs ih =>
    have := axisBit_le i c
    simp only [axisIndex, List.length_cons, pow_succ]
    rcases Nat.le_one_iff_eq_zero_or_eq_one.1 this with h | h <;> rw [h] <;> omega

theorem axisIndex_append (i : Fin 3) (p q : NodePtr) :
    axisIndex i (p ++ q) = axisIndex i p * 2 ^ q.length + axisIndex i q := by
  induction p with
  | nil => simp [axisIndex]
  | cons c cs ih =>
    rw [List.cons_append]
    simp only [axisIndex, ih, List.length_append, pow_add]
    ring

theorem axis_boxAt (i : Fin 3) (p : NodePtr) :
    ∀ lo hi : Vec3,
      axis i (boxAt lo hi p).1 =
        axis i lo + (axisIndex i p : ℚ) * ((axis i hi - axis i lo) / 2 ^ p.length) ∧
      axis i (boxAt lo hi p).2 =
        axis i lo + ((axisIndex i p : ℚ) + 1) * ((axis i hi - axis i lo) / 2 ^ p.length) := by
  induction p with
  | nil => intro lo hi; simp [boxAt, axisIndex]
  | cons c cs ih =>
    intro lo hi
    obtain ⟨h1, h2⟩ := ih (childBox lo hi c).1 (childBox lo hi c).2
    obtain ⟨h3, h4⟩ := axis_childBox i lo hi c
    simp only [boxAt, axisIndex, List.length_cons]
    rw [h1, h2, h3, h4]
    push_cast
    have h5 : (2 : ℚ) ^ cs.length ≠ 0 := by positivity
    constructor
    · field_simp
      ring
    · field_simp
      ring

end AdaptiveOctreeNode

end Fmm
namespace Fmm

namespace AdaptiveOctreeNode

theorem construct_boxesFrom (tree : AdaptiveOctree) (fuel : Nat) :
    ∀ (depth : Int) (minCorner maxCorner : Vec3) (node : AdaptiveOctreeNode),
      construct tree fuel depth minCorner maxCorner = some node →
        boxesFrom node minCorner maxCorner := by
  induction fuel with
  | zero => intro depth minCorner maxCorner node hc; unfold construct at hc; exact absurd hc (by simp)
  | succ fuel ih =>
    intro depth minCorner maxCorner node hc
    cases hd : divides tree depth (tree.numberOfParticlesInRegion minCorner maxCorner) with
    | false =>
      rw [construct_leaf tree fuel depth minCorner maxCorner hd] at hc
      rw [← Option.some.inj hc]
      exact ⟨rfl, rfl, rfl, rfl⟩
    | true =>
      obtain ⟨child, hn, hch⟩ := construct_inner tree fuel depth minCorner maxCorner hd node hc
      rw [hn]
      exact ⟨⟨rfl, rfl, rfl, rfl⟩, fun c => ih _ _ _ _ (hch c)⟩

theorem boxesFrom_data (node : AdaptiveOctreeNode) (lo hi : Vec3) (h : boxesFrom node lo hi) :
    node.data.nodeMinCorner = lo ∧ node.data.nodeMaxCorner = hi ∧
      node.data.nodeCenter = ArrayMath.mulScalar (ArrayMath.add lo hi) (1 / 2) ∧
      node.data.nodeSize = ArrayMath.sub hi lo := by
  cases node with
  | leaf d => exact h
  | inner d child => exact h.1

theorem nodeAt_boxes (p : NodePtr) :
    ∀ (root : AdaptiveOctreeNode) (lo hi : Vec3) (node : AdaptiveOctreeNode),
      boxesFrom root lo hi → nodeAt root p = some node →
        boxesFrom node (boxAt lo hi p).1 (boxAt lo hi p).2 := by
  induction p with
  | nil =>
    intro root lo hi node hb hn
    simp only [nodeAt] at hn
    rw [← Option.some.inj hn]
    exact hb
  | cons c cs ih =>
    intro root lo hi node hb hn
    cases root with
    | leaf d => simp only [nodeAt] at hn; exact absurd hn (by simp)
    | inner d child =>
      simp only [nodeAt] at hn
      exact ih (child c) _ _ node (hb.2 c) hn

theorem boxAt_within (i : Fin 3) (p : NodePtr) (lo hi : Vec3) (h : axis i lo < axis i hi) :
    axis i lo ≤ axis i (boxAt lo hi p).1 ∧ axis i (boxAt lo hi p).2 ≤ axis i hi ∧
      axis i (boxAt lo hi p).1 < axis i (boxAt lo hi p).2 := by
  obtain ⟨h1, h2⟩ := axis_boxAt i p lo hi
  have hpow : (0 : ℚ) < 2 ^ p.length := by positivity
  have hw : 0 < (axis i hi - axis i lo) / 2 ^ p.length := div_pos (by linarith) hpow
  have hidx : ((axisIndex i p : ℚ) + 1) ≤ 2 ^ p.length := by
    have := axisIndex_lt i p
    exact_mod_cast this
  have hfull : (2 : ℚ) ^ p.length * ((axis i hi - axis i lo) / 2 ^ p.length) =
      axis i hi - axis i lo := by
    field_simp
  rw [h1, h2]
  refine ⟨?_, ?_, ?_⟩
  · have : 0 ≤ (axisIndex i p : ℚ) * ((axis i hi - axis i lo) / 2 ^ p.length) :=
      mul_nonneg (Nat.cast_nonneg _) hw.le
    linarith
  · have := mul_le_mul_of_nonneg_right hidx hw.le
    linarith
  · nlinarith

theorem covers_nil (i : Fin 3) (lo hi : Vec3) (x : ℚ) : covers i lo hi [] x := by
  unfold covers
  simp only [boxAt, axisIndex, List.length_nil, pow_zero, and_true]
  rcases lt_or_le x (axis i lo) with h1 | h1
  · exact Or.inr (Or.inl h1)
  · rcases lt_or_le x (axis i hi) with h2 | h2
    · exact Or.inl ⟨h1, h2⟩
    · exact Or.inr (Or.inr ⟨h2, rfl⟩)

theorem covers_cons (i : Fin 3) (lo hi : Vec3) (position : Vec3) (q : NodePtr)
    (h : covers i
      (childBox lo hi (childIndexOf (ArrayMath.mulScalar (ArrayMath.add lo hi) (1 / 2)) position)).1
      (childBox lo hi (childIndexOf (ArrayMath.mulScalar (ArrayMath.add lo hi) (1 / 2)) position)).2
      q (axis i position)) :
    covers i lo hi
      (childIndexOf (ArrayMath.mulScalar (ArrayMath.add lo hi) (1 / 2)) position :: q)
      (axis i position) := by
  obtain ⟨h1, h2⟩ := axis_childBox i lo hi
    (childIndexOf (ArrayMath.mulScalar (ArrayMath.add lo hi) (1 / 2)) position)
  have hb := axisBit_childIndexOf i (ArrayMath.mulScalar (ArrayMath.add lo hi) (1 / 2)) position
  rw [axis_mulScalar, axis_add] at hb
  unfold covers at h ⊢
  simp only [boxAt, axisIndex, List.length_cons]
  rcases h with h | ⟨h3, h4⟩ | ⟨h3, h4⟩
  · exact Or.inl h
  · right; left
    rw [h1] at h3
    by_cases hge : axis i position ≥ (axis i lo + axis i hi) * (1 / 2)
    · rw [if_pos hge] at hb
      rw [hb] at h3
      push_cast at h3
      linarith
    · rw [if_neg hge] at hb
      rw [hb] at h3 ⊢
      push_cast at h3
      refine ⟨by linarith, by rw [h4]; simp⟩
  · right; right
    rw [h2] at h3
    by_cases hge : axis i position ≥ (axis i lo + axis i hi) * (1 / 2)
    · rw [if_pos hge] at hb
      rw [hb] at h3 ⊢
      push_cast at h3
      refine ⟨by linarith, ?_⟩
      rw [pow_succ]
      omega
    · rw [if_neg hge] at hb
      rw [hb] at h3
      push_cast at h3
      have := not_le.1 hge
      linarith

theorem findNode_covers (i : Fin 3) (position : Vec3) (maxDepth : Int)
    (node : AdaptiveOctreeNode) :
    ∀ lo hi : Vec3, boxesFrom node lo hi →
      covers i lo hi (findNode node position maxDepth) (axis i position) := by
  induction node with
  | leaf d => intro lo hi _; exact covers_nil i lo hi _
  | inner d child ih =>
    intro lo hi hb
    unfold findNode
    by_cases h : d.depth = maxDepth
    · rw [if_pos h]; exact covers_nil i lo hi _
    · rw [if_neg h]
      have hc : d.nodeCenter = ArrayMath.mulScalar (ArrayMath.add lo hi) (1 / 2) := hb.1.2.2.1
      rw [hc]
      apply covers_cons
      exact ih _ _ _ (hb.2 _)

theorem findNode_of_mem_box (p : NodePtr) :
    ∀ (root : AdaptiveOctreeNode) (lo hi : Vec3) (k : Int) (node : AdaptiveOctreeNode)
      (position : Vec3),
      boxesFrom root lo hi → depthsFrom root k → (∀ i, axis i lo < axis i hi) →
      nodeAt root p = some node →
      (∀ i, axis i (boxAt lo hi p).1 ≤ axis i position ∧
        axis i position < axis i (boxAt lo hi p).2) →
      findNode root position (k + (p.length : Int)) = p := by
  induction p with
  | nil =>
    intro root lo hi k node position hb hd _ _ _
    cases root with
    | leaf d => rfl
    | inner d child =>
      unfold findNode
      rw [if_pos (by simpa using hd.1)]
  | cons c cs ih =>
    intro root lo hi k node position hb hd hpos hn hin
    cases root with
    | leaf d => simp only [nodeAt] at hn; exact absurd hn (by simp)
    | inner d child =>
      simp only [nodeAt] at hn
      unfold findNode
      have hdk : d.depth = k := hd.1
      rw [if_neg (by rw [hdk]; simp only [List.length_cons]; omega)]
      have hc : d.nodeCenter = ArrayMath.mulScalar (ArrayMath.add lo hi) (1 / 2) := hb.1.2.2.1
      have hchild : ∀ i, axis i (childBox lo hi c).1 < axis i (childBox lo hi c).2 := by
        intro i
        obtain ⟨h1, h2⟩ := axis_childBox i lo hi c
        rw [h1, h2]
        have := hpos i
        linarith
      have hidx : childIndexOf d.nodeCenter position = c := by
        apply eq_of_axisBit
        intro i
        rw [axisBit_childIndexOf, hc, axis_mulScalar, axis_add]
        obtain ⟨h1, h2⟩ := axis_childBox i lo hi c
        obtain ⟨h3, h4, _⟩ := boxAt_within i cs _ _ (hchild i)
        obtain ⟨h5, h6⟩ := hin i
        simp only [boxAt] at h5 h6
        rw [h1] at h3
        rw [h2] at h4
        rcases Nat.le_one_iff_eq_zero_or_eq_one.1 (axisBit_le i c) with hbit | hbit
        · rw [hbit] at h4 ⊢
          push_cast at h4
          rw [if_neg]
          intro hge
          have : axis i position < (axis i lo + axis i hi) * (1 / 2) := by linarith
          exact absurd hge (not_le.2 this)
        · rw [hbit] at h3 ⊢
          push_cast at h3
          rw [if_pos]
          show (axis i lo + axis i hi) * (1 / 2) ≤ axis i position
          linarith
      rw [hidx]
      congr 1
      have := ih (child c) _ _ (k + 1) node position (hb.2 c) (hd.2 c) hchild hn hin
      rw [show k + ((c :: cs).length : Int) = k + 1 + (cs.length : Int) by
        simp only [List.length_cons]; push_cast; ring]
      exact this

end AdaptiveOctreeNode

end Fmm
namespace Fmm

namespace AdaptiveOctreeNode

theorem neighbour_index_near (lo S : ℚ) (hS : 0 < S) (dA d : Nat) (hd : d ≤ dA)
    (j J r JB : Nat) (hj : j = J * 2 ^ (dA - d) + r) (hr : r < 2 ^ (dA - d)) (hJ : J < 2 ^ d)
    (k : Int) (hk : k = -1 ∨ k = 0 ∨ k = 1)
    (hcov :
      (lo + (JB : ℚ) * (S / 2 ^ d) ≤ lo + ((j : ℚ) + 1 / 2 + (k : ℚ)) * (S / 2 ^ dA) ∧
        lo + ((j : ℚ) + 1 / 2 + (k : ℚ)) * (S / 2 ^ dA) < lo + ((JB : ℚ) + 1) * (S / 2 ^ d)) ∨
      (lo + ((j : ℚ) + 1 / 2 + (k : ℚ)) * (S / 2 ^ dA) < lo ∧ JB = 0) ∨
      (lo + S ≤ lo + ((j : ℚ) + 1 / 2 + (k : ℚ)) * (S / 2 ^ dA) ∧ JB + 1 = 2 ^ d)) :
    (J : Int) = (JB : Int) - 1 ∨ (J : Int) = (JB : Int) ∨ (J : Int) = (JB : Int) + 1 := by
  have hpowA : (0 : ℚ) < 2 ^ dA := by positivity
  have hw : 0 < S / 2 ^ dA := div_pos hS hpowA
  have hn : 0 < 2 ^ (dA - d) := Nat.pos_pow_of_pos _ (by decide)
  have hsplit : 2 ^ dA = 2 ^ d * 2 ^ (dA - d) := by
    rw [← pow_add]
    congr 1
    omega
  have hsplitq : (2 : ℚ) ^ dA = 2 ^ d * ((2 ^ (dA - d) : Nat) : ℚ) := by
    have := congrArg (fun t : Nat => (t : ℚ)) hsplit
    push_cast at this ⊢
    exact this
  have e1 : S / 2 ^ d = ((2 ^ (dA - d) : Nat) : ℚ) * (S / 2 ^ dA) := by
    rw [hsplitq]
    have h2d : (2 : ℚ) ^ d ≠ 0 := by positivity
    have h2n : (((2 ^ (dA - d) : Nat) : ℚ)) ≠ 0 := by
      have : (0 : ℚ) < ((2 ^ (dA - d) : Nat) : ℚ) := by exact_mod_cast hn
      exact this.ne'
    field_simp
    ring
  have e2 : S = (2 : ℚ) ^ dA * (S / 2 ^ dA) := by field_simp
  rw [e1] at hcov
  generalize hnn : 2 ^ (dA - d) = n at *
  generalize hww : S / 2 ^ dA = w at *
  rcases hcov with ⟨h1, h2⟩ | ⟨h1, h2⟩ | ⟨h1, h2⟩
  · have h3 : ((JB : ℚ) * (n : ℚ)) * w ≤ ((j : ℚ) + 1 / 2 + (k : ℚ)) * w := by linarith
    have h4 : ((j : ℚ) + 1 / 2 + (k : ℚ)) * w < (((JB : ℚ) + 1) * (n : ℚ)) * w := by linarith
    have h5 := le_of_mul_le_mul_right h3 hw
    have h6 := lt_of_mul_lt_mul_right h4 hw.le
    have h7 : (2 * ((JB * n : Nat) : Int)) ≤ 2 * (j : Int) + 1 + 2 * k := by
      have : (2 * ((JB * n : Nat) : ℚ)) ≤ 2 * (j : ℚ) + 1 + 2 * (k : ℚ) := by
        push_cast; linarith
      exact_mod_cast this
    have h8 : 2 * (j : Int) + 1 + 2 * k < 2 * (((JB * n : Nat) : Int) + (n : Int)) := by
      have : 2 * (j : ℚ) + 1 + 2 * (k : ℚ) < 2 * (((JB * n : Nat) : ℚ) + (n : ℚ)) := by
        push_cast; linarith
      exact_mod_cast this
    by_contra hcon
    have hcases : JB + 2 ≤ J ∨ J + 2 ≤ JB := by omega
    rcases hcases with hc | hc
    · have hm := Nat.mul_le_mul_right n hc
      rw [Nat.add_mul] at hm
      generalize JB * n = P at *
      generalize J * n = Q at *
      omega
    · have hm := Nat.mul_le_mul_right n hc
      rw [Nat.add_mul] at hm
      generalize JB * n = P at *
      generalize J * n = Q at *
      omega
  · have h3 : ((j : ℚ) + 1 / 2 + (k : ℚ)) * w < 0 * w := by linarith
    have h4 := lt_of_mul_lt_mul_right h3 hw.le
    have h5 : 2 * (j : Int) + 1 + 2 * k < 0 := by
      have : 2 * (j : ℚ) + 1 + 2 * (k : ℚ) < 0 := by linarith
      exact_mod_cast this
    have h6 : J * n = 0 := by omega
    rcases Nat.mul_eq_zero.1 h6 with h7 | h7
    · right; left; omega
    · omega
  · rw [e2] at h1
    have h3 : (2 : ℚ) ^ dA * w ≤ ((j : ℚ) + 1 / 2 + (k : ℚ)) * w := by linarith
    have h4 := le_of_mul_le_mul_right h3 hw
    have h5 : 2 * ((2 ^ dA : Nat) : Int) ≤ 2 * (j : Int) + 1 + 2 * k := by
      have : 2 * ((2 ^ dA : Nat) : ℚ) ≤ 2 * (j : ℚ) + 1 + 2 * (k : ℚ) := by
        push_cast; linarith
      exact_mod_cast this
    right; left
    by_contra hcon
    have hc : J + 2 ≤ 2 ^ d := by omega
    have hm := Nat.mul_le_mul_right n hc
    rw [Nat.add_mul, ← hsplit] at hm
    generalize J * n = Q at *
    generalize 2 ^ dA = T at *
    omega

end AdaptiveOctreeNode

end Fmm
namespace Fmm

namespace AdaptiveOctreeNode

theorem mem_neighbourOffsets (o : Int × Int × Int) :
    o ∈ neighbourOffsets ↔ ∀ i : Fin 3, offsetAxis i o = -1 ∨ offsetAxis i o = 0 ∨ offsetAxis i o = 1 := by
  obtain ⟨x, y, z⟩ := o
  simp only [neighbourOffsets, List.mem_flatMap, List.mem_map, List.mem_cons, List.mem_singleton,
    Prod.mk.injEq, List.not_mem_nil, or_false]
  constructor
  · rintro ⟨x2, hx, y2, hy, z2, hz, rfl, rfl, rfl⟩
    intro i
    fin_cases i
    · exact hx
    · exact hy
    · exact hz
  · intro h
    exact ⟨x, h 0, y, h 1, z, h 2, rfl, rfl, rfl⟩

theorem axis_neighbour_position (i : Fin 3) (center size : Vec3) (o : Int × Int × Int) :
    axis i (ArrayMath.add center
      ((o.1 : ℚ) * size.1, (o.2.1 : ℚ) * size.2.1, (o.2.2 : ℚ) * size.2.2)) =
      axis i center + (offsetAxis i o : ℚ) * axis i size := by
  fin_cases i <;> rfl

theorem nodeAt_take (root : AdaptiveOctreeNode) (a : NodePtr) (node : AdaptiveOctreeNode)
    (h : nodeAt root a = some node) (d : Nat) : ∃ n, nodeAt root (a.take d) = some n := by
  rw [← List.take_append_drop d a, nodeAt_append] at h
  cases hp : nodeAt root (a.take d) with
  | none => rw [hp] at h; exact absurd h (by simp)
  | some n => exact ⟨n, rfl⟩

theorem neighbour_axis (root : AdaptiveOctreeNode) (lo hi : Vec3) (hb : boxesFrom root lo hi)
    (hd0 : depthsFrom root 0) (hpos : ∀ i, axis i lo < axis i hi)
    (a : NodePtr) (nodeA : AdaptiveOctreeNode) (hA : nodeAt root a = some nodeA)
    (position : Vec3) (i : Fin 3) (k : Int) (hk : k = -1 ∨ k = 0 ∨ k = 1)
    (hx : axis i position =
      axis i nodeA.data.nodeCenter + (k : ℚ) * axis i nodeA.data.nodeSize) :
    (findNode root position nodeA.data.depth).length ≤ a.length ∧
    ((axisIndex i (a.take (findNode root position nodeA.data.depth).length) : Int) =
        (axisIndex i (findNode root position nodeA.data.depth) : Int) - 1 ∨
      (axisIndex i (a.take (findNode root position nodeA.data.depth).length) : Int) =
        (axisIndex i (findNode root position nodeA.data.depth) : Int) ∨
      (axisIndex i (a.take (findNode root position nodeA.data.depth).length) : Int) =
        (axisIndex i (findNode root position nodeA.data.depth) : Int) + 1) := by
  have hdepthA := (nodeAt_depth root a 0 nodeA hd0 hA).2
  obtain ⟨found, hf1, hf2, _⟩ := findNode_spec root position nodeA.data.depth 0 hd0 (by omega)
  have hdepthB := (nodeAt_depth root _ 0 found hd0 hf1).2
  have hlen : (findNode root position nodeA.data.depth).length ≤ a.length := by omega
  refine ⟨hlen, ?_⟩
  have hcov := findNode_covers i position nodeA.data.depth root lo hi hb
  generalize findNode root position nodeA.data.depth = b at *
  obtain ⟨hA1, hA2, hA3, hA4⟩ := boxesFrom_data nodeA _ _ (nodeAt_boxes a root lo hi nodeA hb hA)
  obtain ⟨ha1, ha2⟩ := axis_boxAt i a lo hi
  obtain ⟨hb1, hb2⟩ := axis_boxAt i b lo hi
  rw [hA3, hA4, axis_mulScalar, axis_add, axis_sub, ha1, ha2] at hx
  have hsplit : axisIndex i a =
      axisIndex i (a.take b.length) * 2 ^ (a.length - b.length) + axisIndex i (a.drop b.length) := by
    have := axisIndex_append i (a.take b.length) (a.drop b.length)
    rw [List.take_append_drop, List.length_drop] at this
    exact this
  have hr : axisIndex i (a.drop b.length) < 2 ^ (a.length - b.length) := by
    have := axisIndex_lt i (a.drop b.length)
    rw [List.length_drop] at this
    exact this
  have hJ : axisIndex i (a.take b.length) < 2 ^ b.length := by
    have := axisIndex_lt i (a.take b.length)
    rw [List.length_take, Nat.min_eq_left hlen] at this
    exact this
  apply neighbour_index_near (axis i lo) (axis i hi - axis i lo) (by have := hpos i; linarith)
    a.length b.length hlen (axisIndex i a) (axisIndex i (a.take b.length))
    (axisIndex i (a.drop b.length)) (axisIndex i b) hsplit hr hJ k hk
  have hxe : axis i position = axis i lo +
      ((axisIndex i a : ℚ) + 1 / 2 + (k : ℚ)) * ((axis i hi - axis i lo) / 2 ^ a.length) := by
    rw [hx]; ring
  rw [← hxe]
  unfold covers at hcov
  rw [hb1, hb2] at hcov
  rcases hcov with h | h | h
  · exact Or.inl h
  · exact Or.inr (Or.inl h)
  · refine Or.inr (Or.inr ⟨?_, h.2⟩)
    have := h.1
    linarith

end AdaptiveOctreeNode

end Fmm
namespace Fmm

namespace AdaptiveOctreeNode

theorem ancestor_is_neighbour (root : AdaptiveOctreeNode) (lo hi : Vec3)
    (hb : boxesFrom root lo hi) (hd0 : depthsFrom root 0) (hpos : ∀ i, axis i lo < axis i hi)
    (a : NodePtr) (nodeA : AdaptiveOctreeNode) (hA : nodeAt root a = some nodeA)
    (o : Int × Int × Int) (ho : o ∈ neighbourOffsets) :
    a.take (findNeighbour root nodeA.data o.1 o.2.1 o.2.2).length ∈
      neighbourList root (findNeighbour root nodeA.data o.1 o.2.1 o.2.2) := by
  have hfn : findNeighbour root nodeA.data o.1 o.2.1 o.2.2 =
      findNode root (ArrayMath.add nodeA.data.nodeCenter
        ((o.1 : ℚ) * nodeA.data.nodeSize.1, (o.2.1 : ℚ) * nodeA.data.nodeSize.2.1,
          (o.2.2 : ℚ) * nodeA.data.nodeSize.2.2)) nodeA.data.depth := rfl
  rw [hfn]
  have hnear : ∀ i : Fin 3, ∃ k2 : Int, (k2 = -1 ∨ k2 = 0 ∨ k2 = 1) ∧
      (axisIndex i (a.take (findNode root (ArrayMath.add nodeA.data.nodeCenter
        ((o.1 : ℚ) * nodeA.data.nodeSize.1, (o.2.1 : ℚ) * nodeA.data.nodeSize.2.1,
          (o.2.2 : ℚ) * nodeA.data.nodeSize.2.2)) nodeA.data.depth).length) : Int) =
        (axisIndex i (findNode root (ArrayMath.add nodeA.data.nodeCenter
        ((o.1 : ℚ) * nodeA.data.nodeSize.1, (o.2.1 : ℚ) * nodeA.data.nodeSize.2.1,
          (o.2.2 : ℚ) * nodeA.data.nodeSize.2.2)) nodeA.data.depth) : Int) + k2 := by
    intro i
    have h := (neighbour_axis root lo hi hb hd0 hpos a nodeA hA
      (ArrayMath.add nodeA.data.nodeCenter
        ((o.1 : ℚ) * nodeA.data.nodeSize.1, (o.2.1 : ℚ) * nodeA.data.nodeSize.2.1,
          (o.2.2 : ℚ) * nodeA.data.nodeSize.2.2)) i (offsetAxis i o)
      ((mem_neighbourOffsets o).1 ho i) (axis_neighbour_position i _ _ o)).2
    rcases h with h | h | h
    · exact ⟨-1, Or.inl rfl, by rw [h]; ring⟩
    · exact ⟨0, Or.inr (Or.inl rfl), by rw [h]; ring⟩
    · exact ⟨1, Or.inr (Or.inr rfl), by rw [h]⟩
  have hlen := (neighbour_axis root lo hi hb hd0 hpos a nodeA hA
      (ArrayMath.add nodeA.data.nodeCenter
        ((o.1 : ℚ) * nodeA.data.nodeSize.1, (o.2.1 : ℚ) * nodeA.data.nodeSize.2.1,
          (o.2.2 : ℚ) * nodeA.data.nodeSize.2.2)) 0 (offsetAxis 0 o)
      ((mem_neighbourOffsets o).1 ho 0) (axis_neighbour_position 0 _ _ o)).1
  have hdepthA := (nodeAt_depth root a 0 nodeA hd0 hA).2
  obtain ⟨nodeB, hB, _, _⟩ := findNode_spec root
    (ArrayMath.add nodeA.data.nodeCenter
      ((o.1 : ℚ) * nodeA.data.nodeSize.1, (o.2.1 : ℚ) * nodeA.data.nodeSize.2.1,
        (o.2.2 : ℚ) * nodeA.data.nodeSize.2.2)) nodeA.data.depth 0 hd0 (by omega)
  clear hfn
  generalize findNode root (ArrayMath.add nodeA.data.nodeCenter
        ((o.1 : ℚ) * nodeA.data.nodeSize.1, (o.2.1 : ℚ) * nodeA.data.nodeSize.2.1,
          (o.2.2 : ℚ) * nodeA.data.nodeSize.2.2)) nodeA.data.depth = b at *
  have hdepthB := (nodeAt_depth root b 0 nodeB hd0 hB).2
  obtain ⟨hB1, hB2, hB3, hB4⟩ := boxesFrom_data nodeB _ _ (nodeAt_boxes b root lo hi nodeB hb hB)
  choose k2 hk2 hidx using hnear
  obtain ⟨nodeT, hT⟩ := nodeAt_take root a nodeA hA b.length
  have htl : (a.take b.length).length = b.length := by
    rw [List.length_take, Nat.min_eq_left hlen]
  have hfind : findNeighbour root nodeB.data (k2 0) (k2 1) (k2 2) = a.take b.length := by
    have h := findNode_of_mem_box (a.take b.length) root lo hi 0 nodeT
      (ArrayMath.add nodeB.data.nodeCenter
        ((k2 0 : ℚ) * nodeB.data.nodeSize.1, (k2 1 : ℚ) * nodeB.data.nodeSize.2.1,
          (k2 2 : ℚ) * nodeB.data.nodeSize.2.2)) hb hd0 hpos hT (by
        intro i
        have hax := axis_neighbour_position i nodeB.data.nodeCenter nodeB.data.nodeSize
          (k2 0, k2 1, k2 2)
        have hoff : offsetAxis i (k2 0, k2 1, k2 2) = k2 i := by fin_cases i <;> rfl
        rw [hoff] at hax
        rw [hax, hB3, hB4, axis_mulScalar, axis_add, axis_sub]
        obtain ⟨hb1, hb2⟩ := axis_boxAt i b lo hi
        obtain ⟨ht1, ht2⟩ := axis_boxAt i (a.take b.length) lo hi
        rw [hb1, hb2, ht1, ht2, htl]
        have hcast : (axisIndex i (a.take b.length) : ℚ) = (axisIndex i b : ℚ) + (k2 i : ℚ) := by
          exact_mod_cast hidx i
        rw [hcast]
        have hw : 0 < (axis i hi - axis i lo) / 2 ^ b.length :=
          div_pos (by have := hpos i; linarith) (by positivity)
        generalize (axis i hi - axis i lo) / 2 ^ b.length = w at *
        constructor
        · nlinarith
        · nlinarith)
    rw [zero_add] at hdepthB
    rw [htl, zero_add, ← hdepthB] at h
    exact h
  unfold neighbourList
  rw [hB]
  simp only
  rw [mem_initNeighbourList]
  right
  refine ⟨(k2 0, k2 1, k2 2), ?_, hfind.symm⟩
  rw [mem_neighbourOffsets]
  intro i
  have hoff : offsetAxis i (k2 0, k2 1, k2 2) = k2 i := by fin_cases i <;> rfl
  rw [hoff]
  exact hk2 i

end AdaptiveOctreeNode

end Fmm
namespace Fmm

namespace AdaptiveOctreeNode

/-- C15, as amended: in a tree built by the constructor over a box of positive extent
in every dimension, if `B` is in the neighbour list of a node `A`, then `B` is a node
that is not deeper than `A`, and the ancestor-or-self of `A` at the depth of `B` is
in the neighbour list of `B`; when both have the same depth this is `A` itself. -/
theorem neighbour_of_neighbour_ancestor (tree : AdaptiveOctree) (fuel : Nat)
    (minCorner maxCorner : Vec3) (root : AdaptiveOctreeNode)
    (hroot : construct tree fuel 0 minCorner maxCorner = some root)
    (hsize : ∀ i, axis i minCorner < axis i maxCorner)
    (a b : NodePtr) (nodeA : AdaptiveOctreeNode) (hA : nodeAt root a = some nodeA)
    (hB : b ∈ neighbourList root a) :
    (∃ nodeB ancestor : AdaptiveOctreeNode,
      nodeAt root b = some nodeB ∧ nodeB.data.depth ≤ nodeA.data.depth ∧
      nodeAt root (a.take b.length) = some ancestor ∧
      ancestor.data.depth = nodeB.data.depth) ∧
    a.take b.length ∈ neighbourList root b ∧
    (b.length = a.length → a ∈ neighbourList root b) := by
  have hd0 := construct_depthsFrom tree fuel 0 minCorner maxCorner root hroot
  have hb := construct_boxesFrom tree fuel 0 minCorner maxCorner root hroot
  obtain ⟨nodeB, hnB, hdep, hlen⟩ := (neighbourList_spec root hd0 a nodeA hA).2 b hB
  obtain ⟨ancestor, hanc⟩ := nodeAt_take root a nodeA hA b.length
  have hmem : a.take b.length ∈ neighbourList root b := by
    have hB2 := hB
    unfold neighbourList at hB2
    rw [hA] at hB2
    simp only at hB2
    rcases (mem_initNeighbourList _ _ _ _).1 hB2 with h | ⟨o, ho, h⟩
    · rw [h, List.take_length]
      exact (neighbourList_spec root hd0 a nodeA hA).1
    · rw [h]
      exact ancestor_is_neighbour root minCorner maxCorner hb hd0 hsize a nodeA hA o ho
  refine ⟨⟨nodeB, ancestor, hnB, hdep, hanc, ?_⟩, hmem, ?_⟩
  · have h1 := (nodeAt_depth root _ 0 ancestor hd0 hanc).2
    have h2 := (nodeAt_depth root _ 0 nodeB hd0 hnB).2
    rw [h1, h2, List.length_take, Nat.min_eq_left hlen]
  · intro heq
    rw [heq, List.take_length] at hmem
    exact hmem

theorem neighbour_of_neighbour_ancestor_witness :
    [0, 1] ∈ neighbourList irregularRoot [0, 0, 7] ∧
      List.take [(0 : Fin 8), 1].length [(0 : Fin 8), 0, 7] ∈ neighbourList irregularRoot [0, 1] := by
  have hroot : construct irregularOctree 4 0 (0, 0, 0) (8, 8, 8) = some irregularRoot :=
    eq_some_getD _ _ (by decide!)
  have hsome : (nodeAt irregularRoot [0, 0, 7]).isSome = true := by decide!
  obtain ⟨node, hnode⟩ := Option.isSome_iff_exists.1 hsome
  have hB : [0, 1] ∈ neighbourList irregularRoot [0, 0, 7] := by decide!
  exact ⟨hB, (neighbour_of_neighbour_ancestor irregularOctree 4 (0, 0, 0) (8, 8, 8) irregularRoot
    hroot (by intro i; fin_cases i <;> norm_num [axis]) [0, 0, 7] [0, 1] node hnode hB).2.1⟩

/-- As C15 is stated, it fails on the tree of `irregularOctree`: the leaf `root->0->1`
is in the neighbour list of the deeper leaf `root->0->0->7`, but `root->0->0->7` is
not in the neighbour list of `root->0->1`, and that list has no entry deeper than
`root->0->1` itself, which is a leaf without descendants. -/
theorem shallow_neighbour_not_symmetric :
    shapeAt (some irregularRoot) [0, 0, 7] = some (true, 0) ∧
    shapeAt (some irregularRoot) [0, 1] = some (true, 0) ∧
    [0, 1] ∈ neighbourList irregularRoot [0, 0, 7] ∧
    [0, 0, 7] ∉ neighbourList irregularRoot [0, 1] ∧
    (∀ q ∈ neighbourList irregularRoot [0, 1], q.length ≤ 2) ∧
    [0, 0] ∈ neighbourList irregularRoot [0, 1] := by
  decide!

theorem flat_box_not_symmetric :
    shapeAt (some flatRoot) [0] = some (true, 0) ∧ shapeAt (some flatRoot) [1] = some (true, 0) ∧
    [1] ∈ neighbourList flatRoot [0] ∧ [0] ∉ neighbourList flatRoot [1] := by
  decide!

end AdaptiveOctreeNode

end Fmm
namespace VerletClusterLists

theorem rebuild_eq_binned (cbrt : ℚ → ℚ) (s : VerletClusterLists) :
    rebuild cbrt s = padClusters (updateVerletLists (binned cbrt s)) := rfl

theorem cellIndexInDim_lt (s : VerletClusterLists) (pos boxMin boxMax : ℚ) (cells : Nat)
    (hc : 0 < cells) : cellIndexInDim s pos boxMin boxMax cells < cells := by
  unfold cellIndexInDim
  simp only
  split_ifs
  · omega
  · omega
  · have := Nat.min_le_right (max (⌊(pos - boxMin) * s.gridSideLengthReciprocal⌋ + 1) 0).toNat
      (cells - 1)
    omega

theorem cellIndexInDim_gap (s : VerletClusterLists) (hg : 0 < s.gridSideLength)
    (hr : s.gridSideLengthReciprocal = 1 / s.gridSideLength)
    (boxMin boxMax : ℚ) (cells : Nat) (p q : ℚ)
    (hp0 : boxMin ≤ p) (hp1 : p < boxMax) (hq0 : boxMin ≤ q) (hq1 : q < boxMax)
    (hlt : cellIndexInDim s q boxMin boxMax cells < cellIndexInDim s p boxMin boxMax cells) :
    (((cellIndexInDim s p boxMin boxMax cells : Int) : ℚ) -
      ((cellIndexInDim s q boxMin boxMax cells : Int) : ℚ) - 1) * s.gridSideLength < p - q := by
  have hrec : 0 < s.gridSideLengthReciprocal := by rw [hr]; positivity
  have hkp0 : 0 ≤ ⌊(p - boxMin) * s.gridSideLengthReciprocal⌋ :=
    Int.floor_nonneg.2 (mul_nonneg (by linarith) hrec.le)
  have hkq0 : 0 ≤ ⌊(q - boxMin) * s.gridSideLengthReciprocal⌋ :=
    Int.floor_nonneg.2 (mul_nonneg (by linarith) hrec.le)
  have hxp : cellIndexInDim s p boxMin boxMax cells =
      min (max (⌊(p - boxMin) * s.gridSideLengthReciprocal⌋ + 1) 0).toNat (cells - 1) := by
    unfold cellIndexInDim
    simp only
    rw [if_neg (by linarith), if_neg (by linarith)]
  have hxq : cellIndexInDim s q boxMin boxMax cells =
      min (max (⌊(q - boxMin) * s.gridSideLengthReciprocal⌋ + 1) 0).toNat (cells - 1) := by
    unfold cellIndexInDim
    simp only
    rw [if_neg (by linarith), if_neg (by linarith)]
  rw [hxp, hxq] at hlt ⊢
  have hfp : ((⌊(p - boxMin) * s.gridSideLengthReciprocal⌋ : Int) : ℚ) ≤
      (p - boxMin) * s.gridSideLengthReciprocal := Int.floor_le _
  have hfq : (q - boxMin) * s.gridSideLengthReciprocal <
      ((⌊(q - boxMin) * s.gridSideLengthReciprocal⌋ : Int) : ℚ) + 1 := Int.lt_floor_add_one _
  generalize ⌊(p - boxMin) * s.gridSideLengthReciprocal⌋ = kp at *
  generalize ⌊(q - boxMin) * s.gridSideLengthReciprocal⌋ = kq at *
  have h1 : ((min (max (kp + 1) 0).toNat (cells - 1) : Nat) : Int) ≤ kp + 1 := by omega
  have h2 : ((min (max (kq + 1) 0).toNat (cells - 1) : Nat) : Int) = kq + 1 := by omega
  have h1q : (((min (max (kp + 1) 0).toNat (cells - 1) : Nat) : Int) : ℚ) ≤ (kp : ℚ) + 1 := by
    exact_mod_cast h1
  have h2q : (((min (max (kq + 1) 0).toNat (cells - 1) : Nat) : Int) : ℚ) = (kq : ℚ) + 1 := by
    exact_mod_cast h2
  rw [h2q]
  have hone : s.gridSideLengthReciprocal * s.gridSideLength = 1 := by
    rw [hr]; field_simp
  have hlt2 : (((min (max (kp + 1) 0).toNat (cells - 1) : Nat) : Int) : ℚ) - ((kq : ℚ) + 1) - 1 <
      (p - q) * s.gridSideLengthReciprocal := by
    have : (p - q) * s.gridSideLengthReciprocal =
        (p - boxMin) * s.gridSideLengthReciprocal - (q - boxMin) * s.gridSideLengthReciprocal := by
      ring
    rw [this]
    linarith
  calc ((((min (max (kp + 1) 0).toNat (cells - 1) : Nat) : Int) : ℚ) - ((kq : ℚ) + 1) - 1) *
        s.gridSideLength
      < (p - q) * s.gridSideLengthReciprocal * s.gridSideLength :=
        mul_lt_mul_of_pos_right hlt2 hg
    _ = p - q := by rw [mul_assoc, hone, mul_one]

theorem cellIndexInDim_abs_gap (s : VerletClusterLists) (hg : 0 < s.gridSideLength)
    (hr : s.gridSideLengthReciprocal = 1 / s.gridSideLength)
    (boxMin boxMax : ℚ) (cells : Nat) (p q : ℚ)
    (hp0 : boxMin ≤ p) (hp1 : p < boxMax) (hq0 : boxMin ≤ q) (hq1 : q < boxMax) :
    (((|(cellIndexInDim s p boxMin boxMax cells : Int) -
      (cellIndexInDim s q boxMin boxMax cells : Int)| : Int) : ℚ) - 1) * s.gridSideLength <
      |p - q| := by
  rcases lt_trichotomy (cellIndexInDim s q boxMin boxMax cells)
      (cellIndexInDim s p boxMin boxMax cells) with h | h | h
  · have h1 := cellIndexInDim_gap s hg hr boxMin boxMax cells p q hp0 hp1 hq0 hq1 h
    have h2 : |(cellIndexInDim s p boxMin boxMax cells : Int) -
        (cellIndexInDim s q boxMin boxMax cells : Int)| =
        (cellIndexInDim s p boxMin boxMax cells : Int) -
        (cellIndexInDim s q boxMin boxMax cells : Int) := abs_of_nonneg (by omega)
    rw [h2]
    push_cast
    exact lt_of_lt_of_le h1 (le_abs_self _)
  · rw [h]
    simp only [sub_self, abs_zero, Int.cast_zero, zero_sub, neg_mul, one_mul]
    have := abs_nonneg (p - q)
    linarith
  · have h1 := cellIndexInDim_gap s hg hr boxMin boxMax cells q p hq0 hq1 hp0 hp1 h
    have h2 : |(cellIndexInDim s p boxMin boxMax cells : Int) -
        (cellIndexInDim s q boxMin boxMax cells : Int)| =
        (cellIndexInDim s q boxMin boxMax cells : Int) -
        (cellIndexInDim s p boxMin boxMax cells : Int) := by
      rw [abs_of_nonpos (by omega)]; omega
    rw [h2]
    push_cast
    exact lt_of_lt_of_le h1 (by rw [abs_sub_comm]; exact le_abs_self _)

theorem gridDistance_nonneg (s : VerletClusterLists) (hg : 0 < s.gridSideLength) (i j : Int) :
    0 ≤ gridDistance s i j := by
  unfold gridDistance
  apply mul_nonneg _ hg.le
  exact_mod_cast le_max_left 0 (|i - j| - 1)

theorem gridDistance_le (s : VerletClusterLists) (hg : 0 < s.gridSideLength)
    (hr : s.gridSideLengthReciprocal = 1 / s.gridSideLength)
    (boxMin boxMax : ℚ) (cells : Nat) (p q : ℚ)
    (hp0 : boxMin ≤ p) (hp1 : p < boxMax) (hq0 : boxMin ≤ q) (hq1 : q < boxMax) :
    gridDistance s (cellIndexInDim s p boxMin boxMax cells)
      (cellIndexInDim s q boxMin boxMax cells) ≤ |p - q| := by
  have h := cellIndexInDim_abs_gap s hg hr boxMin boxMax cells p q hp0 hp1 hq0 hq1
  unfold gridDistance
  rcases le_total 0 (|(cellIndexInDim s p boxMin boxMax cells : Int) -
      (cellIndexInDim s q boxMin boxMax cells : Int)| - 1) with h1 | h1
  · rw [max_eq_right h1]
    push_cast at h ⊢
    exact h.le
  · rw [max_eq_left h1]
    simp only [Int.cast_zero, zero_mul]
    exact abs_nonneg _

theorem beyond_boxRange (s : VerletClusterLists) (hg : 0 < s.gridSideLength)
    (hr : s.gridSideLengthReciprocal = 1 / s.gridSideLength) (hskin : 0 ≤ s.skin)
    (boxMin boxMax : ℚ) (cells : Nat) (p q : ℚ)
    (hp0 : boxMin ≤ p) (hp1 : p < boxMax) (hq0 : boxMin ≤ q) (hq1 : q < boxMax)
    (hfar : boxRange s < |(cellIndexInDim s p boxMin boxMax cells : Int) -
      (cellIndexInDim s q boxMin boxMax cells : Int)|) :
    s.cutoff < |p - q| := by
  have h := cellIndexInDim_abs_gap s hg hr boxMin boxMax cells p q hp0 hp1 hq0 hq1
  have h1 : (s.cutoff + s.skin) * s.gridSideLengthReciprocal ≤ (boxRange s : ℚ) := Int.le_ceil _
  have h2 : ((boxRange s : Int) : ℚ) ≤
      ((|(cellIndexInDim s p boxMin boxMax cells : Int) -
        (cellIndexInDim s q boxMin boxMax cells : Int)| : Int) : ℚ) - 1 := by
    have : boxRange s + 1 ≤ |(cellIndexInDim s p boxMin boxMax cells : Int) -
        (cellIndexInDim s q boxMin boxMax cells : Int)| := hfar
    have := (Int.cast_le (R := ℚ)).2 this
    push_cast at this ⊢
    linarith
  have hone : s.gridSideLengthReciprocal * s.gridSideLength = 1 := by
    rw [hr]; field_simp
  have h3 : s.cutoff + s.skin ≤ (boxRange s : ℚ) * s.gridSideLength := by
    calc s.cutoff + s.skin = (s.cutoff + s.skin) * s.gridSideLengthReciprocal * s.gridSideLength := by
          rw [mul_assoc, hone, mul_one]
      _ ≤ (boxRange s : ℚ) * s.gridSideLength := mul_le_mul_of_nonneg_right h1 hg.le
  have h4 : (boxRange s : ℚ) * s.gridSideLength ≤
      (((|(cellIndexInDim s p boxMin boxMax cells : Int) -
        (cellIndexInDim s q boxMin boxMax cells : Int)| : Int) : ℚ) - 1) * s.gridSideLength :=
    mul_le_mul_of_nonneg_right h2 hg.le
  linarith

theorem bboxDistance_le (iBot iTop jBot jTop pz qz : ℚ) (hi0 : iBot ≤ pz) (hi1 : pz ≤ iTop)
    (hj0 : jBot ≤ qz) (hj1 : qz ≤ jTop) :
    0 ≤ bboxDistance iBot iTop jBot jTop ∧ bboxDistance iBot iTop jBot jTop ≤ |pz - qz| := by
  unfold bboxDistance
  split_ifs with h1 h2
  · refine ⟨by linarith, ?_⟩
    rw [abs_sub_comm]
    exact le_trans (by linarith) (le_abs_self _)
  · exact ⟨by linarith, le_trans (by linarith) (le_abs_self _)⟩
  · exact ⟨le_refl 0, abs_nonneg _⟩

theorem mul_self_le_of_abs (a b : ℚ) (h0 : 0 ≤ a) (h : a ≤ |b|) : a * a ≤ b * b := by
  rw [← abs_mul_abs_self b]
  exact mul_self_le_mul_self h0 h

theorem mul_self_lt_of_abs (a b : ℚ) (h0 : 0 ≤ a) (h : a < |b|) : a * a < b * b := by
  rw [← abs_mul_abs_self b]
  exact mul_self_lt_mul_self h0 h

theorem dr2_expand (p q : Particle) :
    LJFunctor.dr2 p q = (p.r.1 - q.r.1) * (p.r.1 - q.r.1) +
      (p.r.2.1 - q.r.2.1) * (p.r.2.1 - q.r.2.1) + (p.r.2.2 - q.r.2.2) * (p.r.2.2 - q.r.2.2) := rfl

end VerletClusterLists
theorem mem_insertByZ (p x : Particle) (l : List Particle) :
    x ∈ insertByZ p l ↔ x = p ∨ x ∈ l := by
  induction l with
  | nil => simp [insertByZ]
  | cons q qs ih =>
    unfold insertByZ
    split_ifs
    · simp
    · simp only [List.mem_cons, ih]
      tauto

theorem insertByZ_sorted (p : Particle) (l : List Particle) (h : sortedByZ l) :
    sortedByZ (insertByZ p l) := by
  unfold sortedByZ at h ⊢
  induction l with
  | nil => simp [insertByZ]
  | cons q qs ih =>
    unfold insertByZ
    rw [List.pairwise_cons] at h
    split_ifs with hlt
    · rw [List.pairwise_cons]
      refine ⟨?_, List.pairwise_cons.2 h⟩
      intro x hx
      rcases List.mem_cons.1 hx with h1 | h1
      · rw [h1]; exact hlt.le
      · exact le_trans hlt.le (h.1 x h1)
    · rw [List.pairwise_cons]
      refine ⟨?_, ih h.2⟩
      intro x hx
      rcases (mem_insertByZ p x qs).1 hx with h1 | h1
      · rw [h1]; exact not_lt.1 hlt
      · exact h.1 x h1

theorem foldl_insertByZ (l : List Particle) :
    ∀ acc : List Particle, sortedByZ acc →
      sortedByZ (l.foldl (fun sorted p => insertByZ p sorted) acc) ∧
      ∀ x, x ∈ l.foldl (fun sorted p => insertByZ p sorted) acc ↔ x ∈ acc ∨ x ∈ l := by
  induction l with
  | nil => intro acc h; exact ⟨h, fun x => by simp⟩
  | cons a l ih =>
    intro acc h
    obtain ⟨h1, h2⟩ := ih (insertByZ a acc) (insertByZ_sorted a acc h)
    refine ⟨h1, ?_⟩
    intro x
    simp only [List.foldl_cons, h2, mem_insertByZ, List.mem_cons]
    tauto

theorem sortByZ_spec (l : List Particle) :
    sortedByZ (sortByZ l) ∧ ∀ x, x ∈ sortByZ l ↔ x ∈ l := by
  obtain ⟨h1, h2⟩ := foldl_insertByZ l [] List.Pairwise.nil
  exact ⟨h1, fun x => by rw [sortByZ, h2]; simp⟩

theorem sortedByZ_zOf (grid : List Particle) (h : sortedByZ grid) (i j : Nat) (hij : i ≤ j)
    (hj : j < grid.length) : VerletClusterLists.zOf grid i ≤ VerletClusterLists.zOf grid j := by
  unfold VerletClusterLists.zOf
  rw [List.getD_eq_getElem _ _ hj, List.getD_eq_getElem _ _ (lt_of_le_of_lt hij hj)]
  rcases Nat.eq_or_lt_of_le hij with h1 | h1
  · subst h1; exact le_refl _
  · exact List.pairwise_iff_getElem.1 h i j _ hj h1

theorem mem_getD_modify_append {α : Type} (l : List (List α)) (n c : Nat) (a x : α) :
    x ∈ (List.modify (fun cell => cell ++ [a]) n l).getD c [] ↔
      x ∈ l.getD c [] ∨ (c = n ∧ n < l.length ∧ x = a) := by
  rw [List.getD_eq_getElem?_getD, List.getD_eq_getElem?_getD, List.getElem?_modify]
  by_cases hc : c < l.length
  · rw [List.getElem?_eq_getElem hc]
    simp only [Option.map_eq_map, Option.map_some', Option.getD_some]
    by_cases hn : n = c
    · subst hn
      simp only [if_true, List.mem_append, List.mem_singleton]
      tauto
    · simp only [if_neg hn]
      constructor
      · exact Or.inl
      · rintro (h | ⟨h, _⟩)
        · exact h
        · exact absurd h.symm hn
  · rw [List.getElem?_eq_none (by omega)]
    simp only [Option.map_eq_map, Option.map_none', Option.getD_none, List.not_mem_nil, false_or]
    constructor
    · exact False.elim
    · rintro ⟨h1, h2, _⟩
      omega

namespace VerletClusterLists

theorem fill_spec (s1 : VerletClusterLists) (particles : List Particle) :
    ∀ clusters : List (List Particle),
      (fill s1 particles clusters).length = clusters.length ∧
      ∀ (c : Nat) (x : Particle), x ∈ (fill s1 particles clusters).getD c [] ↔
        x ∈ clusters.getD c [] ∨
          (x ∈ particles ∧ inBox x.r s1.boxMin s1.boxMax = true ∧
            c = getIndexOfPosition s1 x.r ∧ c < clusters.length) := by
  induction particles with
  | nil => intro clusters; exact ⟨rfl, fun c x => by simp [fill]⟩
  | cons a l ih =>
    intro clusters
    unfold fill at ih ⊢
    simp only [List.foldl_cons]
    by_cases hin : inBox a.r s1.boxMin s1.boxMax = true
    · rw [if_pos hin]
      obtain ⟨h1, h2⟩ := ih (List.modify (fun cell => cell ++ [a]) (getIndexOfPosition s1 a.r) clusters)
      refine ⟨by rw [h1, List.length_modify], ?_⟩
      intro c x
      rw [h2, mem_getD_modify_append, List.length_modify]
      simp only [List.mem_cons]
      constructor
      · rintro ((h | ⟨h3, h4, h5⟩) | ⟨h3, h4, h5, h6⟩)
        · exact Or.inl h
        · subst h5; exact Or.inr ⟨Or.inl rfl, hin, h3, by omega⟩
        · exact Or.inr ⟨Or.inr h3, h4, h5, h6⟩
      · rintro (h | ⟨h3 | h3, h4, h5, h6⟩)
        · exact Or.inl (Or.inl h)
        · subst h3; exact Or.inl (Or.inr ⟨h5, by omega, rfl⟩)
        · exact Or.inr ⟨h3, h4, h5, h6⟩
    · rw [if_neg hin]
      obtain ⟨h1, h2⟩ := ih clusters
      refine ⟨h1, ?_⟩
      intro c x
      rw [h2]
      simp only [List.mem_cons]
      constructor
      · rintro (h | ⟨h3, h4, h5, h6⟩)
        · exact Or.inl h
        · exact Or.inr ⟨Or.inr h3, h4, h5, h6⟩
      · rintro (h | ⟨h3 | h3, h4, h5, h6⟩)
        · exact Or.inl h
        · subst h3; exact absurd h4 hin
        · exact Or.inr ⟨h3, h4, h5, h6⟩

end VerletClusterLists
namespace VerletClusterLists

theorem binned_fields (cbrt : ℚ → ℚ) (s : VerletClusterLists) :
    (binned cbrt s).boxMin = s.boxMin ∧ (binned cbrt s).boxMax = s.boxMax ∧
    (binned cbrt s).cutoff = s.cutoff ∧ (binned cbrt s).cutoffSqr = s.cutoffSqr ∧
    (binned cbrt s).skin = s.skin ∧ (binned cbrt s).clusterSize = s.clusterSize ∧
    (binned cbrt s).gridSideLengthReciprocal = 1 / (binned cbrt s).gridSideLength ∧
    0 < (binned cbrt s).cellsPerDim.x ∧ 0 < (binned cbrt s).cellsPerDim.y ∧
    (rebuild cbrt s).gridSideLength = (binned cbrt s).gridSideLength ∧
    (rebuild cbrt s).cellsPerDim = (binned cbrt s).cellsPerDim := by
  refine ⟨rfl, rfl, rfl, rfl, rfl, rfl, rfl, ?_, ?_, rfl, rfl⟩
  · exact lt_of_lt_of_le Nat.zero_lt_one (le_max_right _ _)
  · exact lt_of_lt_of_le Nat.zero_lt_one (le_max_right _ _)

theorem binned_clusters (cbrt : ℚ → ℚ) (s : VerletClusterLists) :
    (binned cbrt s).clusters =
      (fill (binned cbrt s) (s.clusters.flatMap id)
        (List.replicate (1 * (binned cbrt s).cellsPerDim.x * (binned cbrt s).cellsPerDim.y) [])).map
        sortByZ := rfl

theorem getD_replicate_nil {α : Type} (n c : Nat) :
    (List.replicate n ([] : List α)).getD c [] = [] := by
  rw [List.getD_eq_getElem?_getD]
  by_cases h : c < n
  · rw [List.getElem?_eq_getElem (by simpa using h)]
    simp
  · rw [List.getElem?_eq_none (by simpa using h)]
    rfl

theorem binned_spec (cbrt : ℚ → ℚ) (s : VerletClusterLists) (c : Nat) :
    sortedByZ ((binned cbrt s).clusters.getD c []) ∧
    ∀ x : Particle, x ∈ (binned cbrt s).clusters.getD c [] ↔
      (x ∈ s.clusters.flatMap id ∧ inBox x.r s.boxMin s.boxMax = true ∧
        c = getIndexOfPosition (binned cbrt s) x.r) := by
  rw [binned_clusters]
  have hmap : ∀ l : List (List Particle),
      (l.map sortByZ).getD c [] = sortByZ (l.getD c []) := by
    intro l
    rw [List.getD_eq_getElem?_getD, List.getD_eq_getElem?_getD, List.getElem?_map]
    cases l[c]? <;> rfl
  rw [hmap]
  refine ⟨(sortByZ_spec _).1, ?_⟩
  intro x
  rw [(sortByZ_spec _).2, (fill_spec _ _ _).2, getD_replicate_nil]
  simp only [List.not_mem_nil, false_or, List.length_replicate]
  constructor
  · rintro ⟨h1, h2, h3, _⟩
    exact ⟨h1, h2, h3⟩
  · rintro ⟨h1, h2, h3⟩
    refine ⟨h1, h2, h3, ?_⟩
    obtain ⟨_, _, _, _, _, _, _, hx, hy, _⟩ := binned_fields cbrt s
    rw [h3]
    unfold getIndexOfPosition
    simp only
    have h4 := cellIndexInDim_lt (binned cbrt s) x.r.1 (binned cbrt s).boxMin.1
      (binned cbrt s).boxMax.1 _ hx
    have h5 := cellIndexInDim_lt (binned cbrt s) x.r.2.1 (binned cbrt s).boxMin.2.1
      (binned cbrt s).boxMax.2.1 _ hy
    generalize cellIndexInDim (binned cbrt s) x.r.1 (binned cbrt s).boxMin.1
      (binned cbrt s).boxMax.1 (binned cbrt s).cellsPerDim.x = a at *
    generalize cellIndexInDim (binned cbrt s) x.r.2.1 (binned cbrt s).boxMin.2.1
      (binned cbrt s).boxMax.2.1 (binned cbrt s).cellsPerDim.y = b at *
    generalize (binned cbrt s).cellsPerDim.x = cx at *
    generalize (binned cbrt s).cellsPerDim.y = cy at *
    calc a + b * cx < cx + b * cx := by omega
      _ = (b + 1) * cx := by ring
      _ ≤ cy * cx := Nat.mul_le_mul_right _ h5
      _ = 1 * cx * cy := by ring

theorem getD_flatMap_range {α : Type} (f : Nat → Nat → α) (d : α) (cx : Nat) :
    ∀ (cy x y : Nat), x < cx → y < cy →
      ((List.range cy).flatMap fun yi => (List.range cx).map fun xi => f xi yi).getD
        (x + y * cx) d = f x y ∧
      ((List.range cy).flatMap fun yi => (List.range cx).map fun xi => f xi yi).length = cy * cx := by
  intro cy
  induction cy with
  | zero => intro x y _ hy; omega
  | succ cy ih =>
    intro x y hx hy
    have hlen : ((List.range cy).flatMap fun yi => (List.range cx).map fun xi => f xi yi).length =
        cy * cx := by
      clear ih hy
      induction cy with
      | zero => simp
      | succ n ihn =>
        rw [List.range_succ, List.flatMap_append, List.length_append, ihn]
        simp
        ring
    rw [List.range_succ, List.flatMap_append]
    constructor
    · by_cases hlt : y < cy
      · rw [List.getD_append _ _ _ _ (by
          rw [hlen]
          calc x + y * cx < cx + y * cx := by omega
            _ = (y + 1) * cx := by ring
            _ ≤ cy * cx := Nat.mul_le_mul_right _ hlt)]
        exact (ih x y hx hlt).1
      · have hy2 : y = cy := by omega
        subst hy2
        rw [List.getD_append_right _ _ _ _ (by rw [hlen]; omega), hlen]
        simp only [List.flatMap_cons, List.flatMap_nil, List.append_nil, Nat.add_sub_cancel]
        rw [List.getD_eq_getElem _ _ (by simpa using hx)]
        simp
    · rw [List.length_append, hlen]
      simp
      ring

end VerletClusterLists
theorem mem_rangeIncl (lo hi j : Int) : j ∈ rangeIncl lo hi ↔ lo ≤ j ∧ j ≤ hi := by
  unfold rangeIncl
  simp
  constructor
  · rintro ⟨k, hk, rfl⟩
    omega
  · rintro ⟨h1, h2⟩
    exact ⟨j - lo, ⟨(j - lo).toNat, by omega, by omega⟩, by ring⟩

theorem cluster_index_facts (cs len k : Nat) (hcs : 0 < cs) (hk : k < len) :
    k / cs * cs ≤ k ∧ k < k / cs * cs + cs ∧ len / cs * cs + len % cs = len ∧
    (k / cs < len / cs → k / cs * cs + cs ≤ len / cs * cs) ∧
    (¬ k / cs < len / cs → k / cs = len / cs ∧ 0 < len % cs) := by
  have h1 : k / cs * cs ≤ k := Nat.div_mul_le_self k cs
  have h2 : k < k / cs * cs + cs := Nat.lt_div_mul_add hcs
  have h3 : len / cs * cs + len % cs = len := Nat.div_add_mod' len cs
  refine ⟨h1, h2, h3, ?_, ?_⟩
  · intro h
    have : (k / cs + 1) * cs ≤ len / cs * cs := Nat.mul_le_mul_right cs h
    rw [Nat.add_mul, Nat.one_mul] at this
    exact this
  · intro h
    have h4 : k / cs ≤ len / cs := Nat.div_le_div_right hk.le
    have h5 : k / cs = len / cs := by omega
    refine ⟨h5, ?_⟩
    by_contra h6
    have h7 : len % cs = 0 := by omega
    rw [h7, Nat.add_zero, ← h5] at h3
    omega

namespace VerletClusterLists

theorem clusterBBox_contains (s : VerletClusterLists) (hcs : 0 < s.clusterSize)
    (grid : List Particle) (hsorted : sortedByZ grid) (k : Nat) (hk : k < grid.length) :
    (clusterBBox s grid (k / s.clusterSize)).1 ≤ zOf grid k ∧
    zOf grid k ≤ (clusterBBox s grid (k / s.clusterSize)).2 := by
  obtain ⟨h1, h2, h3, h4, h5⟩ := cluster_index_facts s.clusterSize grid.length k hcs hk
  unfold clusterBBox
  by_cases hz : k / s.clusterSize < grid.length / s.clusterSize
  · rw [if_pos hz]
    have := h4 hz
    have h6 := Nat.div_mul_le_self grid.length s.clusterSize
    exact ⟨sortedByZ_zOf grid hsorted _ _ h1 hk,
      sortedByZ_zOf grid hsorted _ _ (by omega) (by omega)⟩
  · rw [if_neg hz]
    obtain ⟨h6, h7⟩ := h5 hz
    rw [h6] at h1
    exact ⟨sortedByZ_zOf grid hsorted _ _ h1 hk,
      sortedByZ_zOf grid hsorted _ _ (by omega) (by omega)⟩

theorem mem_neighborsInColumn (s : VerletClusterLists) (hcs : 0 < s.clusterSize)
    (distXYsqr iBBoxBot iBBoxTop : ℚ) (jIndex kj : Nat)
    (hkj : kj < (s.clusters.getD jIndex []).length)
    (hd : distXYsqr +
      bboxDistance iBBoxBot iBBoxTop
          (clusterBBox s (s.clusters.getD jIndex []) (kj / s.clusterSize)).1
          (clusterBBox s (s.clusters.getD jIndex []) (kj / s.clusterSize)).2 *
        bboxDistance iBBoxBot iBBoxTop
          (clusterBBox s (s.clusters.getD jIndex []) (kj / s.clusterSize)).1
          (clusterBBox s (s.clusters.getD jIndex []) (kj / s.clusterSize)).2 ≤ s.cutoffSqr) :
    (jIndex, kj / s.clusterSize * s.clusterSize) ∈
      neighborsInColumn s distXYsqr iBBoxBot iBBoxTop jIndex := by
  obtain ⟨_, _, _, _, h5⟩ :=
    cluster_index_facts s.clusterSize (s.clusters.getD jIndex []).length kj hcs hkj
  unfold neighborsInColumn
  simp only
  rw [List.mem_append]
  unfold clusterBBox at hd
  by_cases hz : kj / s.clusterSize < (s.clusters.getD jIndex []).length / s.clusterSize
  · left
    rw [if_pos hz] at hd
    rw [List.mem_flatMap]
    refine ⟨kj / s.clusterSize, List.mem_range.2 hz, ?_⟩
    rw [if_pos hd]
    exact List.mem_singleton.2 rfl
  · right
    rw [if_neg hz] at hd
    obtain ⟨h6, h7⟩ := h5 hz
    rw [if_pos h7, if_pos hd, h6]
    exact List.mem_singleton.2 rfl

theorem neighborsOfColumn_getD (s : VerletClusterLists) (hcs : 0 < s.clusterSize)
    (boxRange : Int) (xi yi ki : Nat)
    (hki : ki < (s.clusters.getD (index1D s xi yi) []).length) :
    (neighborsOfColumn s boxRange xi yi).getD (ki / s.clusterSize) [] =
      neighborsOfCluster s boxRange xi yi
        (clusterBBox s (s.clusters.getD (index1D s xi yi) []) (ki / s.clusterSize)).1
        (clusterBBox s (s.clusters.getD (index1D s xi yi) []) (ki / s.clusterSize)).2 := by
  obtain ⟨_, _, _, _, h5⟩ :=
    cluster_index_facts s.clusterSize (s.clusters.getD (index1D s xi yi) []).length ki hcs hki
  unfold neighborsOfColumn clusterBBox
  simp only
  by_cases hz : ki / s.clusterSize < (s.clusters.getD (index1D s xi yi) []).length / s.clusterSize
  · rw [if_pos hz, List.getD_append _ _ _ _ (by simpa using hz),
      List.getD_eq_getElem _ _ (by simpa using hz)]
    simp only [List.getElem_map, List.getElem_range]
    have : (ki / s.clusterSize + 1) * s.clusterSize - 1 =
        ki / s.clusterSize * s.clusterSize + (s.clusterSize - 1) := by
      rw [Nat.add_mul, Nat.one_mul]
      omega
    rw [this]
  · rw [if_neg hz]
    obtain ⟨h6, h7⟩ := h5 hz
    rw [List.getD_append_right _ _ _ _ (by
      simp only [List.length_map, List.length_range]; omega), if_pos h7, h6]
    simp only [List.length_map, List.length_range, Nat.sub_self]
    have : (s.clusters.getD (index1D s xi yi) []).length / s.clusterSize * s.clusterSize +
        (s.clusters.getD (index1D s xi yi) []).length % s.clusterSize - 1 =
        (s.clusters.getD (index1D s xi yi) []).length / s.clusterSize * s.clusterSize +
        ((s.clusters.getD (index1D s xi yi) []).length % s.clusterSize - 1) := by omega
    rw [this]
    rfl

theorem mem_neighborsOfCluster (s : VerletClusterLists) (boxRange : Int) (xi yi xj yj : Nat)
    (iBBoxBot iBBoxTop : ℚ) (entry : ParticlePtr)
    (hxj : xj < s.cellsPerDim.x) (hyj : yj < s.cellsPerDim.y)
    (hx : |(xi : Int) - (xj : Int)| ≤ boxRange) (hy : |(yi : Int) - (yj : Int)| ≤ boxRange)
    (hd : gridDistance s xi xj * gridDistance s xi xj +
      gridDistance s yi yj * gridDistance s yi yj ≤ s.cutoffSqr)
    (hmem : entry ∈ neighborsInColumn s
      (gridDistance s xi xj * gridDistance s xi xj + gridDistance s yi yj * gridDistance s yi yj)
      iBBoxBot iBBoxTop (index1D s xj yj)) :
    entry ∈ neighborsOfCluster s boxRange xi yi iBBoxBot iBBoxTop := by
  unfold neighborsOfCluster
  simp only
  rw [List.mem_flatMap]
  refine ⟨(yj : Int), ?_, ?_⟩
  · rw [mem_rangeIncl]
    rw [abs_le] at hy
    omega
  · rw [List.mem_flatMap]
    refine ⟨(xj : Int), ?_, ?_⟩
    · rw [mem_rangeIncl]
      rw [abs_le] at hx
      omega
    · unfold gridDistance at hd hmem
      rw [if_pos hd]
      simpa using hmem

theorem rebuild_neighborLists (cbrt : ℚ → ℚ) (s : VerletClusterLists) (xi yi : Nat)
    (hxi : xi < (binned cbrt s).cellsPerDim.x) (hyi : yi < (binned cbrt s).cellsPerDim.y) :
    (rebuild cbrt s).neighborLists.getD (index1D (binned cbrt s) xi yi) [] =
      neighborsOfColumn (binned cbrt s) (boxRange (binned cbrt s)) xi yi := by
  have h := (getD_flatMap_range
    (fun xi yi => neighborsOfColumn (binned cbrt s) (boxRange (binned cbrt s)) xi yi) []
    (binned cbrt s).cellsPerDim.x (binned cbrt s).cellsPerDim.y xi yi hxi hyi).1
  exact h

end VerletClusterLists
namespace VerletClusterLists

theorem getD_modify {α : Type} (f : List α → List α) (n c : Nat) (l : List (List α)) :
    (List.modify f n l).getD c [] =
      if n = c ∧ c < l.length then f (l.getD c []) else l.getD c [] := by
  rw [List.getD_eq_getElem?_getD, List.getD_eq_getElem?_getD, List.getElem?_modify]
  by_cases hc : c < l.length
  · rw [List.getElem?_eq_getElem hc]
    by_cases hn : n = c
    · simp [hn, hc]
    · simp [hn]
  · rw [List.getElem?_eq_none (by omega)]
    simp [hc]

theorem extendsColumns_refl (l : List (List Particle)) : extendsColumns l l :=
  fun _ => ⟨[], (List.append_nil _).symm⟩

theorem extendsColumns_step (t : VerletClusterLists) (x y : Nat)
    (before cur : List (List Particle)) (h : extendsColumns before cur) :
    extendsColumns before (List.modify (padColumn t x y) (index1D t x y) cur) := by
  intro c
  obtain ⟨pads, hp⟩ := h c
  rw [getD_modify]
  split_ifs with hc
  · unfold padColumn
    simp only
    split_ifs
    · exact ⟨pads ++ _, by rw [hp, List.append_assoc]⟩
    · exact ⟨pads, hp⟩
  · exact ⟨pads, hp⟩

theorem extendsColumns_foldl_y (t : VerletClusterLists) (x : Nat) (before : List (List Particle))
    (ys : List Nat) :
    ∀ cur, extendsColumns before cur →
      extendsColumns before (ys.foldl
        (fun clusters y => List.modify (padColumn t x y) (index1D t x y) clusters) cur) := by
  induction ys with
  | nil => intro cur h; exact h
  | cons y ys ih => intro cur h; exact ih _ (extendsColumns_step t x y before cur h)

theorem extendsColumns_foldl_x (t : VerletClusterLists) (before : List (List Particle))
    (ys xs : List Nat) :
    ∀ cur, extendsColumns before cur →
      extendsColumns before (xs.foldl
        (fun clusters x => ys.foldl
          (fun clusters y => List.modify (padColumn t x y) (index1D t x y) clusters) clusters)
        cur) := by
  induction xs with
  | nil => intro cur h; exact h
  | cons x xs ih => intro cur h; exact ih _ (extendsColumns_foldl_y t x before ys cur h)

theorem rebuild_extendsColumns (cbrt : ℚ → ℚ) (s : VerletClusterLists) :
    extendsColumns (binned cbrt s).clusters (rebuild cbrt s).clusters :=
  extendsColumns_foldl_x _ _ _ _ _ (extendsColumns_refl _)

theorem particleAt_rebuild (cbrt : ℚ → ℚ) (s : VerletClusterLists) (x y k : Nat)
    (hk : k < ((binned cbrt s).clusters.getD (index1D (binned cbrt s) x y) []).length) :
    particleAt (rebuild cbrt s) x y k = particleAt (binned cbrt s) x y k := by
  obtain ⟨pads, hp⟩ := rebuild_extendsColumns cbrt s (index1D (binned cbrt s) x y)
  unfold particleAt
  have : index1D (rebuild cbrt s) x y = index1D (binned cbrt s) x y := rfl
  rw [this, hp, List.getD_append _ _ _ _ hk]

theorem inBox_iff (r low high : Vec3) :
    inBox r low high = true ↔
      (low.1 ≤ r.1 ∧ r.1 < high.1) ∧ (low.2.1 ≤ r.2.1 ∧ r.2.1 < high.2.1) ∧
        (low.2.2 ≤ r.2.2 ∧ r.2.2 < high.2.2) := by
  unfold inBox
  simp only [Bool.and_eq_true, decide_eq_true_eq]
  tauto

theorem particleAt_binned (cbrt : ℚ → ℚ) (s : VerletClusterLists) (x y k : Nat)
    (hx : x < (binned cbrt s).cellsPerDim.x)
    (hk : k < ((binned cbrt s).clusters.getD (index1D (binned cbrt s) x y) []).length) :
    particleAt (binned cbrt s) x y k ∈ s.clusters.flatMap id ∧
    inBox (particleAt (binned cbrt s) x y k).r s.boxMin s.boxMax = true ∧
    x = cellIndexInDim (binned cbrt s) (particleAt (binned cbrt s) x y k).r.1 s.boxMin.1
      s.boxMax.1 (binned cbrt s).cellsPerDim.x ∧
    y = cellIndexInDim (binned cbrt s) (particleAt (binned cbrt s) x y k).r.2.1 s.boxMin.2.1
      s.boxMax.2.1 (binned cbrt s).cellsPerDim.y := by
  have hmem : particleAt (binned cbrt s) x y k ∈
      (binned cbrt s).clusters.getD (index1D (binned cbrt s) x y) [] := by
    unfold particleAt
    rw [List.getD_eq_getElem _ _ hk]
    exact List.getElem_mem hk
  obtain ⟨h1, h2, h3⟩ := ((binned_spec cbrt s _).2 _).1 hmem
  refine ⟨h1, h2, ?_⟩
  obtain ⟨_, _, _, _, _, _, _, hcx, _, _⟩ := binned_fields cbrt s
  have h4 := cellIndexInDim_lt (binned cbrt s) (particleAt (binned cbrt s) x y k).r.1 s.boxMin.1
    s.boxMax.1 _ hcx
  unfold index1D getIndexOfPosition at h3
  simp only at h3
  have h5 := quot_rem_unique hx h4 (by
    rw [Nat.add_comm] at h3
    rw [h3, Nat.add_comm]
    rfl)
  exact ⟨h5.2, h5.1⟩

end VerletClusterLists
namespace VerletClusterLists

theorem lower_bound_core (s : VerletClusterLists) (hcs : 0 < s.clusterSize)
    (hg : 0 < s.gridSideLength) (hr : s.gridSideLengthReciprocal = 1 / s.gridSideLength)
    (xi yi ki xj yj kj : Nat)
    (hki : ki < (s.clusters.getD (index1D s xi yi) []).length)
    (hkj : kj < (s.clusters.getD (index1D s xj yj) []).length)
    (hsi : sortedByZ (s.clusters.getD (index1D s xi yi) []))
    (hsj : sortedByZ (s.clusters.getD (index1D s xj yj) []))
    (hpin : inBox (particleAt s xi yi ki).r s.boxMin s.boxMax = true)
    (hqin : inBox (particleAt s xj yj kj).r s.boxMin s.boxMax = true)
    (hxi : xi = cellIndexInDim s (particleAt s xi yi ki).r.1 s.boxMin.1 s.boxMax.1 s.cellsPerDim.x)
    (hyi : yi = cellIndexInDim s (particleAt s xi yi ki).r.2.1 s.boxMin.2.1 s.boxMax.2.1
      s.cellsPerDim.y)
    (hxj : xj = cellIndexInDim s (particleAt s xj yj kj).r.1 s.boxMin.1 s.boxMax.1 s.cellsPerDim.x)
    (hyj : yj = cellIndexInDim s (particleAt s xj yj kj).r.2.1 s.boxMin.2.1 s.boxMax.2.1
      s.cellsPerDim.y) :
    gridDistance s xi xj * gridDistance s xi xj ≤
      ((particleAt s xi yi ki).r.1 - (particleAt s xj yj kj).r.1) *
        ((particleAt s xi yi ki).r.1 - (particleAt s xj yj kj).r.1) ∧
    gridDistance s yi yj * gridDistance s yi yj ≤
      ((particleAt s xi yi ki).r.2.1 - (particleAt s xj yj kj).r.2.1) *
        ((particleAt s xi yi ki).r.2.1 - (particleAt s xj yj kj).r.2.1) ∧
    bboxDistance
        (clusterBBox s (s.clusters.getD (index1D s xi yi) []) (ki / s.clusterSize)).1
        (clusterBBox s (s.clusters.getD (index1D s xi yi) []) (ki / s.clusterSize)).2
        (clusterBBox s (s.clusters.getD (index1D s xj yj) []) (kj / s.clusterSize)).1
        (clusterBBox s (s.clusters.getD (index1D s xj yj) []) (kj / s.clusterSize)).2 *
      bboxDistance
        (clusterBBox s (s.clusters.getD (index1D s xi yi) []) (ki / s.clusterSize)).1
        (clusterBBox s (s.clusters.getD (index1D s xi yi) []) (ki / s.clusterSize)).2
        (clusterBBox s (s.clusters.getD (index1D s xj yj) []) (kj / s.clusterSize)).1
        (clusterBBox s (s.clusters.getD (index1D s xj yj) []) (kj / s.clusterSize)).2 ≤
      ((particleAt s xi yi ki).r.2.2 - (particleAt s xj yj kj).r.2.2) *
        ((particleAt s xi yi ki).r.2.2 - (particleAt s xj yj kj).r.2.2) := by
  obtain ⟨⟨hp1, hp2⟩, ⟨hp3, hp4⟩, _⟩ := (inBox_iff _ _ _).1 hpin
  obtain ⟨⟨hq1, hq2⟩, ⟨hq3, hq4⟩, _⟩ := (inBox_iff _ _ _).1 hqin
  refine ⟨?_, ?_, ?_⟩
  · apply mul_self_le_of_abs _ _ (gridDistance_nonneg s hg _ _)
    have := gridDistance_le s hg hr s.boxMin.1 s.boxMax.1 s.cellsPerDim.x _ _ hp1 hp2 hq1 hq2
    rw [← hxi, ← hxj] at this
    exact this
  · apply mul_self_le_of_abs _ _ (gridDistance_nonneg s hg _ _)
    have := gridDistance_le s hg hr s.boxMin.2.1 s.boxMax.2.1 s.cellsPerDim.y _ _ hp3 hp4 hq3 hq4
    rw [← hyi, ← hyj] at this
    exact this
  · obtain ⟨hi0, hi1⟩ := clusterBBox_contains s hcs _ hsi ki hki
    obtain ⟨hj0, hj1⟩ := clusterBBox_contains s hcs _ hsj kj hkj
    obtain ⟨h0, h1⟩ := bboxDistance_le _ _ _ _ _ _ hi0 hi1 hj0 hj1
    exact mul_self_le_of_abs _ _ h0 h1

/-- C11: after `rebuild` (with `0 < clusterSize`, `0 <= cutoff`, `0 <= skin`,
`cutoffSqr = cutoff * cutoff` and a positive grid side length), take any two real
particles `p` and `q`: entry `ki` of grid column `(xi, yi)` and entry `kj` of grid
column `(xj, yj)`, before the padding.  Both keep their place when the columns are
padded and both are in the box.  The tested lower bound `distXYsqr + distZ * distZ`
of their two clusters is at most their squared distance; if the columns are further
apart than `boxRange` in x or in y, their squared distance is above `cutoffSqr`; and
if their squared distance is at most `cutoffSqr`, the cluster of `q` is in the
neighbour list of the cluster of `p`.  Every in-box particle of the container is
such a real particle. -/
theorem neighborLists_no_false_negative (cbrt : ℚ → ℚ) (s : VerletClusterLists)
    (hcs : 0 < s.clusterSize) (hcut : 0 ≤ s.cutoff) (hskin : 0 ≤ s.skin)
    (hsqr : s.cutoffSqr = s.cutoff * s.cutoff) (hg : 0 < (rebuild cbrt s).gridSideLength)
    (xi yi ki xj yj kj : Nat)
    (hxi : xi < (rebuild cbrt s).cellsPerDim.x) (hyi : yi < (rebuild cbrt s).cellsPerDim.y)
    (hxj : xj < (rebuild cbrt s).cellsPerDim.x) (hyj : yj < (rebuild cbrt s).cellsPerDim.y)
    (hki : ki < ((binned cbrt s).clusters.getD (index1D (binned cbrt s) xi yi) []).length)
    (hkj : kj < ((binned cbrt s).clusters.getD (index1D (binned cbrt s) xj yj) []).length) :
    (particleAt (rebuild cbrt s) xi yi ki = particleAt (binned cbrt s) xi yi ki ∧
      particleAt (rebuild cbrt s) xj yj kj = particleAt (binned cbrt s) xj yj kj) ∧
    (inBox (particleAt (rebuild cbrt s) xi yi ki).r s.boxMin s.boxMax = true ∧
      inBox (particleAt (rebuild cbrt s) xj yj kj).r s.boxMin s.boxMax = true) ∧
    clusterDistanceSqr (binned cbrt s) xi yi (ki / s.clusterSize) xj yj (kj / s.clusterSize) ≤
      LJFunctor.dr2 (particleAt (rebuild cbrt s) xi yi ki) (particleAt (rebuild cbrt s) xj yj kj) ∧
    ((boxRange (rebuild cbrt s) < |(xi : Int) - (xj : Int)| ∨
        boxRange (rebuild cbrt s) < |(yi : Int) - (yj : Int)|) →
      s.cutoffSqr <
        LJFunctor.dr2 (particleAt (rebuild cbrt s) xi yi ki)
          (particleAt (rebuild cbrt s) xj yj kj)) ∧
    (LJFunctor.dr2 (particleAt (rebuild cbrt s) xi yi ki)
        (particleAt (rebuild cbrt s) xj yj kj) ≤ s.cutoffSqr →
      (index1D (rebuild cbrt s) xj yj, kj / s.clusterSize * s.clusterSize) ∈
        ((rebuild cbrt s).neighborLists.getD (index1D (rebuild cbrt s) xi yi) []).getD
          (ki / s.clusterSize) []) ∧
    ∀ x ∈ s.clusters.flatMap id, inBox x.r s.boxMin s.boxMax = true →
      x ∈ (binned cbrt s).clusters.getD (getIndexOfPosition (rebuild cbrt s) x.r) [] := by
  have hp := particleAt_rebuild cbrt s xi yi ki hki
  have hq := particleAt_rebuild cbrt s xj yj kj hkj
  obtain ⟨_, hpin, hpx, hpy⟩ := particleAt_binned cbrt s xi yi ki hxi hki
  obtain ⟨_, hqin, hqx, hqy⟩ := particleAt_binned cbrt s xj yj kj hxj hkj
  have hcsb : 0 < (binned cbrt s).clusterSize := hcs
  have hgb : 0 < (binned cbrt s).gridSideLength := hg
  have hrb : (binned cbrt s).gridSideLengthReciprocal = 1 / (binned cbrt s).gridSideLength := rfl
  obtain ⟨hdx, hdy, hdz⟩ := lower_bound_core (binned cbrt s) hcsb hgb hrb xi yi ki xj yj kj hki hkj
    (binned_spec cbrt s _).1 (binned_spec cbrt s _).1 hpin hqin hpx hpy hqx hqy
  obtain ⟨⟨hp1, hp2⟩, ⟨hp3, hp4⟩, _⟩ := (inBox_iff _ _ _).1 hpin
  obtain ⟨⟨hq1, hq2⟩, ⟨hq3, hq4⟩, _⟩ := (inBox_iff _ _ _).1 hqin
  have hbeyond : (boxRange (binned cbrt s) < |(xi : Int) - (xj : Int)| ∨
      boxRange (binned cbrt s) < |(yi : Int) - (yj : Int)|) →
      s.cutoffSqr <
        LJFunctor.dr2 (particleAt (binned cbrt s) xi yi ki) (particleAt (binned cbrt s) xj yj kj) := by
    intro hfar
    rw [dr2_expand, hsqr]
    have hzz := mul_self_nonneg ((particleAt (binned cbrt s) xi yi ki).r.2.2 -
      (particleAt (binned cbrt s) xj yj kj).r.2.2)
    have hxx := mul_self_nonneg ((particleAt (binned cbrt s) xi yi ki).r.1 -
      (particleAt (binned cbrt s) xj yj kj).r.1)
    have hyy := mul_self_nonneg ((particleAt (binned cbrt s) xi yi ki).r.2.1 -
      (particleAt (binned cbrt s) xj yj kj).r.2.1)
    rcases hfar with h | h
    · have h1 := beyond_boxRange (binned cbrt s) hgb hrb hskin s.boxMin.1 s.boxMax.1
        (binned cbrt s).cellsPerDim.x _ _ hp1 hp2 hq1 hq2 (by rw [← hpx, ← hqx]; exact h)
      have h2 := mul_self_lt_of_abs _ _ hcut h1
      linarith
    · have h1 := beyond_boxRange (binned cbrt s) hgb hrb hskin s.boxMin.2.1 s.boxMax.2.1
        (binned cbrt s).cellsPerDim.y _ _ hp3 hp4 hq3 hq4 (by rw [← hpy, ← hqy]; exact h)
      have h2 := mul_self_lt_of_abs _ _ hcut h1
      linarith
  rw [hp, hq]
  refine ⟨⟨rfl, rfl⟩, ⟨hpin, hqin⟩, ?_, hbeyond, ?_, ?_⟩
  · rw [dr2_expand]
    exact add_le_add (add_le_add hdx hdy) hdz
  · intro hnear
    have hx : |(xi : Int) - (xj : Int)| ≤ boxRange (binned cbrt s) := by
      by_contra hc
      exact absurd (hbeyond (Or.inl (not_le.1 hc))) (not_lt.2 hnear)
    have hy : |(yi : Int) - (yj : Int)| ≤ boxRange (binned cbrt s) := by
      by_contra hc
      exact absurd (hbeyond (Or.inr (not_le.1 hc))) (not_lt.2 hnear)
    rw [dr2_expand] at hnear
    have hzz := mul_self_nonneg ((particleAt (binned cbrt s) xi yi ki).r.2.2 -
      (particleAt (binned cbrt s) xj yj kj).r.2.2)
    have hmem := mem_neighborsOfCluster (binned cbrt s) (boxRange (binned cbrt s)) xi yi xj yj
      (clusterBBox (binned cbrt s)
        ((binned cbrt s).clusters.getD (index1D (binned cbrt s) xi yi) [])
        (ki / (binned cbrt s).clusterSize)).1
      (clusterBBox (binned cbrt s)
        ((binned cbrt s).clusters.getD (index1D (binned cbrt s) xi yi) [])
        (ki / (binned cbrt s).clusterSize)).2
      (index1D (binned cbrt s) xj yj, kj / (binned cbrt s).clusterSize * (binned cbrt s).clusterSize)
      hxj hyj hx hy
      (by
        have : (binned cbrt s).cutoffSqr = s.cutoffSqr := rfl
        rw [this]; linarith)
      (mem_neighborsInColumn (binned cbrt s) hcsb _ _ _ _ kj hkj (by
        have : (binned cbrt s).cutoffSqr = s.cutoffSqr := rfl
        rw [this]; linarith))
    rw [← neighborsOfColumn_getD (binned cbrt s) hcsb _ xi yi ki hki,
      ← rebuild_neighborLists cbrt s xi yi hxi hyi] at hmem
    exact hmem
  · intro x hx hin
    exact ((binned_spec cbrt s _).2 x).2 ⟨hx, hin, rfl⟩

end VerletClusterLists
namespace VerletClusterLists

theorem neighborLists_no_false_negative_witness :
    LJFunctor.dr2 (particleAt (rebuild cbrtRat lineInput) 0 0 3)
        (particleAt (rebuild cbrtRat lineInput) 0 0 4) ≤ lineInput.cutoffSqr ∧
      (index1D (rebuild cbrtRat lineInput) 0 0, 4 / lineInput.clusterSize * lineInput.clusterSize) ∈
        ((rebuild cbrtRat lineInput).neighborLists.getD
          (index1D (rebuild cbrtRat lineInput) 0 0) []).getD (3 / lineInput.clusterSize) [] :=
  have hnear : LJFunctor.dr2 (particleAt (rebuild cbrtRat lineInput) 0 0 3)
      (particleAt (rebuild cbrtRat lineInput) 0 0 4) ≤ lineInput.cutoffSqr := by decide!
  ⟨hnear,
    (neighborLists_no_false_negative cbrtRat lineInput (by decide!) (by decide!) (by decide!)
      (by decide!) (by decide!) 0 0 3 0 0 4 (by decide!) (by decide!) (by decide!) (by decide!)
      (by decide!) (by decide!)).2.2.2.2.1 hnear⟩

end VerletClusterLists

namespace FeatureVector

theorem squaredNorm_sub (a b : FeatureVector) :
    squaredNorm (a.sub b) =
      (a.cellSizeFactor - b.cellSizeFactor) * (a.cellSizeFactor - b.cellSizeFactor) +
        ((if a.traversal = b.traversal then 0 else 1) +
          ((if a.dataLayout = b.dataLayout then 0 else 1) +
            (if a.newton3 = b.newton3 then 0 else 1))) := by
  unfold squaredNorm sub
  simp only [List.map_cons, List.map_nil, List.sum_cons, List.sum_nil, add_zero]
  split_ifs <;> norm_num

theorem squaredNorm_sub_nonneg (a b : FeatureVector) : 0 ≤ squaredNorm (a.sub b) := by
  rw [squaredNorm_sub]
  have := mul_self_nonneg (a.cellSizeFactor - b.cellSizeFactor)
  split_ifs <;> linarith

theorem squaredNorm_sub_eq_zero (a b : FeatureVector) :
    squaredNorm (a.sub b) = 0 ↔
      a.cellSizeFactor = b.cellSizeFactor ∧ a.traversal = b.traversal ∧
        a.dataLayout = b.dataLayout ∧ a.newton3 = b.newton3 := by
  rw [squaredNorm_sub]
  have h0 := mul_self_nonneg (a.cellSizeFactor - b.cellSizeFactor)
  constructor
  · intro h
    have h1 : (a.cellSizeFactor - b.cellSizeFactor) * (a.cellSizeFactor - b.cellSizeFactor) = 0 := by
      split_ifs at h <;> linarith
    have h2 : a.cellSizeFactor = b.cellSizeFactor := by
      have := mul_self_eq_zero.1 h1
      linarith
    refine ⟨h2, ?_, ?_, ?_⟩
    · by_contra hne
      rw [if_neg hne] at h
      split_ifs at h <;> linarith
    · by_contra hne
      rw [if_neg hne] at h
      split_ifs at h <;> linarith
    · by_contra hne
      rw [if_neg hne] at h
      split_ifs at h <;> linarith
  · rintro ⟨h1, h2, h3, h4⟩
    rw [h1, if_pos h2, if_pos h3, if_pos h4]
    ring

theorem squaredNorm_sub_ge_one (a b : FeatureVector)
    (h : a.traversal ≠ b.traversal ∨ a.dataLayout ≠ b.dataLayout ∨ a.newton3 ≠ b.newton3) :
    1 ≤ squaredNorm (a.sub b) := by
  rw [squaredNorm_sub]
  have h0 := mul_self_nonneg (a.cellSizeFactor - b.cellSizeFactor)
  rcases h with h | h | h
  · rw [if_neg h]; split_ifs <;> linarith
  · rw [if_neg h]; split_ifs <;> linarith
  · rw [if_neg h]; split_ifs <;> linarith

theorem toLong_nonneg (x : ℚ) (h : 0 ≤ x) : 0 ≤ toLong x ∧ (toLong x = 0 ↔ x < 1) := by
  unfold toLong
  rw [if_pos h]
  refine ⟨Int.floor_nonneg.2 h, ?_⟩
  constructor
  · intro h0
    have := Int.lt_floor_add_one x
    rw [h0] at this
    simpa using this
  · intro h1
    exact Int.floor_eq_iff.2 ⟨by simpa using h, by simpa using h1⟩

/-- C21: the squared norm of `a - b` is 0 if and only if `a` and `b` agree in cell
size factor, traversal, data layout and newton3, and it is at least 1 when they
differ in a discrete option.  So the runtime `654321 * |best - current|^2` is never
negative and is 0 exactly when `current` agrees with `best` in these four; the
`long` value `dummyTime` that the test reports is never negative, is 0 at the
target, and over cell size factors that are equal or at least 1 apart it is 0 only
at the target and at least 654321 elsewhere.  In the search space of the test the
target `testBest` is the only configuration with `dummyTime` 0. -/
theorem squaredNorm_unique_minimum (best current : FeatureVector) :
    (squaredNorm (best.sub current) = 0 ↔
      best.cellSizeFactor = current.cellSizeFactor ∧ best.traversal = current.traversal ∧
        best.dataLayout = current.dataLayout ∧ best.newton3 = current.newton3) ∧
    ((best.traversal ≠ current.traversal ∨ best.dataLayout ≠ current.dataLayout ∨
        best.newton3 ≠ current.newton3) → 1 ≤ squaredNorm (best.sub current)) ∧
    0 ≤ 654321 * squaredNorm (best.sub current) ∧
    (654321 * squaredNorm (best.sub current) = 0 ↔
      best.cellSizeFactor = current.cellSizeFactor ∧ best.traversal = current.traversal ∧
        best.dataLayout = current.dataLayout ∧ best.newton3 = current.newton3) ∧
    0 ≤ dummyTime best current ∧
    ((best.cellSizeFactor = current.cellSizeFactor ∧ best.traversal = current.traversal ∧
        best.dataLayout = current.dataLayout ∧ best.newton3 = current.newton3) →
      dummyTime best current = 0) ∧
    ((best.cellSizeFactor = current.cellSizeFactor ∨
        1 ≤ |best.cellSizeFactor - current.cellSizeFactor|) →
      ¬ (best.cellSizeFactor = current.cellSizeFactor ∧ best.traversal = current.traversal ∧
        best.dataLayout = current.dataLayout ∧ best.newton3 = current.newton3) →
      654321 ≤ dummyTime best current) ∧
    (testBest ∈ testSearchSpace ∧
      ∀ candidate ∈ testSearchSpace,
        (dummyTime testBest candidate = 0 ↔ candidate = testBest) ∧
        (candidate ≠ testBest → 654321 ≤ dummyTime testBest candidate)) := by
  have hnn := squaredNorm_sub_nonneg best current
  have hz := squaredNorm_sub_eq_zero best current
  have hprod : 0 ≤ 654321 * squaredNorm (best.sub current) := by positivity
  refine ⟨hz, squaredNorm_sub_ge_one best current, hprod, ?_, (toLong_nonneg _ hprod).1, ?_, ?_,
    by decide!⟩
  · rw [← hz]
    constructor
    · intro h
      rcases mul_eq_zero.1 h with h1 | h1
      · norm_num at h1
      · exact h1
    · intro h
      rw [h, mul_zero]
  · intro h
    unfold dummyTime
    rw [(toLong_nonneg _ hprod).2, hz.2 h]
    norm_num
  · intro hcsf hne
    have hone : 1 ≤ squaredNorm (best.sub current) := by
      by_cases hd : best.traversal ≠ current.traversal ∨ best.dataLayout ≠ current.dataLayout ∨
          best.newton3 ≠ current.newton3
      · exact squaredNorm_sub_ge_one best current hd
      · have hd2 : best.traversal = current.traversal ∧ best.dataLayout = current.dataLayout ∧
            best.newton3 = current.newton3 := by
          by_contra hc
          apply hd
          by_cases h1 : best.traversal = current.traversal
          · by_cases h2 : best.dataLayout = current.dataLayout
            · right; right
              intro h3
              exact hc ⟨h1, h2, h3⟩
            · exact Or.inr (Or.inl h2)
          · exact Or.inl h1
        have hcs : best.cellSizeFactor ≠ current.cellSizeFactor := fun h => hne ⟨h, hd2⟩
        rcases hcsf with h | h
        · exact absurd h hcs
        · rw [squaredNorm_sub, if_pos hd2.1, if_pos hd2.2.1, if_pos hd2.2.2]
          have := mul_self_le_mul_self (by norm_num : (0 : ℚ) ≤ 1) h
          rw [abs_mul_abs_self] at this
          linarith
    unfold dummyTime toLong
    rw [if_pos hprod]
    apply Int.le_floor.2
    push_cast
    linarith

end FeatureVector
namespace FeatureVector

theorem encodeOptions_length {α : Type} [DecidableEq α] (options : List α) (value : α) :
    (encodeOptions options value).length = options.length := by
  unfold encodeOptions
  rw [List.length_map]

theorem encodeOptions_count {α : Type} [DecidableEq α] (options : List α) (value : α) :
    (encodeOptions options value).count 1 = options.count value ∧
    ∀ x ∈ encodeOptions options value, x = 0 ∨ x = 1 := by
  unfold encodeOptions
  induction options with
  | nil => simp
  | cons o os ih =>
    obtain ⟨h1, h2⟩ := ih
    constructor
    · rw [List.map_cons]
      by_cases h : o = value
      · rw [if_pos h, List.count_cons_self, h1, h, List.count_cons_self]
      · rw [if_neg h, List.count_cons_of_ne (by norm_num), h1, List.count_cons_of_ne (Ne.symm h)]
    · intro x hx
      rw [List.map_cons, List.mem_cons] at hx
      rcases hx with hx | hx
      · rw [hx]; split_ifs
        · exact Or.inr rfl
        · exact Or.inl rfl
      · exact h2 x hx

theorem decodeOptions_encoded {α : Type} [DecidableEq α] (vec : List ℚ) (value : α)
    (options : List α) :
    ∀ (pos : Nat) (found : Option α),
      (∀ k : Nat, k < options.length →
        vec.getD (pos + k) 0 = (encodeOptions options value).getD k 0) →
      (value ∉ options → decodeOptions vec options pos found = some (found, pos + options.length)) ∧
      (value ∈ options → options.Nodup → found = none →
        decodeOptions vec options pos found = some (some value, pos + options.length)) := by
  induction options with
  | nil =>
    intro pos found _
    exact ⟨fun _ => rfl, fun h => absurd h (List.not_mem_nil _)⟩
  | cons o os ih =>
    intro pos found hvec
    have h0 : vec.getD pos 0 = if o = value then 1 else 0 := by
      have := hvec 0 (by simp)
      simpa [encodeOptions] using this
    have hrest : ∀ k : Nat, k < os.length →
        vec.getD (pos + 1 + k) 0 = (encodeOptions os value).getD k 0 := by
      intro k hk
      have := hvec (k + 1) (by simp; omega)
      rw [show pos + 1 + k = pos + (k + 1) by omega, this]
      simp [encodeOptions]
    have hlen : pos + 1 + os.length = pos + (o :: os).length := by
      simp only [List.length_cons]; omega
    constructor
    · intro hnot
      have hne : o ≠ value := fun h => hnot (by rw [h]; exact List.mem_cons_self _ _)
      have hnot2 : value ∉ os := fun h => hnot (List.mem_cons_of_mem _ h)
      unfold decodeOptions
      rw [h0, if_neg hne, if_neg (by norm_num)]
      rw [(ih (pos + 1) found hrest).1 hnot2, hlen]
    · intro hmem hnodup hfound
      rw [List.nodup_cons] at hnodup
      unfold decodeOptions
      by_cases heq : o = value
      · rw [h0, if_pos heq, if_pos rfl, hfound]
        simp only [Option.isSome_none, Bool.false_eq_true, if_false]
        have hnot2 : value ∉ os := by rw [← heq]; exact hnodup.1
        rw [(ih (pos + 1) (some o) hrest).1 hnot2, hlen, heq]
      · rw [h0, if_neg heq, if_neg (by norm_num)]
        have hmem2 : value ∈ os := by
          rcases List.mem_cons.1 hmem with h | h
          · exact absurd h.symm heq
          · exact h
        rw [(ih (pos + 1) found hrest).2 hmem2 hnodup.2 hfound, hlen]

end FeatureVector
namespace FeatureVector

theorem getD_middle (pre mid post : List ℚ) (k : Nat) (hk : k < mid.length) :
    (pre ++ mid ++ post).getD (pre.length + k) 0 = mid.getD k 0 := by
  rw [List.getD_append _ _ _ _ (by rw [List.length_append]; omega),
    List.getD_append_right _ _ _ _ (by omega), Nat.add_sub_cancel_left]

theorem block_middle (pre mid post : List ℚ) :
    block (pre ++ mid ++ post) pre.length mid.length = mid := by
  unfold block
  rw [List.append_assoc, List.drop_left, List.take_left]

theorem getOptionNames_count :
    (∀ o : TraversalOption, TraversalOption.getOptionNames.count o = 1) ∧
    (∀ o : DataLayoutOption, DataLayoutOption.getOptionNames.count o = 1) ∧
    (∀ o : Newton3Option, Newton3Option.getOptionNames.count o = 1) := by
  refine ⟨?_, ?_, ?_⟩ <;> intro o <;> cases o <;> decide

theorem nodup_of_count_one {α : Type} [DecidableEq α] (l : List α)
    (h : ∀ o : α, l.count o = 1) : l.Nodup ∧ ∀ o : α, o ∈ l := by
  constructor
  · rw [List.nodup_iff_count_le_one]
    intro a
    rw [h a]
  · intro o
    rw [← List.count_pos_iff]
    rw [h o]
    exact Nat.one_pos

/-- C22: for every feature vector `v`, `oneHotEncode v` has `oneHotDims` entries, and
`oneHotDims` is 1 plus the numbers of traversal, data layout and newton3 options,
each of which `getOptionNames` lists once.  The three blocks after the cell size
factor consist of zeros and ones with exactly one 1 each, and `oneHotDecode` of
the encoded vector succeeds and returns `v` with only the container option
replaced by the default-constructed one. -/
theorem oneHotDecode_oneHotEncode (v : FeatureVector) (invalid : ContainerOption) :
    v.oneHotEncode.length = oneHotDims ∧
    oneHotDims = 1 + TraversalOption.getOptionNames.length +
      DataLayoutOption.getOptionNames.length + Newton3Option.getOptionNames.length ∧
    ((∀ o : TraversalOption, TraversalOption.getOptionNames.count o = 1) ∧
      (∀ o : DataLayoutOption, DataLayoutOption.getOptionNames.count o = 1) ∧
      (∀ o : Newton3Option, Newton3Option.getOptionNames.count o = 1)) ∧
    v.oneHotEncode.getD 0 0 = v.cellSizeFactor ∧
    ((block v.oneHotEncode 1 TraversalOption.getOptionNames.length).count 1 = 1 ∧
      ∀ x ∈ block v.oneHotEncode 1 TraversalOption.getOptionNames.length, x = 0 ∨ x = 1) ∧
    ((block v.oneHotEncode (1 + TraversalOption.getOptionNames.length)
        DataLayoutOption.getOptionNames.length).count 1 = 1 ∧
      ∀ x ∈ block v.oneHotEncode (1 + TraversalOption.getOptionNames.length)
        DataLayoutOption.getOptionNames.length, x = 0 ∨ x = 1) ∧
    ((block v.oneHotEncode
        (1 + TraversalOption.getOptionNames.length + DataLayoutOption.getOptionNames.length)
        Newton3Option.getOptionNames.length).count 1 = 1 ∧
      ∀ x ∈ block v.oneHotEncode
        (1 + TraversalOption.getOptionNames.length + DataLayoutOption.getOptionNames.length)
        Newton3Option.getOptionNames.length, x = 0 ∨ x = 1) ∧
    oneHotDecode invalid v.oneHotEncode = some { v with container := invalid } := by
  obtain ⟨hc1, hc2, hc3⟩ := getOptionNames_count
  obtain ⟨hn1, hm1⟩ := nodup_of_count_one _ hc1
  obtain ⟨hn2, hm2⟩ := nodup_of_count_one _ hc2
  obtain ⟨hn3, hm3⟩ := nodup_of_count_one _ hc3
  have hl1 := encodeOptions_length TraversalOption.getOptionNames v.traversal
  have hl2 := encodeOptions_length DataLayoutOption.getOptionNames v.dataLayout
  have hl3 := encodeOptions_length Newton3Option.getOptionNames v.newton3
  have hlen : v.oneHotEncode.length = oneHotDims := by
    unfold oneHotEncode oneHotDims
    simp only [List.length_append, List.length_singleton, hl1, hl2, hl3]
  have hb1 : block v.oneHotEncode 1 TraversalOption.getOptionNames.length =
      encodeOptions TraversalOption.getOptionNames v.traversal := by
    have := block_middle [v.cellSizeFactor]
      (encodeOptions TraversalOption.getOptionNames v.traversal)
      (encodeOptions DataLayoutOption.getOptionNames v.dataLayout ++
        encodeOptions Newton3Option.getOptionNames v.newton3)
    rw [hl1, List.length_singleton] at this
    rw [← this]
    unfold oneHotEncode
    simp only [List.append_assoc]
  have hb2 : block v.oneHotEncode (1 + TraversalOption.getOptionNames.length)
      DataLayoutOption.getOptionNames.length =
      encodeOptions DataLayoutOption.getOptionNames v.dataLayout := by
    have := block_middle
      ([v.cellSizeFactor] ++ encodeOptions TraversalOption.getOptionNames v.traversal)
      (encodeOptions DataLayoutOption.getOptionNames v.dataLayout)
      (encodeOptions Newton3Option.getOptionNames v.newton3)
    rw [hl2, List.length_append, hl1, List.length_singleton] at this
    exact this
  have hb3 : block v.oneHotEncode
      (1 + TraversalOption.getOptionNames.length + DataLayoutOption.getOptionNames.length)
      Newton3Option.getOptionNames.length =
      encodeOptions Newton3Option.getOptionNames v.newton3 := by
    have := block_middle
      ([v.cellSizeFactor] ++ encodeOptions TraversalOption.getOptionNames v.traversal ++
        encodeOptions DataLayoutOption.getOptionNames v.dataLayout)
      (encodeOptions Newton3Option.getOptionNames v.newton3) []
    rw [hl3, List.length_append, List.length_append, hl1, hl2, List.length_singleton,
      List.append_nil] at this
    exact this
  have hd1 : decodeOptions v.oneHotEncode TraversalOption.getOptionNames 1 none =
      some (some v.traversal, 1 + TraversalOption.getOptionNames.length) := by
    apply (decodeOptions_encoded v.oneHotEncode v.traversal _ 1 none _).2 (hm1 _) hn1 rfl
    intro k hk
    have := getD_middle [v.cellSizeFactor]
      (encodeOptions TraversalOption.getOptionNames v.traversal)
      (encodeOptions DataLayoutOption.getOptionNames v.dataLayout ++
        encodeOptions Newton3Option.getOptionNames v.newton3) k (by rw [hl1]; exact hk)
    rw [List.length_singleton] at this
    rw [← this]
    unfold oneHotEncode
    simp only [List.append_assoc]
  have hd2 : decodeOptions v.oneHotEncode DataLayoutOption.getOptionNames
      (1 + TraversalOption.getOptionNames.length) none =
      some (some v.dataLayout,
        1 + TraversalOption.getOptionNames.length + DataLayoutOption.getOptionNames.length) := by
    apply (decodeOptions_encoded v.oneHotEncode v.dataLayout _ _ none _).2 (hm2 _) hn2 rfl
    intro k hk
    have := getD_middle
      ([v.cellSizeFactor] ++ encodeOptions TraversalOption.getOptionNames v.traversal)
      (encodeOptions DataLayoutOption.getOptionNames v.dataLayout)
      (encodeOptions Newton3Option.getOptionNames v.newton3) k (by rw [hl2]; exact hk)
    rw [List.length_append, hl1, List.length_singleton] at this
    exact this
  have hd3 : decodeOptions v.oneHotEncode Newton3Option.getOptionNames
      (1 + TraversalOption.getOptionNames.length + DataLayoutOption.getOptionNames.length) none =
      some (some v.newton3,
        1 + TraversalOption.getOptionNames.length + DataLayoutOption.getOptionNames.length +
          Newton3Option.getOptionNames.length) := by
    apply (decodeOptions_encoded v.oneHotEncode v.newton3 _ _ none _).2 (hm3 _) hn3 rfl
    intro k hk
    have := getD_middle
      ([v.cellSizeFactor] ++ encodeOptions TraversalOption.getOptionNames v.traversal ++
        encodeOptions DataLayoutOption.getOptionNames v.dataLayout)
      (encodeOptions Newton3Option.getOptionNames v.newton3) [] k (by rw [hl3]; exact hk)
    rw [List.length_append, List.length_append, hl1, hl2, List.length_singleton,
      List.append_nil] at this
    exact this
  refine ⟨hlen, rfl, ⟨hc1, hc2, hc3⟩, rfl, ?_, ?_, ?_, ?_⟩
  · rw [hb1]
    exact ⟨by rw [(encodeOptions_count _ _).1, hc1], (encodeOptions_count _ _).2⟩
  · rw [hb2]
    exact ⟨by rw [(encodeOptions_count _ _).1, hc2], (encodeOptions_count _ _).2⟩
  · rw [hb3]
    exact ⟨by rw [(encodeOptions_count _ _).1, hc3], (encodeOptions_count _ _).2⟩
  · unfold oneHotDecode
    rw [if_neg (by rw [hlen]; exact fun h => h rfl)]
    simp only [hd1, hd2, hd3]
    rfl

end FeatureVector

namespace applicableTraversals

/-- C23 fails: the traversal option `c01` is applicable both for the linked cells
and for the Verlet cluster lists container, with and without CUDA, so the traversal
`c01` does not determine the container.  Every other pair of distinct container
options has no traversal option in common. -/
theorem c01_in_two_containers :
    ContainerOption.linkedCells ≠ ContainerOption.verletClusterLists ∧
    (∀ cuda : Bool,
      TraversalOption.c01 ∈ allApplicableTraversals cuda ContainerOption.linkedCells ∧
      TraversalOption.c01 ∈ allApplicableTraversals cuda ContainerOption.verletClusterLists) ∧
    (∀ (cuda : Bool) (c1 c2 : ContainerOption), c1 ≠ c2 →
      ∀ t : TraversalOption, t ∈ allApplicableTraversals cuda c1 →
        t ∈ allApplicableTraversals cuda c2 →
        t = TraversalOption.c01 ∧
          ((c1 = ContainerOption.linkedCells ∧ c2 = ContainerOption.verletClusterLists) ∨
            (c1 = ContainerOption.verletClusterLists ∧ c2 = ContainerOption.linkedCells))) := by
  refine ⟨by decide, by decide, ?_⟩
  intro cuda c1 c2 hne t h1 h2
  cases cuda <;> cases c1 <;> cases c2 <;> cases t <;>
    first
    | exact absurd rfl hne
    | exact absurd h1 (by decide)
    | exact absurd h2 (by decide)
    | exact ⟨rfl, by decide⟩

end applicableTraversals
namespace Math

theorem IntType.range (T : IntType) (hbits : 0 < T.bits) :
    T.max - T.min + 1 = 2 ^ T.bits ∧ T.min ≤ 0 ∧ 0 ≤ T.max ∧ (T.isSigned = false → T.min = 0) := by
  have hpow : (2 : Int) ^ T.bits = 2 * 2 ^ (T.bits - 1) := by
    rw [← pow_succ']
    congr 1
    omega
  have hpos : (0 : Int) < 2 ^ (T.bits - 1) := by positivity
  unfold IntType.min IntType.max
  cases T.isSigned with
  | true =>
    refine ⟨?_, ?_, ?_, ?_⟩
    · simp only [if_true]; omega
    · simp only [if_true]; omega
    · simp only [if_true]; omega
    · intro h; exact absurd h (by simp)
  | false =>
    refine ⟨?_, ?_, ?_, ?_⟩
    · simp only [Bool.false_eq_true, if_false]; omega
    · simp only [Bool.false_eq_true, if_false]; exact le_refl 0
    · simp only [Bool.false_eq_true, if_false]; omega
    · intro _; simp

theorem IntType.wrap_of_holds (T : IntType) (hbits : 0 < T.bits) (x : Int) (h : T.holds x) :
    T.wrap x = x := by
  obtain ⟨h1, _, _, _⟩ := T.range hbits
  unfold IntType.wrap
  rw [Int.emod_eq_of_lt (by have := h.1; omega) (by have := h.2; omega)]
  ring

theorem builtinOverflow_spec (T : IntType) (hbits : 0 < T.bits) (exact : Int) :
    ((builtinOverflow T exact).2 = false ↔ T.holds exact) ∧
    (T.holds exact → (builtinOverflow T exact).1 = exact) := by
  constructor
  · unfold builtinOverflow IntType.holds
    simp only [decide_eq_false_iff_not, not_or, not_lt]
  · intro h
    exact T.wrap_of_holds hbits exact h

theorem safe_result (T : IntType) (hbits : 0 < T.bits) (exact valUnderflow valOverflow : Int)
    (underflowTest : Prop) [Decidable underflowTest]
    (hunder : exact < T.min → underflowTest) (hover : T.max < exact → ¬ underflowTest) :
    (if (builtinOverflow T exact).2 = true then
        if underflowTest then valUnderflow else valOverflow
      else (builtinOverflow T exact).1) =
      if T.max < exact then valOverflow else if exact < T.min then valUnderflow else exact := by
  obtain ⟨h1, h2⟩ := builtinOverflow_spec T hbits exact
  by_cases hhold : T.holds exact
  · rw [if_neg (by rw [h1.2 hhold]; simp), h2 hhold, if_neg (not_lt.2 hhold.2),
      if_neg (not_lt.2 hhold.1)]
  · have hov : (builtinOverflow T exact).2 = true := by
      cases h : (builtinOverflow T exact).2 with
      | true => rfl
      | false => exact absurd (h1.1 h) hhold
    rw [if_pos hov]
    by_cases hgt : T.max < exact
    · rw [if_neg (hover hgt), if_pos hgt]
    · have hlt : exact < T.min := by
        by_contra hc
        exact hhold ⟨not_lt.1 hc, not_lt.1 hgt⟩
      rw [if_pos (hunder hlt), if_neg hgt, if_pos hlt]

/-- C24: for every fixed-width integer type and all `a`, `b` of that type,
`safeAdd` returns `valOverflow` when the exact sum exceeds `max`, `valUnderflow`
when it is below `min`, and the exact sum otherwise; with the default arguments
`min` and `max` this is the sum clamped to the range of the type. -/
theorem safeAdd_exact (T : IntType) (hbits : 0 < T.bits) (a b valUnderflow valOverflow : Int)
    (ha : T.holds a) (hb : T.holds b) :
    safeAdd T a b valUnderflow valOverflow =
      (if T.max < a + b then valOverflow else if a + b < T.min then valUnderflow else a + b) ∧
    safeAdd T a b T.min T.max = Max.max T.min (Min.min T.max (a + b)) := by
  obtain ⟨_, hmin, hmax, _⟩ := T.range hbits
  have key : ∀ vU vO : Int, safeAdd T a b vU vO =
      (if T.max < a + b then vO else if a + b < T.min then vU else a + b) := by
    intro vU vO
    unfold safeAdd
    simp only
    apply safe_result T hbits (a + b) vU vO
    · intro h
      have := ha.1
      have := hb.1
      constructor <;> omega
    · intro h hneg
      have := ha.2
      have := hb.2
      omega
  refine ⟨key _ _, ?_⟩
  rw [key]
  split_ifs with h1 h2
  · rw [min_eq_left h1.le, max_eq_right (by omega)]
  · rw [min_eq_right (by omega), max_eq_left h2.le]
  · rw [min_eq_right (by omega), max_eq_right (by omega)]

theorem safeAdd_exact_witness :
    int32.holds 2147483647 ∧ int32.holds 1 ∧
      safeAdd int32 2147483647 1 (-7) 7 =
        (if int32.max < 2147483647 + 1 then 7
          else if (2147483647 : Int) + 1 < int32.min then -7 else 2147483647 + 1) :=
  ⟨by decide, by decide,
    (safeAdd_exact int32 (by decide) 2147483647 1 (-7) 7 (by decide) (by decide)).1⟩

/-- C25: for every fixed-width integer type and all `a`, `b` of that type,
`safeSub` returns `valOverflow` when the exact difference exceeds `max`,
`valUnderflow` when it is below `min`, and the exact difference otherwise; this
includes `b = min` for a signed type and `a < b` for an unsigned type, where the
result is `valUnderflow`. -/
theorem safeSub_exact (T : IntType) (hbits : 0 < T.bits) (a b valUnderflow valOverflow : Int)
    (ha : T.holds a) (hb : T.holds b) :
    safeSub T a b valUnderflow valOverflow =
      (if T.max < a - b then valOverflow else if a - b < T.min then valUnderflow else a - b) ∧
    (T.isSigned = true → b = T.min →
      safeSub T a b valUnderflow valOverflow = if 0 ≤ a then valOverflow else a - b) ∧
    (T.isSigned = false → a < b → safeSub T a b valUnderflow valOverflow = valUnderflow) := by
  obtain ⟨hrange, hmin, hmax, hun⟩ := T.range hbits
  have key : safeSub T a b valUnderflow valOverflow =
      (if T.max < a - b then valOverflow else if a - b < T.min then valUnderflow else a - b) := by
    unfold safeSub
    simp only
    apply safe_result T hbits (a - b) valUnderflow valOverflow
    · intro h
      have := ha.1
      show 0 < b
      omega
    · intro h hpos
      have := ha.2
      have hpos2 : 0 < b := hpos
      omega
  refine ⟨key, ?_, ?_⟩
  · intro hs hbm
    rw [key, hbm]
    have hminmax : T.max = -T.min - 1 := by
      unfold IntType.min IntType.max
      rw [hs]
      simp only [if_true]
      ring
    have := ha.1
    have := ha.2
    by_cases h0 : 0 ≤ a
    · rw [if_pos (by omega), if_pos h0]
    · rw [if_neg (by omega), if_neg (by omega), if_neg h0]
  · intro hu hlt
    rw [key]
    have hm := hun hu
    have := ha.1
    have := hb.2
    rw [if_neg (by omega), if_pos (by omega)]

theorem safeSub_exact_witness :
    uint64.holds 3 ∧ uint64.holds 5 ∧
      safeSub uint64 3 5 0 18446744073709551615 =
        (if uint64.max < 3 - 5 then 18446744073709551615
          else if (3 : Int) - 5 < uint64.min then 0 else 3 - 5) :=
  ⟨by decide, by decide,
    (safeSub_exact uint64 (by decide) 3 5 0 18446744073709551615 (by decide) (by decide)).1⟩

/-- C26: for every fixed-width integer type and all integers `a`, `b`, in particular
those of that type, `safeMul` returns `valOverflow` when the exact product exceeds `max`,
`valUnderflow` when it is below `min`, and the exact product otherwise; so
`safeMul` gives the same result for `a, b` and for `b, a`. -/
theorem safeMul_exact (T : IntType) (hbits : 0 < T.bits) (a b valUnderflow valOverflow : Int) :
    safeMul T a b valUnderflow valOverflow =
      (if T.max < a * b then valOverflow else if a * b < T.min then valUnderflow else a * b) ∧
    safeMul T a b valUnderflow valOverflow = safeMul T b a valUnderflow valOverflow := by
  obtain ⟨_, hmin, hmax, _⟩ := T.range hbits
  have key : ∀ x y : Int, safeMul T x y valUnderflow valOverflow =
      (if T.max < x * y then valOverflow else if x * y < T.min then valUnderflow else x * y) := by
    intro x y
    unfold safeMul
    simp only
    apply safe_result T hbits (x * y) valUnderflow valOverflow
    · intro h
      have hneg : x * y < 0 := by omega
      rcases lt_trichotomy x 0 with hx | hx | hx
      · rcases lt_trichotomy y 0 with hy | hy | hy
        · have := mul_pos_of_neg_of_neg hx hy
          omega
        · rw [hy, mul_zero] at hneg; omega
        · simp [hx, not_lt.2 hy.le]
      · rw [hx, zero_mul] at hneg; omega
      · rcases lt_trichotomy y 0 with hy | hy | hy
        · simp [hy, not_lt.2 hx.le]
        · rw [hy, mul_zero] at hneg; omega
        · have := mul_pos hx hy
          omega
    · intro h hx
      have hpos : 0 < x * y := by omega
      rcases lt_or_le x 0 with hx0 | hx0
      · rcases lt_or_le y 0 with hy0 | hy0
        · simp [hx0, hy0] at hx
        · have := mul_nonpos_of_nonpos_of_nonneg hx0.le hy0
          omega
      · rcases lt_or_le y 0 with hy0 | hy0
        · have := mul_nonpos_of_nonneg_of_nonpos hx0 hy0.le
          omega
        · simp [not_lt.2 hx0, not_lt.2 hy0] at hx
  exact ⟨key a b, by rw [key a b, key b a, mul_comm]⟩

theorem safeMul_exact_witness :
    int32.holds (-65536) ∧ int32.holds 65536 ∧
      safeMul int32 (-65536) 65536 (-7) 7 = safeMul int32 65536 (-65536) (-7) 7 :=
  ⟨by decide, by decide,
    (safeMul_exact int32 (by decide) (-65536) 65536 (-7) 7).2⟩

end Math
namespace LJFunctor

theorem addToThread_flags (fn : LJFunctor) (threadnum : Nat) (upot : ℚ) (virial : Vec3) :
    (fn.addToThread threadnum upot virial).postProcessed = fn.postProcessed ∧
    (fn.addToThread threadnum upot virial).calculateGlobals = fn.calculateGlobals :=
  ⟨rfl, rfl⟩

theorem addGlobals_flags (fn : LJFunctor) (threadnum : Nat) (i j : Particle) (newton3 : Bool) :
    (addGlobals fn threadnum i j newton3).postProcessed = fn.postProcessed ∧
    (addGlobals fn threadnum i j newton3).calculateGlobals = fn.calculateGlobals := by
  unfold addGlobals
  split_ifs <;> exact ⟨rfl, rfl⟩

theorem AoSFunctor_flags (fn : LJFunctor) (threadnum : Nat) (i j : Particle) (newton3 : Bool) :
    (fn.AoSFunctor threadnum i j newton3).1.postProcessed = fn.postProcessed ∧
    (fn.AoSFunctor threadnum i j newton3).1.calculateGlobals = fn.calculateGlobals := by
  rw [AoSFunctor_eq]
  by_cases h : interacts fn i j = true
  · rw [if_pos h]
    exact addGlobals_flags fn threadnum i j newton3
  · rw [if_neg h]
    exact ⟨rfl, rfl⟩

theorem endTraversal_cases (fn : LJFunctor) (newton3 : Bool) :
    (fn.postProcessed = true → fn.endTraversal newton3 = none) ∧
    (fn.postProcessed = false → fn.calculateGlobals = false → fn.endTraversal newton3 = some fn) ∧
    (fn.postProcessed = false → fn.calculateGlobals = true →
      ∃ fn1, fn.endTraversal newton3 = some fn1 ∧ fn1.postProcessed = true ∧
        fn1.calculateGlobals = true) := by
  unfold endTraversal
  refine ⟨?_, ?_, ?_⟩
  · intro h; rw [if_pos h]
  · intro h1 h2
    rw [if_neg (by rw [h1]; simp), if_neg (by rw [h2]; simp)]
  · intro h1 h2
    rw [if_neg (by rw [h1]; simp), if_pos h2]
    exact ⟨_, rfl, rfl, h2⟩

/-- C27, as amended: after a call of `endTraversal` that returned, a functor with
`calculateGlobals = true` throws on the next call of `endTraversal` and stays as it
is, with its potential energy and virial; a functor with `calculateGlobals = false`
is not changed by `endTraversal` and the next call returns again.  In both cases a
call of `endTraversal` after `initTraversal` returns. -/
theorem endTraversal_twice (fn fn1 : LJFunctor) (newton3 second : Bool)
    (h : fn.endTraversal newton3 = some fn1) :
    (fn.calculateGlobals = true →
      fn1.endTraversal second = none ∧ fn1.endTraversalCall second = (fn1, true) ∧
      (fn1.endTraversalCall second).1.upotSum = fn1.upotSum ∧
      (fn1.endTraversalCall second).1.virialSum = fn1.virialSum) ∧
    (fn.calculateGlobals = false →
      fn1 = fn ∧ fn1.endTraversal second = some fn1 ∧
      fn1.endTraversalCall second = (fn1, false)) ∧
    ∀ third : Bool, (fn1.initTraversal.endTraversal third).isSome = true := by
  obtain ⟨c1, c2, c3⟩ := endTraversal_cases fn newton3
  have hpp : fn.postProcessed = false := by
    cases hp : fn.postProcessed with
    | false => rfl
    | true => rw [c1 hp] at h; exact absurd h (by simp)
  refine ⟨?_, ?_, ?_⟩
  · intro hg
    obtain ⟨fn2, h2, h3, _⟩ := c3 hpp hg
    rw [h] at h2
    rw [← Option.some.inj h2] at h3
    have hnone := (endTraversal_cases fn1 second).1 h3
    have hcall : fn1.endTraversalCall second = (fn1, true) := by
      unfold endTraversalCall
      rw [hnone]
    exact ⟨hnone, hcall, by rw [hcall], by rw [hcall]⟩
  · intro hg
    have h2 := c2 hpp hg
    rw [h] at h2
    have heq : fn1 = fn := Option.some.inj h2
    have hsome : fn1.endTraversal second = some fn1 := by
      rw [heq]
      exact (endTraversal_cases fn second).2.1 hpp hg
    refine ⟨heq, hsome, ?_⟩
    unfold endTraversalCall
    rw [hsome]
  · intro third
    have hinit : fn1.initTraversal.postProcessed = false := rfl
    cases hg : fn1.initTraversal.calculateGlobals with
    | false => rw [(endTraversal_cases _ third).2.1 hinit hg]; rfl
    | true =>
      obtain ⟨fn2, h2, _, _⟩ := (endTraversal_cases _ third).2.2 hinit hg
      rw [h2]; rfl

theorem endTraversal_twice_witness :
    ∃ fn1, sampleFunctor.endTraversal true = some fn1 ∧ fn1.endTraversal false = none := by
  obtain ⟨fn1, h1, _, _⟩ := (endTraversal_cases sampleFunctor true).2.2 rfl rfl
  exact ⟨fn1, h1, ((endTraversal_twice sampleFunctor fn1 true false h1).1 rfl).1⟩

/-- As C27 is stated, it fails for `calculateGlobals = false`: the second call of
`endTraversal` without a call of `initTraversal` in between returns like the
first. -/
theorem endTraversal_twice_without_globals :
    sampleFunctorNoGlobals.calculateGlobals = false ∧
    ((sampleFunctorNoGlobals.endTraversal true).bind fun fn1 => fn1.endTraversal true).isSome =
      true ∧
    ((sampleFunctorNoGlobals.endTraversalCall true).1.endTraversalCall true).2 = false := by
  decide

end LJFunctor
namespace LJFunctor

theorem foldl_thread_sums (data : List AoSThreadData) :
    ∀ acc : ℚ × Vec3,
      data.foldl (fun (acc : ℚ × Vec3) d => (acc.1 + d.upotSum, ArrayMath.add acc.2 d.virialSum))
          acc =
        (acc.1 + (data.map fun d => d.upotSum).sum,
          (acc.2.1 + (data.map fun d => d.virialSum.1).sum,
            acc.2.2.1 + (data.map fun d => d.virialSum.2.1).sum,
            acc.2.2.2 + (data.map fun d => d.virialSum.2.2).sum)) := by
  induction data with
  | nil => intro acc; simp
  | cons d ds ih =>
    intro acc
    rw [List.foldl_cons, ih]
    simp only [ArrayMath.add, List.map_cons, List.sum_cons]
    refine Prod.ext ?_ (Prod.ext ?_ (Prod.ext ?_ ?_)) <;> simp only <;> ring

theorem endTraversal_values (fn fn1 : LJFunctor) (newton3 : Bool)
    (hg : fn.calculateGlobals = true) (h : fn.endTraversal newton3 = some fn1) :
    fn1.upotSum =
      (if newton3 then fn.summedUpot else fn.summedUpot * (1 / 2)) / 6 ∧
    fn1.virialSum =
      (if newton3 then fn.summedVirial else ArrayMath.mulScalar fn.summedVirial (1 / 2)) := by
  unfold endTraversal at h
  by_cases hp : fn.postProcessed = true
  · rw [if_pos hp] at h
    exact absurd h (by simp)
  · rw [if_neg hp, if_pos hg] at h
    rw [← Option.some.inj h]
    simp only [foldl_thread_sums]
    cases newton3 <;> exact ⟨rfl, rfl⟩

theorem runCalls_flags (calls : List Call) :
    ∀ (fn : LJFunctor) (ended : Bool),
      fn.postProcessed = (fn.calculateGlobals && ended) →
      (runCalls fn calls).calculateGlobals = fn.calculateGlobals ∧
      (runCalls fn calls).postProcessed =
        (fn.calculateGlobals &&
          calls.foldl
            (fun ended call =>
              match call with
              | Call.initTraversal => false
              | Call.endTraversal _ => true
              | Call.AoSFunctor _ _ _ _ => ended)
            ended) := by
  induction calls with
  | nil => intro fn ended h; exact ⟨rfl, h⟩
  | cons call calls ih =>
    intro fn ended h
    unfold runCalls at ih ⊢
    rw [List.foldl_cons, List.foldl_cons]
    cases call with
    | initTraversal =>
      have h1 : (applyCall fn Call.initTraversal).calculateGlobals = fn.calculateGlobals := rfl
      have h2 : (applyCall fn Call.initTraversal).postProcessed = false := rfl
      obtain ⟨h3, h4⟩ := ih (applyCall fn Call.initTraversal) false (by rw [h2]; simp)
      rw [h3, h4, h1]
      exact ⟨rfl, rfl⟩
    | endTraversal newton3 =>
      have hstep : (applyCall fn (Call.endTraversal newton3)).calculateGlobals =
          fn.calculateGlobals ∧
          (applyCall fn (Call.endTraversal newton3)).postProcessed = fn.calculateGlobals := by
        obtain ⟨c1, c2, c3⟩ := endTraversal_cases fn newton3
        simp only [applyCall, endTraversalCall]
        cases hp : fn.postProcessed with
        | true =>
          rw [c1 hp]
          rw [hp] at h
          have hgt : fn.calculateGlobals = true := by
            cases hg : fn.calculateGlobals with
            | true => rfl
            | false => rw [hg] at h; simp at h
          exact ⟨rfl, by rw [hgt]; exact hp⟩
        | false =>
          cases hg : fn.calculateGlobals with
          | false =>
            rw [c2 hp hg]
            exact ⟨hg, hp⟩
          | true =>
            obtain ⟨fn1, h1, h2, h3⟩ := c3 hp hg
            rw [h1]
            exact ⟨h3, h2⟩
      obtain ⟨h3, h4⟩ := ih (applyCall fn (Call.endTraversal newton3)) true
        (by rw [hstep.1, hstep.2]; simp)
      rw [h3, h4, hstep.1]
      exact ⟨rfl, rfl⟩
    | AoSFunctor threadnum i j newton3 =>
      obtain ⟨h1, h2⟩ := AoSFunctor_flags fn threadnum i j newton3
      have h1b : (applyCall fn (Call.AoSFunctor threadnum i j newton3)).postProcessed =
          fn.postProcessed := h1
      have h2b : (applyCall fn (Call.AoSFunctor threadnum i j newton3)).calculateGlobals =
          fn.calculateGlobals := h2
      obtain ⟨h3, h4⟩ := ih (applyCall fn (Call.AoSFunctor threadnum i j newton3)) ended
        (by rw [h1b, h2b]; exact h)
      rw [h3, h4, h2b]
      exact ⟨rfl, rfl⟩

/-- C28: for a functor that was constructed and then used in any sequence of calls
of `initTraversal`, `endTraversal` and `AoSFunctor`, `getUpot` and `getVirial` throw
exactly if `calculateGlobals` is false or `endTraversal` has not been called since
the last `initTraversal` (or the construction); otherwise they return the member
`_upotSum` and the sum of the three components of `_virialSum`.  Right after a call
of `endTraversal` that returned these are the finalized values: the sums over the
thread buffers, halved without newton3, the potential energy divided by 6.  The
getters only read the functor. -/
theorem getters_after_calls (applyShift useMixing calculateGlobals : Bool) (cutoff : ℚ)
    (maxThreads : Nat) (epsilon24 sigmasquare shift6 : ℚ) (PPLibrary : ParticlePropertiesLibrary)
    (calls : List Call) :
    ((runCalls (new applyShift useMixing calculateGlobals cutoff maxThreads epsilon24 sigmasquare
        shift6 PPLibrary) calls).getUpot = none ↔
      (calculateGlobals = false ∨ endedSinceInit calls = false)) ∧
    ((runCalls (new applyShift useMixing calculateGlobals cutoff maxThreads epsilon24 sigmasquare
        shift6 PPLibrary) calls).getVirial = none ↔
      (calculateGlobals = false ∨ endedSinceInit calls = false)) ∧
    (calculateGlobals = true → endedSinceInit calls = true →
      (runCalls (new applyShift useMixing calculateGlobals cutoff maxThreads epsilon24 sigmasquare
          shift6 PPLibrary) calls).getUpot =
        some (runCalls (new applyShift useMixing calculateGlobals cutoff maxThreads epsilon24
          sigmasquare shift6 PPLibrary) calls).upotSum ∧
      (runCalls (new applyShift useMixing calculateGlobals cutoff maxThreads epsilon24 sigmasquare
          shift6 PPLibrary) calls).getVirial =
        some ((runCalls (new applyShift useMixing calculateGlobals cutoff maxThreads epsilon24
            sigmasquare shift6 PPLibrary) calls).virialSum.1 +
          (runCalls (new applyShift useMixing calculateGlobals cutoff maxThreads epsilon24
            sigmasquare shift6 PPLibrary) calls).virialSum.2.1 +
          (runCalls (new applyShift useMixing calculateGlobals cutoff maxThreads epsilon24
            sigmasquare shift6 PPLibrary) calls).virialSum.2.2)) ∧
    (∀ (fn fn1 : LJFunctor) (newton3 : Bool), fn.calculateGlobals = true →
      fn.endTraversal newton3 = some fn1 →
      fn1.getUpot = some ((if newton3 then fn.summedUpot else fn.summedUpot * (1 / 2)) / 6) ∧
      fn1.getVirial =
        some ((if newton3 then fn.summedVirial else ArrayMath.mulScalar fn.summedVirial (1 / 2)).1 +
          (if newton3 then fn.summedVirial else ArrayMath.mulScalar fn.summedVirial (1 / 2)).2.1 +
          (if newton3 then fn.summedVirial
            else ArrayMath.mulScalar fn.summedVirial (1 / 2)).2.2)) := by
  obtain ⟨hcg, hpp⟩ := runCalls_flags calls
    (new applyShift useMixing calculateGlobals cutoff maxThreads epsilon24 sigmasquare shift6
      PPLibrary) false (by simp [new])
  have hcg0 : (new applyShift useMixing calculateGlobals cutoff maxThreads epsilon24 sigmasquare
      shift6 PPLibrary).calculateGlobals = calculateGlobals := rfl
  rw [hcg0] at hcg hpp
  have hpp2 : (runCalls (new applyShift useMixing calculateGlobals cutoff maxThreads epsilon24
      sigmasquare shift6 PPLibrary) calls).postProcessed =
      (calculateGlobals && endedSinceInit calls) := hpp
  generalize runCalls (new applyShift useMixing calculateGlobals cutoff maxThreads epsilon24
      sigmasquare shift6 PPLibrary) calls = fn at *
  refine ⟨?_, ?_, ?_, ?_⟩
  · unfold getUpot
    rw [hcg, hpp2]
    cases calculateGlobals <;> cases endedSinceInit calls <;> simp
  · unfold getVirial
    rw [hcg, hpp2]
    cases calculateGlobals <;> cases endedSinceInit calls <;> simp
  · intro h1 h2
    unfold getUpot getVirial
    rw [hcg, hpp2, h1, h2]
    exact ⟨rfl, rfl⟩
  · intro fn0 fn1 newton3 hg h
    obtain ⟨hu, hv⟩ := endTraversal_values fn0 fn1 newton3 hg h
    obtain ⟨fn2, h2, h3, h4⟩ := (endTraversal_cases fn0 newton3).2.2 (by
      cases hp : fn0.postProcessed with
      | false => rfl
      | true => rw [(endTraversal_cases fn0 newton3).1 hp] at h; exact absurd h (by simp)) hg
    rw [h] at h2
    rw [← Option.some.inj h2] at h3 h4
    unfold getUpot getVirial
    rw [h4, h3, hu, hv]
    exact ⟨rfl, rfl⟩

end LJFunctor
namespace ParticleSerializationTools

theorem attributeBytes_length (sizeOf : AttributeNames → Nat) (p : ParticleType)
    (hp : p.wellTyped sizeOf) (attrs : List AttributeNames) :
    (attributeBytes p attrs).length = totalSize sizeOf attrs := by
  unfold attributeBytes totalSize
  induction attrs with
  | nil => rfl
  | cons a rest ih =>
    rw [List.flatMap_cons, List.length_append, List.map_cons, List.sum_cons, ih, hp a]

theorem serializeAttributes_spec (sizeOf : AttributeNames → Nat) (p : ParticleType)
    (hp : p.wellTyped sizeOf) (attrs : List AttributeNames) :
    ∀ (pre : List Byte) (m : Nat), totalSize sizeOf attrs ≤ m →
      serializeAttributes sizeOf p attrs (pre ++ List.replicate m 0, pre.length) =
        some (pre ++ attributeBytes p attrs ++ List.replicate (m - totalSize sizeOf attrs) 0,
          pre.length + totalSize sizeOf attrs) := by
  induction attrs with
  | nil =>
    intro pre m _
    simp [serializeAttributes, attributeBytes, totalSize]
  | cons a rest ih =>
    intro pre m hm
    have htot : totalSize sizeOf (a :: rest) = sizeOf a + totalSize sizeOf rest := by
      unfold totalSize
      rw [List.map_cons, List.sum_cons]
    rw [htot] at hm ⊢
    have hcopy : memcpyInto (pre ++ List.replicate m 0) pre.length (p.get a) (sizeOf a) =
        some ((pre ++ p.get a) ++ List.replicate (m - sizeOf a) 0) := by
      unfold memcpyInto
      rw [if_pos (by
        rw [List.length_append, List.length_replicate, hp a]
        exact ⟨by omega, le_refl _⟩)]
      rw [List.take_left, ← hp a, List.take_length, List.drop_append, List.drop_replicate]
    unfold serializeAttributes serializeAttribute
    simp only [hcopy]
    have hlen : pre.length + sizeOf a = (pre ++ p.get a).length := by
      rw [List.length_append, hp a]
    rw [hlen, ih (pre ++ p.get a) (m - sizeOf a) (by omega)]
    have hbytes : attributeBytes p (a :: rest) = p.get a ++ attributeBytes p rest := by
      unfold attributeBytes
      rw [List.flatMap_cons]
    rw [hbytes, List.length_append, hp a]
    congr 1
    refine Prod.ext ?_ ?_
    · simp only [List.append_assoc]
      congr 3
      rw [Nat.sub_sub]
    · simp only
      omega

theorem record_length (sizeOf : AttributeNames → Nat)
    (hsize : totalSize sizeOf Attributes ≤ AttributesSize) (p : ParticleType)
    (hp : p.wellTyped sizeOf) : (record sizeOf p).length = AttributesSize := by
  unfold record
  rw [List.length_append, attributeBytes_length sizeOf p hp, List.length_replicate]
  omega

theorem serializeParticle_spec (sizeOf : AttributeNames → Nat)
    (hsize : totalSize sizeOf Attributes ≤ AttributesSize) (p : ParticleType)
    (hp : p.wellTyped sizeOf) (buffer : List Byte) :
    serializeParticle sizeOf p buffer = some (buffer ++ record sizeOf p) := by
  unfold serializeParticle serializeParticleImpl
  have h := serializeAttributes_spec sizeOf p hp Attributes [] AttributesSize hsize
  simp only [List.nil_append, List.length_nil] at h
  rw [h]
  rfl

theorem deserializeAttributes_spec (sizeOf : AttributeNames → Nat) (p : ParticleType)
    (hp : p.wellTyped sizeOf) (post : List Byte) (attrs : List AttributeNames) :
    ∀ (pre : List Byte) (q : ParticleType),
      deserializeAttributes sizeOf (pre ++ attributeBytes p attrs ++ post) attrs (q, pre.length) =
        some (attrs.foldl (fun q a => q.set a (p.get a)) q,
          pre.length + totalSize sizeOf attrs) := by
  induction attrs with
  | nil =>
    intro pre q
    simp [deserializeAttributes, totalSize]
  | cons a rest ih =>
    intro pre q
    have htot : totalSize sizeOf (a :: rest) = sizeOf a + totalSize sizeOf rest := by
      unfold totalSize
      rw [List.map_cons, List.sum_cons]
    have hbytes : attributeBytes p (a :: rest) = p.get a ++ attributeBytes p rest := by
      unfold attributeBytes
      rw [List.flatMap_cons]
    have hdata : pre ++ attributeBytes p (a :: rest) ++ post =
        (pre ++ p.get a) ++ attributeBytes p rest ++ post := by
      rw [hbytes]
      simp only [List.append_assoc]
    have hread : memcpyFrom (pre ++ attributeBytes p (a :: rest) ++ post) pre.length (sizeOf a) =
        some (p.get a) := by
      unfold memcpyFrom
      rw [if_pos (by
        rw [hbytes]
        simp only [List.length_append, hp a]
        omega)]
      rw [hbytes]
      simp only [List.append_assoc]
      rw [List.drop_left, ← hp a, List.take_left]
    unfold deserializeAttributes deserializeAttribute
    simp only [hread]
    have hlen : pre.length + sizeOf a = (pre ++ p.get a).length := by
      rw [List.length_append, hp a]
    rw [hdata, hlen, ih (pre ++ p.get a) (q.set a (p.get a)), htot, List.length_append, hp a,
      List.foldl_cons]
    congr 2
    omega

theorem set_all_attributes (p q : ParticleType) :
    Attributes.foldl (fun q a => q.set a (p.get a)) q = p := by
  cases p with
  | mk pget =>
    simp only [Attributes, List.foldl, ParticleType.set]
    congr 1
    funext a
    cases a <;> simp

theorem deserializeParticle_spec (sizeOf : AttributeNames → Nat) (p : ParticleType)
    (hp : p.wellTyped sizeOf) (rest : List Byte) (q : ParticleType) :
    deserializeParticle sizeOf (record sizeOf p ++ rest) q = some p := by
  unfold deserializeParticle record
  have h := deserializeAttributes_spec sizeOf p hp
    (List.replicate (AttributesSize - totalSize sizeOf Attributes) 0 ++ rest) Attributes [] q
  simp only [List.nil_append, List.length_nil] at h
  rw [List.append_assoc, h, set_all_attributes]

theorem deserializeLoop_spec (sizeOf : AttributeNames → Nat)
    (hsize : totalSize sizeOf Attributes ≤ AttributesSize) (ps : List ParticleType) :
    ∀ (fuel : Nat) (pre : List Byte) (q : ParticleType) (particles : List ParticleType),
      (∀ p ∈ ps, p.wellTyped sizeOf) → ps.length ≤ fuel →
      deserializeLoop sizeOf (pre ++ ps.flatMap (record sizeOf)) fuel pre.length q particles =
        some (particles ++ ps) := by
  induction ps with
  | nil =>
    intro fuel pre q particles _ _
    cases fuel <;> simp [deserializeLoop]
  | cons p ps ih =>
    intro fuel pre q particles hps hfuel
    have hp := hps p (List.mem_cons_self _ _)
    have hrec := record_length sizeOf hsize p hp
    cases fuel with
    | zero => simp at hfuel
    | succ fuel =>
      unfold deserializeLoop
      rw [List.flatMap_cons]
      rw [if_pos (by
        simp only [List.length_append, hrec]
        unfold AttributesSize
        omega)]
      rw [List.drop_left, deserializeParticle_spec sizeOf p hp]
      simp only
      have hlen : pre.length + AttributesSize = (pre ++ record sizeOf p).length := by
        rw [List.length_append, hrec]
      rw [hlen, ← List.append_assoc pre,
        ih fuel (pre ++ record sizeOf p) p (particles ++ [p])
          (fun x hx => hps x (List.mem_cons_of_mem _ hx))
          (by simp only [List.length_cons] at hfuel; omega)]
      simp

theorem serializeAll_spec (sizeOf : AttributeNames → Nat)
    (hsize : totalSize sizeOf Attributes ≤ AttributesSize) (ps : List ParticleType) :
    ∀ buffer : List Byte, (∀ p ∈ ps, p.wellTyped sizeOf) →
      serializeAll sizeOf ps buffer = some (buffer ++ ps.flatMap (record sizeOf)) := by
  induction ps with
  | nil => intro buffer _; simp [serializeAll]
  | cons p ps ih =>
    intro buffer hps
    unfold serializeAll
    rw [serializeParticle_spec sizeOf hsize p (hps p (List.mem_cons_self _ _))]
    simp only
    rw [ih _ (fun x hx => hps x (List.mem_cons_of_mem _ hx)), List.flatMap_cons,
      List.append_assoc]

theorem flatMap_record_length (sizeOf : AttributeNames → Nat)
    (hsize : totalSize sizeOf Attributes ≤ AttributesSize) (ps : List ParticleType)
    (hps : ∀ p ∈ ps, p.wellTyped sizeOf) :
    (ps.flatMap (record sizeOf)).length = AttributesSize * ps.length := by
  induction ps with
  | nil => rfl
  | cons p ps ih =>
    rw [List.flatMap_cons, List.length_append,
      record_length sizeOf hsize p (hps p (List.mem_cons_self _ _)),
      ih (fun x hx => hps x (List.mem_cons_of_mem _ hx)), List.length_cons]
    ring

/-- C29: let the attribute types have sizes that sum to at most `AttributesSize`
= 120 and let `p_1..p_n` be particles with attribute values of these sizes.  Every
call of `serializeParticle` appends exactly 120 bytes to the buffer, the calls for
`p_1..p_n` on an empty buffer give `120 * n` bytes, and `deserializeParticles` of
these bytes appends exactly the particles `p_1..p_n`, in order, with all their 15
attributes. -/
theorem serialize_deserialize (sizeOf : AttributeNames → Nat)
    (hsize : totalSize sizeOf Attributes ≤ AttributesSize) (particle0 : ParticleType)
    (ps : List ParticleType) (hps : ∀ p ∈ ps, p.wellTyped sizeOf)
    (particles : List ParticleType) :
    (∀ p ∈ ps, ∀ buffer : List Byte, ∃ appended : List Byte,
      appended.length = 120 ∧ serializeParticle sizeOf p buffer = some (buffer ++ appended)) ∧
    Attributes.length = 15 ∧ (∀ a : AttributeNames, a ∈ Attributes) ∧
    ∃ data : List Byte, serializeAll sizeOf ps [] = some data ∧
      data.length = 120 * ps.length ∧
      deserializeParticles sizeOf particle0 data particles = some (particles ++ ps) := by
  refine ⟨?_, rfl, ?_, ?_⟩
  · intro p hp buffer
    exact ⟨record sizeOf p, record_length sizeOf hsize p (hps p hp),
      serializeParticle_spec sizeOf hsize p (hps p hp) buffer⟩
  · intro a
    cases a <;> decide
  · have hlen := flatMap_record_length sizeOf hsize ps hps
    refine ⟨ps.flatMap (record sizeOf), ?_, hlen, ?_⟩
    · have := serializeAll_spec sizeOf hsize ps [] hps
      rw [List.nil_append] at this
      exact this
    · unfold deserializeParticles
      have := deserializeLoop_spec sizeOf hsize ps (ps.flatMap (record sizeOf)).length [] particle0
        particles hps (by rw [hlen]; unfold AttributesSize; omega)
      rw [List.nil_append, List.length_nil] at this
      exact this

theorem serialize_deserialize_witness :
    ∃ data : List Byte,
      serializeAll sampleSizeOf [sampleParticle, sampleParticle2] [] = some data ∧
      data.length = 120 * [sampleParticle, sampleParticle2].length ∧
      deserializeParticles sampleSizeOf sampleParticle data [] =
        some ([] ++ [sampleParticle, sampleParticle2]) :=
  (serialize_deserialize sampleSizeOf (by decide) sampleParticle [sampleParticle, sampleParticle2]
    (by
      intro p hp a
      simp only [List.mem_cons, List.mem_singleton, List.not_mem_nil, or_false] at hp
      rcases hp with h | h <;> rw [h] <;> rfl) []).2.2.2

end ParticleSerializationTools
/-- C30 fails for `VerletClusterLists`: every such container reports the option
`verletListsCells`, not `verletClusterLists`, so `withStaticContainerType2` casts it
to `VerletListsCells` and calls the function with a null pointer; with the option
`verletClusterLists` the cast would give the container. -/
theorem getContainerType_of_cluster_lists (container : VerletClusterLists) :
    container.getContainerType = ContainerOption.verletListsCells ∧
    container.getContainerType ≠ ContainerOption.verletClusterLists ∧
    withStaticContainerType2 ContainerClass.VerletClusterLists container.getContainerType = none ∧
    withStaticContainerType2 ContainerClass.VerletClusterLists ContainerOption.verletClusterLists =
      some ContainerClass.VerletClusterLists :=
  ⟨rfl, fun h => absurd h (by unfold VerletClusterLists.getContainerType; decide), rfl, rfl⟩

namespace MulticenteredMoleculeLJ

/-- C31: the constructor hands the enumerator `AttributeNames::id` (value 1) to the
base class instead of its argument `moleculeId`, so `getID()` is 1 whatever
`moleculeId` is, and equals `moleculeId` only for `moleculeId = 1`; position,
velocity, quaternion, angular velocity and type id are the arguments given. -/
theorem getID_ignores_moleculeId (torque r v : Vec3) (q : Vec4) (angularVel : Vec3)
    (moleculeId typeId : Nat) :
    (new torque r v q angularVel moleculeId typeId).toMoleculeLJ.getID = 1 ∧
    ((new torque r v q angularVel moleculeId typeId).toMoleculeLJ.getID = moleculeId ↔
      moleculeId = 1) ∧
    (new torque r v q angularVel moleculeId typeId).getId = 1 ∧
    (new torque r v q angularVel 0 typeId).toMoleculeLJ.getID ≠ 0 ∧
    (new torque r v q angularVel moleculeId typeId).toMoleculeLJ.getR = r ∧
    (new torque r v q angularVel moleculeId typeId).toMoleculeLJ.getV = v ∧
    (new torque r v q angularVel moleculeId typeId).getQ = q ∧
    (new torque r v q angularVel moleculeId typeId).getAngularVel = angularVel ∧
    (new torque r v q angularVel moleculeId typeId).toMoleculeLJ.getTypeId = typeId := by
  refine ⟨rfl, ?_, rfl, ?_, rfl, rfl, rfl, rfl, rfl⟩
  · show (1 : Nat) = moleculeId ↔ moleculeId = 1
    exact eq_comm
  · show (1 : Nat) ≠ 0
    decide

end MulticenteredMoleculeLJ

namespace VerletClusterLists

/-- C37: for two intervals with `min1 ≤ max1` and `min2 ≤ max2`, `bboxDistance` is 0
exactly if they overlap or touch, and otherwise the gap between them; it is not
negative, the same when the intervals are swapped, and at most `|z1 - z2|` for all
`z1` of the first and `z2` of the second interval. -/
theorem bboxDistance_is_gap (min1 max1 min2 max2 : ℚ) (h1 : min1 ≤ max1) (h2 : min2 ≤ max2) :
    (bboxDistance min1 max1 min2 max2 = 0 ↔ min2 ≤ max1 ∧ min1 ≤ max2) ∧
    (max1 < min2 → bboxDistance min1 max1 min2 max2 = min2 - max1) ∧
    (max2 < min1 → bboxDistance min1 max1 min2 max2 = min1 - max2) ∧
    bboxDistance min1 max1 min2 max2 = max 0 (max (min2 - max1) (min1 - max2)) ∧
    0 ≤ bboxDistance min1 max1 min2 max2 ∧
    bboxDistance min1 max1 min2 max2 = bboxDistance min2 max2 min1 max1 ∧
    (∀ z1 z2 : ℚ, min1 ≤ z1 → z1 ≤ max1 → min2 ≤ z2 → z2 ≤ max2 →
      bboxDistance min1 max1 min2 max2 ≤ |z1 - z2|) ∧
    (∃ z1 z2 : ℚ, (min1 ≤ z1 ∧ z1 ≤ max1) ∧ (min2 ≤ z2 ∧ z2 ≤ max2) ∧
      |z1 - z2| = bboxDistance min1 max1 min2 max2) := by
  refine ⟨?_, ?_, ?_, ?_, ?_, ?_, ?_, ?_⟩
  · unfold bboxDistance
    split_ifs with ha hb
    · constructor
      · intro h; linarith
      · intro h; linarith [h.1]
    · constructor
      · intro h; linarith
      · intro h; linarith [h.2]
    · constructor
      · intro _; exact ⟨not_lt.mp ha, not_lt.mp hb⟩
      · intro _; rfl
  · intro h
    unfold bboxDistance
    rw [if_pos h]
  · intro h
    unfold bboxDistance
    rw [if_neg (by linarith), if_pos h]
  · unfold bboxDistance
    split_ifs with ha hb
    · rw [max_eq_left (by linarith : min1 - max2 ≤ min2 - max1), max_eq_right (by linarith)]
    · rw [max_eq_right (by linarith : min2 - max1 ≤ min1 - max2), max_eq_right (by linarith)]
    · rw [max_eq_left]
      exact max_le (by linarith [not_lt.mp ha]) (by linarith [not_lt.mp hb])
  · unfold bboxDistance
    split_ifs <;> linarith
  · unfold bboxDistance
    split_ifs <;> first | rfl | linarith
  · intro z1 z2 a1 b1 a2 b2
    exact (bboxDistance_le min1 max1 min2 max2 z1 z2 a1 b1 a2 b2).2
  · unfold bboxDistance
    split_ifs with ha hb
    · refine ⟨max1, min2, ⟨h1, le_refl _⟩, ⟨le_refl _, h2⟩, ?_⟩
      rw [abs_of_neg (by linarith)]
      ring
    · refine ⟨min1, max2, ⟨le_refl _, h1⟩, ⟨h2, le_refl _⟩, ?_⟩
      rw [abs_of_pos (by linarith)]
    · refine ⟨max min1 min2, max min1 min2, ⟨le_max_left _ _, ?_⟩, ⟨le_max_right _ _, ?_⟩, ?_⟩
      · exact max_le h1 (not_lt.mp ha)
      · exact max_le (not_lt.mp hb) h2
      · simp

theorem bboxDistance_is_gap_witness :
    ((0 : ℚ) ≤ 1 ∧ (3 : ℚ) ≤ 4) ∧ bboxDistance 0 1 3 4 = 2 ∧ bboxDistance 3 4 0 1 = 2 ∧
      (bboxDistance 0 2 1 4 = 0 ↔ (1 : ℚ) ≤ 2 ∧ (0 : ℚ) ≤ 4) :=
  ⟨⟨by norm_num, by norm_num⟩,
    by
      have h := (bboxDistance_is_gap 0 1 3 4 (by norm_num) (by norm_num)).2.1 (by norm_num)
      rw [h]; norm_num,
    by
      have h := (bboxDistance_is_gap 3 4 0 1 (by norm_num) (by norm_num)).2.2.1 (by norm_num)
      rw [h]; norm_num,
    (bboxDistance_is_gap 0 2 1 4 (by norm_num) (by norm_num)).1⟩

end VerletClusterLists

theorem mem_unit_cube (v : Int × Int × Int)
    (h : (-1 ≤ v.1 ∧ v.1 ≤ 1) ∧ (-1 ≤ v.2.1 ∧ v.2.1 ≤ 1) ∧ (-1 ≤ v.2.2 ∧ v.2.2 ≤ 1)) :
    v ∈ ([-1, 0, 1] : List Int).flatMap fun a =>
      ([-1, 0, 1] : List Int).flatMap fun b => ([-1, 0, 1] : List Int).map fun c => (a, b, c) := by
  obtain ⟨a, b, c⟩ := v
  obtain ⟨⟨ha0, ha1⟩, ⟨hb0, hb1⟩, ⟨hc0, hc1⟩⟩ := h
  simp only at ha0 ha1 hb0 hb1 hc0 hc1
  have ha : a = -1 ∨ a = 0 ∨ a = 1 := by omega
  have hb : b = -1 ∨ b = 0 ∨ b = 1 := by omega
  have hc : c = -1 ∨ c = 0 ∨ c = 1 := by omega
  rcases ha with rfl | rfl | rfl <;> rcases hb with rfl | rfl | rfl <;>
    rcases hc with rfl | rfl | rfl <;> decide

/-- C33: the fourteen entries of `_cellPairOffsets` are pairs of corners of the 2x2x2
block; read as displacements `b - a`, the zero displacement occurs exactly once and
the other 13 are pairwise distinct and pairwise non-opposite, so that they and their
opposites are exactly the 26 vectors of `{-1, 0, 1}^3` other than zero, each once. -/
theorem cellPairOffsets_cover_neighbours :
    (∀ dims : Dims, computeOffsets dims =
      cellPairCorners.map fun p => (cellIndex dims p.1, cellIndex dims p.2)) ∧
    cellPairCorners.length = 14 ∧
    (∀ p ∈ cellPairCorners, (p.1.1 ≤ 1 ∧ p.1.2.1 ≤ 1 ∧ p.1.2.2 ≤ 1) ∧
      (p.2.1 ≤ 1 ∧ p.2.2.1 ≤ 1 ∧ p.2.2.2 ≤ 1)) ∧
    cellPairDisplacements.count (0, 0, 0) = 1 ∧
    cellPairDisplacements.head? = some (0, 0, 0) ∧
    nonZeroDisplacements.length = 13 ∧
    nonZeroDisplacements.Nodup ∧
    (∀ d ∈ nonZeroDisplacements, opposite d ∉ nonZeroDisplacements) ∧
    (nonZeroDisplacements ++ nonZeroDisplacements.map opposite).Nodup ∧
    (nonZeroDisplacements ++ nonZeroDisplacements.map opposite).length = 26 ∧
    (∀ v : Int × Int × Int, v ∈ nonZeroDisplacements ++ nonZeroDisplacements.map opposite ↔
      ((-1 ≤ v.1 ∧ v.1 ≤ 1) ∧ (-1 ≤ v.2.1 ∧ v.2.1 ≤ 1) ∧ (-1 ≤ v.2.2 ∧ v.2.2 ≤ 1)) ∧
        v ≠ (0, 0, 0)) := by
  refine ⟨fun dims => rfl, rfl, by decide, by decide, rfl, by decide, by decide, by decide,
    by decide, by decide, ?_⟩
  intro v
  constructor
  · revert v
    decide
  · rintro ⟨hc, hne⟩
    have hmem := mem_unit_cube v hc
    clear hc
    revert hne
    revert hmem
    revert v
    decide

theorem bump_map_range (t : Nat) (f : Nat → Nat) (i delta : Nat) :
    bump ((List.range t).map f) i delta =
      (List.range t).map fun k => if k = i then (f i + delta) % 2 ^ 64 else f k := by
  unfold bump
  apply List.ext_getElem
  · simp
  · intro k h1 h2
    simp only [List.length_map, List.length_range] at h2
    simp only [List.getElem_set, List.getElem_map, List.getElem_range]
    by_cases hik : i = k
    · subst hik
      simp [List.getD_eq_getElem?_getD, h2]
    · rw [if_neg hik, if_neg (Ne.symm hik)]

theorem foldl_bump_range (t q : Nat) (r : Nat) (hq : 0 < r → q + 1 < 2 ^ 64) :
    (List.range r).foldl (fun v i => bump v i 1) ((List.range t).map fun _ => q) =
      (List.range t).map fun k => q + if k < r then 1 else 0 := by
  induction r with
  | zero => simp
  | succ r ih =>
    rw [List.range_succ, List.foldl_append, ih (fun _ => hq (Nat.succ_pos r))]
    simp only [List.foldl_cons, List.foldl_nil]
    rw [bump_map_range]
    apply List.map_congr_left
    intro k _
    by_cases hk : k = r
    · subst hk
      simp only [if_true, lt_irrefl, if_false, add_zero, Nat.lt_succ_self]
      exact Nat.mod_eq_of_lt (hq (Nat.succ_pos k))
    · rw [if_neg hk]
      by_cases hlt : k < r
      · rw [if_pos hlt, if_pos (by omega)]
      · rw [if_neg hlt, if_neg (by omega)]

theorem replicate_eq_map_range (t q : Nat) :
    List.replicate t q = (List.range t).map fun _ => q := by
  apply List.ext_getElem
  · simp
  · intro k h1 h2
    simp

theorem sliceThickness_eq (n numSlices : Nat) (ht : 0 < numSlices) (hn : numSlices ≤ n)
    (h64 : n < 2 ^ 64) : sliceThickness n numSlices = balancedSliceThickness n numSlices := by
  have hq : 1 ≤ n / numSlices := (Nat.one_le_div_iff ht).2 hn
  have hqn : n / numSlices * numSlices + n % numSlices = n := Nat.div_add_mod' n numSlices
  have hrt : n % numSlices < numSlices := Nat.mod_lt n ht
  have hqle : n / numSlices * numSlices ≤ n := Nat.div_mul_le_self n numSlices
  have hq2 : 0 < n % numSlices → n / numSlices + 1 < 2 ^ 64 := by
    intro hr
    have h2 : 2 ≤ numSlices := by omega
    have h3 : n / numSlices * 2 ≤ n / numSlices * numSlices := Nat.mul_le_mul_left _ h2
    omega
  have hinit : (List.replicate numSlices (n / numSlices)).getD 0 0 = n / numSlices := by
    cases numSlices with
    | zero => omega
    | succ m => rfl
  have hrest : n - n / numSlices * numSlices = n % numSlices := by omega
  unfold sliceThickness balancedSliceThickness
  simp only [hinit, hrest]
  rw [replicate_eq_map_range, foldl_bump_range numSlices (n / numSlices) (n % numSlices) hq2,
    bump_map_range]
  apply List.map_congr_left
  intro k hk
  rw [List.mem_range] at hk
  have hlast : ¬ (numSlices - 1 < n % numSlices) := by omega
  by_cases hk2 : k = numSlices - 1
  · have hk3 : ¬ (k < n % numSlices) := by omega
    have hk4 : k + 1 = numSlices := by omega
    rw [if_pos hk2, if_neg hlast, if_neg hk3, if_pos hk4]
    have h64b : (2 : Nat) ^ 64 = 18446744073709551616 := by norm_num
    rw [h64b] at h64 ⊢
    have hqn2 : n / numSlices ≤ n := Nat.div_le_self _ _
    omega
  · have hk4 : ¬ (k + 1 = numSlices) := by omega
    rw [if_neg hk2, if_neg hk4]
    rfl

theorem sum_balanced (q r t : Nat) (hr : r ≤ t) :
    ((List.range t).map fun i => q + (if i < r then 1 else 0)).sum = q * t + r := by
  induction t generalizing r with
  | zero =>
    have : r = 0 := by omega
    subst this
    simp
  | succ t ih =>
    rw [List.range_succ, List.map_append, List.sum_append]
    by_cases h : r ≤ t
    · rw [ih r h]
      simp only [List.map_cons, List.map_nil, List.sum_cons, List.sum_nil]
      rw [if_neg (by omega)]
      ring
    · have hrt : r = t + 1 := by omega
      have hmap : ((List.range t).map fun i => q + (if i < r then 1 else 0)) =
          (List.range t).map fun i => q + (if i < t then 1 else 0) := by
        apply List.map_congr_left
        intro i hi
        rw [List.mem_range] at hi
        rw [if_pos (by omega), if_pos hi]
      rw [hmap, ih t (le_refl t)]
      simp only [List.map_cons, List.map_nil, List.sum_cons, List.sum_nil]
      rw [if_pos (by omega), hrt]
      ring

/-- C36 (amended): in the sliced path, with `n` cells along the sliced axis and
`numSlices` slices (`1 ≤ numSlices ≤ n`), the first `n % numSlices` slices have
thickness `n / numSlices + 1`, the others `n / numSlices`, and the last slice is one
layer thinner, `n / numSlices - 1`; the remainder goes to the first slices, not to the
last.  The thicknesses agree with the description "all but the last `n / numSlices`,
the last one with the remainder" exactly if `n % numSlices = 0`. -/
theorem sliceThickness_balanced (n numSlices : Nat) (ht : 0 < numSlices) (hn : numSlices ≤ n)
    (h64 : n < 2 ^ 64) :
    sliceThickness n numSlices = balancedSliceThickness n numSlices ∧
    (sliceThickness n numSlices).length = numSlices ∧
    (∀ i, i < n % numSlices → (sliceThickness n numSlices).getD i 0 = n / numSlices + 1) ∧
    (∀ i, n % numSlices ≤ i → i + 1 < numSlices →
      (sliceThickness n numSlices).getD i 0 = n / numSlices) ∧
    (sliceThickness n numSlices).getD (numSlices - 1) 0 = n / numSlices - 1 ∧
    (sliceThickness n numSlices).sum = n - 1 ∧
    (sliceThickness n numSlices = specifiedSliceThickness n numSlices ↔ n % numSlices = 0) := by
  have heq := sliceThickness_eq n numSlices ht hn h64
  have hrt : n % numSlices < numSlices := Nat.mod_lt n ht
  have hq : 1 ≤ n / numSlices := (Nat.one_le_div_iff ht).2 hn
  have hget : ∀ i, i < numSlices → (balancedSliceThickness n numSlices).getD i 0 =
      n / numSlices + (if i < n % numSlices then 1 else 0) -
        (if i + 1 = numSlices then 1 else 0) := by
    intro i hi
    unfold balancedSliceThickness
    rw [List.getD_eq_getElem?_getD, List.getElem?_map, List.getElem?_range hi]
    rfl
  refine ⟨heq, ?_, ?_, ?_, ?_, ?_, ?_⟩
  · rw [heq]; simp [balancedSliceThickness]
  · intro i hi
    rw [heq, hget i (by omega), if_pos hi, if_neg (by omega)]
    rfl
  · intro i hi hi2
    rw [heq, hget i (by omega), if_neg (by omega), if_neg (by omega)]
    rfl
  · rw [heq, hget (numSlices - 1) (by omega), if_neg (by omega), if_pos (by omega)]
    rfl
  · rw [heq]
    obtain ⟨m, rfl⟩ : ∃ m, numSlices = m + 1 := ⟨numSlices - 1, by omega⟩
    unfold balancedSliceThickness
    rw [List.range_succ, List.map_append, List.sum_append]
    have hmap : ((List.range m).map fun i => n / (m + 1) +
        (if i < n % (m + 1) then 1 else 0) - (if i + 1 = m + 1 then 1 else 0)) =
        (List.range m).map fun i => n / (m + 1) + (if i < n % (m + 1) then 1 else 0) := by
      apply List.map_congr_left
      intro i hi
      rw [List.mem_range] at hi
      rw [if_neg (by omega : ¬ (i + 1 = m + 1))]
      rfl
    rw [hmap, sum_balanced (n / (m + 1)) (n % (m + 1)) m (by omega)]
    simp only [List.map_cons, List.map_nil, List.sum_cons, List.sum_nil]
    rw [if_neg (by omega), if_pos trivial]
    have hqn : n / (m + 1) * (m + 1) + n % (m + 1) = n := Nat.div_add_mod' n (m + 1)
    have hexp : n / (m + 1) * (m + 1) = n / (m + 1) * m + n / (m + 1) := by ring
    omega
  · rw [heq]
    constructor
    · intro h
      by_contra hne
      have h0 := congrArg (fun l => l.getD 0 0) h
      simp only at h0
      rw [hget 0 ht, if_pos (by omega)] at h0
      unfold specifiedSliceThickness at h0
      have h2 : 2 ≤ numSlices := by omega
      obtain ⟨m, rfl⟩ : ∃ m, numSlices = m + 2 := ⟨numSlices - 2, by omega⟩
      rw [show m + 2 - 1 = m + 1 from rfl, List.replicate_succ, List.cons_append,
        List.getD_cons_zero, if_neg (by omega)] at h0
      omega
    · intro h0
      unfold balancedSliceThickness specifiedSliceThickness
      apply List.ext_getElem
      · simp; omega
      · intro k h1 h2
        simp only [List.length_map, List.length_range] at h1
        simp only [List.getElem_map, List.getElem_range, h0, add_zero]
        rw [if_neg (by omega)]
        by_cases hk : k + 1 = numSlices
        · rw [if_pos hk, List.getElem_append_right (by simp; omega)]
          simp
        · rw [if_neg hk, List.getElem_append_left (by simp; omega)]
          simp

theorem sliceThickness_balanced_witness :
    sliceThickness 7 3 = [3, 2, 1] ∧ (sliceThickness 7 3).getD (3 - 1) 0 = 7 / 3 - 1 :=
  ⟨by
      rw [(sliceThickness_balanced 7 3 (by decide) (by decide) (by norm_num)).1]
      decide,
    (sliceThickness_balanced 7 3 (by decide) (by decide) (by norm_num)).2.2.2.2.1⟩

/-- Counterexample to C36 as stated: for the cell block 5 x 4 x 4 with two threads
the sliced path is taken, the sliced axis has 5 cells, and the thicknesses are 3 and
1: the remainder 1 went to the first slice, where the statement gives 2 and 2. -/
theorem remainder_goes_to_first_slice :
    usesFallback ⟨5, 4, 4⟩ 2 = false ∧
    (mapDimLength ⟨5, 4, 4⟩).getD 0 0 = 5 ∧
    sliceThickness 5 2 = [3, 1] ∧
    specifiedSliceThickness 5 2 = [2, 2] ∧
    (sliceThickness 5 2).getD 0 0 ≠ 5 / 2 ∧
    (sliceThickness 5 2).getD 1 0 ≠ 5 / 2 + 5 % 2 - 1 := by
  decide

namespace VerletClusterLists

theorem cellIndexInDim_inside (s : VerletClusterLists) (pos boxMin boxMax : ℚ) (cells : Nat)
    (hr : 0 ≤ s.gridSideLengthReciprocal) (h0 : boxMin ≤ pos) (h1 : pos < boxMax) :
    cellIndexInDim s pos boxMin boxMax cells =
      min (⌊(pos - boxMin) * s.gridSideLengthReciprocal⌋.toNat + 1) (cells - 1) := by
  have hfl : 0 ≤ ⌊(pos - boxMin) * s.gridSideLengthReciprocal⌋ :=
    Int.floor_nonneg.2 (mul_nonneg (by linarith) hr)
  unfold cellIndexInDim
  simp only
  rw [if_neg (by linarith), if_neg (by linarith)]
  congr 1
  omega

/-- C32: `getIndexOfPosition` is total and its result is a valid index into the
column array; a position below `boxMin` maps to column 0 and one at or above `boxMax`
to the last column.  For a position inside the box, however, the column coordinate is
`floor((pos - boxMin) / gridSideLength) + 1` clamped to `cellsPerDim - 1`, one more
than the column whose square contains the position: in the 2 x 2 grid of side length
1 the position `(1/2, 1/2)` of the square of column 0 is mapped to index 3, and the
particle there is stored in column 3. -/
theorem getIndexOfPosition_one_column_up :
    (∀ (s : VerletClusterLists) (pos : Vec3), 0 < s.cellsPerDim.x → 0 < s.cellsPerDim.y →
      getIndexOfPosition s pos < s.cellsPerDim.x * s.cellsPerDim.y) ∧
    (∀ (s : VerletClusterLists) (pos boxMin boxMax : ℚ) (cells : Nat),
      pos < boxMin → boxMin ≤ boxMax → cellIndexInDim s pos boxMin boxMax cells = 0) ∧
    (∀ (s : VerletClusterLists) (pos boxMin boxMax : ℚ) (cells : Nat),
      boxMax ≤ pos → cellIndexInDim s pos boxMin boxMax cells = cells - 1) ∧
    (∀ (s : VerletClusterLists) (pos boxMin boxMax : ℚ) (cells : Nat),
      0 < s.gridSideLength → s.gridSideLengthReciprocal = 1 / s.gridSideLength →
      boxMin ≤ pos → pos < boxMax →
      cellIndexInDim s pos boxMin boxMax cells =
          min (⌊(pos - boxMin) / s.gridSideLength⌋.toNat + 1) (cells - 1) ∧
        specifiedColumn s pos boxMin cells =
          min ⌊(pos - boxMin) / s.gridSideLength⌋.toNat (cells - 1) ∧
        (⌊(pos - boxMin) / s.gridSideLength⌋.toNat + 1 < cells →
          cellIndexInDim s pos boxMin boxMax cells = specifiedColumn s pos boxMin cells + 1)) ∧
    (twoByTwoContainer.gridSideLength = 1 ∧ twoByTwoContainer.cellsPerDim = ⟨2, 2, 1⟩ ∧
      twoByTwoContainer.boxMin = (0, 0, 0) ∧ twoByTwoContainer.boxMax = (2, 2, 1 / 4) ∧
      getIndexOfPosition twoByTwoContainer (1 / 2, 1 / 2, 1 / 8) = 3 ∧
      specifiedIndexOfPosition twoByTwoContainer (1 / 2, 1 / 2, 1 / 8) = 0 ∧
      getIndexOfPosition twoByTwoContainer (0, 0, 0) = 3 ∧
      (twoByTwoContainer.clusters.map fun column => column.map fun p => p.id) =
        [[], [], [], [1, 0, 0, 0, 0, 0, 0, 0]] ∧
      ((twoByTwoContainer.clusters.getD 3 []).head?.map fun p => p.r) =
        some (1 / 2, 1 / 2, 1 / 8)) := by
  refine ⟨?_, ?_, ?_, ?_, ?_⟩
  · intro s pos hx hy
    have h0 := cellIndexInDim_lt s pos.1 s.boxMin.1 s.boxMax.1 s.cellsPerDim.x hx
    have h1 := cellIndexInDim_lt s pos.2.1 s.boxMin.2.1 s.boxMax.2.1 s.cellsPerDim.y hy
    unfold getIndexOfPosition
    simp only
    have h2 : cellIndexInDim s pos.2.1 s.boxMin.2.1 s.boxMax.2.1 s.cellsPerDim.y + 1 ≤
        s.cellsPerDim.y := h1
    have h3 := Nat.mul_le_mul_right s.cellsPerDim.x h2
    rw [Nat.add_mul, Nat.one_mul] at h3
    rw [Nat.mul_comm s.cellsPerDim.x s.cellsPerDim.y]
    omega
  · intro s pos boxMin boxMax cells h0 h1
    unfold cellIndexInDim
    simp only
    rw [if_neg (by linarith), if_pos h0]
  · intro s pos boxMin boxMax cells h1
    unfold cellIndexInDim
    simp only
    rw [if_pos h1]
  · intro s pos boxMin boxMax cells hg hrec h0 h1
    have hr : 0 ≤ s.gridSideLengthReciprocal := by
      rw [hrec]; positivity
    have hdiv : (pos - boxMin) * s.gridSideLengthReciprocal = (pos - boxMin) / s.gridSideLength := by
      rw [hrec]; ring
    have hfl : 0 ≤ ⌊(pos - boxMin) / s.gridSideLength⌋ :=
      Int.floor_nonneg.2 (div_nonneg (by linarith) (le_of_lt hg))
    have hin := cellIndexInDim_inside s pos boxMin boxMax cells hr h0 h1
    rw [hdiv] at hin
    have hcl : specifiedColumn s pos boxMin cells =
        min ⌊(pos - boxMin) / s.gridSideLength⌋.toNat (cells - 1) := by
      unfold specifiedColumn
      rw [max_eq_left hfl]
    refine ⟨hin, hcl, ?_⟩
    intro hlt
    rw [hin, hcl]
    omega
  · decide!

end VerletClusterLists

namespace C08Traversal

theorem endOf_eq (d : Nat) (h1 : 1 ≤ d) (h64 : d < 2 ^ 64) : endOf d = d - 1 := by
  unfold endOf
  have h64b : (2 : Nat) ^ 64 = 18446744073709551616 := by norm_num
  rw [h64b] at h64 ⊢
  omega

theorem forLoop_eq {α : Type} (end_ stride : Nat) (body : Nat → Option (List α))
    (g : Nat → List α) (hbody : ∀ x, x < end_ → body x = some (g x))
    (hs : 0 < stride) (hw : end_ + stride ≤ 2 ^ 64) (fuel : Nat) :
    ∀ x, 0 < fuel → end_ < fuel + x →
      forLoop end_ stride body fuel x = some ((loopValues end_ stride fuel x).flatMap g) := by
  induction fuel with
  | zero => intro x h0; omega
  | succ fuel ih =>
    intro x _ hx
    unfold forLoop loopValues
    by_cases hlt : x < end_
    · rw [if_pos hlt, if_pos hlt, hbody x hlt]
      have hmod : (x + stride) % 2 ^ 64 = x + stride := Nat.mod_eq_of_lt (by omega)
      rw [hmod, ih (x + stride) (by omega) (by omega)]
      simp
    · rw [if_neg hlt, if_neg hlt]
      rfl

theorem mem_loopValues (end_ : Nat) (fuel : Nat) :
    ∀ x v, end_ < fuel + x →
      (v ∈ loopValues end_ 2 fuel x ↔ x ≤ v ∧ v < end_ ∧ v % 2 = x % 2) := by
  induction fuel with
  | zero =>
    intro x v hx
    simp only [loopValues, List.not_mem_nil, false_iff]
    omega
  | succ fuel ih =>
    intro x v hx
    unfold loopValues
    by_cases hlt : x < end_
    · rw [if_pos hlt, List.mem_cons, ih (x + 2) v (by omega)]
      omega
    · rw [if_neg hlt]
      simp only [List.not_mem_nil, false_iff]
      omega

theorem loopValues_ge (end_ : Nat) (fuel : Nat) :
    ∀ x v, v ∈ loopValues end_ 2 fuel x → x ≤ v := by
  induction fuel with
  | zero => intro x v h; simp [loopValues] at h
  | succ fuel ih =>
    intro x v h
    unfold loopValues at h
    by_cases hlt : x < end_
    · rw [if_pos hlt, List.mem_cons] at h
      rcases h with h | h
      · omega
      · have := ih (x + 2) v h
        omega
    · rw [if_neg hlt] at h
      simp at h

theorem loopValues_nodup (end_ : Nat) (fuel : Nat) :
    ∀ x, (loopValues end_ 2 fuel x).Nodup := by
  induction fuel with
  | zero => intro x; simp [loopValues]
  | succ fuel ih =>
    intro x
    unfold loopValues
    by_cases hlt : x < end_
    · rw [if_pos hlt, List.nodup_cons]
      refine ⟨?_, ih (x + 2)⟩
      intro hmem
      have := loopValues_ge end_ fuel (x + 2) x hmem
      omega
    · rw [if_neg hlt]
      exact List.nodup_nil

theorem colourPass_eq (dims : Dims) (col : Nat)
    (hx : 1 ≤ dims.x ∧ dims.x < 2 ^ 64) (hy : 1 ≤ dims.y ∧ dims.y < 2 ^ 64)
    (hz : 1 ≤ dims.z ∧ dims.z < 2 ^ 64) :
    colourPass dims col = some (colourCells dims col) := by
  unfold colourCells
  have h64b : (2 : Nat) ^ 64 = 18446744073709551616 := by norm_num
  have ex := endOf_eq dims.x hx.1 hx.2
  have ey := endOf_eq dims.y hy.1 hy.2
  have ez := endOf_eq dims.z hz.1 hz.2
  unfold colourPass
  simp only [ex, ey, ez, oneToThreeD, stride]
  have e1 : dims.x - 1 + 1 = dims.x := by omega
  have e2 : dims.y - 1 + 1 = dims.y := by omega
  have e3 : dims.z - 1 + 1 = dims.z := by omega
  rw [e1, e2, e3]
  have hX : ∀ y z : Nat, forLoop (dims.x - 1) 2 (fun x => some [(x, y, z)]) dims.x (col % 2) =
      some ((loopValues (dims.x - 1) 2 dims.x (col % 2)).flatMap fun x => [(x, y, z)]) := by
    intro y z
    apply forLoop_eq _ _ _ _ (fun _ _ => rfl) (by decide) (by rw [h64b] at hx ⊢; omega)
    · omega
    · omega
  have hY : ∀ z : Nat, forLoop (dims.y - 1) 2
      (fun y => forLoop (dims.x - 1) 2 (fun x => some [(x, y, z)]) dims.x (col % 2))
      dims.y (col / 2 % 2) =
      some ((loopValues (dims.y - 1) 2 dims.y (col / 2 % 2)).flatMap fun y =>
        (loopValues (dims.x - 1) 2 dims.x (col % 2)).flatMap fun x => [(x, y, z)]) := by
    intro z
    apply forLoop_eq _ _ _ _ (fun y _ => hX y z) (by decide) (by rw [h64b] at hy ⊢; omega)
    · omega
    · omega
  have e4 : col / (2 * 2) = col / 4 := rfl
  rw [e4]
  apply forLoop_eq _ _ _ _ (fun z _ => hY z) (by decide) (by rw [h64b] at hz ⊢; omega)
  · omega
  · omega

theorem mem_colourCells (dims : Dims) (col : Nat) (b : Coord) :
    b ∈ colourCells dims col ↔
      (col % 2 ≤ b.1 ∧ b.1 + 1 < dims.x ∧ b.1 % 2 = col % 2 % 2) ∧
      (col / 2 % 2 ≤ b.2.1 ∧ b.2.1 + 1 < dims.y ∧ b.2.1 % 2 = col / 2 % 2 % 2) ∧
      (col / 4 ≤ b.2.2 ∧ b.2.2 + 1 < dims.z ∧ b.2.2 % 2 = col / 4 % 2) := by
  obtain ⟨x, y, z⟩ := b
  unfold colourCells
  simp only [List.mem_flatMap, List.mem_singleton, Prod.mk.injEq]
  constructor
  · rintro ⟨z2, hz, y2, hy, x2, hx, rfl, rfl, rfl⟩
    by_cases hdz : dims.z = 0
    · rw [hdz] at hz; simp [loopValues] at hz
    by_cases hdy : dims.y = 0
    · rw [hdy] at hy; simp [loopValues] at hy
    by_cases hdx : dims.x = 0
    · rw [hdx] at hx; simp [loopValues] at hx
    rw [mem_loopValues _ _ _ _ (by omega)] at hx hy hz
    omega
  · rintro ⟨hx, hy, hz⟩
    refine ⟨z, ?_, y, ?_, x, ?_, rfl, rfl, rfl⟩
    · rw [mem_loopValues _ _ _ _ (by omega)]; omega
    · rw [mem_loopValues _ _ _ _ (by omega)]; omega
    · rw [mem_loopValues _ _ _ _ (by omega)]; omega

theorem colourCells_nodup (dims : Dims) (col : Nat) :
    (colourCells dims col).Nodup := by
  unfold colourCells
  refine nodup_flatMap_of_key (fun b : Coord => b.2.2) _ _ (loopValues_nodup _ _ _) ?_ ?_
  · intro z _
    refine nodup_flatMap_of_key (fun b : Coord => b.2.1) _ _
      (loopValues_nodup _ _ _) ?_ ?_
    · intro y _
      refine nodup_flatMap_of_key (fun b : Coord => b.1) _ _
        (loopValues_nodup _ _ _) ?_ ?_
      · intro x _; exact List.nodup_singleton _
      · intro x _ b hb
        rw [List.mem_singleton] at hb
        rw [hb]
    · intro y _ b hb
      simp only [List.mem_flatMap, List.mem_singleton] at hb
      obtain ⟨x, _, rfl⟩ := hb
      rfl
  · intro z _ b hb
    simp only [List.mem_flatMap, List.mem_singleton] at hb
    obtain ⟨y, _, x, _, rfl⟩ := hb
    rfl

theorem colourOf_of_mem (dims : Dims) (col : Nat) (hcol : col < 8) (b : Coord)
    (hb : b ∈ colourCells dims col) : colourOf b = col := by
  rw [mem_colourCells] at hb
  unfold colourOf
  omega

theorem baseCells_eq (dims : Dims)
    (hx : 1 ≤ dims.x ∧ dims.x < 2 ^ 64) (hy : 1 ≤ dims.y ∧ dims.y < 2 ^ 64)
    (hz : 1 ≤ dims.z ∧ dims.z < 2 ^ 64) :
    baseCells dims = some ((List.range 8).flatMap (colourCells dims)) := by
  unfold baseCells
  rw [forLoop_eq 8 1 (colourPass dims) (colourCells dims)
    (fun col _ => colourPass_eq dims col hx hy hz) (by decide) (by norm_num) 9 0 (by decide)
    (by decide)]
  rfl

theorem mem_allColours (dims : Dims) (b : Coord) :
    b ∈ (List.range 8).flatMap (colourCells dims) ↔
      b.1 + 1 < dims.x ∧ b.2.1 + 1 < dims.y ∧ b.2.2 + 1 < dims.z := by
  simp only [List.mem_flatMap, List.mem_range, mem_colourCells]
  constructor
  · rintro ⟨col, _, h1, h2, h3⟩
    exact ⟨h1.2.1, h2.2.1, h3.2.1⟩
  · rintro ⟨h1, h2, h3⟩
    refine ⟨colourOf b, ?_, ?_, ?_, ?_⟩ <;> unfold colourOf <;> omega

theorem allColours_nodup (dims : Dims) : ((List.range 8).flatMap (colourCells dims)).Nodup := by
  refine nodup_flatMap_of_key colourOf _ _ (List.nodup_range 8) ?_ ?_
  · intro col _
    exact colourCells_nodup dims col
  · intro col hcol b hb
    exact colourOf_of_mem dims col (List.mem_range.1 hcol) b hb

/-- C35: for a cell block with at least one cell in every dimension, the eight colour
passes of `traverseCellPairs` end, and together they call `processBaseCell` exactly
once on every cell `(x, y, z)` with `x < dims.x - 1`, `y < dims.y - 1`,
`z < dims.z - 1` and on no other cell: the base cells, and their indices, are a
permutation of those of the plain triple loop over that range. -/
theorem colour_passes_visit_each_base_cell_once (dims : Dims)
    (hx : 1 ≤ dims.x ∧ dims.x < 2 ^ 64) (hy : 1 ≤ dims.y ∧ dims.y < 2 ^ 64)
    (hz : 1 ≤ dims.z ∧ dims.z < 2 ^ 64) :
    ∃ cells : List Coord,
      baseCells dims = some cells ∧
      traverseCellPairs dims = some (cells.map (cellIndex dims)) ∧
      cells.Nodup ∧
      (∀ b : Coord, b ∈ cells ↔ b.1 < dims.x - 1 ∧ b.2.1 < dims.y - 1 ∧ b.2.2 < dims.z - 1) ∧
      cells.Perm (baseCoords dims) ∧
      (cells.map (cellIndex dims)).Nodup ∧
      (cells.map (cellIndex dims)).Perm (fullScanBaseIndices dims) := by
  have hmem := mem_allColours dims
  have hnd := allColours_nodup dims
  have hperm : ((List.range 8).flatMap (colourCells dims)).Perm (baseCoords dims) := by
    rw [List.perm_ext_iff_of_nodup hnd (baseCoords_nodup dims)]
    intro b
    rw [hmem, mem_baseCoords]
  refine ⟨(List.range 8).flatMap (colourCells dims), baseCells_eq dims hx hy hz, ?_, hnd, ?_,
    hperm, ?_, ?_⟩
  · unfold traverseCellPairs
    rw [baseCells_eq dims hx hy hz]
    rfl
  · intro b
    rw [hmem]
    omega
  · refine List.Nodup.map_on ?_ hnd
    intro a ha b hb hab
    rw [hmem] at ha hb
    exact @cellIndex_injective dims a b ⟨by omega, by omega, by omega⟩
      ⟨by omega, by omega, by omega⟩ hab
  · rw [fullScanBaseIndices_eq]
    exact hperm.map _

theorem colour_passes_visit_each_base_cell_once_witness :
    ∃ cells : List Coord,
      baseCells ⟨4, 3, 3⟩ = some cells ∧
      traverseCellPairs ⟨4, 3, 3⟩ = some (cells.map (cellIndex ⟨4, 3, 3⟩)) ∧
      cells.Nodup ∧
      (∀ b : Coord, b ∈ cells ↔ b.1 < 4 - 1 ∧ b.2.1 < 3 - 1 ∧ b.2.2 < 3 - 1) ∧
      cells.Perm (baseCoords ⟨4, 3, 3⟩) ∧
      (cells.map (cellIndex ⟨4, 3, 3⟩)).Nodup ∧
      (cells.map (cellIndex ⟨4, 3, 3⟩)).Perm (fullScanBaseIndices ⟨4, 3, 3⟩) :=
  colour_passes_visit_each_base_cell_once ⟨4, 3, 3⟩ ⟨by decide, by norm_num⟩
    ⟨by decide, by norm_num⟩ ⟨by decide, by norm_num⟩

theorem colourPass_example :
    baseCells ⟨3, 3, 3⟩ =
      some [(0, 0, 0), (1, 0, 0), (0, 1, 0), (1, 1, 0), (0, 0, 1), (1, 0, 1), (0, 1, 1),
        (1, 1, 1)] ∧
    traverseCellPairs ⟨3, 3, 3⟩ = some [0, 1, 3, 4, 9, 10, 12, 13] ∧
    colourPass ⟨6, 5, 4⟩ 3 =
      some [(1, 1, 0), (3, 1, 0), (1, 3, 0), (3, 3, 0), (1, 1, 2), (3, 1, 2), (1, 3, 2),
        (3, 3, 2)] := by
  decide

theorem blockOffsets_le : ∀ o ∈ blockOffsets, o.1 ≤ 1 ∧ o.2.1 ≤ 1 ∧ o.2.2 ≤ 1 := by
  decide

/-- C34: in one colour pass of `traverseCellPairs` (colour `col < 8`, start
`oneToThreeD col stride` in `{0, 1}^3`, stride 2) all base cells have the parities of
the colour, and the 2x2x2 blocks `base + o`, `o` in `{0, 1}^3`, of two distinct base
cells of the pass are disjoint, as cells and as cell indices: no cell is touched by
two base steps of the same colour. -/
theorem same_colour_blocks_disjoint (dims : Dims) (col : Nat) (hcol : col < 8)
    (hx : 1 ≤ dims.x ∧ dims.x < 2 ^ 64) (hy : 1 ≤ dims.y ∧ dims.y < 2 ^ 64)
    (hz : 1 ≤ dims.z ∧ dims.z < 2 ^ 64) :
    ∃ cells : List Coord,
      colourPass dims col = some cells ∧
      (∀ b ∈ cells, (b.1 % 2, b.2.1 % 2, b.2.2 % 2) = oneToThreeD col stride) ∧
      ∀ b1 ∈ cells, ∀ b2 ∈ cells, b1 ≠ b2 →
        ∀ o1 ∈ blockOffsets, ∀ o2 ∈ blockOffsets,
          blockCell b1 o1 ≠ blockCell b2 o2 ∧
          cellIndex dims (blockCell b1 o1) ≠ cellIndex dims (blockCell b2 o2) := by
  refine ⟨colourCells dims col, colourPass_eq dims col hx hy hz, ?_, ?_⟩
  · intro b hb
    rw [mem_colourCells] at hb
    obtain ⟨x, y, z⟩ := b
    simp only [oneToThreeD, stride, Prod.mk.injEq]
    simp only at hb
    refine ⟨by omega, by omega, ?_⟩
    have : col / (2 * 2) = col / 4 := rfl
    rw [this]
    omega
  · intro b1 hb1 b2 hb2 hne o1 ho1 o2 ho2
    rw [mem_colourCells] at hb1 hb2
    have h1 := blockOffsets_le o1 ho1
    have h2 := blockOffsets_le o2 ho2
    obtain ⟨x1, y1, z1⟩ := b1
    obtain ⟨x2, y2, z2⟩ := b2
    obtain ⟨p1, q1, r1⟩ := o1
    obtain ⟨p2, q2, r2⟩ := o2
    simp only at hb1 hb2 h1 h2
    have hcells : blockCell (x1, y1, z1) (p1, q1, r1) ≠ blockCell (x2, y2, z2) (p2, q2, r2) := by
      intro h
      simp only [blockCell, Prod.mk.injEq] at h
      apply hne
      have e1 : x1 = x2 := by omega
      have e2 : y1 = y2 := by omega
      have e3 : z1 = z2 := by omega
      rw [e1, e2, e3]
    refine ⟨hcells, ?_⟩
    intro h
    apply hcells
    refine @cellIndex_injective dims _ _ ?_ ?_ h
    · simp only [blockCell, inGrid]; omega
    · simp only [blockCell, inGrid]; omega

theorem same_colour_blocks_disjoint_witness :
    ∃ cells : List Coord,
      colourPass ⟨6, 5, 4⟩ 3 = some cells ∧
      (∀ b ∈ cells, (b.1 % 2, b.2.1 % 2, b.2.2 % 2) = oneToThreeD 3 stride) ∧
      ∀ b1 ∈ cells, ∀ b2 ∈ cells, b1 ≠ b2 →
        ∀ o1 ∈ blockOffsets, ∀ o2 ∈ blockOffsets,
          blockCell b1 o1 ≠ blockCell b2 o2 ∧
          cellIndex ⟨6, 5, 4⟩ (blockCell b1 o1) ≠ cellIndex ⟨6, 5, 4⟩ (blockCell b2 o2) :=
  same_colour_blocks_disjoint ⟨6, 5, 4⟩ 3 (by decide) ⟨by decide, by norm_num⟩
    ⟨by decide, by norm_num⟩ ⟨by decide, by norm_num⟩

end C08Traversal

namespace Fmm

namespace AdaptiveOctreeNode

theorem fullTreeSize_succ (n : Nat) : fullTreeSize (n + 1) = 1 + 8 * fullTreeSize n := by
  induction n with
  | zero => rfl
  | succ n ih =>
    have h : ∀ m, fullTreeSize (m + 1) = fullTreeSize m + 8 ^ (m + 1) := by
      intro m
      unfold fullTreeSize
      rw [List.range_succ, List.map_append, List.sum_append]
      simp
    have e := h n
    have p : 8 ^ (n + 1 + 1) = 8 * 8 ^ (n + 1) := by ring
    rw [h (n + 1)]
    omega

theorem fullTreeSize_pos (n : Nat) : 1 ≤ fullTreeSize n := by
  cases n with
  | zero => exact le_refl 1
  | succ n => rw [fullTreeSize_succ]; omega

theorem divides_lt_limit (tree : AdaptiveOctree) (hmax : tree.maxDepth ≠ -1)
    (depth particles : Int) (hd : divides tree depth particles = true) :
    depth < depthLimit tree := by
  unfold divides at hd
  simp only [Bool.or_eq_true, Bool.and_eq_true, decide_eq_true_eq] at hd
  rcases hd with h1 | ⟨_, h2 | h2⟩
  · exact lt_max_of_lt_left h1
  · exact lt_max_of_lt_right h2
  · exact absurd h2 hmax

theorem sum_finRange_le (f : Fin 8 → Nat) (b : Nat) (h : ∀ i, f i ≤ b) :
    ((List.finRange 8).map f).sum ≤ 8 * b := by
  have e : List.finRange 8 = [0, 1, 2, 3, 4, 5, 6, 7] := by decide
  rw [e]
  simp only [List.map_cons, List.map_nil, List.sum_cons, List.sum_nil]
  have h0 := h 0
  have h1 := h 1
  have h2 := h 2
  have h3 := h 3
  have h4 := h 4
  have h5 := h 5
  have h6 := h 6
  have h7 := h 7
  omega

theorem construct_size (tree : AdaptiveOctree) (hmax : tree.maxDepth ≠ -1) (fuel : Nat) :
    ∀ (depth : Int) (minCorner maxCorner : Vec3) (node : AdaptiveOctreeNode),
      construct tree fuel depth minCorner maxCorner = some node →
        numberOfNodes node ≤ fullTreeSize (depthLimit tree - depth).toNat := by
  induction fuel with
  | zero => intro depth minCorner maxCorner node hc; unfold construct at hc; exact absurd hc (by simp)
  | succ fuel ih =>
    intro depth minCorner maxCorner node hc
    cases hd : divides tree depth (tree.numberOfParticlesInRegion minCorner maxCorner) with
    | false =>
      rw [construct_leaf tree fuel depth minCorner maxCorner hd] at hc
      rw [← Option.some.inj hc]
      exact fullTreeSize_pos _
    | true =>
      obtain ⟨child, hn, hch⟩ := construct_inner tree fuel depth minCorner maxCorner hd node hc
      have hlt := divides_lt_limit tree hmax depth _ hd
      obtain ⟨m, hm⟩ : ∃ m : Nat, (depthLimit tree - depth).toNat = m + 1 :=
        ⟨(depthLimit tree - depth).toNat - 1, by omega⟩
      have hm2 : (depthLimit tree - (depth + 1)).toNat = m := by omega
      rw [hn, hm, fullTreeSize_succ]
      unfold numberOfNodes
      have hs := sum_finRange_le (fun i => numberOfNodes (child i)) (fullTreeSize m) (by
        intro i
        have := ih _ _ _ _ (hch i)
        rw [hm2] at this
        exact this)
      omega

theorem construct_depth_le (tree : AdaptiveOctree) (hmax : tree.maxDepth ≠ -1) (fuel : Nat) :
    ∀ (depth : Int) (minCorner maxCorner : Vec3) (node : AdaptiveOctreeNode),
      construct tree fuel depth minCorner maxCorner = some node →
      ∀ (ptr : NodePtr) (found : AdaptiveOctreeNode), nodeAt node ptr = some found →
        (ptr.length : Int) ≤ max 0 (depthLimit tree - depth) := by
  induction fuel with
  | zero => intro depth minCorner maxCorner node hc; unfold construct at hc; exact absurd hc (by simp)
  | succ fuel ih =>
    intro depth minCorner maxCorner node hc ptr found hf
    cases ptr with
    | nil => exact le_max_left _ _
    | cons c cs =>
      cases hd : divides tree depth (tree.numberOfParticlesInRegion minCorner maxCorner) with
      | false =>
        rw [construct_leaf tree fuel depth minCorner maxCorner hd] at hc
        rw [← Option.some.inj hc] at hf
        simp only [nodeAt] at hf
        exact absurd hf (by simp)
      | true =>
        obtain ⟨child, hn, hch⟩ := construct_inner tree fuel depth minCorner maxCorner hd node hc
        have hlt := divides_lt_limit tree hmax depth _ hd
        rw [hn] at hf
        simp only [nodeAt] at hf
        have := ih _ _ _ _ (hch c) cs found hf
        simp only [List.length_cons, Nat.cast_add, Nat.cast_one]
        have h2 : max 0 (depthLimit tree - (depth + 1)) = depthLimit tree - (depth + 1) :=
          max_eq_right (by omega)
        rw [h2] at this
        exact le_trans (by omega) (le_max_right _ _)

/-- C39: with `maxDepth != -1` a node is divided only at a depth below
`max(minDepth, maxDepth)`, so the measure `max(minDepth, maxDepth) - depth` falls with
every level of the recursion.  For a limit that is not negative the constructor ends
for every particle count and every box (`max(minDepth, maxDepth) + 1` levels suffice),
every node of the tree it builds has a depth of at most `max(minDepth, maxDepth)`, and
the tree has at most `8^0 + ... + 8^max(minDepth, maxDepth)` nodes. -/
theorem construct_within_depth_limit (tree : AdaptiveOctree) (hmax : tree.maxDepth ≠ -1)
    (hlimit : 0 ≤ max tree.minDepth tree.maxDepth) (minCorner maxCorner : Vec3) (fuel : Nat)
    (hfuel : (max tree.minDepth tree.maxDepth).toNat < fuel) :
    (∀ depth particles : Int, divides tree depth particles = true →
      depth < max tree.minDepth tree.maxDepth ∧
      (max tree.minDepth tree.maxDepth - (depth + 1)).toNat <
        (max tree.minDepth tree.maxDepth - depth).toNat) ∧
    ∃ root : AdaptiveOctreeNode,
      construct tree fuel 0 minCorner maxCorner = some root ∧
      (∀ (ptr : NodePtr) (node : AdaptiveOctreeNode), nodeAt root ptr = some node →
        node.data.depth = (ptr.length : Int) ∧
        node.data.depth ≤ max tree.minDepth tree.maxDepth) ∧
      numberOfNodes root ≤ fullTreeSize (max tree.minDepth tree.maxDepth).toNat ∧
      fullTreeSize (max tree.minDepth tree.maxDepth).toNat =
        ((List.range ((max tree.minDepth tree.maxDepth).toNat + 1)).map fun k => 8 ^ k).sum := by
  constructor
  · intro depth particles hd
    have hlt := divides_lt_limit tree hmax depth particles hd
    unfold depthLimit at hlt
    exact ⟨hlt, by omega⟩
  · have hsome := construct_total tree hmax fuel 0 minCorner maxCorner (by
      rw [sub_zero]; exact hfuel)
    obtain ⟨root, hroot⟩ := Option.isSome_iff_exists.1 hsome
    refine ⟨root, hroot, ?_, ?_, rfl⟩
    · intro ptr node hn
      have hd := construct_depthsFrom tree fuel 0 minCorner maxCorner root hroot
      have h1 := (nodeAt_depth root ptr 0 node hd hn).2
      have h2 := construct_depth_le tree hmax fuel 0 minCorner maxCorner root hroot ptr node hn
      rw [zero_add] at h1
      refine ⟨h1, ?_⟩
      rw [h1]
      unfold depthLimit at h2
      rw [sub_zero, max_eq_right hlimit] at h2
      exact h2
    · have := construct_size tree hmax fuel 0 minCorner maxCorner root hroot
      unfold depthLimit at this
      rw [sub_zero] at this
      exact this

theorem construct_within_depth_limit_witness :
    ∃ root : AdaptiveOctreeNode,
      construct boundedOctree 2 0 (0, 0, 0) (8, 8, 8) = some root ∧
      (∀ (ptr : NodePtr) (node : AdaptiveOctreeNode), nodeAt root ptr = some node →
        node.data.depth = (ptr.length : Int) ∧
        node.data.depth ≤ max boundedOctree.minDepth boundedOctree.maxDepth) ∧
      numberOfNodes root ≤ fullTreeSize (max boundedOctree.minDepth boundedOctree.maxDepth).toNat ∧
      fullTreeSize (max boundedOctree.minDepth boundedOctree.maxDepth).toNat =
        ((List.range ((max boundedOctree.minDepth boundedOctree.maxDepth).toNat + 1)).map
          fun k => 8 ^ k).sum :=
  (construct_within_depth_limit boundedOctree (by decide) (by decide) (0, 0, 0) (8, 8, 8) 2
    (by decide)).2

theorem boundedOctree_size :
    (construct boundedOctree 2 0 (0, 0, 0) (8, 8, 8)).map numberOfNodes = some 9 ∧
    fullTreeSize (max boundedOctree.minDepth boundedOctree.maxDepth).toNat = 9 := by
  decide!

end AdaptiveOctreeNode

end Fmm

namespace Fmm

namespace AdaptiveOctreeNode

theorem axis_center (i : Fin 3) (lo hi : Vec3) :
    axis i (ArrayMath.mulScalar (ArrayMath.add lo hi) (1 / 2)) = (axis i lo + axis i hi) / 2 := by
  rw [axis_mulScalar, axis_add]
  ring

theorem axis_childBox_cases (i : Fin 3) (lo hi : Vec3) (c : Fin 8) :
    (axisBit i c = 0 ∧ axis i (childBox lo hi c).1 = axis i lo ∧
      axis i (childBox lo hi c).2 = (axis i lo + axis i hi) / 2) ∨
    (axisBit i c = 1 ∧ axis i (childBox lo hi c).1 = (axis i lo + axis i hi) / 2 ∧
      axis i (childBox lo hi c).2 = axis i hi) := by
  obtain ⟨h1, h2⟩ := axis_childBox i lo hi c
  have hle := axisBit_le i c
  have hb : axisBit i c = 0 ∨ axisBit i c = 1 := by omega
  rcases hb with hb | hb
  · left
    rw [h1, h2, hb]
    refine ⟨rfl, ?_, ?_⟩
    · simp
    · simp; ring
  · right
    rw [h1, h2, hb]
    refine ⟨rfl, ?_, ?_⟩
    · simp; ring
    · simp; ring

theorem childIndexOf_closed (lo hi position : Vec3) (i : Fin 3)
    (h : axis i lo ≤ axis i position ∧ axis i position ≤ axis i hi) :
    axis i (childBox lo hi
        (childIndexOf (ArrayMath.mulScalar (ArrayMath.add lo hi) (1 / 2)) position)).1 ≤
      axis i position ∧
    axis i position ≤ axis i (childBox lo hi
        (childIndexOf (ArrayMath.mulScalar (ArrayMath.add lo hi) (1 / 2)) position)).2 := by
  have hbit := axisBit_childIndexOf i (ArrayMath.mulScalar (ArrayMath.add lo hi) (1 / 2)) position
  rw [axis_center] at hbit
  rcases axis_childBox_cases i lo hi
      (childIndexOf (ArrayMath.mulScalar (ArrayMath.add lo hi) (1 / 2)) position) with
    ⟨hb, h1, h2⟩ | ⟨hb, h1, h2⟩
  · rw [h1, h2]
    rw [hb] at hbit
    by_cases hge : axis i position ≥ (axis i lo + axis i hi) / 2
    · rw [if_pos hge] at hbit
      exact absurd hbit (by decide)
    · exact ⟨h.1, le_of_lt (not_le.mp hge)⟩
  · rw [h1, h2]
    rw [hb] at hbit
    by_cases hge : axis i position ≥ (axis i lo + axis i hi) / 2
    · exact ⟨hge, h.2⟩
    · rw [if_neg hge] at hbit
      exact absurd hbit (by decide)

theorem findNode_closed_box (position : Vec3) (maxDepth : Int) (node : AdaptiveOctreeNode) :
    ∀ lo hi : Vec3, boxesFrom node lo hi →
      (∀ i : Fin 3, axis i lo ≤ axis i position ∧ axis i position ≤ axis i hi) →
      ∃ found : AdaptiveOctreeNode,
        nodeAt node (findNode node position maxDepth) = some found ∧
        inNodeBox found.data position ∧
        (found.isLeaf = true ∨ found.data.depth = maxDepth) := by
  induction node with
  | leaf d =>
    intro lo hi hb hp
    refine ⟨leaf d, rfl, ?_, Or.inl rfl⟩
    intro i
    have h1 : d.nodeMinCorner = lo := hb.1
    have h2 : d.nodeMaxCorner = hi := hb.2.1
    simp only [data, h1, h2]
    exact hp i
  | inner d child ih =>
    intro lo hi hb hp
    have h1 : d.nodeMinCorner = lo := hb.1.1
    have h2 : d.nodeMaxCorner = hi := hb.1.2.1
    have h3 : d.nodeCenter = ArrayMath.mulScalar (ArrayMath.add lo hi) (1 / 2) := hb.1.2.2.1
    unfold findNode
    by_cases h : d.depth = maxDepth
    · rw [if_pos h]
      refine ⟨inner d child, rfl, ?_, Or.inr h⟩
      intro i
      simp only [data, h1, h2]
      exact hp i
    · rw [if_neg h]
      simp only [nodeAt]
      apply ih _ _ _ (hb.2 _)
      intro i
      rw [h3]
      exact childIndexOf_closed lo hi position i (hp i)

/-- C38: in a tree built by the constructor, the children of a divided node are the
eight boxes obtained by halving its box along every axis, child `c` taking the upper
half along axis `i` exactly if bit `i` of `c` is set.  For a position in the box of a
divided node (borders included) the child index computed by `findNode` has bit `i` set
exactly if the position is at or above the centre along axis `i`, the box of that
child contains the position, and it is the only child whose box without the upper
borders does.  Hence `findNode(position, maxDepth)` on the root, for a position in the
root box, returns a node whose box contains the position and that is a leaf or has
depth `maxDepth`. -/
theorem findNode_returns_containing_node (tree : AdaptiveOctree) (fuel : Nat)
    (minCorner maxCorner : Vec3) (root : AdaptiveOctreeNode)
    (hroot : construct tree fuel 0 minCorner maxCorner = some root) :
    (∀ (ptr : NodePtr) (d : NodeData) (child : Fin 8 → AdaptiveOctreeNode),
      nodeAt root ptr = some (inner d child) → ∀ (c : Fin 8) (i : Fin 3),
        axis i d.nodeCenter = (axis i d.nodeMinCorner + axis i d.nodeMaxCorner) / 2 ∧
        axis i (child c).data.nodeMinCorner =
          (if axisBit i c = 1 then axis i d.nodeCenter else axis i d.nodeMinCorner) ∧
        axis i (child c).data.nodeMaxCorner =
          (if axisBit i c = 1 then axis i d.nodeMaxCorner else axis i d.nodeCenter) ∧
        axis i (child c).data.nodeSize = axis i d.nodeSize / 2) ∧
    (∀ (ptr : NodePtr) (d : NodeData) (child : Fin 8 → AdaptiveOctreeNode) (position : Vec3),
      nodeAt root ptr = some (inner d child) → inNodeBox d position →
        (∀ i : Fin 3, axisBit i (childIndexOf d.nodeCenter position) = 1 ↔
          axis i position ≥ axis i d.nodeCenter) ∧
        inNodeBox (child (childIndexOf d.nodeCenter position)).data position ∧
        (∀ c : Fin 8, inHalfOpenNodeBox (child c).data position →
          c = childIndexOf d.nodeCenter position)) ∧
    (∀ (position : Vec3) (maxDepth : Int),
      (∀ i : Fin 3, axis i minCorner ≤ axis i position ∧ axis i position ≤ axis i maxCorner) →
      ∃ found : AdaptiveOctreeNode,
        nodeAt root (findNode root position maxDepth) = some found ∧
        inNodeBox found.data position ∧
        (found.isLeaf = true ∨ found.data.depth = maxDepth)) := by
  have hb := construct_boxesFrom tree fuel 0 minCorner maxCorner root hroot
  have hnode : ∀ (ptr : NodePtr) (d : NodeData) (child : Fin 8 → AdaptiveOctreeNode),
      nodeAt root ptr = some (inner d child) →
      ∃ lo hi : Vec3, d.nodeMinCorner = lo ∧ d.nodeMaxCorner = hi ∧
        d.nodeCenter = ArrayMath.mulScalar (ArrayMath.add lo hi) (1 / 2) ∧
        d.nodeSize = ArrayMath.sub hi lo ∧
        ∀ c, (child c).data.nodeMinCorner = (childBox lo hi c).1 ∧
          (child c).data.nodeMaxCorner = (childBox lo hi c).2 ∧
          (child c).data.nodeSize = ArrayMath.sub (childBox lo hi c).2 (childBox lo hi c).1 := by
    intro ptr d child hn
    have hbn := nodeAt_boxes ptr root minCorner maxCorner _ hb hn
    refine ⟨_, _, hbn.1.1, hbn.1.2.1, hbn.1.2.2.1, hbn.1.2.2.2, ?_⟩
    intro c
    have hc := boxesFrom_data (child c) _ _ (hbn.2 c)
    exact ⟨hc.1, hc.2.1, hc.2.2.2⟩
  refine ⟨?_, ?_, ?_⟩
  · intro ptr d child hn c i
    obtain ⟨lo, hi, h1, h2, h3, h4, hch⟩ := hnode ptr d child hn
    obtain ⟨c1, c2, c3⟩ := hch c
    rw [c1, c2, c3, h1, h2, h3, h4, axis_center, axis_sub, axis_sub]
    rcases axis_childBox_cases i lo hi c with ⟨hbit, e1, e2⟩ | ⟨hbit, e1, e2⟩
    · rw [e1, e2, hbit, if_neg (by decide), if_neg (by decide)]
      refine ⟨rfl, rfl, rfl, ?_⟩
      ring
    · rw [e1, e2, hbit, if_pos rfl, if_pos rfl]
      refine ⟨rfl, rfl, rfl, ?_⟩
      ring
  · intro ptr d child position hn hp
    obtain ⟨lo, hi, h1, h2, h3, h4, hch⟩ := hnode ptr d child hn
    refine ⟨?_, ?_, ?_⟩
    · intro i
      rw [axisBit_childIndexOf]
      by_cases hge : axis i position ≥ axis i d.nodeCenter
      · rw [if_pos hge]
        exact ⟨fun _ => hge, fun _ => rfl⟩
      · rw [if_neg hge]
        exact ⟨fun h => absurd h (by decide), fun h => absurd h hge⟩
    · intro i
      obtain ⟨c1, c2, _⟩ := hch (childIndexOf d.nodeCenter position)
      rw [c1, c2, h3]
      have hpi := hp i
      rw [h1, h2] at hpi
      exact childIndexOf_closed lo hi position i hpi
    · intro c hc
      apply eq_of_axisBit
      intro i
      rw [axisBit_childIndexOf, h3, axis_center]
      obtain ⟨c1, c2, _⟩ := hch c
      have hci := hc i
      rw [c1, c2] at hci
      rcases axis_childBox_cases i lo hi c with ⟨hbit, e1, e2⟩ | ⟨hbit, e1, e2⟩
      · rw [e1, e2] at hci
        rw [hbit, if_neg (not_le.mpr hci.2)]
      · rw [e1, e2] at hci
        rw [hbit, if_pos hci.1]
  · intro position maxDepth hp
    exact findNode_closed_box position maxDepth root minCorner maxCorner hb hp

theorem findNode_returns_containing_node_witness :
    ∃ found : AdaptiveOctreeNode,
      nodeAt irregularRoot (findNode irregularRoot (3 / 2, 3 / 2, 3 / 2) 5) = some found ∧
      inNodeBox found.data (3 / 2, 3 / 2, 3 / 2) ∧
      (found.isLeaf = true ∨ found.data.depth = 5) := by
  have hsome : (construct irregularOctree 4 0 (0, 0, 0) (8, 8, 8)).isSome = true := by decide!
  obtain ⟨root, hroot⟩ := Option.isSome_iff_exists.1 hsome
  have hr : irregularRoot = root := by
    unfold irregularRoot
    rw [hroot]
    rfl
  rw [hr]
  exact (findNode_returns_containing_node irregularOctree 4 (0, 0, 0) (8, 8, 8) root hroot).2.2
    (3 / 2, 3 / 2, 3 / 2) 5 (by
      intro i
      fin_cases i <;> simp [axis] <;> norm_num)

theorem findNode_example :
    findNode irregularRoot (3 / 2, 3 / 2, 3 / 2) 5 = [0, 0, 7] ∧
    findNode irregularRoot (3 / 2, 3 / 2, 3 / 2) 1 = [0] ∧
    findNode irregularRoot (2, 2, 2) 5 = [0, 7] ∧
    ((nodeAt irregularRoot [0, 0, 7]).map fun n => (n.data.nodeMinCorner, n.data.nodeMaxCorner)) =
      some ((1, 1, 1), (2, 2, 2)) := by
  decide!

end AdaptiveOctreeNode

end Fmm

namespace MolecularDynamics

namespace PropertyMap

theorem lookup_cons (k : Nat) (v : ℚ) (rest : PropertyMap) (key : Nat) :
    lookup ((k, v) :: rest) key = if key = k then some v else lookup rest key := rfl

theorem lookup_none_of_not_mem (m : PropertyMap) (key : Nat) (h : key ∉ keys m) :
    lookup m key = none := by
  induction m with
  | nil => rfl
  | cons e rest ih =>
    obtain ⟨k, v⟩ := e
    simp only [keys, List.map_cons, List.mem_cons, not_or] at h
    rw [lookup_cons, if_neg h.1]
    exact ih h.2

theorem lookup_isSome_of_mem (m : PropertyMap) (key : Nat) (h : key ∈ keys m) :
    ∃ v, lookup m key = some v := by
  induction m with
  | nil => simp [keys] at h
  | cons e rest ih =>
    obtain ⟨k, v⟩ := e
    simp only [keys, List.map_cons, List.mem_cons] at h
    rw [lookup_cons]
    by_cases hk : key = k
    · rw [if_pos hk]
      exact ⟨v, rfl⟩
    · rw [if_neg hk]
      rcases h with h | h
      · exact absurd h hk
      · exact ih h

theorem emplace_of_below (m : PropertyMap) (key : Nat) (value : ℚ)
    (h : ∀ k ∈ keys m, k < key) : emplace m key value = m ++ [(key, value)] := by
  induction m with
  | nil => rfl
  | cons e rest ih =>
    obtain ⟨k, v⟩ := e
    have hk : k < key := h k (by simp [keys])
    unfold emplace
    rw [if_neg (by omega), if_neg (by omega), ih (fun a ha => h a (by
      simp only [keys, List.map_cons, List.mem_cons]
      exact Or.inr ha))]
    rfl

theorem lookup_append_single (m : PropertyMap) (key : Nat) (value : ℚ)
    (h : ∀ k ∈ keys m, k < key) (a : Nat) :
    lookup (m ++ [(key, value)]) a = if a = key then some value else lookup m a := by
  induction m with
  | nil => rfl
  | cons e rest ih =>
    obtain ⟨k, v⟩ := e
    have hk : k < key := h k (by simp [keys])
    have ih2 := ih (fun b hb => h b (by
      simp only [keys, List.map_cons, List.mem_cons]
      exact Or.inr hb))
    rw [List.cons_append, lookup_cons, lookup_cons]
    by_cases hak : a = k
    · rw [if_pos hak, if_neg (by omega), if_pos hak]
    · rw [if_neg hak, ih2, if_neg hak]

theorem keys_append_single (m : PropertyMap) (key : Nat) (value : ℚ) :
    keys (m ++ [(key, value)]) = keys m ++ [key] := by
  simp [keys]

end PropertyMap

theorem foldl_emplace (f : ℚ → ℚ) (t : Nat) (E : PropertyMap) :
    ∀ table : PairMap, (PropertyMap.keys E).Pairwise (fun a b => a < b) →
      (∀ e ∈ E, table (e.1, t) = none) → ∀ i j : Nat,
        (E.foldl (fun table e => PairMap.emplace table (e.1, t) (f e.2)) table) (i, j) =
          if j = t then
            (match PropertyMap.lookup E i with
              | some v => some (f v)
              | none => table (i, j))
          else table (i, j) := by
  induction E with
  | nil =>
    intro table _ _ i j
    simp [PropertyMap.lookup]
  | cons e rest ih =>
    obtain ⟨k, v⟩ := e
    intro table hp hnone i j
    simp only [PropertyMap.keys, List.map_cons, List.pairwise_cons] at hp
    have hk : table (k, t) = none := hnone (k, v) (List.mem_cons_self _ _)
    have hrest : ∀ e ∈ rest, PairMap.emplace table (k, t) (f v) (e.1, t) = none := by
      intro e he
      have hlt : k < e.1 := hp.1 e.1 (List.mem_map_of_mem _ he)
      unfold PairMap.emplace
      rw [if_neg (by
        rintro ⟨h1, _⟩
        rw [Prod.mk.injEq] at h1
        omega)]
      exact hnone e (List.mem_cons_of_mem _ he)
    rw [List.foldl_cons, ih _ hp.2 hrest i j]
    have hnotmem : k ∉ PropertyMap.keys rest := fun hm => lt_irrefl k (hp.1 k hm)
    by_cases hj : j = t
    · rw [if_pos hj, if_pos hj, PropertyMap.lookup_cons]
      by_cases hik : i = k
      · rw [if_pos hik, hik, PropertyMap.lookup_none_of_not_mem rest k hnotmem, hj]
        simp only [PairMap.emplace, hk, and_self, if_true]
      · rw [if_neg hik]
        cases PropertyMap.lookup rest i with
        | some w => rfl
        | none =>
          simp only [PairMap.emplace]
          rw [if_neg (by
            rintro ⟨h1, _⟩
            rw [Prod.mk.injEq] at h1
            exact hik h1.1)]
    · rw [if_neg hj, if_neg hj]
      unfold PairMap.emplace
      rw [if_neg (by
        rintro ⟨h1, _⟩
        rw [Prod.mk.injEq] at h1
        exact hj h1.2)]

theorem table_step (E : PropertyMap) (t : Nat) (x : ℚ) (f : ℚ → ℚ → ℚ) (g : ℚ → ℚ)
    (table : PairMap) (hp : (PropertyMap.keys E).Pairwise (fun a b => a < b))
    (h0 : 0 ∈ PropertyMap.keys E) (hbelow : ∀ k ∈ PropertyMap.keys E, k < t)
    (htable : ∀ i j : Nat, table (i, j) =
      if i = 0 ∧ j = 0 then (PropertyMap.lookup E 0).map g
      else if i < j then
        match PropertyMap.lookup E i, PropertyMap.lookup E j with
        | some a, some b => some (f b a)
        | _, _ => none
      else none) (i j : Nat) :
    (E.foldl (fun table e => PairMap.emplace table (e.1, t) (f x e.2)) table) (i, j) =
      if i = 0 ∧ j = 0 then (PropertyMap.lookup (E ++ [(t, x)]) 0).map g
      else if i < j then
        match PropertyMap.lookup (E ++ [(t, x)]) i, PropertyMap.lookup (E ++ [(t, x)]) j with
        | some a, some b => some (f b a)
        | _, _ => none
      else none := by
  have ht0 : 0 < t := hbelow 0 h0
  have hnokey : ∀ k, t ≤ k → PropertyMap.lookup E k = none := by
    intro k hk
    apply PropertyMap.lookup_none_of_not_mem
    intro hm
    have := hbelow k hm
    omega
  have hnone : ∀ e ∈ E, table (e.1, t) = none := by
    intro e he
    have hlt : e.1 < t := hbelow e.1 (List.mem_map_of_mem _ he)
    rw [htable, if_neg (by omega), if_pos hlt, hnokey t (le_refl t)]
    cases PropertyMap.lookup E e.1 <;> rfl
  rw [foldl_emplace (f x) t E table hp hnone i j]
  simp only [PropertyMap.lookup_append_single E t x hbelow]
  by_cases hj : j = t
  · subst hj
    rw [if_pos rfl, if_neg (by omega)]
    by_cases hij : i < j
    · rw [if_pos hij, if_neg (by omega : ¬ i = j), if_pos rfl]
      cases hl : PropertyMap.lookup E i with
      | some v => rfl
      | none =>
        simp only
        rw [htable, if_neg (by omega), if_pos hij, hl]
    · rw [if_neg hij, hnokey i (by omega)]
      simp only
      rw [htable, if_neg (by omega), if_neg hij]
  · rw [if_neg hj, htable, if_neg (by omega : ¬ 0 = t)]
    by_cases h00 : i = 0 ∧ j = 0
    · rw [if_pos h00, if_pos h00]
    · rw [if_neg h00, if_neg h00]
      by_cases hij : i < j
      · rw [if_pos hij, if_pos hij, if_neg hj]
        by_cases hit : i = t
        · rw [if_pos hit, hnokey i (by omega), hnokey j (by omega)]
        · rw [if_neg hit]
      · rw [if_neg hij, if_neg hij]

theorem new_tables (sqrt : ℚ → ℚ) (epsilon sigma mass : ℚ) :
    wellFormed (ParticlePropertiesLibrary.new epsilon sigma mass) ∧
    tablesOf sqrt (ParticlePropertiesLibrary.new epsilon sigma mass) := by
  have hgen : ∀ (x v : ℚ) (g : ℚ → ℚ) (f : ℚ → ℚ → ℚ) (hv : v = g x) (i j : Nat),
      PairMap.emplace PairMap.empty (0, 0) v (i, j) =
        if i = 0 ∧ j = 0 then (PropertyMap.lookup [(0, x)] 0).map g
        else if i < j then
          match PropertyMap.lookup [(0, x)] i, PropertyMap.lookup [(0, x)] j with
          | some a, some b => some (f b a)
          | _, _ => none
        else none := by
    intro x v g f hv i j
    unfold PairMap.emplace PairMap.empty
    by_cases h00 : i = 0 ∧ j = 0
    · rw [if_pos h00, if_pos ⟨by rw [h00.1, h00.2], rfl⟩, hv]
      rfl
    · rw [if_neg h00, if_neg (by
        rintro ⟨h1, _⟩
        rw [Prod.mk.injEq] at h1
        exact h00 h1)]
      by_cases hij : i < j
      · rw [if_pos hij]
        have hj : PropertyMap.lookup [(0, x)] j = none := by
          rw [PropertyMap.lookup_cons, if_neg (by omega)]
          rfl
        rw [hj]
        cases PropertyMap.lookup [(0, x)] i <;> rfl
      · rw [if_neg hij]
  refine ⟨⟨rfl, ?_, rfl⟩, ?_, ?_⟩
  · simp [ParticlePropertiesLibrary.new, PropertyMap.emplace, PropertyMap.keys]
  · intro i j
    exact hgen epsilon (24 * epsilon) (fun e => 24 * e) (fun b a => 24 * sqrt (b * a)) rfl i j
  · intro i j
    exact hgen sigma (sigma * sigma) (fun s => s * s)
      (fun b a => (b + a) / 2 * ((b + a) / 2)) rfl i j

theorem addType_tables (sqrt : ℚ → ℚ) (lib : ParticlePropertiesLibrary) (t : Nat)
    (epsilon sigma mass : ℚ) (hw : wellFormed lib) (ht : tablesOf sqrt lib)
    (hbelow : ∀ k ∈ PropertyMap.keys lib.Epsilon, k < t) :
    wellFormed (lib.addType sqrt t epsilon sigma mass) ∧
    tablesOf sqrt (lib.addType sqrt t epsilon sigma mass) ∧
    PropertyMap.keys (lib.addType sqrt t epsilon sigma mass).Epsilon =
      PropertyMap.keys lib.Epsilon ++ [t] ∧
    (∀ k, k ≠ t → PropertyMap.lookup (lib.addType sqrt t epsilon sigma mass).Epsilon k =
      PropertyMap.lookup lib.Epsilon k) ∧
    (∀ k, k ≠ t → PropertyMap.lookup (lib.addType sqrt t epsilon sigma mass).Sigma k =
      PropertyMap.lookup lib.Sigma k) := by
  obtain ⟨hks, hpw, hhead⟩ := hw
  have hbelowS : ∀ k ∈ PropertyMap.keys lib.Sigma, k < t := by rw [hks]; exact hbelow
  have hE : (lib.addType sqrt t epsilon sigma mass).Epsilon = lib.Epsilon ++ [(t, epsilon)] :=
    PropertyMap.emplace_of_below lib.Epsilon t epsilon hbelow
  have hS : (lib.addType sqrt t epsilon sigma mass).Sigma = lib.Sigma ++ [(t, sigma)] :=
    PropertyMap.emplace_of_below lib.Sigma t sigma hbelowS
  have h0 : 0 ∈ PropertyMap.keys lib.Epsilon := by
    cases hk : PropertyMap.keys lib.Epsilon with
    | nil => rw [hk] at hhead; exact absurd hhead (by simp)
    | cons a rest =>
      rw [hk] at hhead
      simp only [List.head?_cons, Option.some.injEq] at hhead
      rw [hhead]
      exact List.mem_cons_self _ _
  refine ⟨⟨?_, ?_, ?_⟩, ⟨?_, ?_⟩, ?_, ?_, ?_⟩
  · rw [hE, hS, PropertyMap.keys_append_single, PropertyMap.keys_append_single, hks]
  · rw [hE, PropertyMap.keys_append_single, List.pairwise_append]
    refine ⟨hpw, List.pairwise_singleton _ _, ?_⟩
    intro a ha b hb
    rw [List.mem_singleton] at hb
    rw [hb]
    exact hbelow a ha
  · rw [hE, PropertyMap.keys_append_single]
    cases hk : PropertyMap.keys lib.Epsilon with
    | nil => rw [hk] at hhead; exact absurd hhead (by simp)
    | cons a rest =>
      rw [hk] at hhead
      exact hhead
  · intro i j
    rw [hE]
    exact table_step lib.Epsilon t epsilon (fun b a => 24 * sqrt (b * a)) (fun e => 24 * e)
      lib.computedMixing24Epsilon hpw h0 hbelow ht.1 i j
  · intro i j
    rw [hS]
    exact table_step lib.Sigma t sigma (fun b a => (b + a) / 2 * ((b + a) / 2)) (fun s => s * s)
      lib.computedMixingSigmaSquare (by rw [hks]; exact hpw) (by rw [hks]; exact h0) hbelowS
      ht.2 i j
  · rw [hE, PropertyMap.keys_append_single]
  · intro k hk
    rw [hE, PropertyMap.lookup_append_single lib.Epsilon t epsilon hbelow, if_neg hk]
  · intro k hk
    rw [hS, PropertyMap.lookup_append_single lib.Sigma t sigma hbelowS, if_neg hk]

theorem register_tables (sqrt : ℚ → ℚ) (types : List (Nat × ℚ × ℚ × ℚ)) :
    ∀ (lib : ParticlePropertiesLibrary) (last : Nat), wellFormed lib → tablesOf sqrt lib →
      (∀ k ∈ PropertyMap.keys lib.Epsilon, k ≤ last) → ascendingFrom last types →
      wellFormed (lib.register sqrt types) ∧ tablesOf sqrt (lib.register sqrt types) ∧
      PropertyMap.keys (lib.register sqrt types).Epsilon =
        PropertyMap.keys lib.Epsilon ++ types.map Prod.fst ∧
      (∀ k ≤ last, PropertyMap.lookup (lib.register sqrt types).Epsilon k =
        PropertyMap.lookup lib.Epsilon k) ∧
      (∀ k ≤ last, PropertyMap.lookup (lib.register sqrt types).Sigma k =
        PropertyMap.lookup lib.Sigma k) := by
  induction types with
  | nil =>
    intro lib last hw ht _ _
    exact ⟨hw, ht, by simp [ParticlePropertiesLibrary.register], fun _ _ => rfl, fun _ _ => rfl⟩
  | cons t rest ih =>
    intro lib last hw ht hlast hasc
    obtain ⟨hlt, hrest⟩ := hasc
    have hbelow : ∀ k ∈ PropertyMap.keys lib.Epsilon, k < t.1 := fun k hk =>
      lt_of_le_of_lt (hlast k hk) hlt
    obtain ⟨hw1, ht1, hk1, hl1, hs1⟩ :=
      addType_tables sqrt lib t.1 t.2.1 t.2.2.1 t.2.2.2 hw ht hbelow
    have hlast1 : ∀ k ∈ PropertyMap.keys (lib.addType sqrt t.1 t.2.1 t.2.2.1 t.2.2.2).Epsilon,
        k ≤ t.1 := by
      intro k hk
      rw [hk1, List.mem_append, List.mem_singleton] at hk
      rcases hk with hk | hk
      · exact le_of_lt (hbelow k hk)
      · exact le_of_eq hk
    obtain ⟨hw2, ht2, hk2, hl2, hs2⟩ := ih _ t.1 hw1 ht1 hlast1 hrest
    refine ⟨hw2, ht2, ?_, ?_, ?_⟩
    · show PropertyMap.keys (ParticlePropertiesLibrary.register sqrt
        (lib.addType sqrt t.1 t.2.1 t.2.2.1 t.2.2.2) rest).Epsilon = _
      rw [hk2, hk1, List.map_cons, List.append_assoc]
      rfl
    · intro k hk
      show PropertyMap.lookup (ParticlePropertiesLibrary.register sqrt
        (lib.addType sqrt t.1 t.2.1 t.2.2.1 t.2.2.2) rest).Epsilon k = _
      rw [hl2 k (by omega), hl1 k (by omega)]
    · intro k hk
      show PropertyMap.lookup (ParticlePropertiesLibrary.register sqrt
        (lib.addType sqrt t.1 t.2.1 t.2.2.1 t.2.2.2) rest).Sigma k = _
      rw [hs2 k (by omega), hs1 k (by omega)]

theorem key_of_lt (i j : Nat) (h : i < j) :
    ParticlePropertiesLibrary.key i j = (i, j) ∧ ParticlePropertiesLibrary.key j i = (i, j) := by
  unfold ParticlePropertiesLibrary.key
  constructor
  · rw [if_pos h, if_pos h]
  · rw [if_neg (by omega), if_neg (by omega : ¬ i > j)]

theorem table_entry (f : ℚ → ℚ → ℚ) (g : ℚ → ℚ) (E : PropertyMap) (table : PairMap)
    (htable : ∀ i j : Nat, table (i, j) =
      if i = 0 ∧ j = 0 then (PropertyMap.lookup E 0).map g
      else if i < j then
        match PropertyMap.lookup E i, PropertyMap.lookup E j with
        | some a, some b => some (f b a)
        | _, _ => none
      else none) :
    (∀ i j a b, i < j → PropertyMap.lookup E i = some a → PropertyMap.lookup E j = some b →
      table (i, j) = some (f b a)) ∧
    (∀ t, t ≠ 0 → table (t, t) = none) ∧
    table (0, 0) = (PropertyMap.lookup E 0).map g := by
  refine ⟨?_, ?_, ?_⟩
  · intro i j a b hij ha hb
    rw [htable, if_neg (by omega), if_pos hij, ha, hb]
  · intro t ht
    rw [htable, if_neg (by omega), if_neg (lt_irrefl t)]
  · rw [htable, if_pos ⟨rfl, rfl⟩]

/-- C40: for a library whose types were registered in ascending id order (type 0 by
the constructor, the others by `addType`), `mixing24Epsilon(i, j)` and
`mixingSigmaSquare(i, j)` are defined for every pair of two different registered
types, symmetric, and equal to the on-the-fly values of `mixing24E` and `mixingSS`;
for the pair `(0, 0)` they are `24 * epsilon` and `sigma * sigma` of the constructor.
For every type `t` registered by `addType`, however, the tables hold no entry
`(t, t)`: `mixing24Epsilon(t, t)` and `mixingSigmaSquare(t, t)` throw, although
`get24Epsilon(t)`, `mixing24E(t, t)` and `mixingSS(t, t)` are defined. -/
theorem mixing_tables_lack_added_diagonal (sqrt : ℚ → ℚ) (epsilon sigma mass : ℚ)
    (types : List (Nat × ℚ × ℚ × ℚ)) (hasc : ascendingFrom 0 types) :
    PropertyMap.keys ((ParticlePropertiesLibrary.new epsilon sigma mass).register sqrt
      types).Epsilon = 0 :: types.map Prod.fst ∧
    (∀ i j : Nat,
      i ∈ PropertyMap.keys ((ParticlePropertiesLibrary.new epsilon sigma mass).register sqrt
        types).Epsilon →
      j ∈ PropertyMap.keys ((ParticlePropertiesLibrary.new epsilon sigma mass).register sqrt
        types).Epsilon →
      i ≠ j →
      (∃ v, ((ParticlePropertiesLibrary.new epsilon sigma mass).register sqrt
        types).mixing24Epsilon i j = some v) ∧
      ((ParticlePropertiesLibrary.new epsilon sigma mass).register sqrt types).mixing24Epsilon i j
        = (onTheFly ((ParticlePropertiesLibrary.new epsilon sigma mass).register sqrt
            types)).mixing24E sqrt i j ∧
      ((ParticlePropertiesLibrary.new epsilon sigma mass).register sqrt types).mixing24Epsilon i j
        = ((ParticlePropertiesLibrary.new epsilon sigma mass).register sqrt
            types).mixing24Epsilon j i ∧
      (∃ v, ((ParticlePropertiesLibrary.new epsilon sigma mass).register sqrt
        types).mixingSigmaSquare i j = some v) ∧
      ((ParticlePropertiesLibrary.new epsilon sigma mass).register sqrt
          types).mixingSigmaSquare i j
        = (onTheFly ((ParticlePropertiesLibrary.new epsilon sigma mass).register sqrt
            types)).mixingSS i j ∧
      ((ParticlePropertiesLibrary.new epsilon sigma mass).register sqrt
          types).mixingSigmaSquare i j
        = ((ParticlePropertiesLibrary.new epsilon sigma mass).register sqrt
            types).mixingSigmaSquare j i) ∧
    (((ParticlePropertiesLibrary.new epsilon sigma mass).register sqrt types).mixing24Epsilon 0 0
        = some (24 * epsilon) ∧
      ((ParticlePropertiesLibrary.new epsilon sigma mass).register sqrt types).get24Epsilon 0
        = some (24 * epsilon) ∧
      ((ParticlePropertiesLibrary.new epsilon sigma mass).register sqrt types).mixingSigmaSquare
        0 0 = some (sigma * sigma) ∧
      (onTheFly ((ParticlePropertiesLibrary.new epsilon sigma mass).register sqrt
        types)).mixingSS 0 0 = some (sigma * sigma) ∧
      (onTheFly ((ParticlePropertiesLibrary.new epsilon sigma mass).register sqrt
        types)).mixing24E sqrt 0 0 = some (24 * sqrt (epsilon * epsilon))) ∧
    (∀ t ∈ types.map Prod.fst,
      ((ParticlePropertiesLibrary.new epsilon sigma mass).register sqrt types).mixing24Epsilon t t
        = none ∧
      ((ParticlePropertiesLibrary.new epsilon sigma mass).register sqrt
        types).mixingSigmaSquare t t = none ∧
      (∃ v, ((ParticlePropertiesLibrary.new epsilon sigma mass).register sqrt
        types).get24Epsilon t = some v) ∧
      (∃ v, (onTheFly ((ParticlePropertiesLibrary.new epsilon sigma mass).register sqrt
        types)).mixing24E sqrt t t = some v) ∧
      (∃ v, (onTheFly ((ParticlePropertiesLibrary.new epsilon sigma mass).register sqrt
        types)).mixingSS t t = some v)) := by
  obtain ⟨hw0, ht0⟩ := new_tables sqrt epsilon sigma mass
  have hlast0 : ∀ k ∈ PropertyMap.keys (ParticlePropertiesLibrary.new epsilon sigma mass).Epsilon,
      k ≤ 0 := by
    intro k hk
    have : k = 0 := by
      simpa [ParticlePropertiesLibrary.new, PropertyMap.emplace, PropertyMap.keys] using hk
    omega
  obtain ⟨hw, ht, hkeys, hlE, hlS⟩ := register_tables sqrt types _ 0 hw0 ht0 hlast0 hasc
  generalize (ParticlePropertiesLibrary.new epsilon sigma mass).register sqrt types = lib
    at hw ht hkeys hlE hlS ⊢
  have hE0 : PropertyMap.lookup lib.Epsilon 0 = some epsilon := by
    rw [hlE 0 (le_refl 0)]
    rfl
  have hS0 : PropertyMap.lookup lib.Sigma 0 = some sigma := by
    rw [hlS 0 (le_refl 0)]
    rfl
  have hkeys0 : PropertyMap.keys lib.Epsilon = 0 :: types.map Prod.fst := by
    rw [hkeys]
    rfl
  obtain ⟨eLt, eDiag, eZero⟩ := table_entry (fun b a => 24 * sqrt (b * a)) (fun e => 24 * e)
    lib.Epsilon lib.computedMixing24Epsilon ht.1
  obtain ⟨sLt, sDiag, sZero⟩ := table_entry (fun b a => (b + a) / 2 * ((b + a) / 2))
    (fun s => s * s) lib.Sigma lib.computedMixingSigmaSquare ht.2
  have hpos : ∀ t ∈ types.map Prod.fst, t ≠ 0 := by
    intro t htm h0
    have hpw := hw.2.1
    rw [hkeys0, List.pairwise_cons] at hpw
    have := hpw.1 t htm
    omega
  have hlt : ∀ i j : Nat, i ∈ PropertyMap.keys lib.Epsilon → j ∈ PropertyMap.keys lib.Epsilon →
      i < j →
      (∃ v, lib.mixing24Epsilon i j = some v) ∧
      lib.mixing24Epsilon i j = (onTheFly lib).mixing24E sqrt i j ∧
      lib.mixing24Epsilon i j = (onTheFly lib).mixing24E sqrt j i ∧
      lib.mixing24Epsilon i j = lib.mixing24Epsilon j i ∧
      (∃ v, lib.mixingSigmaSquare i j = some v) ∧
      lib.mixingSigmaSquare i j = (onTheFly lib).mixingSS i j ∧
      lib.mixingSigmaSquare i j = (onTheFly lib).mixingSS j i ∧
      lib.mixingSigmaSquare i j = lib.mixingSigmaSquare j i := by
    intro i j hi hj hij
    obtain ⟨a, ha⟩ := PropertyMap.lookup_isSome_of_mem lib.Epsilon i hi
    obtain ⟨b, hb⟩ := PropertyMap.lookup_isSome_of_mem lib.Epsilon j hj
    obtain ⟨c, hc⟩ := PropertyMap.lookup_isSome_of_mem lib.Sigma i (by rw [hw.1]; exact hi)
    obtain ⟨d, hd⟩ := PropertyMap.lookup_isSome_of_mem lib.Sigma j (by rw [hw.1]; exact hj)
    obtain ⟨k1, k2⟩ := key_of_lt i j hij
    have e1 : lib.mixing24Epsilon i j = some (24 * sqrt (b * a)) := by
      unfold ParticlePropertiesLibrary.mixing24Epsilon
      rw [k1]
      exact eLt i j a b hij ha hb
    have e2 : lib.mixing24Epsilon j i = some (24 * sqrt (b * a)) := by
      unfold ParticlePropertiesLibrary.mixing24Epsilon
      rw [k2]
      exact eLt i j a b hij ha hb
    have e3 : (onTheFly lib).mixing24E sqrt i j = some (24 * sqrt (b * a)) := by
      unfold ParticleClassLibrary.mixing24E onTheFly ParticleClassLibrary.new
      simp only [ha, hb]
      rw [mul_comm a b]
    have e4 : (onTheFly lib).mixing24E sqrt j i = some (24 * sqrt (b * a)) := by
      unfold ParticleClassLibrary.mixing24E onTheFly ParticleClassLibrary.new
      simp only [ha, hb]
    have s1 : lib.mixingSigmaSquare i j = some ((d + c) / 2 * ((d + c) / 2)) := by
      unfold ParticlePropertiesLibrary.mixingSigmaSquare
      rw [k1]
      exact sLt i j c d hij hc hd
    have s2 : lib.mixingSigmaSquare j i = some ((d + c) / 2 * ((d + c) / 2)) := by
      unfold ParticlePropertiesLibrary.mixingSigmaSquare
      rw [k2]
      exact sLt i j c d hij hc hd
    have s3 : (onTheFly lib).mixingSS i j = some ((d + c) / 2 * ((d + c) / 2)) := by
      unfold ParticleClassLibrary.mixingSS onTheFly ParticleClassLibrary.new
      simp only [hc, hd]
      rw [add_comm c d]
    have s4 : (onTheFly lib).mixingSS j i = some ((d + c) / 2 * ((d + c) / 2)) := by
      unfold ParticleClassLibrary.mixingSS onTheFly ParticleClassLibrary.new
      simp only [hc, hd]
    exact ⟨⟨_, e1⟩, e1.trans e3.symm, e1.trans e4.symm, e1.trans e2.symm, ⟨_, s1⟩,
      s1.trans s3.symm, s1.trans s4.symm, s1.trans s2.symm⟩
  have hkey00 : ParticlePropertiesLibrary.key 0 0 = (0, 0) := rfl
  have hkeytt : ∀ t : Nat, ParticlePropertiesLibrary.key t t = (t, t) := by
    intro t
    unfold ParticlePropertiesLibrary.key
    rw [if_neg (lt_irrefl t)]
  refine ⟨hkeys0, ?_, ⟨?_, ?_, ?_, ?_, ?_⟩, ?_⟩
  · intro i j hi hj hne
    rcases Nat.lt_or_gt_of_ne hne with hij | hji
    · obtain ⟨a1, a2, _, a4, a5, a6, _, a8⟩ := hlt i j hi hj hij
      exact ⟨a1, a2, a4, a5, a6, a8⟩
    · obtain ⟨⟨v, a1⟩, _, a3, a4, ⟨w, a5⟩, _, a7, a8⟩ := hlt j i hj hi hji
      exact ⟨⟨v, a4.symm.trans a1⟩, a4.symm.trans a3, a4.symm, ⟨w, a8.symm.trans a5⟩,
        a8.symm.trans a7, a8.symm⟩
  · unfold ParticlePropertiesLibrary.mixing24Epsilon
    rw [hkey00, eZero, hE0]
    rfl
  · unfold ParticlePropertiesLibrary.get24Epsilon
    rw [hE0]
    rfl
  · unfold ParticlePropertiesLibrary.mixingSigmaSquare
    rw [hkey00, sZero, hS0]
    rfl
  · unfold ParticleClassLibrary.mixingSS onTheFly ParticleClassLibrary.new
    simp only [hS0]
    congr 1
    ring
  · unfold ParticleClassLibrary.mixing24E onTheFly ParticleClassLibrary.new
    simp only [hE0]
  · intro t htm
    have ht0 := hpos t htm
    have htk : t ∈ PropertyMap.keys lib.Epsilon := by
      rw [hkeys0]
      exact List.mem_cons_of_mem _ htm
    obtain ⟨a, ha⟩ := PropertyMap.lookup_isSome_of_mem lib.Epsilon t htk
    obtain ⟨c, hc⟩ := PropertyMap.lookup_isSome_of_mem lib.Sigma t (by rw [hw.1]; exact htk)
    refine ⟨?_, ?_, ?_, ?_, ?_⟩
    · unfold ParticlePropertiesLibrary.mixing24Epsilon
      rw [hkeytt]
      exact eDiag t ht0
    · unfold ParticlePropertiesLibrary.mixingSigmaSquare
      rw [hkeytt]
      exact sDiag t ht0
    · unfold ParticlePropertiesLibrary.get24Epsilon
      rw [ha]
      exact ⟨_, rfl⟩
    · unfold ParticleClassLibrary.mixing24E onTheFly ParticleClassLibrary.new
      simp only [ha]
      exact ⟨_, rfl⟩
    · unfold ParticleClassLibrary.mixingSS onTheFly ParticleClassLibrary.new
      simp only [hc]
      exact ⟨_, rfl⟩

theorem mixing_tables_lack_added_diagonal_witness :
    threeTypes.mixing24Epsilon 1 1 = none ∧ threeTypes.mixingSigmaSquare 1 1 = none ∧
      (∃ v, threeTypes.get24Epsilon 1 = some v) ∧
      (∃ v, (onTheFly threeTypes).mixing24E sqrtRat 1 1 = some v) ∧
      (∃ v, (onTheFly threeTypes).mixingSS 1 1 = some v) :=
  (mixing_tables_lack_added_diagonal sqrtRat 1 1 1 [(1, 4, 3, 1), (2, 9, 5, 1)]
    ⟨by decide, by decide, trivial⟩).2.2.2 1 (by decide)

theorem threeTypes_example :
    threeTypes.Epsilon = [(0, 1), (1, 4), (2, 9)] ∧
    threeTypes.mixing24Epsilon 0 1 = some 48 ∧
    threeTypes.mixing24Epsilon 2 1 = some 144 ∧
    (onTheFly threeTypes).mixing24E sqrtRat 1 2 = some 144 ∧
    threeTypes.mixing24Epsilon 0 0 = some 24 ∧
    threeTypes.mixing24Epsilon 1 1 = none ∧
    (onTheFly threeTypes).mixing24E sqrtRat 1 1 = some 96 ∧
    threeTypes.get24Epsilon 1 = some 96 ∧
    threeTypes.mixingSigmaSquare 1 1 = none ∧
    (onTheFly threeTypes).mixingSS 1 1 = some 9 := by
  decide!

end MolecularDynamics

namespace Fmm

namespace Int32

theorem wrap_eq (x : Int) : wrap x = (x + 2147483648) % 4294967296 - 2147483648 := by
  unfold wrap
  norm_num

theorem abs_cases (m : Int) : (0 ≤ m ∧ |m| = m) ∨ (m < 0 ∧ |m| = -m) := by
  rcases le_or_lt 0 m with h | h
  · exact Or.inl ⟨h, abs_of_nonneg h⟩
  · exact Or.inr ⟨h, abs_of_neg h⟩

theorem indexM_cases (m : Int) (hm : inRange m) :
    (|m| < 2 ^ 30 → indexM m = AdaptiveOctreeNode.indexM m) ∧
    (2 ^ 30 ≤ |m| → m ≠ INT_MIN → indexM m < 0 ∨ indexM m = 2 ^ 31 - 1) ∧
    (m = INT_MIN → indexM m = 0) := by
  unfold inRange at hm
  unfold indexM stdAbs AdaptiveOctreeNode.indexM INT_MIN
  simp only [wrap_eq]
  norm_num at hm ⊢
  rcases abs_cases m with ⟨h0, ha⟩ | ⟨h0, ha⟩
  · rw [ha]
    by_cases hz : m ≤ 0
    · have : m = 0 := by omega
      subst this
      simp
    · rw [if_neg hz]
      refine ⟨?_, ?_, ?_⟩
      · intro h; omega
      · intro h _; omega
      · intro h; omega
  · rw [ha, if_pos (by omega)]
    refine ⟨?_, ?_, ?_⟩
    · intro h; omega
    · intro h hne; omega
    · intro h; omega

theorem wrap_of_inRange (x : Int) (h : inRange x) : wrap x = x := by
  unfold inRange at h
  rw [wrap_eq]
  norm_num at h
  omega

theorem getCoefficient_eq_exact (matrix : ComplexMatrix) (m n : Int) (hm : |m| < 2 ^ 30)
    (hrows : inRange (matrix.length : Int)) (hcolumns : inRange ((matrix.getD 0 []).length : Int)) :
    getCoefficient matrix m n = AdaptiveOctreeNode.getCoefficient matrix m n := by
  have hin : inRange m := by
    unfold inRange
    have h1 := abs_le.1 (le_of_lt hm)
    norm_num at h1 hm ⊢
    omega
  unfold getCoefficient AdaptiveOctreeNode.getCoefficient
  rw [(indexM_cases m hin).1 hm, wrap_of_inRange _ hrows, wrap_of_inRange _ hcolumns] <;> rfl

theorem getCoefficient_out_of_range_int (matrix : ComplexMatrix) (p : Nat)
    (h : AdaptiveOctreeNode.hasShape matrix (2 * p + 1) (p + 1)) (hp : (p : Int) < 2 ^ 30)
    (m n : Int) (hm : inRange m) (hmin : m ≠ INT_MIN)
    (hout : |m| > (p : Int) ∨ n < 0 ∨ n > (p : Int)) :
    getCoefficient matrix m n = some (0, 0) := by
  have hrows : inRange (matrix.length : Int) := by
    rw [h.1]
    unfold inRange
    norm_num at hp ⊢
    omega
  have hrow0 : (matrix.getD 0 []).length = p + 1 := by
    apply h.2
    have hlen : 0 < matrix.length := by rw [h.1]; omega
    rw [List.getD_eq_getElem _ _ hlen]
    exact List.getElem_mem hlen
  have hcolumns : inRange ((matrix.getD 0 []).length : Int) := by
    rw [hrow0]
    unfold inRange
    norm_num at hp ⊢
    omega
  by_cases hsmall : |m| < 2 ^ 30
  · rw [getCoefficient_eq_exact matrix m n hsmall hrows hcolumns]
    exact AdaptiveOctreeNode.getCoefficient_out_of_range matrix p h m n hout
  · have hbig := (indexM_cases m hm).2.1 (not_lt.mp hsmall) hmin
    unfold getCoefficient
    rw [wrap_of_inRange _ hrows, h.1, if_pos]
    rcases hbig with hneg | hmax
    · exact Or.inl hneg
    · right
      rw [hmax]
      norm_num at hp ⊢
      omega

theorem filledNodeData_hasOrder : filledNodeData.hasOrder 2 := by
  unfold NodeData.hasOrder AdaptiveOctreeNode.hasShape
  decide!

end Int32

end Fmm

namespace Fmm

namespace AdaptiveOctreeNode

theorem uniformRoot_lists :
    construct uniformOctree 3 0 (0, 0, 0) (8, 8, 8) = some uniformRoot ∧
    (interactionList uniformRoot [0, 0]).length = 56 ∧
    (nearFieldList uniformRoot [0, 0]).length = 8 ∧
    [1, 0] ∈ interactionList uniformRoot [0, 0] ∧
    [0, 1] ∈ nearFieldList uniformRoot [0, 0] ∧
    (∀ q ∈ nearFieldList uniformRoot [0, 0], q ∉ interactionList uniformRoot [0, 0]) ∧
    (interactionList uniformRoot [0, 7]).length = 37 ∧
    (nearFieldList uniformRoot [0, 7]).length = 27 ∧
    (∀ q ∈ nearFieldList uniformRoot [0, 7], q ∉ interactionList uniformRoot [0, 7]) := by
  refine ⟨eq_some_getD _ _ (by decide!), ?_⟩
  decide!

end AdaptiveOctreeNode

end Fmm

end AutoPas
